import Mathlib

/-!
Properties of the uranus node, proved over a shallow embedding of its Go code.

The file has four parts, each with its definitions in the first half of the file and its
theorems in the second half:

* `mtp`: the trie node cache of `common/mtp/database.go`;
* `miner`: the miner of `consensus/miner/mining.go`;
* `state`: the journaled state database of `core/state`, modelled from the specification;
* `executor`: the executor of `core/executor/executor.go`, over the database of `state`.

The part `mtp` is a shallow embedding of the in-memory trie database (`Database`,
`cachedNode`) and of its operations, followed by the properties the specification states
about them.

Conventions of the embedding:

* a `utils.Hash` (32 opaque bytes) is a number, the all-zero hash `utils.Hash{}` is `0`;
* a Go `map` is an association list (`GoMap`): `get` reads the first entry of a key,
  `set` drops every entry of the key and puts the new one in front, `del` drops every
  entry of the key; a `range` loop visits the keys in list order, and the theorems are
  proved for every state, whatever the order of its lists;
* `*cachedNode` pointers are replaced by writing the changed node back into the map;
* Go `int` counters and `utils.StorageSize` byte counts are unbounded integers (a run
  does not reach the 64-bit limits); `gcnodes`, a `uint64`, is kept modulo `2 ^ 64`;
* a nil-pointer dereference is the result `Res.panic`; recursion that needs more than
  the supplied depth is `Res.outOfFuel`;
* the lock is explicit state (`RWMutex`), without blocking;
* logging has no effect on the state and is left out.
-/

namespace mtp

/-- Modelled from the spec: the type `utils.Hash` (package `common/utils` is not among
the sources at hand): 32 opaque bytes with value semantics, abstracted to a number. -/
abbrev Hash := Nat

/-- The all-zero hash `utils.Hash{}`, key of the root sentinel. -/
def zeroHash : Hash := 0

/-- Modelled from the spec: the constant `utils.HashLength`, the 32 bytes of a hash. -/
def HashLength : Nat := 32

/-- Modelled from the spec: the type `utils.StorageSize`, a byte count. It is kept as an
unbounded integer: a subtraction below zero gives a negative count. -/
abbrev StorageSize := Int

/-- A byte slice. -/
abbrev Bytes := List UInt8

/-- A Go map as an association list. -/
abbrev GoMap (κ : Type) (α : Type) := List (κ × α)

namespace GoMap

variable {κ : Type} {α : Type} [DecidableEq κ]

/-- The lookup `m[k]` with its `ok` flag: the first entry of `k`. -/
def get : GoMap κ α → κ → Option α
  | [], _ => none
  | (k', v) :: m, k => if k' = k then some v else get m k

/-- The builtin `delete(m, k)`. -/
def del : GoMap κ α → κ → GoMap κ α
  | [], _ => []
  | (k', v) :: m, k => if k' = k then del m k else (k', v) :: del m k

/-- The assignment `m[k] = v`. -/
def set (m : GoMap κ α) (k : κ) (v : α) : GoMap κ α := (k, v) :: del m k

/-- The keys a `range` loop visits, in order. -/
def keys (m : GoMap κ α) : List κ := m.map Prod.fst

end GoMap

/-- An `error` value of the key-value store. -/
structure Error where
  code : Nat
deriving DecidableEq, Repr

/-- The error of a read of a missing key. -/
def errNotFound : Error := ⟨0⟩

/-- A key of the external store: the raw 32-byte hash `hash[:]` of a trie node, or
the 43-byte key `secureKeyPrefix ++ hash` of a preimage. The two shapes have different
lengths, so they never coincide. -/
inductive Key where
  | raw (h : Hash)
  | secure (h : Hash)
deriving DecidableEq, Repr

/-- The method `secureKey`: the store key of the preimage of a hash. -/
def secureKey (h : Hash) : Key := Key.secure h

/-- Modelled from the spec: the external store `ldb.Database` (package `common/db`, not
part of the sources at hand) with the contract `Get`, `Has`, `NewBatch` and the constant
`IdealBatchSize`. `data` is the content; `faults` is the outcome the store will give to
each of the coming batch `Put` and `Write` calls, in order (`none`, or no entry left:
the call succeeds); `idealBatchSize` stands for `ldb.IdealBatchSize`. -/
structure DiskDB where
  data : GoMap Key Bytes
  faults : List (Option Error)
  idealBatchSize : Nat
deriving DecidableEq, Repr

/-- Modelled from the spec: `Get(key) → (bytes, err)` of the external store. -/
def DiskDB.Get (d : DiskDB) (k : Key) : Except Error Bytes :=
  match d.data.get k with
  | some v => .ok v
  | none => .error errNotFound

/-- Modelled from the spec: `Has(key) → (bool, err)` of the external store. -/
def DiskDB.Has (d : DiskDB) (k : Key) : Bool := (d.data.get k).isSome

/-- Modelled from the spec: a write batch `ldb.Batch` together with the store it writes
to. `writes` are the buffered `Put`s since the last `Reset`, oldest first; `size` is
`ValueSize()`. -/
structure Batch where
  disk : DiskDB
  writes : List (Key × Bytes)
  size : Nat
deriving DecidableEq, Repr

/-- Modelled from the spec: `NewBatch()`. -/
def NewBatch (d : DiskDB) : Batch := ⟨d, [], 0⟩

/-- Modelled from the spec: `Batch.Put(key, value) → err`. The next scheduled outcome
is consumed; on success the pair is buffered and `ValueSize` grows by `len(value)`. -/
def Batch.Put (b : Batch) (k : Key) (v : Bytes) : Option Error × Batch :=
  match b.disk.faults with
  | some e :: rest => (some e, { b with disk := { b.disk with faults := rest } })
  | _ => (none, { disk := { b.disk with faults := b.disk.faults.tail },
                  writes := b.writes ++ [(k, v)],
                  size := b.size + v.length })

/-- Modelled from the spec: `Batch.ValueSize()`. -/
def Batch.ValueSize (b : Batch) : Nat := b.size

/-- Modelled from the spec: `Batch.Write() → err`. The next scheduled outcome is
consumed; on success the buffered pairs reach the store in order, on failure the store
content is untouched. -/
def Batch.Write (b : Batch) : Option Error × Batch :=
  match b.disk.faults with
  | some e :: rest => (some e, { b with disk := { b.disk with faults := rest } })
  | _ => (none, { b with disk := { b.disk with
                    data := b.writes.foldl (fun d kv => GoMap.set d kv.1 kv.2) b.disk.data,
                    faults := b.disk.faults.tail } })

/-- Modelled from the spec: `Batch.Reset()`. -/
def Batch.Reset (b : Batch) : Batch := { b with writes := [], size := 0 }

/-- The struct `cachedNode`. -/
structure cachedNode where
  blob : Bytes
  parents : Int
  children : GoMap Hash Int
deriving DecidableEq, Repr

/-- The field `lock sync.RWMutex`, as counters. -/
structure RWMutex where
  readers : Nat
  writer : Bool
deriving DecidableEq, Repr

/-- The struct `Database` (without the scratch buffer `seckeybuf`). -/
structure Database where
  diskdb : DiskDB
  nodes : GoMap Hash cachedNode
  preimages : GoMap Hash Bytes
  gctime : Int
  gcnodes : Nat
  gcsize : StorageSize
  nodesSize : StorageSize
  preimagesSize : StorageSize
  lock : RWMutex
deriving DecidableEq, Repr

/-- The result of running a piece of the program. -/
inductive Res (α : Type) where
  | ok (a : α)
  | panic
  | outOfFuel
deriving DecidableEq, Repr

/-- Sequencing of results. -/
def Res.bind {α β : Type} (r : Res α) (f : α → Res β) : Res β :=
  match r with
  | .ok a => f a
  | .panic => .panic
  | .outOfFuel => .outOfFuel

/-- The method `RWMutex.Lock`. -/
def Database.Lock (db : Database) : Database :=
  { db with lock := { db.lock with writer := true } }

/-- The method `RWMutex.Unlock`. -/
def Database.Unlock (db : Database) : Database :=
  { db with lock := { db.lock with writer := false } }

/-- The method `RWMutex.RLock`. -/
def Database.RLock (db : Database) : Database :=
  { db with lock := { db.lock with readers := db.lock.readers + 1 } }

/-- The method `RWMutex.RUnlock`. -/
def Database.RUnlock (db : Database) : Database :=
  { db with lock := { db.lock with readers := db.lock.readers - 1 } }

/-- The constructor `NewDatabase`. -/
def NewDatabase (diskdb : DiskDB) : Database :=
  { diskdb := diskdb
    nodes := [(zeroHash, { blob := [], parents := 0, children := [] })]
    preimages := []
    gctime := 0
    gcnodes := 0
    gcsize := 0
    nodesSize := 0
    preimagesSize := 0
    lock := ⟨0, false⟩ }

/-- The method `insert`. -/
def insert (db : Database) (hash : Hash) (blob : Bytes) : Database :=
  match db.nodes.get hash with
  | some _ => db
  | none =>
    { db with
      nodes := db.nodes.set hash { blob := blob, parents := 0, children := [] }
      nodesSize := db.nodesSize + ((HashLength + blob.length : Nat) : Int) }

/-- The method `Insert`. -/
def Insert (db : Database) (hash : Hash) (blob : Bytes) : Database :=
  (insert db.Lock hash blob).Unlock

/-- The method `insertPreimage`. -/
def insertPreimage (db : Database) (hash : Hash) (preimage : Bytes) : Database :=
  match db.preimages.get hash with
  | some _ => db
  | none =>
    { db with
      preimages := db.preimages.set hash preimage
      preimagesSize := db.preimagesSize + ((HashLength + preimage.length : Nat) : Int) }

/-- The method `Node`. -/
def Node (db : Database) (hash : Hash) : Except Error Bytes :=
  match db.nodes.get hash with
  | some node => .ok node.blob
  | none => db.diskdb.Get (Key.raw hash)

/-- The method `Nodes`. -/
def Nodes (db : Database) : List Hash :=
  db.nodes.keys.filter (fun hash => hash ≠ zeroHash)

/-- The method `reference`. -/
def reference (db : Database) (child parent : Hash) : Res Database :=
  match db.nodes.get child with
  | none => .ok db
  | some node =>
    match db.nodes.get parent with
    | none => .panic
    | some pnode =>
      if (pnode.children.get child).isSome ∧ parent ≠ zeroHash then .ok db
      else
        let nodes1 := db.nodes.set child { node with parents := node.parents + 1 }
        match nodes1.get parent with
        | none => .panic
        | some pnode1 =>
          .ok { db with
                nodes := nodes1.set parent
                  { pnode1 with
                    children := pnode1.children.set child
                      ((pnode1.children.get child).getD 0 + 1) } }

/-- The method `Reference`. -/
def Reference (db : Database) (child parent : Hash) : Res Database :=
  (reference db.RLock child parent).bind (fun d => .ok d.RUnlock)

/-- One pass of the loop `for hash := range node.children` whose body is a recursive
call `f db hash`: it stops at the first call that does not return. -/
def rangeLoop (f : Database → Hash → Res Database) : List Hash → Database → Res Database
  | [], db => .ok db
  | hash :: rest, db =>
    match f db hash with
    | .ok db1 => rangeLoop f rest db1
    | .panic => .panic
    | .outOfFuel => .outOfFuel

/-- The method `dereference`, with a bound on the depth of the recursion. -/
def dereference : Nat → Database → Hash → Hash → Res Database
  | 0, _, _, _ => .outOfFuel
  | fuel + 1, db, child, parent =>
    match db.nodes.get parent with
    | none => .panic
    | some pnode =>
      let count := (pnode.children.get child).getD 0 - 1
      let children1 :=
        if count = 0 then (pnode.children.set child count).del child
        else pnode.children.set child count
      let db1 := { db with nodes := db.nodes.set parent { pnode with children := children1 } }
      match db1.nodes.get child with
      | none => .ok db1
      | some node =>
        let node1 := { node with parents := node.parents - 1 }
        let db2 := { db1 with nodes := db1.nodes.set child node1 }
        if node1.parents = 0 then
          match rangeLoop (fun d hash => dereference fuel d hash child) node1.children.keys db2 with
          | .ok db3 =>
            .ok { db3 with
                  nodes := db3.nodes.del child
                  nodesSize := db3.nodesSize - ((HashLength + node.blob.length : Nat) : Int) }
          | .panic => .panic
          | .outOfFuel => .outOfFuel
        else .ok db2

/-- The depth the cascade of `dereference` can reach in a state: one call per cached
node, and one more. -/
def derefFuel (db : Database) : Nat := db.nodes.length + 1

/-- The method `Dereference`; `elapsed` is the value of `time.Since(start)`. -/
def Dereference (db : Database) (child parent : Hash) (elapsed : Int) : Res Database :=
  let db0 := db.Lock
  let nodes := db0.nodes.length
  let storage := db0.nodesSize
  (dereference (derefFuel db0) db0 child parent).bind (fun d =>
    .ok { d with
          gcnodes := (d.gcnodes + (nodes - d.nodes.length)) % 2 ^ 64
          gcsize := d.gcsize + (storage - d.nodesSize)
          gctime := d.gctime + elapsed }.Unlock)

/-- One pass of the loop `for child := range node.children` of `commit`, whose body is
a recursive call `f batch child`: it stops at the first call that returns an error or
does not return. -/
def commitLoop (f : Batch → Hash → Res (Option Error × Batch)) :
    List Hash → Batch → Res (Option Error × Batch)
  | [], b => .ok (none, b)
  | child :: rest, b =>
    match f b child with
    | .ok (none, b1) => commitLoop f rest b1
    | .ok (some err, b1) => .ok (some err, b1)
    | .panic => .panic
    | .outOfFuel => .outOfFuel

/-- The method `commit`, with a bound on the depth of the recursion. The result is the
error returned, if any, and the batch. -/
def commit : Nat → Database → Hash → Batch → Res (Option Error × Batch)
  | 0, _, _, _ => .outOfFuel
  | fuel + 1, db, hash, batch =>
    match db.nodes.get hash with
    | none => .ok (none, batch)
    | some node =>
      match commitLoop (fun b child => commit fuel db child b) node.children.keys batch with
      | .ok (none, b1) =>
        match b1.Put (Key.raw hash) node.blob with
        | (some err, b2) => .ok (some err, b2)
        | (none, b2) =>
          if b2.ValueSize ≥ b2.disk.idealBatchSize then
            match b2.Write with
            | (some err, b3) => .ok (some err, b3)
            | (none, b3) => .ok (none, b3.Reset)
          else .ok (none, b2)
      | .ok (some err, b1) => .ok (some err, b1)
      | .panic => .panic
      | .outOfFuel => .outOfFuel

/-- The method `uncache`, with a bound on the depth of the recursion. -/
def uncache : Nat → Database → Hash → Res Database
  | 0, _, _ => .outOfFuel
  | fuel + 1, db, hash =>
    match db.nodes.get hash with
    | none => .ok db
    | some node =>
      match rangeLoop (fun d child => uncache fuel d child) node.children.keys db with
      | .ok db1 =>
        .ok { db1 with
              nodes := db1.nodes.del hash
              nodesSize := db1.nodesSize - ((HashLength + node.blob.length : Nat) : Int) }
      | .panic => .panic
      | .outOfFuel => .outOfFuel

/-- The loop `for hash, preimage := range db.preimages` of `Commit`. The result is the
error returned from inside the loop, if any, the database (its lock is released on the
failed-`Put` return only) and the batch. -/
def commitPreimages : List (Hash × Bytes) → Database → Batch → Option Error × Database × Batch
  | [], db, b => (none, db, b)
  | (hash, preimage) :: rest, db, b =>
    match b.Put (secureKey hash) preimage with
    | (some err, b1) => (some err, db.RUnlock, b1)
    | (none, b1) =>
      if b1.ValueSize > b1.disk.idealBatchSize then
        match b1.Write with
        | (some err, b2) => (some err, db, b2)
        | (none, b2) => commitPreimages rest db b2.Reset
      else commitPreimages rest db b1

/-- The first phase of `Commit` (up to the `RUnlock` after the final `Write`): the
preimages and the nodes below `node` go to the store through a batch. The result is the
error `Commit` returns from this phase, if any, and the database at that point. -/
def CommitPhaseA (fuel : Nat) (db : Database) (node : Hash) : Res (Option Error × Database) :=
  let db0 := db.RLock
  let batch := NewBatch db0.diskdb
  match commitPreimages db0.preimages db0 batch with
  | (some err, db1, b1) => .ok (some err, { db1 with diskdb := b1.disk })
  | (none, db1, b1) =>
    match commit fuel db1 node b1 with
    | .ok (some err, b2) => .ok (some err, { db1.RUnlock with diskdb := b2.disk })
    | .ok (none, b2) =>
      match b2.Write with
      | (some err, b3) => .ok (some err, { db1.RUnlock with diskdb := b3.disk })
      | (none, b3) => .ok (none, { db1.RUnlock with diskdb := b3.disk })
    | .panic => .panic
    | .outOfFuel => .outOfFuel

/-- The second phase of `Commit` (from `db.lock.Lock()` on): the flushed data leaves the
cache. -/
def CommitPhaseB (fuel : Nat) (db : Database) (node : Hash) : Res Database :=
  let db0 := db.Lock
  let db1 := { db0 with preimages := [], preimagesSize := 0 }
  (uncache fuel db1 node).bind (fun d =>
    .ok { d with gcnodes := 0, gcsize := 0, gctime := 0 }.Unlock)

/-- The method `Commit`: the error it returns, if any, and the database afterwards.
`fuel` bounds the depth of the recursions; `report` only selects the log level. -/
def Commit (fuel : Nat) (db : Database) (node : Hash) (report : Bool) :
    Res (Option Error × Database) :=
  match CommitPhaseA fuel db node with
  | .ok (some err, db1) => .ok (some err, db1)
  | .ok (none, db1) => (CommitPhaseB fuel db1 node).bind (fun d => .ok (none, d))
  | .panic => .panic
  | .outOfFuel => .outOfFuel

/-- The method `Size`. -/
def Size (db : Database) : StorageSize := db.nodesSize + db.preimagesSize

/-- A call of one of the operations of the cache. -/
inductive Op where
  | Insert (hash : Hash) (blob : Bytes)
  | insertPreimage (hash : Hash) (preimage : Bytes)
  | Reference (child parent : Hash)
  | Dereference (child parent : Hash) (elapsed : Int)
  | Commit (fuel : Nat) (node : Hash) (report : Bool)
deriving DecidableEq, Repr

/-- The database after one call (whatever a `Commit` returns, the run goes on). -/
def step (db : Database) : Op → Res Database
  | .Insert hash blob => .ok (Insert db hash blob)
  | .insertPreimage hash preimage => .ok (insertPreimage db hash preimage)
  | .Reference child parent => Reference db child parent
  | .Dereference child parent elapsed => Dereference db child parent elapsed
  | .Commit fuel node report => (Commit fuel db node report).bind (fun r => .ok r.2)

/-- The database after a sequence of calls. -/
def run : Database → List Op → Res Database
  | db, [] => .ok db
  | db, op :: ops => (step db op).bind (fun d => run d ops)

/-- The byte footprint `Σ (32 + len(blob))` of the nodes listed by `Nodes`. -/
def nodesFootprint (db : Database) : Int :=
  ((db.nodes.filter (fun e => e.1 ≠ zeroHash)).map
    (fun e => ((HashLength + e.2.blob.length : Nat) : Int))).sum

/-- The byte footprint `Σ (32 + len(preimage))` of the cached preimages. -/
def preimagesFootprint (db : Database) : Int :=
  (db.preimages.map (fun e => ((HashLength + e.2.length : Nat) : Int))).sum

/-- The content the store would have if the batch were written now. -/
def Batch.pending (b : Batch) : GoMap Key Bytes :=
  b.writes.foldl (fun d kv => GoMap.set d kv.1 kv.2) b.disk.data

/-- How a run of batch calls used the scheduled outcomes `f`, leaving `f2`: with the
result `none` every outcome it consumed was a success; with the result `some e` the
outcomes before the last consumed one were successes and the last one was the failure
`e`. -/
def Consumed (f f2 : List (Option Error)) : Option Error → Prop
  | none => ∃ n, f2 = f.drop n ∧ ∀ x ∈ f.take n, x = none
  | some e => ∃ n, f.get? n = some (some e) ∧ (∀ x ∈ f.take n, x = none) ∧ f2 = f.drop (n + 1)

/-- The hash `m` is reachable from `h` through children edges of cached nodes. -/
inductive Reach (db : Database) : Hash → Hash → Prop where
  | refl (h : Hash) : Reach db h h
  | step (h c m : Hash) (node : cachedNode) :
      db.nodes.get h = some node → c ∈ node.children.keys → Reach db c m → Reach db h m


/-- From batch `b` to batch `b2` the only keys whose pending value changed are raw hashes
of cached nodes, and each of them now holds the blob of its node. -/
def WroteNodes (db : Database) (b b2 : Batch) : Prop :=
  ∀ k, b2.pending.get k = b.pending.get k ∨
    ∃ h node, k = Key.raw h ∧ db.nodes.get h = some node ∧ b2.pending.get k = some node.blob

/-- Every cached node reachable from `c` is pending in the batch under its raw hash, with
its blob. -/
def Flushed (db : Database) (c : Hash) (b : Batch) : Prop :=
  ∀ h node, Reach db c h → db.nodes.get h = some node →
    b.pending.get (Key.raw h) = some node.blob


/-- The relation between the database before and after uncaching the nodes below the
hashes `roots`: only the node map and `nodesSize` change; nodes are removed, never
altered; what is removed is reachable from a root; the children of a removed node are
absent; the roots are absent. -/
structure Uncached (d : Database) (roots : List Hash) (d2 : Database) : Prop where
  frame : d2.diskdb = d.diskdb ∧ d2.preimages = d.preimages ∧
    d2.preimagesSize = d.preimagesSize ∧ d2.gcnodes = d.gcnodes ∧ d2.gcsize = d.gcsize ∧
    d2.gctime = d.gctime ∧ d2.lock = d.lock
  sub : ∀ k, d2.nodes.get k = none ∨ d2.nodes.get k = d.nodes.get k
  below : ∀ k, d2.nodes.get k ≠ d.nodes.get k → ∃ c ∈ roots, Reach d c k
  closed : ∀ x node, d.nodes.get x = some node → d2.nodes.get x = none →
    ∀ y ∈ node.children.keys, d2.nodes.get y = none
  gone : ∀ c ∈ roots, d2.nodes.get c = none


/-- A sample cache: the sentinel pins node 1, node 1 refers to nodes 2 and 3, node 2
refers to node 3, node 4 is cached without a reference; one preimage; an empty store
whose first three batch calls succeed. -/
def sampleDb : Database :=
  { diskdb := ⟨[], [none, none, none], 100⟩
    nodes := [(1, { blob := [1, 2], parents := 1, children := [(3, 1), (2, 1)] }),
              (3, { blob := [], parents := 2, children := [] }),
              (2, { blob := [3], parents := 1, children := [(3, 1)] }),
              (4, { blob := [4, 4], parents := 0, children := [] }),
              (0, { blob := [], parents := 0, children := [(1, 1)] })]
    preimages := [(7, [9])]
    gctime := 5
    gcnodes := 1
    gcsize := 34
    nodesSize := 133
    preimagesSize := 33
    lock := ⟨0, false⟩ }


/-- The node `pnode` after the statements `node.children[child]--` and, when the count
reached zero, `delete(node.children, child)` of `dereference`. -/
def decrEdge (pnode : cachedNode) (child : Hash) : cachedNode :=
  { pnode with
    children :=
      if (pnode.children.get child).getD 0 - 1 = 0 then
        (pnode.children.set child ((pnode.children.get child).getD 0 - 1)).del child
      else pnode.children.set child ((pnode.children.get child).getD 0 - 1) }

/-- The number of entries of the node map whose `parents` count is positive. -/
def liveCount (m : GoMap Hash cachedNode) : Nat :=
  (m.filter (fun e => decide (0 < e.2.parents))).length

/-- The bytes `32 + len(blob)` a node accounts for in `nodesSize`. -/
def nodeSize (node : cachedNode) : Int := ((HashLength + node.blob.length : Nat) : Int)

/-- The sum of `32 + len(blob)` over all entries of the node map, the sentinel included. -/
def footprint (m : GoMap Hash cachedNode) : Int := (m.map (fun e => nodeSize e.2)).sum

/-- The relation between the database before and after a piece of `dereference`: only
the node map and `nodesSize` change; a node whose `parents` count is not positive stays
cached, with such a count; a cached node was cached before, with the same blob and no
fewer parents; the number of nodes with a positive count does not grow; `nodesSize`
moves with the footprint of the node map. -/
structure Derefd (d d2 : Database) : Prop where
  frame : d2.diskdb = d.diskdb ∧ d2.preimages = d.preimages ∧
    d2.preimagesSize = d.preimagesSize ∧ d2.gcnodes = d.gcnodes ∧ d2.gcsize = d.gcsize ∧
    d2.gctime = d.gctime ∧ d2.lock = d.lock
  survive : ∀ k node, d.nodes.get k = some node → node.parents ≤ 0 →
    ∃ node2, d2.nodes.get k = some node2 ∧ node2.parents ≤ 0
  sub : ∀ k node2, d2.nodes.get k = some node2 →
    ∃ node, d.nodes.get k = some node ∧ node.blob = node2.blob ∧ node2.parents ≤ node.parents
  live : liveCount d2.nodes ≤ liveCount d.nodes
  size : d.nodes.keys.Nodup →
    d2.nodes.keys.Nodup ∧ d2.nodesSize - footprint d2.nodes = d.nodesSize - footprint d.nodes


/-- Every key of every children map of the cache satisfies `A`. -/
def ChildKeysIn (A : Hash → Prop) (d : Database) : Prop :=
  ∀ k n, d.nodes.get k = some n → ∀ y ∈ n.children.keys, A y

/-- The call is not a `Commit`. -/
def Op.noCommit : Op → Bool
  | .Commit _ _ _ => false
  | _ => true

/-- The call is not a `Reference` whose child is the zero hash. -/
def Op.refChildNonzero : Op → Bool
  | .Reference child _ => decide (child ≠ zeroHash)
  | _ => true

/-- The call does not name the zero hash as the child of a `Reference` or `Dereference`
or as the root of a `Commit`. -/
def Op.childNonzero : Op → Bool
  | .Reference child _ => decide (child ≠ zeroHash)
  | .Dereference child _ _ => decide (child ≠ zeroHash)
  | .Commit _ node _ => decide (node ≠ zeroHash)
  | _ => true


/-- The accounting invariant of the cache: the keys of the node map are distinct, the
sentinel is cached with an empty blob and no positive `parents` count, `nodesSize` is the
footprint of the node map less the 32 bytes of the sentinel (which `NewDatabase` does not
count), and `preimagesSize` is the footprint of the preimages. -/
def SizeInv (db : Database) : Prop :=
  db.nodes.keys.Nodup ∧
  (∃ s, db.nodes.get zeroHash = some s ∧ s.parents ≤ 0 ∧ s.blob = []) ∧
  db.nodesSize = footprint db.nodes - 32 ∧
  db.preimagesSize = preimagesFootprint db

/-- The sentinel invariant of the cache: the sentinel is cached, its `parents` count is
not positive, and the zero hash is not a key of any children map. -/
def SentinelInv (db : Database) : Prop :=
  (∃ s, db.nodes.get zeroHash = some s ∧ s.parents ≤ 0) ∧
  ChildKeysIn (fun y => y ≠ zeroHash) db


/-- The number of references the cached nodes hold to `n`: the sum of `p.children[n]`
over the node map. -/
def inRefs (m : GoMap Hash cachedNode) (n : Hash) : Int :=
  (m.map (fun e => (e.2.children.get n).getD 0)).sum

/-- The reference-count invariant of a node map: distinct keys, in the node map and in
every children map; every child key is a cached hash other than the zero hash; every
count is at least 1, and exactly 1 when the parent is not the sentinel; the `parents`
count of a cached node is the number of references held to it. -/
structure RefInv (m : GoMap Hash cachedNode) : Prop where
  nodup : (GoMap.keys m).Nodup
  cnodup : ∀ k node, GoMap.get m k = some node → node.children.keys.Nodup
  closed : ∀ k node, GoMap.get m k = some node →
    ∀ y ∈ node.children.keys, y ≠ zeroHash ∧ GoMap.get m y ≠ none
  counts : ∀ k node y c, GoMap.get m k = some node → node.children.get y = some c →
    1 ≤ c ∧ (k ≠ zeroHash → c = 1)
  refs : ∀ k node, GoMap.get m k = some node → node.parents = inRefs m k

/-- The relation between the node map before and after a call `dereference(child,
parent)`: a node still cached was cached before, with the same blob, with the same
`parents` count or a positive one, and with the same children, less the dereferenced edge
in the case of `parent`; a node whose count is not positive stays cached; a child whose
count was 1 is gone. -/
structure Cascaded (m : GoMap Hash cachedNode) (child parent : Hash)
    (m2 : GoMap Hash cachedNode) : Prop where
  sub : ∀ x n2, GoMap.get m2 x = some n2 →
    ∃ n, GoMap.get m x = some n ∧ n2.blob = n.blob ∧
      (n2.parents = n.parents ∨ 1 ≤ n2.parents) ∧
      n2.children = if x = parent then (decrEdge n child).children else n.children
  gone : ∀ n, GoMap.get m child = some n → n.parents = 1 → GoMap.get m2 child = none

/-- The relation between the node map before and after the loop of `dereference` over
the children of `child`: as `Cascaded`, for the nodes other than `child`; `child` itself
is left without children and with the count 0. -/
structure Looped (m : GoMap Hash cachedNode) (child : Hash)
    (m2 : GoMap Hash cachedNode) : Prop where
  sub : ∀ x n2, GoMap.get m2 x = some n2 →
    ∃ n, GoMap.get m x = some n ∧ n2.blob = n.blob ∧
      (n2.parents = n.parents ∨ 1 ≤ n2.parents) ∧ (x ≠ child → n2.children = n.children)
  self : ∃ cn, GoMap.get m2 child = some cn ∧ cn.parents = 0 ∧ cn.children = []

/-- The children edges of the cache are acyclic: the hashes can be numbered so that
every edge leads from a smaller to a larger number. -/
def Acyclic (db : Database) : Prop :=
  ∃ depth : Hash → Nat, ∀ p pn c, db.nodes.get p = some pn → c ∈ pn.children.keys →
    depth p < depth c

/-- The hash `m` is reachable from `q` through children edges along a path on which no
hash, `q` and `m` included, is `n`. -/
inductive ReachAvoiding (db : Database) (n : Hash) : Hash → Hash → Prop where
  | refl (h : Hash) : h ≠ n → ReachAvoiding db n h h
  | step (h c m : Hash) (node : cachedNode) :
      h ≠ n → db.nodes.get h = some node → c ∈ node.children.keys →
      ReachAvoiding db n c m → ReachAvoiding db n h m

/-- The hash `m` is reachable only through `n`: it is reachable from `n`, and every cached
node from which `m` can be reached without passing through `n` is itself reachable
from `n`. -/
def ReachableOnlyThrough (db : Database) (n m : Hash) : Prop :=
  Reach db n m ∧ ∀ q, db.nodes.get q ≠ none → ReachAvoiding db n q m → Reach db n q

/-- The nodes the cascade from `n` takes away: `n`, and every node that is referenced and
whose referrers are all taken away. -/
inductive Doomed (db : Database) (n : Hash) : Hash → Prop where
  | self : Doomed db n n
  | via (m : Hash) :
      (∃ p pn, db.nodes.get p = some pn ∧ m ∈ pn.children.keys) →
      (∀ p pn, db.nodes.get p = some pn → m ∈ pn.children.keys → Doomed db n p) →
      Doomed db n m

/-- The call is an `Insert`, or a `Reference` whose child is not the zero hash. -/
def Op.buildsCache : Op → Bool
  | .Insert _ _ => true
  | .Reference child _ => decide (child ≠ zeroHash)
  | _ => false


/-- A cache built by `Insert` and `Reference` whose children edges have a cycle: the
sentinel pins node 1, node 1 refers to node 2, and nodes 2 and 3 refer to each other. -/
def cycleDb : Database :=
  { diskdb := ⟨[], [], 0⟩
    nodes := [(3, { blob := [3], parents := 1, children := [(2, 1)] }),
              (2, { blob := [2], parents := 2, children := [(3, 1)] }),
              (1, { blob := [1], parents := 1, children := [(2, 1)] }),
              (0, { blob := [], parents := 0, children := [(1, 1)] })]
    preimages := []
    gctime := 0
    gcnodes := 0
    gcsize := 0
    nodesSize := 99
    preimagesSize := 0
    lock := ⟨0, false⟩ }

/-- A cache built by `Insert` and `Reference` in which the zero hash is a child: node 2
refers to node 1, node 1 refers to the sentinel, and the sentinel pins node 3 twice. -/
def pinDb : Database :=
  { diskdb := ⟨[], [], 0⟩
    nodes := [(0, { blob := [], parents := 1, children := [(3, 2)] }),
              (3, { blob := [3], parents := 2, children := [] }),
              (1, { blob := [1], parents := 1, children := [(0, 1)] }),
              (2, { blob := [2], parents := 0, children := [(1, 1)] })]
    preimages := []
    gctime := 0
    gcnodes := 0
    gcsize := 0
    nodesSize := 99
    preimagesSize := 0
    lock := ⟨0, false⟩ }

/-- A cache built by `Insert` and `Reference` whose children edges are acyclic: the
sentinel pins nodes 1 and 4, node 1 refers to nodes 2 and 3, nodes 2 and 4 refer to
node 3. -/
def dagDb : Database :=
  { diskdb := ⟨[], [], 0⟩
    nodes := [(4, { blob := [4], parents := 1, children := [(3, 1)] }),
              (3, { blob := [3], parents := 3, children := [] }),
              (0, { blob := [], parents := 0, children := [(4, 1), (1, 1)] }),
              (1, { blob := [1], parents := 1, children := [(3, 1), (2, 1)] }),
              (2, { blob := [2], parents := 1, children := [(3, 1)] })]
    preimages := []
    gctime := 0
    gcnodes := 0
    gcsize := 0
    nodesSize := 132
    preimagesSize := 0
    lock := ⟨0, false⟩ }


/-- The numbering `height` bounds the children edges of the node map from above: every
edge leads to a hash of smaller height (so the edges are acyclic, and a path from a hash
has at most as many edges as its height). -/
def HeightBound (m : GoMap Hash cachedNode) (height : Hash → Nat) : Prop :=
  ∀ p pn c, GoMap.get m p = some pn → c ∈ pn.children.keys → height c < height p


/-- The loop `for hash, preimage := range db.preimages` of `Commit` leaves at a failed
intermediate `batch.Write()`: the return path without `db.lock.RUnlock()`. -/
def flushFails : List (Hash × Bytes) → Batch → Bool
  | [], _ => false
  | (hash, preimage) :: rest, b =>
    match b.Put (secureKey hash) preimage with
    | (some _, _) => false
    | (none, b1) =>
      if b1.ValueSize > b1.disk.idealBatchSize then
        match b1.Write with
        | (some _, _) => true
        | (none, b2) => flushFails rest b2.Reset
      else flushFails rest b1

/-- A cache with one preimage over a store that flushes at once (`IdealBatchSize` is 0)
and whose second batch call, the intermediate `Write`, fails. -/
def leakDb : Database :=
  { diskdb := ⟨[], [none, some ⟨5⟩], 0⟩
    nodes := [(zeroHash, { blob := [], parents := 0, children := [] })]
    preimages := [(7, [9])]
    gctime := 0
    gcnodes := 0
    gcsize := 0
    nodesSize := 0
    preimagesSize := 33
    lock := ⟨0, false⟩ }

/-- The call keeps the reference counts, in the state it is made in: an `Insert`, a
`Reference` whose child is not the zero hash, or a `Dereference` that names an edge the
children map of a cached parent holds. -/
def Op.counted (db : Database) : Op → Bool
  | .Insert _ _ => true
  | .Reference child _ => decide (child ≠ zeroHash)
  | .Dereference child parent _ =>
    ((db.nodes.get parent).bind (fun pnode => pnode.children.get child)).isSome
  | _ => false

/-- Every call of the sequence keeps the reference counts, each in the state the calls
before it have led to. -/
def countedRun : Database → List Op → Bool
  | _, [] => true
  | db, op :: ops =>
    op.counted db &&
      match step db op with
      | .ok db1 => countedRun db1 ops
      | _ => true

/-- One pass of the loop `for hash := range node.children` of `dereference`, counting the
calls of `dereference` made in it. -/
def callsLoop (f : Database → Hash → Res (Database × Nat)) :
    List Hash → Database → Res (Database × Nat)
  | [], db => .ok (db, 0)
  | hash :: rest, db =>
    match f db hash with
    | .ok (db1, n) =>
      match callsLoop f rest db1 with
      | .ok (db2, m) => .ok (db2, n + m)
      | .panic => .panic
      | .outOfFuel => .outOfFuel
    | .panic => .panic
    | .outOfFuel => .outOfFuel

/-- The method `dereference` once more, with the number of calls of `dereference` a call
makes, itself included, next to the database it leaves. -/
def dereferenceCalls : Nat → Database → Hash → Hash → Res (Database × Nat)
  | 0, _, _, _ => .outOfFuel
  | fuel + 1, db, child, parent =>
    match db.nodes.get parent with
    | none => .panic
    | some pnode =>
      let count := (pnode.children.get child).getD 0 - 1
      let children1 :=
        if count = 0 then (pnode.children.set child count).del child
        else pnode.children.set child count
      let db1 := { db with nodes := db.nodes.set parent { pnode with children := children1 } }
      match db1.nodes.get child with
      | none => .ok (db1, 1)
      | some node =>
        let node1 := { node with parents := node.parents - 1 }
        let db2 := { db1 with nodes := db1.nodes.set child node1 }
        if node1.parents = 0 then
          match callsLoop (fun d hash => dereferenceCalls fuel d hash child)
              node1.children.keys db2 with
          | .ok (db3, n) =>
            .ok ({ db3 with
                   nodes := db3.nodes.del child
                   nodesSize := db3.nodesSize - ((HashLength + node.blob.length : Nat) : Int) },
              n + 1)
          | .panic => .panic
          | .outOfFuel => .outOfFuel
        else .ok (db2, 1)

/-- The number of edges of the cache: the entries of the children maps of its nodes. -/
def edgeCount (m : GoMap Hash cachedNode) : Nat :=
  (m.map (fun e => e.2.children.length)).sum

/-- The edges a cascade can still follow from a node: its children, if its `parents`
count is positive (a count can reach zero only from there). -/
def liveEdgesOf (node : cachedNode) : Nat :=
  if 0 < node.parents then node.children.length else 0

/-- The edges a cascade can still follow: the children of the nodes whose `parents` count
is positive. -/
def liveEdges (m : GoMap Hash cachedNode) : Nat := (m.map (fun e => liveEdgesOf e.2)).sum

/-- A call `dereference(child, parent)` adds an entry to a children map a cascade can
still follow: `parent` has a positive `parents` count and holds no edge to `child`. -/
def addsEdge (db : Database) (child parent : Hash) : Nat :=
  match db.nodes.get parent with
  | some pnode => if 0 < pnode.parents ∧ pnode.children.get child = none then 1 else 0
  | none => 0

/-- A cache whose counts are consistent, built by `Insert` and `Reference`: nodes 1 and 2
refer to each other and node 1 refers to node 3, which holds no edge. -/
def knotDb : Database :=
  { diskdb := ⟨[], [], 0⟩
    nodes := [(1, { blob := [1], parents := 1, children := [(3, 1), (2, 1)] }),
              (3, { blob := [3], parents := 1, children := [] }),
              (2, { blob := [2], parents := 1, children := [(1, 1)] }),
              (0, { blob := [], parents := 0, children := [] })]
    preimages := []
    gctime := 0
    gcnodes := 0
    gcsize := 0
    nodesSize := 99
    preimagesSize := 0
    lock := ⟨0, false⟩ }

end mtp

namespace miner

open mtp (Res)

/-! The embedding of `consensus/miner/mining.go`.

* `uint64` arithmetic is arithmetic on numbers below `2 ^ 64`, reduced modulo `2 ^ 64`;
* the `int32` flags `mining` and `canStart` are integers, read and written as a whole
  (`atomic.LoadInt32`, `atomic.StoreInt32`, `atomic.CompareAndSwapInt32`);
* a channel is its index in the list of the channels made so far, which keeps for each
  whether it was closed; closing a closed channel is `Res.panic`;
* in a run of `acts` or of `loop`, a call of `Start` or `Stop` and the handling of one
  event run from their first statement to their last without another one in between; what
  is proved of `Start` and of `Stop` alone holds in every state of the miner;
* the calls into the engine, the chain and the event feeds are recorded in the order they
  are made, and their results are given by the caller of the model;
* `Res.outOfFuel` is a call that does not return;
* logging and sleeping have no effect on the state and are left out. -/

/-- The size of a `uint64`: results of the arithmetic are reduced modulo this number. -/
def uint64Size : Nat := 2 ^ 64

/-- The `uint64` sum `a + b`. -/
def add64 (a b : Nat) : Nat := (a + b) % uint64Size

/-- The `uint64` difference `a - b` of two numbers below `2 ^ 64`: it wraps around below
zero. -/
def sub64 (a b : Nat) : Nat := (a + uint64Size - b) % uint64Size

/-- Modelled from the spec: the constant `params.GasLimitBoundDivisor` (package `params`
is at hand with `dpos.go` only, which does not declare it): `1024`. -/
def GasLimitBoundDivisor : Nat := 1024

/-- The constants `params.MinGasLimit` and `params.GenesisGasLimit`, two `uint64` values
given by the chain configuration: they are parameters of the embedding. -/
structure Params where
  MinGasLimit : Nat
  GenesisGasLimit : Nat
deriving DecidableEq, Repr

/-- The function `calcGasLimit`, of the parent's `GasLimit()` and `GasUsed()`. -/
def calcGasLimit (params : Params) (gasLimit gasUsed : Nat) : Nat :=
  let contrib := add64 gasUsed (gasUsed / 2) / GasLimitBoundDivisor
  let decay := sub64 (gasLimit / GasLimitBoundDivisor) 1
  let limit := add64 (sub64 gasLimit decay) contrib
  let limit := if limit < params.MinGasLimit then params.MinGasLimit else limit
  if limit < params.GenesisGasLimit then
    let limit := add64 gasLimit decay
    if limit > params.GenesisGasLimit then params.GenesisGasLimit else limit
  else limit

/-- The limit `calcGasLimit` holds after its first stage, before the comparison with
`params.GenesisGasLimit`. -/
def firstStage (params : Params) (gasLimit gasUsed : Nat) : Nat :=
  let contrib := add64 gasUsed (gasUsed / 2) / GasLimitBoundDivisor
  let decay := sub64 (gasLimit / GasLimitBoundDivisor) 1
  let limit := add64 (sub64 gasLimit decay) contrib
  if limit < params.MinGasLimit then params.MinGasLimit else limit

/-- The value the specification gives for the gas limit, computed over the integers:
`max(MinGasLimit, gasLimit - gasLimit/1024 + 1 + floor((gasUsed * 3/2) / 1024))`. -/
def specGasLimit (params : Params) (gasLimit gasUsed : Nat) : Int :=
  max (params.MinGasLimit : Int)
    ((gasLimit : Int) - (gasLimit / 1024 : Nat) + 1 + ((gasUsed * 3 / 2 / 1024 : Nat) : Int))

/-- A Go `error`. The type test `err.(*mtp.MissingNodeError)` of the miner tells two
kinds apart. Modelled from the spec: the type `mtp.MissingNodeError` (its file is not
among the sources at hand), the error of a trie node that is not present. Both kinds
carry the text `Error()` returns. -/
inductive error where
  | MissingNodeError (text : String)
  | errorString (text : String)
deriving DecidableEq, Repr

/-- The method `Error()`. -/
def error.Error : error → String
  | .MissingNodeError text => text
  | .errorString text => text

/-- The result `ok` of the type test `_, ok := err.(*mtp.MissingNodeError)`. -/
def error.isMissingNodeError : error → Bool
  | .MissingNodeError _ => true
  | .errorString _ => false

/-- An error made by `fmt.Errorf`. -/
def Errorf (text : String) : error := .errorString text

/-- The sync events `loop` subscribes to (package `protocols`). -/
inductive SyncEvent where
  | StartEvent
  | DoneEvent
  | FailedEvent
deriving DecidableEq, Repr

/-- A `*types.Block`: `none` is the nil pointer. -/
abbrev Block := Option Nat

/-- The events the miner posts (package `feed`). -/
inductive feedEvent where
  | NewMiner
  | BlockAndLogsEvent (block : Block)
  | NewMinedBlockEvent (block : Block)
deriving DecidableEq, Repr

/-- The fields of `UMiner` the functions below read and write, with the state they act
on: `chans` lists the channels made so far (`true` for a closed one), `stopCh` is `none`
for a nil channel; `wg` is the counter of the wait group, the number of the tasks `update`
and `mintLoop` that were started and have not returned; `posted` lists the events given
to `uranus.PostEvent`. -/
structure UMiner where
  mining : Int
  canStart : Int
  stopCh : Option Nat
  chans : List Bool
  wg : Nat
  posted : List feedEvent
deriving DecidableEq, Repr

/-- The miner `NewUranusMiner` returns. -/
def NewUranusMiner : UMiner :=
  { mining := 0, canStart := 1, stopCh := some 0, chans := [false], wg := 0, posted := [] }

/-- The call `make(chan struct{})`: the new channel and the channels afterwards. -/
def makeChan (chans : List Bool) : Nat × List Bool := (chans.length, chans ++ [false])

/-- The builtin `close(c)`: `none` is the panic of closing a closed channel. -/
def closeChan (chans : List Bool) (c : Nat) : Option (List Bool) :=
  match chans[c]? with
  | some false => some (chans.set c true)
  | _ => none

/-- The call `atomic.CompareAndSwapInt32(&v, old, new)`: whether it swapped, and the
value of `v` afterwards. -/
def CompareAndSwapInt32 (v old new : Int) : Bool × Int :=
  if v = old then (true, new) else (false, v)

/-- The call `atomic.StoreInt32(&m.canStart, v)`. -/
def StoreCanStart (m : UMiner) (v : Int) : UMiner := { m with canStart := v }

/-- The method `Start`: the error it returns and the miner afterwards. `SetCoinBase`
writes none of the fields kept here. -/
def Start (m : UMiner) : Option error × UMiner :=
  if m.canStart = 0 then (some (Errorf "node is syncing now"), m)
  else if m.mining = 1 then (some (Errorf "miner is running"), m)
  else
    let ch := makeChan m.chans
    let m1 := { m with stopCh := some ch.1, chans := ch.2 }
    let cas := CompareAndSwapInt32 m1.mining 0 1
    if !cas.1 then (none, m1)
    else
      let m2 := { m1 with mining := cas.2 }
      let m3 := { m2 with posted := m2.posted ++ [feedEvent.NewMiner] }
      (none, { m3 with wg := m3.wg + 2 })

/-- The method `Stop`. The two tasks return once the stop channel is closed, so that
`m.wg.Wait()` returns with the counter at zero; with a nil stop channel nothing is closed,
and `m.wg.Wait()` returns only if no task is running. -/
def Stop (m : UMiner) : Res UMiner :=
  let cas := CompareAndSwapInt32 m.mining 1 0
  if !cas.1 then .ok m
  else
    let m1 := { m with mining := cas.2 }
    match m1.stopCh with
    | some c =>
      match closeChan m1.chans c with
      | some chans => .ok { m1 with chans := chans, wg := 0 }
      | none => .panic
    | none => if m1.wg = 0 then .ok m1 else .outOfFuel

/-- The body of the `for` loop of `loop` at one event: the miner and the local variable
`minning` afterwards, and whether the loop goes on (`false` after `break out`). -/
def loopBody (m : UMiner) (minning : Int) : SyncEvent → Res (UMiner × Int × Bool)
  | .StartEvent =>
    let m1 := StoreCanStart m 0
    let minning1 := m1.mining
    if minning1 = 1 then (Stop m1).bind (fun m2 => .ok (m2, minning1, true))
    else .ok (m1, minning1, true)
  | _ =>
    let m1 := StoreCanStart m 1
    let m2 := if minning = 1 then (Start m1).2 else m1
    .ok (m2, minning, false)

/-- The `for` loop of `loop` over the events the channel delivers, from a value of the
local variable `minning`; when the events are used up the loop waits for the next one. -/
def loopFrom : List SyncEvent → UMiner → Int → Res UMiner
  | [], m, _ => .ok m
  | ev :: events, m, minning =>
    (loopBody m minning ev).bind (fun r =>
      if r.2.2 then loopFrom events r.1 r.2.1 else .ok r.1)

/-- The method `loop`, given the events its subscription delivers. -/
def loop (m : UMiner) (events : List SyncEvent) : Res UMiner := loopFrom events m 0

/-- The miner together with its `loop` goroutine: the local variable `minning` of the
loop, and whether the loop is still subscribed. -/
structure Running where
  m : UMiner
  minning : Int
  subscribed : Bool
deriving DecidableEq, Repr

/-- What happens next to a running miner: a call of `Start`, a call of `Stop`, or a sync
event posted to the feed. -/
inductive Action where
  | Start
  | Stop
  | post (ev : SyncEvent)
deriving DecidableEq, Repr

/-- The running miner after one action. -/
def act (s : Running) : Action → Res Running
  | .Start => .ok { s with m := (Start s.m).2 }
  | .Stop => (Stop s.m).bind (fun m2 => .ok { s with m := m2 })
  | .post ev =>
    if s.subscribed then
      (loopBody s.m s.minning ev).bind (fun r => .ok ⟨r.1, r.2.1, r.2.2⟩)
    else .ok s

/-- The running miner after a sequence of actions. -/
def acts : Running → List Action → Res Running
  | s, [] => .ok s
  | s, a :: rest => (act s a).bind (fun s2 => acts s2 rest)

/-- The state after `NewUranusMiner`: the new miner, its loop subscribed. -/
def boot : Running := ⟨NewUranusMiner, 0, true⟩

/-- The flags hold `0` or `1`, and while `mining` is `1` the stop channel is an open
channel. -/
def Sound (m : UMiner) : Prop :=
  (m.mining = 0 ∨ m.mining = 1) ∧
    (m.mining = 1 → ∃ c, m.stopCh = some c ∧ m.chans[c]? = some false)

/-- The calls `generateBlock` makes into the chain, the engine and the event feeds. -/
inductive Call where
  | GetCurrentInfo
  | Config
  | CalcDifficulty
  | NewDposContextFromProto
  | Actions
  | applyActions
  | Pending
  | applyTransactions
  | Finalize
  | Seal (block : Block)
  | WriteBlockWithState (block : Block)
  | PostEvent (ev : feedEvent)
  | Post (ev : feedEvent)
deriving DecidableEq, Repr

/-- What the calls of one run of `generateBlock` return: the error of each call that
can fail, whether the engine is a `*dpos.Dpos`, the block and the error of `Finalize`
and of `Seal`. -/
structure Env where
  GetCurrentInfo : Option error
  isDpos : Bool
  NewDposContextFromProto : Option error
  Pending : Option error
  applyTransactions : Option error
  Finalize : Block × Option error
  Seal : Block × Option error
  WriteBlockWithState : Option error
deriving DecidableEq, Repr

/-- The statements of `generateBlock` under `if atomic.LoadInt32(&m.mining) == 1`: the
calls they make, in order, and what `generateBlock` returns there (`Res.panic` at a nil
block: `block.DposContext = ...` after `Finalize`, and `result.Height()` among the
arguments of the log line after `WriteBlockWithState`). -/
def finalizeAndSeal (env : Env) : List Call × Res (Option error) :=
  match env.Finalize with
  | (_, some err) => ([.Finalize], .ok (some err))
  | (none, none) => ([.Finalize], .panic)
  | (some block, none) =>
    match env.Seal with
    | (_, some err) => ([.Finalize, .Seal (some block)], .ok (some err))
    | (result, none) =>
      match env.WriteBlockWithState with
      | some err =>
        ([.Finalize, .Seal (some block), .WriteBlockWithState result], .ok (some err))
      | none =>
        match result with
        | none => ([.Finalize, .Seal (some block), .WriteBlockWithState result], .panic)
        | some _ =>
          ([.Finalize, .Seal (some block), .WriteBlockWithState result,
            .PostEvent (feedEvent.BlockAndLogsEvent result),
            .Post (feedEvent.NewMinedBlockEvent result)], .ok none)

/-- The method `generateBlock`: the calls it makes, in order, and what it returns. -/
def generateBlock (m : UMiner) (env : Env) : List Call × Res (Option error) :=
  match env.GetCurrentInfo with
  | some err =>
    ([.GetCurrentInfo], .ok (some (Errorf ("failed to get current info, " ++ err.Error))))
  | none =>
    let calls := [Call.GetCurrentInfo, Call.Config, Call.CalcDifficulty]
    let dposContext : List Call × Option error :=
      if env.isDpos then ([Call.NewDposContextFromProto], env.NewDposContextFromProto)
      else ([], none)
    let calls := calls ++ dposContext.1
    match dposContext.2 with
    | some err => (calls, .ok (some err))
    | none =>
      let calls := calls ++ [Call.Actions, Call.applyActions, Call.Pending]
      match env.Pending with
      | some err =>
        (calls, .ok (some (Errorf ("Failed to fetch pending transactions, err: " ++ err.Error))))
      | none =>
        let calls := calls ++ [Call.applyTransactions]
        match env.applyTransactions with
        | some err => (calls, .ok (some (Errorf ("failed to apply transaction " ++ err.Error))))
        | none =>
          if m.mining = 1 then
            let tail := finalizeAndSeal env
            (calls ++ tail.1, tail.2)
          else (calls, .ok none)

/-- The place of a call in the tail of `generateBlock`: `Finalize`, `Seal`,
`WriteBlockWithState`, `PostEvent`, `Post` are numbered 1 to 5, an earlier call 0. -/
def Call.stage : Call → Nat
  | .Finalize => 1
  | .Seal _ => 2
  | .WriteBlockWithState _ => 3
  | .PostEvent _ => 4
  | .Post _ => 5
  | _ => 0

/-- One turn of the loop of `mintBlock`: whether `m.quitCurrentOp` is closed when the
`select` looks at it, and what the calls of `generateBlock` return in this turn. -/
structure Turn where
  quit : Bool
  env : Env
deriving DecidableEq, Repr

/-- How a run of `mintBlock` stands when the turns given are used up. -/
inductive Exit where
  | success
  | cancelled
  | panicked
  | running
deriving DecidableEq, Repr

/-- A run of `mintBlock`: the runs of `generateBlock` it made, the errors it logged, and
how it ended. -/
structure MintRun where
  attempts : List (List Call × Res (Option error))
  logged : List error
  exit : Exit

/-- The method `mintBlock`, over the turns of its loop. -/
def mintBlock (m : UMiner) : List Turn → MintRun
  | [] => ⟨[], [], .running⟩
  | t :: turns =>
    if t.quit then ⟨[], [], .cancelled⟩
    else
      let r := generateBlock m t.env
      match r.2 with
      | .ok none => ⟨[r], [], .success⟩
      | .ok (some err) =>
        let rest := mintBlock m turns
        ⟨r :: rest.attempts,
          (if err.isMissingNodeError then [] else [err]) ++ rest.logged, rest.exit⟩
      | _ => ⟨[r], [], .panicked⟩

/-- The chain parameters of the examples: a minimum of 5000 and a genesis limit of
4712388. -/
def sampleParams : Params := ⟨5000, 4712388⟩

/-- A run of the calls of `generateBlock` in which `GetCurrentInfo` fails, with an error
that is not a `MissingNodeError`. -/
def failingEnv : Env :=
  { GetCurrentInfo := some (Errorf "no current block"), isDpos := true,
    NewDposContextFromProto := none, Pending := none, applyTransactions := none,
    Finalize := (some 1, none), Seal := (some 1, none), WriteBlockWithState := none }

/-- A run of the calls of `generateBlock` in which every call succeeds and `Seal` returns
block 1. -/
def sealingEnv : Env :=
  { GetCurrentInfo := none, isDpos := true,
    NewDposContextFromProto := none, Pending := none, applyTransactions := none,
    Finalize := (some 1, none), Seal := (some 1, none), WriteBlockWithState := none }

/-- A run of the calls of `generateBlock` in which `Seal` fails with a
`MissingNodeError`. -/
def missingEnv : Env :=
  { sealingEnv with Seal := (none, some (error.MissingNodeError "missing trie node")) }

/-- A run of the calls of `generateBlock` in which `Seal` returns neither a block nor an
error, as a seal that is cancelled through its stop channel does. -/
def cancelledEnv : Env :=
  { sealingEnv with Seal := (none, none) }

end miner

namespace state

open mtp (Hash Bytes GoMap)

/-! The journaled state database of package `core/state`, of which only the tests
(`state_test.go`, `statedb_test.go`) are among the sources at hand: the database, its
journal and its state objects are modelled from the specification.

* a `StateDB` refers to its state objects by pointers: the objects live in a `Memory`,
  shared by all the databases of a run, and every method takes the memory and returns it;
* the account trie of a fresh database is empty and the methods embedded here never write
  it, so that an address without a live object has no account;
* a map from hashes is a function with the zero value as default;
* the journal keeps its newest entry first. -/

/-- Modelled from the spec: the type `utils.Address` (package `common/utils` is not among
the sources at hand), abstracted to a number. -/
abbrev Address := Nat

/-- Modelled from the spec: the type `types.Log` (package `core/types` is not among the
sources at hand), with the two fields the tests fill. -/
structure Log where
  address : Address
  data : Bytes
deriving DecidableEq, Repr

/-- Modelled from the spec: the state object of one account (`state_object.go` is not
among the sources at hand). Of the data of the spec, the code hash is left out (it is
the hash of `code`), and so are the storage root and the flag `deleted`, which change at
finalisation only; `storage` is the cached storage over an empty trie. -/
structure stateObject where
  balance : Int
  lockedBalance : Int
  nonce : Nat
  code : Bytes
  delegateTimestamp : Int
  delegateAddresses : List Address
  storage : Hash → Hash
  suicided : Bool

/-- Modelled from the spec: the object of a new account (`newObject` of `state_object.go`,
not among the sources at hand): zero balances, no code, empty storage. -/
def newObject : stateObject :=
  { balance := 0, lockedBalance := 0, nonce := 0, code := [], delegateTimestamp := 0,
    delegateAddresses := [], storage := fun _ => 0, suicided := false }

/-- Modelled from the spec: the heap the `*stateObject` pointers point into (the Go
runtime, not a part of the sources): the object at each place, and the next free place. -/
structure Memory where
  cells : Nat → stateObject
  next : Nat

/-- Modelled from the spec: the memory before any object is made. -/
def emptyMemory : Memory := ⟨fun _ => newObject, 0⟩

/-- Modelled from the spec: an entry of the journal (`journal.go` is not among the
sources at hand), a tagged variant that keeps what its undo needs: the previous value,
or for `resetObject` the pointer to the previous object. -/
inductive journalEntry where
  | createAccount (account : Address)
  | resetObject (account : Address) (prev : Nat)
  | suicide (account : Address) (prev : Bool) (prevbalance : Int)
  | touch (account : Address)
  | balance (account : Address) (prev : Int)
  | nonce (account : Address) (prev : Nat)
  | storage (account : Address) (key prevalue : Hash)
  | code (account : Address) (prevcode : Bytes)
  | refund (prev : Nat)
  | addLog (txhash : Hash)
  | lockedBalance (account : Address) (prev : Int)
  | delegateTimestamp (account : Address) (prev : Int)
  | delegateAddresses (account : Address) (prev : List Address)
deriving DecidableEq, Repr

/-- Modelled from the spec: the type `StateDB` (`statedb.go` is not among the sources at
hand): the live objects, the journal (newest entry first), the revisions
`(id, journalLength)` (newest first), the next revision id, the refund, the logs by
transaction hash, and the hash of the current transaction. The set of dirty addresses is
left out: no accessor reads it. -/
structure StateDB where
  stateObjects : GoMap Address Nat
  journal : List journalEntry
  revisions : List (Nat × Nat)
  nextRevisionId : Nat
  refund : Nat
  logs : Hash → List Log
  thash : Hash

/-- Modelled from the spec: the database `New(utils.Hash{}, db)` returns, over the empty
account trie (`statedb.go` is not among the sources at hand). -/
def New : StateDB :=
  { stateObjects := [], journal := [], revisions := [], nextRevisionId := 0, refund := 0,
    logs := fun _ => [], thash := 0 }

/-- Modelled from the spec: the method `getStateObject` (`statedb.go` is not among the
sources at hand): the pointer to the live object of an address, `none` for nil. -/
def getStateObject (s : StateDB) (addr : Address) : Option Nat := s.stateObjects.get addr

/-- Modelled from the spec: the object an address has in a database, read through its
pointer (`statedb.go` is not among the sources at hand). -/
def object (mem : Memory) (s : StateDB) (addr : Address) : Option stateObject :=
  (getStateObject s addr).map mem.cells

/-- Modelled from the spec: the method `createObject` (`statedb.go` is not among the
sources at hand): a new object takes the place of any prior one, with the journal entry
`createAccount`, or `resetObject` of the prior object. It returns the new pointer. -/
def createObject (mem : Memory) (s : StateDB) (addr : Address) : Memory × StateDB × Nat :=
  let entry :=
    match getStateObject s addr with
    | none => journalEntry.createAccount addr
    | some prev => journalEntry.resetObject addr prev
  ({ cells := Function.update mem.cells mem.next newObject, next := mem.next + 1 },
    { s with journal := entry :: s.journal, stateObjects := s.stateObjects.set addr mem.next },
    mem.next)

/-- Modelled from the spec: the method `GetOrNewStateObject` (`statedb.go` is not among
the sources at hand). -/
def GetOrNewStateObject (mem : Memory) (s : StateDB) (addr : Address) :
    Memory × StateDB × Nat :=
  match getStateObject s addr with
  | some p => (mem, s, p)
  | none => createObject mem s addr

/-- Modelled from the spec: the common shape of the setters of `statedb.go` (not among the
sources at hand): get or make the object, append the journal entry made from its present
value, write the new value through the pointer. -/
def setField (mem : Memory) (s : StateDB) (addr : Address)
    (entry : stateObject → journalEntry) (f : stateObject → stateObject) :
    Memory × StateDB :=
  let r := GetOrNewStateObject mem s addr
  let obj := r.1.cells r.2.2
  ({ r.1 with cells := Function.update r.1.cells r.2.2 (f obj) },
    { r.2.1 with journal := entry obj :: r.2.1.journal })

/-- Modelled from the spec: the method `SetBalance`, journal entry `balanceΔ(previous
value)` (`statedb.go` is not among the sources at hand). -/
def SetBalance (mem : Memory) (s : StateDB) (addr : Address) (amount : Int) :
    Memory × StateDB :=
  setField mem s addr (fun o => .balance addr o.balance) (fun o => { o with balance := amount })

/-- Modelled from the spec: the method `AddBalance`, journal entry `balanceΔ(previous
value)` (`statedb.go` is not among the sources at hand). -/
def AddBalance (mem : Memory) (s : StateDB) (addr : Address) (amount : Int) :
    Memory × StateDB :=
  setField mem s addr (fun o => .balance addr o.balance)
    (fun o => { o with balance := o.balance + amount })

/-- Modelled from the spec: the method `SubBalance`, journal entry `balanceΔ(previous
value)` (`statedb.go` is not among the sources at hand). -/
def SubBalance (mem : Memory) (s : StateDB) (addr : Address) (amount : Int) :
    Memory × StateDB :=
  setField mem s addr (fun o => .balance addr o.balance)
    (fun o => { o with balance := o.balance - amount })

/-- Modelled from the spec: the method `SetNonce`, journal entry `nonceΔ(previous)`
(`statedb.go` is not among the sources at hand). -/
def SetNonce (mem : Memory) (s : StateDB) (addr : Address) (nonce : Nat) :
    Memory × StateDB :=
  setField mem s addr (fun o => .nonce addr o.nonce) (fun o => { o with nonce := nonce })

/-- Modelled from the spec: the method `SetCode`, journal entry `codeΔ(previous code)`
(`statedb.go` is not among the sources at hand). -/
def SetCode (mem : Memory) (s : StateDB) (addr : Address) (code : Bytes) :
    Memory × StateDB :=
  setField mem s addr (fun o => .code addr o.code) (fun o => { o with code := code })

/-- Modelled from the spec: the method `SetState`, journal entry `storageΔ(previous slot
value)` (`statedb.go` is not among the sources at hand). -/
def SetState (mem : Memory) (s : StateDB) (addr : Address) (key value : Hash) :
    Memory × StateDB :=
  setField mem s addr (fun o => .storage addr key (o.storage key))
    (fun o => { o with storage := Function.update o.storage key value })

/-- Modelled from the spec: the method `SetLockedBalance`, journal entry `lockedBalanceΔ`
(`statedb.go` is not among the sources at hand). -/
def SetLockedBalance (mem : Memory) (s : StateDB) (addr : Address) (amount : Int) :
    Memory × StateDB :=
  setField mem s addr (fun o => .lockedBalance addr o.lockedBalance)
    (fun o => { o with lockedBalance := amount })

/-- Modelled from the spec: the method `SetDelegateTimestamp`, journal entry
`delegateTimestampΔ` (`statedb.go` is not among the sources at hand). -/
def SetDelegateTimestamp (mem : Memory) (s : StateDB) (addr : Address) (t : Int) :
    Memory × StateDB :=
  setField mem s addr (fun o => .delegateTimestamp addr o.delegateTimestamp)
    (fun o => { o with delegateTimestamp := t })

/-- Modelled from the spec: the method `SetDelegateAddresses`, journal entry
`delegateAddressesΔ` (`statedb.go` is not among the sources at hand). -/
def SetDelegateAddresses (mem : Memory) (s : StateDB) (addr : Address)
    (addrs : List Address) : Memory × StateDB :=
  setField mem s addr (fun o => .delegateAddresses addr o.delegateAddresses)
    (fun o => { o with delegateAddresses := addrs })

/-- Modelled from the spec: the method `CreateAccount`, journal entries `createAccount` +
optional `resetObject` of any prior object (`statedb.go` is not among the sources at
hand). -/
def CreateAccount (mem : Memory) (s : StateDB) (addr : Address) : Memory × StateDB :=
  let r := createObject mem s addr
  (r.1, r.2.1)

/-- Modelled from the spec: the method `Suicide`, journal entry `suicide(previous
suicided flag and balance)`; without an object nothing happens (`statedb.go` is not among
the sources at hand). -/
def Suicide (mem : Memory) (s : StateDB) (addr : Address) : Memory × StateDB :=
  match getStateObject s addr with
  | none => (mem, s)
  | some _ =>
    setField mem s addr (fun o => .suicide addr o.suicided o.balance)
      (fun o => { o with suicided := true, balance := 0 })

/-- Modelled from the spec: the method `AddRefund`, journal entry `refundΔ`
(`statedb.go` is not among the sources at hand). -/
def AddRefund (mem : Memory) (s : StateDB) (gas : Nat) : Memory × StateDB :=
  (mem, { s with journal := .refund s.refund :: s.journal, refund := s.refund + gas })

/-- Modelled from the spec: the method `AddLog`, journal entry `addLog(txHash)`
(`statedb.go` is not among the sources at hand). -/
def AddLog (mem : Memory) (s : StateDB) (log : Log) : Memory × StateDB :=
  (mem, { s with
          journal := .addLog s.thash :: s.journal
          logs := Function.update s.logs s.thash (s.logs s.thash ++ [log]) })

/-- Modelled from the spec: the write an undo makes through the pointer of an account,
if it has a live object (`journal.go` is not among the sources at hand). -/
def restore (mem : Memory) (s : StateDB) (account : Address)
    (f : stateObject → stateObject) : Memory × StateDB :=
  match getStateObject s account with
  | some p => ({ mem with cells := Function.update mem.cells p (f (mem.cells p)) }, s)
  | none => (mem, s)

/-- Modelled from the spec: the undo of a journal entry (`journal.go` is not among the
sources at hand). -/
def journalEntry.undo (mem : Memory) (s : StateDB) : journalEntry → Memory × StateDB
  | .createAccount account => (mem, { s with stateObjects := s.stateObjects.del account })
  | .resetObject account prev => (mem, { s with stateObjects := s.stateObjects.set account prev })
  | .suicide account prev prevbalance =>
    restore mem s account (fun o => { o with suicided := prev, balance := prevbalance })
  | .touch _ => (mem, s)
  | .balance account prev => restore mem s account (fun o => { o with balance := prev })
  | .nonce account prev => restore mem s account (fun o => { o with nonce := prev })
  | .storage account key prevalue =>
    restore mem s account (fun o => { o with storage := Function.update o.storage key prevalue })
  | .code account prevcode => restore mem s account (fun o => { o with code := prevcode })
  | .refund prev => (mem, { s with refund := prev })
  | .addLog txhash =>
    (mem, { s with logs := Function.update s.logs txhash (s.logs txhash).dropLast })
  | .lockedBalance account prev =>
    restore mem s account (fun o => { o with lockedBalance := prev })
  | .delegateTimestamp account prev =>
    restore mem s account (fun o => { o with delegateTimestamp := prev })
  | .delegateAddresses account prev =>
    restore mem s account (fun o => { o with delegateAddresses := prev })

/-- Modelled from the spec: the roll-back of the journal to a recorded length: the
entries are undone from the newest one, and the journal is truncated (`journal.go` is not
among the sources at hand). It returns the memory, the database and the journal left. -/
def rollback (snapshot : Nat) :
    List journalEntry → Memory → StateDB → Memory × StateDB × List journalEntry
  | [], mem, s => (mem, s, [])
  | entry :: entries, mem, s =>
    if snapshot < entries.length + 1 then
      let r := entry.undo mem s
      rollback snapshot entries r.1 r.2
    else (mem, s, entry :: entries)

/-- Modelled from the spec: the method `Snapshot`: it returns the next revision id and
records `(id, |journal|)` (`statedb.go` is not among the sources at hand). -/
def Snapshot (s : StateDB) : Nat × StateDB :=
  (s.nextRevisionId,
    { s with
      nextRevisionId := s.nextRevisionId + 1
      revisions := (s.nextRevisionId, s.journal.length) :: s.revisions })

/-- Modelled from the spec: the method `RevertToSnapshot`: it locates the id, rolls the
journal back to the recorded length and discards the later revisions; `none` is the error
of an unknown or stale id (`statedb.go` is not among the sources at hand). -/
def RevertToSnapshot (mem : Memory) (s : StateDB) (revid : Nat) : Option (Memory × StateDB) :=
  match s.revisions.dropWhile (fun r => decide (r.1 ≠ revid)) with
  | [] => none
  | (_, snapshot) :: older =>
    let r := rollback snapshot s.journal mem s
    some (r.1, { r.2.1 with journal := r.2.2, revisions := older })

/-- Modelled from the spec: the deep copy of the live objects of a database: each object
is copied to a new place (`statedb.go` is not among the sources at hand). -/
def copyObjects : GoMap Address Nat → Memory → Memory × GoMap Address Nat
  | [], mem => (mem, [])
  | (addr, p) :: rest, mem =>
    let r := copyObjects rest
      { cells := Function.update mem.cells mem.next (mem.cells p), next := mem.next + 1 }
    (r.1, (addr, mem.next) :: r.2)

/-- Modelled from the spec: the method `Copy`: a database with its own map of deep-copied
objects, an empty journal, its own logs and refund (`statedb.go` is not among the sources
at hand). -/
def Copy (mem : Memory) (s : StateDB) : Memory × StateDB :=
  let r := copyObjects s.stateObjects mem
  (r.1, { stateObjects := r.2, journal := [], revisions := [], nextRevisionId := 0,
          refund := s.refund, logs := s.logs, thash := s.thash })

/-- Modelled from the spec: the accessor `Exist` (`statedb.go` is not among the sources at
hand). -/
def Exist (mem : Memory) (s : StateDB) (addr : Address) : Bool := (object mem s addr).isSome

/-- Modelled from the spec: the accessor `HasSuicided` (`statedb.go` is not among the
sources at hand). -/
def HasSuicided (mem : Memory) (s : StateDB) (addr : Address) : Bool :=
  match object mem s addr with
  | some o => o.suicided
  | none => false

/-- Modelled from the spec: the accessor `GetBalance`, zero without an object
(`statedb.go` is not among the sources at hand). -/
def GetBalance (mem : Memory) (s : StateDB) (addr : Address) : Int :=
  match object mem s addr with
  | some o => o.balance
  | none => 0

/-- Modelled from the spec: the accessor `GetLockedBalance`, zero without an object
(`statedb.go` is not among the sources at hand). -/
def GetLockedBalance (mem : Memory) (s : StateDB) (addr : Address) : Int :=
  match object mem s addr with
  | some o => o.lockedBalance
  | none => 0

/-- Modelled from the spec: the accessor `GetNonce`, zero without an object (`statedb.go`
is not among the sources at hand). -/
def GetNonce (mem : Memory) (s : StateDB) (addr : Address) : Nat :=
  match object mem s addr with
  | some o => o.nonce
  | none => 0

/-- Modelled from the spec: the accessor `GetDelegateTimestamp`, zero without an object
(`statedb.go` is not among the sources at hand). -/
def GetDelegateTimestamp (mem : Memory) (s : StateDB) (addr : Address) : Int :=
  match object mem s addr with
  | some o => o.delegateTimestamp
  | none => 0

/-- Modelled from the spec: the accessor `GetDelegateAddresses`, empty without an object
(`statedb.go` is not among the sources at hand). -/
def GetDelegateAddresses (mem : Memory) (s : StateDB) (addr : Address) : List Address :=
  match object mem s addr with
  | some o => o.delegateAddresses
  | none => []

/-- Modelled from the spec: the accessor `GetCode`, empty without an object (`statedb.go`
is not among the sources at hand). -/
def GetCode (mem : Memory) (s : StateDB) (addr : Address) : Bytes :=
  match object mem s addr with
  | some o => o.code
  | none => []

/-- Modelled from the spec: the accessor `GetState`, the zero hash without an object
(`statedb.go` is not among the sources at hand). -/
def GetState (mem : Memory) (s : StateDB) (addr : Address) (key : Hash) : Hash :=
  match object mem s addr with
  | some o => o.storage key
  | none => 0

/-- Modelled from the spec: the accessor `GetRefund` (`statedb.go` is not among the
sources at hand). -/
def GetRefund (s : StateDB) : Nat := s.refund

/-- Modelled from the spec: the accessor `GetLogs` (`statedb.go` is not among the sources
at hand). -/
def GetLogs (s : StateDB) (hash : Hash) : List Log := s.logs hash

/-- A mutation of a `StateDB`: the actions of the snapshot test of `statedb_test.go`,
and `SubBalance`. -/
inductive Mutation where
  | SetBalance (addr : Address) (amount : Int)
  | AddBalance (addr : Address) (amount : Int)
  | SubBalance (addr : Address) (amount : Int)
  | SetNonce (addr : Address) (nonce : Nat)
  | SetLockedBalance (addr : Address) (amount : Int)
  | SetDelegateAddresses (addr : Address) (addrs : List Address)
  | SetDelegateTimestamp (addr : Address) (t : Int)
  | SetState (addr : Address) (key value : Hash)
  | SetCode (addr : Address) (code : Bytes)
  | CreateAccount (addr : Address)
  | Suicide (addr : Address)
  | AddRefund (gas : Nat)
  | AddLog (log : Log)
deriving DecidableEq, Repr

/-- The memory and the database after a mutation, as `action.fn(action, state)` of the
snapshot test applies it. -/
def mutate (mem : Memory) (s : StateDB) : Mutation → Memory × StateDB
  | .SetBalance addr amount => SetBalance mem s addr amount
  | .AddBalance addr amount => AddBalance mem s addr amount
  | .SubBalance addr amount => SubBalance mem s addr amount
  | .SetNonce addr nonce => SetNonce mem s addr nonce
  | .SetLockedBalance addr amount => SetLockedBalance mem s addr amount
  | .SetDelegateAddresses addr addrs => SetDelegateAddresses mem s addr addrs
  | .SetDelegateTimestamp addr t => SetDelegateTimestamp mem s addr t
  | .SetState addr key value => SetState mem s addr key value
  | .SetCode addr code => SetCode mem s addr code
  | .CreateAccount addr => CreateAccount mem s addr
  | .Suicide addr => Suicide mem s addr
  | .AddRefund gas => AddRefund mem s gas
  | .AddLog log => AddLog mem s log

/-- The memory and the database after a sequence of mutations. -/
def applyAll : List Mutation → Memory → StateDB → Memory × StateDB
  | [], mem, s => (mem, s)
  | a :: rest, mem, s => applyAll rest (mutate mem s a).1 (mutate mem s a).2

/-- The pointers of the live objects of a database are places of the memory in use. -/
def Allocated (mem : Memory) (s : StateDB) : Prop :=
  ∀ addr p, s.stateObjects.get addr = some p → p < mem.next

/-- Two states agree below a place: the same pointer at every address, the same object at
every place below, the same refund and the same logs. -/
def Agree (n : Nat) (mem : Memory) (s : StateDB) (mem0 : Memory) (s0 : StateDB) : Prop :=
  (∀ addr, s.stateObjects.get addr = s0.stateObjects.get addr) ∧
    (∀ p, p < n → mem.cells p = mem0.cells p) ∧ s.refund = s0.refund ∧ s.logs = s0.logs

/-- The undo of a list of journal entries, newest first. -/
def undoAll : List journalEntry → Memory → StateDB → Memory × StateDB
  | [], mem, s => (mem, s)
  | entry :: entries, mem, s => undoAll entries (entry.undo mem s).1 (entry.undo mem s).2

/-- A place is the pointer of a live object of the database. -/
def Mapped (s : StateDB) (p : Nat) : Prop := ∃ addr, s.stateObjects.get addr = some p

/-- The entries a step has put on the journal undo the step: the journal has grown by
them, the revisions are as before, the memory has only grown, and from every state that
agrees with the state after the step their undo leads to a state that agrees with the
state before it. -/
def Undone (mem0 : Memory) (s0 : StateDB) (mem1 : Memory) (s1 : StateDB)
    (new : List journalEntry) : Prop :=
  s1.journal = new ++ s0.journal ∧ s1.revisions = s0.revisions ∧
    s1.nextRevisionId = s0.nextRevisionId ∧ mem0.next ≤ mem1.next ∧ Allocated mem1 s1 ∧
    ∀ mem s, Agree mem1.next mem s mem1 s1 →
      Agree mem0.next (undoAll new mem s).1 (undoAll new mem s).2 mem0 s0

/-- The run of the snapshot test of `statedb_test.go` with one snapshot: the first
actions on a fresh database, `Snapshot`, the later actions, `RevertToSnapshot`. -/
def snapshotRevert (before after : List Mutation) : Option (Memory × StateDB) :=
  let w := applyAll before emptyMemory New
  let snap := Snapshot w.2
  let w2 := applyAll after w.1 snap.2
  RevertToSnapshot w2.1 w2.2 snap.1

/-- The comparison `checkEqual` of the snapshot test of `statedb_test.go`: the accessors
return the same on the two databases, at every address, storage key and transaction hash
(the code hash, a function of the code, is left out). -/
def checkEqual (mem : Memory) (state : StateDB) (cmem : Memory) (checkstate : StateDB) :
    Prop :=
  (∀ addr,
    Exist mem state addr = Exist cmem checkstate addr ∧
    HasSuicided mem state addr = HasSuicided cmem checkstate addr ∧
    GetBalance mem state addr = GetBalance cmem checkstate addr ∧
    GetNonce mem state addr = GetNonce cmem checkstate addr ∧
    GetLockedBalance mem state addr = GetLockedBalance cmem checkstate addr ∧
    GetDelegateTimestamp mem state addr = GetDelegateTimestamp cmem checkstate addr ∧
    GetDelegateAddresses mem state addr = GetDelegateAddresses cmem checkstate addr ∧
    GetCode mem state addr = GetCode cmem checkstate addr ∧
    ∀ key, GetState mem state addr key = GetState cmem checkstate addr key) ∧
  GetRefund state = GetRefund checkstate ∧
  ∀ hash, GetLogs state hash = GetLogs checkstate hash

/-- A step on a database writes only the objects of that database and new places: the
memory has only grown, the pointers of the database are in use, every place in use before
that was not a pointer of the database keeps its object, and every pointer of the database
was one before or is a new place. -/
def Framed (mem : Memory) (s : StateDB) (mem1 : Memory) (s1 : StateDB) : Prop :=
  mem.next ≤ mem1.next ∧ Allocated mem1 s1 ∧
    (∀ q, q < mem.next → ¬ Mapped s q → mem1.cells q = mem.cells q) ∧
    (∀ q, Mapped s1 q → Mapped s q ∨ mem.next ≤ q)

/-- Two databases in one memory share no object: the pointers of both are places in use,
and no place is a pointer of both. -/
def Separate (mem : Memory) (s c : StateDB) : Prop :=
  Allocated mem s ∧ Allocated mem c ∧ ∀ q, ¬ (Mapped s q ∧ Mapped c q)

/-- The memory and two databases after a sequence of mutations, each applied to the first
database (`true`) or to the second (`false`). -/
def applyBoth :
    List (Bool × Mutation) → Memory → StateDB → StateDB → Memory × StateDB × StateDB
  | [], mem, s, c => (mem, s, c)
  | (true, a) :: rest, mem, s, c => applyBoth rest (mutate mem s a).1 (mutate mem s a).2 c
  | (false, a) :: rest, mem, s, c => applyBoth rest (mutate mem c a).1 s (mutate mem c a).2

/-- The state of the test `TestCopyOfCopy` of `statedb_test.go` before the copies: a
fresh database after `SetBalance(addr, 42)` and `SetLockedBalance(addr, 41)`, with the
address `aaaa` as a number. -/
def sampleState : Memory × StateDB :=
  applyAll [.SetBalance 43690 42, .SetLockedBalance 43690 41] emptyMemory New

/-- Modelled from the spec: the method `ResetDelegateTimestamp`, journal entry
`delegateTimestampΔ`: it clears the delegate timestamp (`statedb.go` is not among the
sources at hand). -/
def ResetDelegateTimestamp (mem : Memory) (s : StateDB) (addr : Address) : Memory × StateDB :=
  setField mem s addr (fun o => .delegateTimestamp addr o.delegateTimestamp)
    (fun o => { o with delegateTimestamp := 0 })

/-- Modelled from the spec: the method `UnLockBalance`, journal entry `lockedBalanceΔ`:
it unlocks, leaving a locked balance of zero (`statedb.go` is not among the sources at
hand). -/
def UnLockBalance (mem : Memory) (s : StateDB) (addr : Address) : Memory × StateDB :=
  setField mem s addr (fun o => .lockedBalance addr o.lockedBalance)
    (fun o => { o with lockedBalance := 0 })

/-- The data an address has in a database: those of its object, or of a new object when
it has none (the accessors return the zero values then). -/
def account (mem : Memory) (s : StateDB) (addr : Address) : stateObject :=
  (object mem s addr).getD newObject

/-- The pointers of a database are places in use, and no two addresses share one. -/
def WellFormed (mem : Memory) (s : StateDB) : Prop :=
  Allocated mem s ∧
    ∀ a b p, s.stateObjects.get a = some p → s.stateObjects.get b = some p → a = b

end state

namespace executor

open mtp (Hash Bytes)
open state

/-! The executor of `core/executor/executor.go`: `applyDposMessage`, `addAction`,
`ExecActions` and `ExecTransaction`.

* the state database is the one of the part `state`, passed together with its memory;
* `time.Now().Unix()` is an input, `now`;
* the DPoS context and the pool of actions are kept as the lists of the calls made on
  them, in order;
* `e.chain.Config().DelayDuration` is a parameter, and `DelayDuration` is the value
  `params/dpos.go` gives it;
* the virtual machine, the intrinsic gas table, the state root and the address of a
  created contract are inputs of `ExecTransaction` (`TxEnv`); the gas counter `*usedGas`,
  a `uint64`, is a number below `2 ^ 64` that is passed in and returned. -/

/-- Modelled from the spec: the transaction types of `types.TxType` (package `core/types`
is not among the sources at hand). -/
inductive TxType where
  | Binary
  | LoginCandidate
  | LogoutCandidate
  | Delegate
  | UnDelegate
  | Redeem
deriving DecidableEq, Repr

/-- Modelled from the spec: a `types.Transaction`, with what the executor reads of it:
`Type()`, `Sender(signer)`, `Value()`, `Tos()` (`none` is the Go `nil`), `Payload()`,
`Hash()` and `Nonce()`. -/
structure Transaction where
  txType : TxType
  sender : Address
  value : Int
  tos : Option (List Address)
  payload : Bytes
  hash : Hash
  nonce : Nat
deriving DecidableEq, Repr

/-- Modelled from the spec: a `types.Action`, the delayed redemption `types.NewAction`
builds from a transaction hash, a sender, the time of creation and the delay. -/
structure Action where
  TxHash : Hash
  Sender : Address
  GenTimeStamp : Int
  DelayDur : Int
deriving DecidableEq, Repr

/-- Modelled from the spec: the calls `applyDposMessage` makes on a `types.DposContext`
(their results are not looked at by the executor). -/
inductive DposCall where
  | BecomeCandidate (addr : Address)
  | KickoutCandidate (addr : Address)
  | Delegate (addr : Address) (tos : Option (List Address))
  | UnDelegate (addr : Address) (tos : Option (List Address))
deriving DecidableEq, Repr

/-- What a run of the executor works on: the state database with its memory, the calls
made so far on the DPoS context, and the actions given so far to `e.tp.AddAction`. -/
structure World where
  mem : Memory
  statedb : StateDB
  dposContext : List DposCall
  tp : List Action

/-- The constant `DelayDuration` of `params/dpos.go`: `big.NewInt(72 * 3600)`. -/
def DelayDuration : Int := 72 * 3600

/-- The method `Executor.addAction`. -/
def addAction (delay : Int) (now : Int) (w : World) (sender : Address) (tx : Transaction) :
    World :=
  let a : Action := ⟨tx.hash, sender, now, delay⟩
  { w with tp := w.tp ++ [a] }

/-- The method `Executor.applyDposMessage`; `delay` is `e.chain.Config().DelayDuration`.
A type without a case in the `switch` falls through to `return true`. -/
def applyDposMessage (delay : Int) (now : Int) (w : World) (tx : Transaction) :
    Bool × World :=
  let sender := tx.sender
  match tx.txType with
  | .LoginCandidate =>
    (true, { w with dposContext := w.dposContext ++ [.BecomeCandidate sender] })
  | .LogoutCandidate =>
    (true, { w with dposContext := w.dposContext ++ [.KickoutCandidate sender] })
  | .Delegate =>
    let r1 := SetDelegateTimestamp w.mem w.statedb sender now
    let r2 := SubBalance r1.1 r1.2 sender tx.value
    let r3 := SetLockedBalance r2.1 r2.2 sender tx.value
    (true, { w with mem := r3.1, statedb := r3.2,
                    dposContext := w.dposContext ++ [.Delegate sender tx.tos] })
  | .UnDelegate =>
    let r1 := ResetDelegateTimestamp w.mem w.statedb sender
    let w1 := addAction delay now { w with mem := r1.1, statedb := r1.2 } sender tx
    (true, { w1 with dposContext := w1.dposContext ++ [.UnDelegate sender tx.tos] })
  | .Redeem =>
    let timestamp := GetDelegateTimestamp w.mem w.statedb sender
    if now - timestamp < delay then (false, w)
    else
      let lockedBalance := GetLockedBalance w.mem w.statedb sender
      let r1 := AddBalance w.mem w.statedb sender lockedBalance
      let r2 := UnLockBalance r1.1 r1.2 sender
      (true, { w with mem := r2.1, statedb := r2.2 })
  | .Binary => (true, w)

/-- The method `Executor.ExecActions`. -/
def ExecActions (w : World) : List Action → World
  | [] => w
  | a :: actions =>
    let lb := GetLockedBalance w.mem w.statedb a.Sender
    let r1 := AddBalance w.mem w.statedb a.Sender lb
    let r2 := SetLockedBalance r1.1 r1.2 a.Sender 0
    ExecActions { w with mem := r2.1, statedb := r2.2 } actions

/-- Modelled from the spec: a `types.Receipt` as `types.NewReceipt(root, failed,
cumulativeGasUsed)` and `ExecTransaction` fill it (package `core/types` is not among the
sources at hand). The bloom filter, a function of the logs, is left out. -/
structure Receipt where
  PostState : Bytes
  Failed : Bool
  CumulativeGasUsed : Nat
  TransactionHash : Hash
  GasUsed : Nat
  ContractAddress : Option Address
  Logs : List Log
deriving DecidableEq, Repr

/-- The results of what `ExecTransaction` calls outside the executor:
`ExecStateTransition` (gas, failed, error, and the state the virtual machine leaves),
`txpool.IntrinsicGas`, `statedb.IntermediateRoot(true)`, `crypto.CreateAddress`, and the
time. -/
structure TxEnv where
  now : Int
  ExecStateTransition : World → (Nat × Bool × Option String) × World
  IntrinsicGas : Nat
  IntermediateRoot : Bytes
  CreateAddress : Address

/-- What `ExecTransaction` returns (`receipt`, `gas`, `err`), the counter `*usedGas`
after the call, and the state after the call. -/
structure TxResult where
  receipt : Option Receipt
  gas : Nat
  err : Option String
  usedGas : Nat
  world : World

/-- The method `Executor.ExecTransaction`; `usedGas` is the value of `*usedGas` at the
call. The variable `err` is written by the `Binary` branch only, and tested there. What
`IntermediateRoot` does to the state objects is not part of the model. -/
def ExecTransaction (delay : Int) (env : TxEnv) (w : World) (tx : Transaction)
    (usedGas : Nat) : TxResult :=
  let r : (Nat × Bool × Option String) × World :=
    if tx.txType = .Binary then env.ExecStateTransition w
    else
      let applied := applyDposMessage delay env.now w tx
      ((env.IntrinsicGas, applied.1, none), applied.2)
  match r.1.2.2 with
  | some err => { receipt := none, gas := 0, err := some err, usedGas := usedGas, world := r.2 }
  | none =>
    let gas := r.1.1
    let failed := r.1.2.1
    let root := env.IntermediateRoot
    let usedGas1 := (usedGas + gas) % 2 ^ 64
    let receipt : Receipt :=
      { PostState := root, Failed := failed, CumulativeGasUsed := usedGas1,
        TransactionHash := tx.hash, GasUsed := gas,
        ContractAddress := if tx.tos = none then some env.CreateAddress else none,
        Logs := GetLogs r.2.statedb tx.hash }
    { receipt := some receipt, gas := gas, err := none, usedGas := usedGas1, world := r.2 }

/-- The balance and the locked balance of every address are not negative. -/
def NonNeg (w : World) : Prop :=
  ∀ a, 0 ≤ GetBalance w.mem w.statedb a ∧ 0 ≤ GetLockedBalance w.mem w.statedb a

/-- A sample state: the fresh database after `SetBalance(1, 100)` and
`SetLockedBalance(1, 30)`, no call made yet on the DPoS context or the pool. -/
def fundedWorld : World :=
  let r := applyAll [.SetBalance 1 100, .SetLockedBalance 1 30] emptyMemory New
  ⟨r.1, r.2, [], []⟩

/-- A sample transaction of address `1`, of the given type and value. -/
def sampleTx (t : TxType) (value : Int) : Transaction :=
  ⟨t, 1, value, some [2], [], 77, 0⟩

/-- A sample environment of `ExecTransaction`: time `1000000`, intrinsic gas `21000`, a
virtual machine that uses `30000` gas and leaves the state as it is. -/
def sampleEnv : TxEnv :=
  ⟨1000000, fun w => ((30000, false, none), w), 21000, [1], 9⟩

/-- A sample state: `fundedWorld` after the `Delegate` of 20 of the address `1` at time
`1000000`. -/
def delegatedWorld : World :=
  (applyDposMessage DelayDuration 1000000 fundedWorld (sampleTx .Delegate 20)).2

/-- A sample environment whose clock is at `1000`, before the delay has passed since
time zero. -/
def earlyEnv : TxEnv := { sampleEnv with now := 1000 }

end executor

namespace mtp

/-! ## Association lists -/

namespace GoMap

variable {κ : Type} {α : Type} [DecidableEq κ]

theorem get_del_self (m : GoMap κ α) (k : κ) : get (del m k) k = none := by
  induction m with
  | nil => rfl
  | cons e m ih =>
    obtain ⟨k', v⟩ := e
    by_cases h : k' = k
    · simp [del, h, ih]
    · simp [del, get, h, ih]

theorem get_del_of_ne (m : GoMap κ α) {k k' : κ} (h : k' ≠ k) :
    get (del m k) k' = get m k' := by
  induction m with
  | nil => rfl
  | cons e m ih =>
    obtain ⟨k1, v⟩ := e
    by_cases h1 : k1 = k
    · subst h1
      have h2 : ¬ k1 = k' := fun h3 => h h3.symm
      simp [del, get, h2, ih]
    · by_cases h2 : k1 = k'
      · subst h2
        simp [del, get, h1]
      · simp [del, get, h1, h2, ih]

theorem get_set_self (m : GoMap κ α) (k : κ) (v : α) : get (set m k v) k = some v := by
  simp [set, get]

theorem get_set_of_ne (m : GoMap κ α) {k k' : κ} (v : α) (h : k' ≠ k) :
    get (set m k v) k' = get m k' := by
  have h1 : ¬ k = k' := fun h2 => h h2.symm
  simp [set, get, h1, get_del_of_ne m h]

theorem get_set (m : GoMap κ α) (k k' : κ) (v : α) :
    get (set m k v) k' = if k' = k then some v else get m k' := by
  by_cases h : k' = k
  · subst h
    simp [get_set_self]
  · simp [h, get_set_of_ne]

theorem get_del (m : GoMap κ α) (k k' : κ) :
    get (del m k) k' = if k' = k then none else get m k' := by
  by_cases h : k' = k
  · subst h
    simp [get_del_self]
  · simp [h, get_del_of_ne]

theorem mem_keys_iff (m : GoMap κ α) (k : κ) : k ∈ keys m ↔ get m k ≠ none := by
  induction m with
  | nil => simp [keys, get]
  | cons e m ih =>
    obtain ⟨k1, v⟩ := e
    by_cases h : k1 = k
    · simp [keys, get, h]
    · have h1 : ¬ k = k1 := fun h2 => h h2.symm
      simp only [keys] at ih
      simp [keys, get, h, h1, ih]

theorem get_eq_none_iff (m : GoMap κ α) (k : κ) : get m k = none ↔ k ∉ keys m := by
  rw [mem_keys_iff]
  simp

theorem keys_del (m : GoMap κ α) (k : κ) :
    keys (del m k) = (keys m).filter (fun x => decide (x ≠ k)) := by
  induction m with
  | nil => rfl
  | cons e m ih =>
    obtain ⟨k1, v⟩ := e
    simp only [keys] at ih
    by_cases h : k1 = k
    · simp [del, keys, h, ih]
    · simp [del, keys, h, ih]

theorem nodup_keys_del (m : GoMap κ α) (k : κ) (h : (keys m).Nodup) :
    (keys (del m k)).Nodup := by
  rw [keys_del]
  exact h.filter _

theorem nodup_keys_set (m : GoMap κ α) (k : κ) (v : α) (h : (keys m).Nodup) :
    (keys (set m k v)).Nodup := by
  have h1 : keys (set m k v) = k :: keys (del m k) := rfl
  rw [h1, List.nodup_cons]
  refine ⟨?_, nodup_keys_del m k h⟩
  rw [← get_eq_none_iff]
  exact get_del_self m k

theorem length_del_le (m : GoMap κ α) (k : κ) : (del m k).length ≤ m.length := by
  induction m with
  | nil => simp [del]
  | cons e m ih =>
    obtain ⟨k1, v⟩ := e
    by_cases h : k1 = k
    · simp [del, h]
      omega
    · simp [del, h]
      omega

theorem del_eq_self_of_get_none (m : GoMap κ α) (k : κ) (h : get m k = none) :
    del m k = m := by
  induction m with
  | nil => rfl
  | cons e m ih =>
    obtain ⟨k1, v⟩ := e
    by_cases h1 : k1 = k
    · simp [get, h1] at h
    · simp [get, h1] at h
      simp [del, h1, ih h]

end GoMap

/-! ## Insert and Reference -/

theorem Lock_Unlock_of_free (db : Database) (h : db.lock.writer = false) :
    db.Lock.Unlock = db := by
  obtain ⟨d, n, p, t, g, s, ns, ps, ⟨r, w⟩⟩ := db
  simp only at h
  subst h
  rfl

theorem RLock_RUnlock (db : Database) : db.RLock.RUnlock = db := by
  obtain ⟨d, n, p, t, g, s, ns, ps, ⟨r, w⟩⟩ := db
  simp [Database.RLock, Database.RUnlock]

theorem insert_of_cached (db : Database) (hash : Hash) (blob : Bytes) (node : cachedNode)
    (h : db.nodes.get hash = some node) : insert db hash blob = db := by
  simp only [insert, h]

theorem insert_of_unknown (db : Database) (hash : Hash) (blob : Bytes)
    (h : db.nodes.get hash = none) :
    insert db hash blob =
      { db with
        nodes := db.nodes.set hash { blob := blob, parents := 0, children := [] }
        nodesSize := db.nodesSize + ((HashLength + blob.length : Nat) : Int) } := by
  simp only [insert, h]

theorem Insert_of_cached (db : Database) (hash : Hash) (blob : Bytes) (node : cachedNode)
    (h : db.nodes.get hash = some node) (hfree : db.lock.writer = false) :
    Insert db hash blob = db := by
  have h2 : db.Lock.nodes.get hash = some node := h
  rw [Insert, insert_of_cached _ _ _ _ h2]
  exact Lock_Unlock_of_free db hfree

theorem Insert_of_unknown (db : Database) (hash : Hash) (blob : Bytes)
    (h : db.nodes.get hash = none) :
    Insert db hash blob =
      { db with
        nodes := db.nodes.set hash { blob := blob, parents := 0, children := [] }
        nodesSize := db.nodesSize + ((HashLength + blob.length : Nat) : Int)
        lock := { db.lock with writer := false } } := by
  have h2 : db.Lock.nodes.get hash = none := h
  rw [Insert, insert_of_unknown _ _ _ h2]
  rfl

theorem Insert_writer (db : Database) (hash : Hash) (blob : Bytes) :
    (Insert db hash blob).lock.writer = false := rfl

/-- C8: `Insert` of a cached hash changes nothing (the first blob wins: `Node` still
returns it, and a second `Insert` of the same hash is without effect); `Insert` of an
unknown hash adds a node holding `blob` with `parents = 0` and no children, raises
`nodesSize` by `32 + len(blob)` and leaves every other node, the preimages and all other
fields as they were. -/
theorem Insert_spec (db : Database) (hash : Hash) (blob : Bytes)
    (hfree : db.lock.writer = false) :
    (∀ node, db.nodes.get hash = some node →
        Insert db hash blob = db ∧ Node (Insert db hash blob) hash = .ok node.blob) ∧
    (∀ blob2, Insert (Insert db hash blob) hash blob2 = Insert db hash blob) ∧
    (db.nodes.get hash = none →
        (Insert db hash blob).nodes.get hash
            = some { blob := blob, parents := 0, children := [] } ∧
        Node (Insert db hash blob) hash = .ok blob ∧
        (Insert db hash blob).nodesSize = db.nodesSize + (32 + (blob.length : Int)) ∧
        (∀ k, k ≠ hash → (Insert db hash blob).nodes.get k = db.nodes.get k) ∧
        (Insert db hash blob).preimages = db.preimages ∧
        (Insert db hash blob).preimagesSize = db.preimagesSize ∧
        (Insert db hash blob).diskdb = db.diskdb ∧
        (Insert db hash blob).gcnodes = db.gcnodes ∧
        (Insert db hash blob).gcsize = db.gcsize ∧
        (Insert db hash blob).gctime = db.gctime ∧
        (Insert db hash blob).lock = db.lock) := by
  refine ⟨?_, ?_, ?_⟩
  · intro node hnode
    rw [Insert_of_cached db hash blob node hnode hfree]
    simp [Node, hnode]
  · intro blob2
    cases hget : db.nodes.get hash with
    | some node =>
      rw [Insert_of_cached db hash blob node hget hfree]
      exact Insert_of_cached db hash blob2 node hget hfree
    | none =>
      have h1 : (Insert db hash blob).nodes.get hash
          = some { blob := blob, parents := 0, children := [] } := by
        rw [Insert_of_unknown db hash blob hget]
        exact GoMap.get_set_self _ _ _
      exact Insert_of_cached _ hash blob2 _ h1 (Insert_writer db hash blob)
  · intro hnone
    rw [Insert_of_unknown db hash blob hnone]
    refine ⟨GoMap.get_set_self _ _ _, ?_, ?_, ?_, rfl, rfl, rfl, rfl, rfl, rfl, ?_⟩
    · simp only [Node, GoMap.get_set_self]
    · simp only [HashLength]
      push_cast
      ring
    · intro k hk
      exact GoMap.get_set_of_ne _ _ hk
    · simp only [← hfree]

/-- Witness of `Insert_spec`: a new database, whose lock is free. -/
theorem Insert_spec_witness :
    (NewDatabase ⟨[], [], 0⟩).nodes.get 1 = none ∧
    (Insert (NewDatabase ⟨[], [], 0⟩) 1 [7]).nodesSize = 33 ∧
    Node (Insert (Insert (NewDatabase ⟨[], [], 0⟩) 1 [7]) 1 [8, 9]) 1 = .ok [7] := by
  have h := Insert_spec (NewDatabase ⟨[], [], 0⟩) 1 [7] rfl
  have h0 : (NewDatabase ⟨[], [], 0⟩).nodes.get 1 = none := by decide
  refine ⟨h0, ?_, ?_⟩
  · rw [(h.2.2 h0).2.2.1]
    decide
  · rw [h.2.1 [8, 9]]
    exact (h.2.2 h0).2.1

theorem reference_of_uncached (db : Database) (child parent : Hash)
    (h : db.nodes.get child = none) : reference db child parent = .ok db := by
  simp only [reference, h]

theorem reference_of_known_edge (db : Database) (child parent : Hash) (node pnode : cachedNode)
    (h : db.nodes.get child = some node) (hp : db.nodes.get parent = some pnode)
    (hedge : (pnode.children.get child).isSome) (hz : parent ≠ zeroHash) :
    reference db child parent = .ok db := by
  simp only [reference, h, hp]
  rw [if_pos ⟨hedge, hz⟩]

theorem reference_of_new_edge (db : Database) (child parent : Hash) (node pnode : cachedNode)
    (h : db.nodes.get child = some node) (hp : db.nodes.get parent = some pnode)
    (hnew : ¬ ((pnode.children.get child).isSome ∧ parent ≠ zeroHash)) :
    reference db child parent =
      .ok { db with
            nodes := (db.nodes.set child { node with parents := node.parents + 1 }).set parent
              { blob := pnode.blob
                parents := if parent = child then node.parents + 1 else pnode.parents
                children := pnode.children.set child ((pnode.children.get child).getD 0 + 1) } } := by
  simp only [reference, h, hp]
  rw [if_neg hnew]
  by_cases hpc : parent = child
  · subst hpc
    rw [h] at hp
    cases hp
    simp [GoMap.get_set_self]
  · simp [GoMap.get_set_of_ne _ _ hpc, hp, hpc]


theorem Res.bind_ok {α β : Type} (a : α) (f : α → Res β) : (Res.ok a).bind f = f a := rfl

/-- What `Reference(child, parent)` does for a cached parent: nothing when the child is
not cached, nothing when the edge exists already and the parent is not the zero-hash
sentinel, and otherwise `child.parents` and `parent.children[child]` go up by exactly one
and nothing else changes. -/
theorem Reference_effect (db : Database) (child parent : Hash) (pnode : cachedNode)
    (hp : db.nodes.get parent = some pnode) :
    (db.nodes.get child = none → Reference db child parent = .ok db) ∧
    (∀ node, db.nodes.get child = some node →
        (pnode.children.get child).isSome → parent ≠ zeroHash →
        Reference db child parent = .ok db) ∧
    (∀ node, db.nodes.get child = some node →
        ¬ ((pnode.children.get child).isSome ∧ parent ≠ zeroHash) →
        ∃ db2, Reference db child parent = .ok db2 ∧
          (∃ node2, db2.nodes.get child = some node2 ∧
            node2.parents = node.parents + 1 ∧ node2.blob = node.blob ∧
            (parent ≠ child → node2.children = node.children)) ∧
          (∃ pnode2, db2.nodes.get parent = some pnode2 ∧
            pnode2.children.get child = some ((pnode.children.get child).getD 0 + 1) ∧
            (∀ k, k ≠ child → pnode2.children.get k = pnode.children.get k) ∧
            pnode2.blob = pnode.blob ∧
            (parent ≠ child → pnode2.parents = pnode.parents)) ∧
          (∀ k, k ≠ child → k ≠ parent → db2.nodes.get k = db.nodes.get k) ∧
          db2.diskdb = db.diskdb ∧ db2.preimages = db.preimages ∧
          db2.nodesSize = db.nodesSize ∧ db2.preimagesSize = db.preimagesSize ∧
          db2.gcnodes = db.gcnodes ∧ db2.gcsize = db.gcsize ∧ db2.gctime = db.gctime ∧
          db2.lock = db.lock) := by
  have hp1 : db.RLock.nodes.get parent = some pnode := hp
  refine ⟨?_, ?_, ?_⟩
  · intro hc
    have hc1 : db.RLock.nodes.get child = none := hc
    rw [Reference, reference_of_uncached _ _ _ hc1, Res.bind_ok, RLock_RUnlock]
  · intro node hc hedge hz
    have hc1 : db.RLock.nodes.get child = some node := hc
    rw [Reference, reference_of_known_edge _ _ _ node pnode hc1 hp1 hedge hz, Res.bind_ok,
      RLock_RUnlock]
  · intro node hc hnew
    have hc1 : db.RLock.nodes.get child = some node := hc
    rw [Reference, reference_of_new_edge _ _ _ node pnode hc1 hp1 hnew, Res.bind_ok]
    refine ⟨_, rfl, ?_, ?_, ?_, rfl, rfl, rfl, rfl, rfl, rfl, rfl, ?_⟩
    · by_cases hpc : parent = child
      · subst hpc
        refine ⟨_, GoMap.get_set_self _ _ _, ?_, ?_, ?_⟩
        · simp
        · rw [hc] at hp
          cases hp
          rfl
        · intro h
          exact absurd rfl h
      · have hcp : child ≠ parent := fun h => hpc h.symm
        refine ⟨{ node with parents := node.parents + 1 }, ?_, rfl, rfl, fun _ => rfl⟩
        show GoMap.get (GoMap.set (GoMap.set db.nodes child _) parent _) child = _
        rw [GoMap.get_set_of_ne _ _ hcp, GoMap.get_set_self]
    · refine ⟨_, GoMap.get_set_self _ _ _, GoMap.get_set_self _ _ _, ?_, rfl, ?_⟩
      · intro k hk
        exact GoMap.get_set_of_ne _ _ hk
      · intro hpc
        simp [hpc]
    · intro k hkc hkp
      show GoMap.get (GoMap.set (GoMap.set db.nodes child _) parent _) k = _
      rw [GoMap.get_set_of_ne _ _ hkp, GoMap.get_set_of_ne _ _ hkc]
    · show (Database.RUnlock _).lock = db.lock
      obtain ⟨d, n, p, t, g, s, ns, ps, ⟨r, w⟩⟩ := db
      simp [Database.RLock, Database.RUnlock]

/-! ## The write batch -/

theorem Consumed.zero (f : List (Option Error)) : Consumed f f none :=
  ⟨0, by simp, by simp⟩

theorem Consumed.append {f f1 f2 : List (Option Error)} {r : Option Error}
    (h1 : Consumed f f1 none) (h2 : Consumed f1 f2 r) : Consumed f f2 r := by
  obtain ⟨n, hn, hall⟩ := h1
  subst hn
  have htake : ∀ m, ∀ x ∈ f.take (n + m), (∀ y ∈ (f.drop n).take m, y = none) → x = none := by
    intro m x hx hy
    rw [List.take_add, List.mem_append] at hx
    rcases hx with hx | hx
    · exact hall x hx
    · exact hy x hx
  cases r with
  | none =>
    obtain ⟨m, hm, hall2⟩ := h2
    refine ⟨n + m, ?_, fun x hx => htake m x hx hall2⟩
    rw [hm, List.drop_drop]
  | some e =>
    obtain ⟨m, hget, hall2, hm⟩ := h2
    refine ⟨n + m, ?_, fun x hx => htake m x hx hall2, ?_⟩
    · rw [← hget]
      simp [List.getElem?_drop]
    · rw [hm, List.drop_drop]
      rfl

theorem Batch.Put_consumed (b : Batch) (k : Key) (v : Bytes) :
    Consumed b.disk.faults (b.Put k v).2.disk.faults (b.Put k v).1 := by
  unfold Batch.Put
  cases hf : b.disk.faults with
  | nil => exact ⟨0, by simp, by simp⟩
  | cons x rest =>
    cases x with
    | none => exact ⟨1, by simp, by simp⟩
    | some e => exact ⟨0, by simp, by simp, by simp⟩

theorem Batch.Write_consumed (b : Batch) :
    Consumed b.disk.faults b.Write.2.disk.faults b.Write.1 := by
  unfold Batch.Write
  cases hf : b.disk.faults with
  | nil => exact ⟨0, by simp, by simp⟩
  | cons x rest =>
    cases x with
    | none => exact ⟨1, by simp, by simp⟩
    | some e => exact ⟨0, by simp, by simp, by simp⟩

theorem Batch.Put_ideal (b : Batch) (k : Key) (v : Bytes) :
    (b.Put k v).2.disk.idealBatchSize = b.disk.idealBatchSize := by
  unfold Batch.Put
  split <;> rfl

theorem Batch.Write_ideal (b : Batch) :
    b.Write.2.disk.idealBatchSize = b.disk.idealBatchSize := by
  unfold Batch.Write
  split <;> rfl

theorem Batch.Put_pending (b : Batch) (k : Key) (v : Bytes) (h : (b.Put k v).1 = none) :
    (b.Put k v).2.pending = GoMap.set b.pending k v := by
  unfold Batch.Put at h ⊢
  split at h
  · cases h
  · simp [Batch.pending, List.foldl_append]

theorem Batch.Write_data (b : Batch) (h : b.Write.1 = none) :
    b.Write.2.disk.data = b.pending ∧ b.Write.2.Reset.pending = b.pending := by
  unfold Batch.Write at h ⊢
  split at h
  · cases h
  · exact ⟨rfl, rfl⟩


/-! ## Commit, first phase -/

theorem Reach.cases_head {db : Database} {h m : Hash} (hr : Reach db h m) :
    m = h ∨ ∃ node c, db.nodes.get h = some node ∧ c ∈ node.children.keys ∧ Reach db c m := by
  cases hr with
  | refl => exact Or.inl rfl
  | step _ c _ node hn hc hcm => exact Or.inr ⟨node, c, hn, hc, hcm⟩

theorem WroteNodes.same (db : Database) (b : Batch) : WroteNodes db b b :=
  fun _ => Or.inl rfl

theorem WroteNodes.comp {db : Database} {b b1 b2 : Batch}
    (h1 : WroteNodes db b b1) (h2 : WroteNodes db b1 b2) : WroteNodes db b b2 := by
  intro k
  rcases h2 k with h | h
  · rcases h1 k with h3 | ⟨x, node, hk, hn, hv⟩
    · exact Or.inl (h.trans h3)
    · exact Or.inr ⟨x, node, hk, hn, h.trans hv⟩
  · exact Or.inr h

theorem Flushed.later {db : Database} {c : Hash} {b b2 : Batch}
    (h1 : Flushed db c b) (h2 : WroteNodes db b b2) : Flushed db c b2 := by
  intro h node hr hn
  rcases h2 (Key.raw h) with h3 | ⟨x, node2, hk, hn2, hv⟩
  · rw [h3]
    exact h1 h node hr hn
  · cases hk
    rw [hn] at hn2
    cases hn2
    exact hv

theorem WroteNodes.of_pending_eq {db : Database} {b b2 : Batch}
    (h : b2.pending = b.pending) : WroteNodes db b b2 :=
  fun _ => Or.inl (by rw [h])

theorem WroteNodes.of_put {db : Database} {b b2 : Batch} {hash : Hash} {node : cachedNode}
    (hn : db.nodes.get hash = some node)
    (h : b2.pending = GoMap.set b.pending (Key.raw hash) node.blob) : WroteNodes db b b2 := by
  intro k
  rw [h, GoMap.get_set]
  by_cases hk : k = Key.raw hash
  · exact Or.inr ⟨hash, node, hk, hn, by simp [hk]⟩
  · exact Or.inl (by simp [hk])

/-- What a run of `commit` or of its loop over `roots` does to the batch. -/
theorem commitLoop_spec (db : Database) (f : Batch → Hash → Res (Option Error × Batch))
    (hf : ∀ b c r b2, f b c = .ok (r, b2) →
      Consumed b.disk.faults b2.disk.faults r ∧
      b2.disk.idealBatchSize = b.disk.idealBatchSize ∧
      (r = none → WroteNodes db b b2 ∧ Flushed db c b2))
    (roots : List Hash) (b : Batch) (r : Option Error) (b2 : Batch)
    (h : commitLoop f roots b = .ok (r, b2)) :
    Consumed b.disk.faults b2.disk.faults r ∧
    b2.disk.idealBatchSize = b.disk.idealBatchSize ∧
    (r = none → WroteNodes db b b2 ∧ ∀ c ∈ roots, Flushed db c b2) := by
  induction roots generalizing b with
  | nil =>
    simp only [commitLoop, Res.ok.injEq, Prod.mk.injEq] at h
    obtain ⟨h1, h2⟩ := h
    subst h1 h2
    exact ⟨Consumed.zero _, rfl, fun _ => ⟨WroteNodes.same _ _, by simp⟩⟩
  | cons c rest ih =>
    simp only [commitLoop] at h
    cases hfc : f b c with
    | panic => simp [hfc] at h
    | outOfFuel => simp [hfc] at h
    | ok p =>
      obtain ⟨r1, b1⟩ := p
      obtain ⟨hc1, hi1, hw1⟩ := hf b c r1 b1 hfc
      cases r1 with
      | some e =>
        simp only [hfc, Res.ok.injEq, Prod.mk.injEq] at h
        obtain ⟨h1, h2⟩ := h
        subst h1 h2
        exact ⟨hc1, hi1, fun hne => by cases hne⟩
      | none =>
        simp only [hfc] at h
        obtain ⟨hc2, hi2, hw2⟩ := ih b1 h
        refine ⟨hc1.append hc2, hi2.trans hi1, fun hr => ?_⟩
        obtain ⟨hw, hfl⟩ := hw2 hr
        obtain ⟨hw0, hfl0⟩ := hw1 rfl
        refine ⟨hw0.comp hw, ?_⟩
        intro c2 hc2
        rcases List.mem_cons.mp hc2 with h3 | h3
        · subst h3
          exact hfl0.later hw
        · exact hfl c2 h3

theorem commit_spec (db : Database) (fuel : Nat) :
    ∀ (hash : Hash) (b : Batch) (r : Option Error) (b2 : Batch),
      commit fuel db hash b = .ok (r, b2) →
      Consumed b.disk.faults b2.disk.faults r ∧
      b2.disk.idealBatchSize = b.disk.idealBatchSize ∧
      (r = none → WroteNodes db b b2 ∧ Flushed db hash b2) := by
  induction fuel with
  | zero =>
    intro hash b r b2 h
    simp [commit] at h
  | succ fuel ih =>
    intro hash b r b2 h
    simp only [commit] at h
    cases hn : db.nodes.get hash with
    | none =>
      simp only [hn, Res.ok.injEq, Prod.mk.injEq] at h
      obtain ⟨h1, h2⟩ := h
      subst h1 h2
      refine ⟨Consumed.zero _, rfl, fun _ => ⟨WroteNodes.same _ _, ?_⟩⟩
      intro x node hr hx
      rcases hr.cases_head with h3 | ⟨node2, c, hn2, _, _⟩
      · subst h3
        rw [hn] at hx
        cases hx
      · rw [hn] at hn2
        cases hn2
    | some node =>
      simp only [hn] at h
      cases hl : commitLoop (fun b child => commit fuel db child b) node.children.keys b with
      | panic => simp [hl] at h
      | outOfFuel => simp [hl] at h
      | ok p =>
        obtain ⟨r1, b1⟩ := p
        obtain ⟨hc1, hi1, hw1⟩ := commitLoop_spec db _ (fun b c r b2 => ih c b r b2) _ _ _ _ hl
        cases r1 with
        | some e =>
          simp only [hl, Res.ok.injEq, Prod.mk.injEq] at h
          obtain ⟨h1, h2⟩ := h
          subst h1 h2
          exact ⟨hc1, hi1, fun hne => by cases hne⟩
        | none =>
          simp only [hl] at h
          obtain ⟨hw0, hfl0⟩ := hw1 rfl
          have hcp := Batch.Put_consumed b1 (Key.raw hash) node.blob
          have hip := Batch.Put_ideal b1 (Key.raw hash) node.blob
          have hpp := Batch.Put_pending b1 (Key.raw hash) node.blob
          -- the node itself and what lies below it
          have hfl : ∀ b3, WroteNodes db (b1.Put (Key.raw hash) node.blob).2 b3 →
              b3.pending.get (Key.raw hash) = some node.blob →
              (b1.Put (Key.raw hash) node.blob).1 = none → Flushed db hash b3 := by
            intro b3 hw3 hself hput x xnode hr hx
            rcases hr.cases_head with h3 | ⟨node2, c, hn2, hc, hcx⟩
            · subst h3
              rw [hn] at hx
              cases hx
              exact hself
            · rw [hn] at hn2
              cases hn2
              exact ((hfl0 c hc).later ((WroteNodes.of_put hn (hpp hput)).comp hw3)) x xnode hcx hx
          cases hput : b1.Put (Key.raw hash) node.blob with
          | mk e2 b2p =>
            rw [hput] at hcp hip hpp hfl
            simp only at hcp hip hpp hfl
            cases e2 with
            | some e =>
              simp only [hput, Res.ok.injEq, Prod.mk.injEq] at h
              obtain ⟨h1, h2⟩ := h
              subst h1 h2
              exact ⟨hc1.append hcp, hip.trans hi1, fun hne => by cases hne⟩
            | none =>
              have hpp2 := hpp rfl
              have hself : b2p.pending.get (Key.raw hash) = some node.blob := by
                rw [hpp2, GoMap.get_set_self]
              simp only [hput] at h
              split at h
              · have hcw := Batch.Write_consumed b2p
                have hiw := Batch.Write_ideal b2p
                have hdw := Batch.Write_data b2p
                cases hwr : b2p.Write with
                | mk e3 b3 =>
                  rw [hwr] at hcw hiw hdw
                  simp only at hcw hiw hdw
                  cases e3 with
                  | some e =>
                    simp only [hwr, Res.ok.injEq, Prod.mk.injEq] at h
                    obtain ⟨h1, h2⟩ := h
                    subst h1 h2
                    exact ⟨(hc1.append hcp).append hcw, hiw.trans (hip.trans hi1),
                      fun hne => by cases hne⟩
                  | none =>
                    simp only [hwr, Res.ok.injEq, Prod.mk.injEq] at h
                    obtain ⟨h1, h2⟩ := h
                    subst h1 h2
                    have hpe : b3.Reset.pending = b2p.pending := (hdw rfl).2
                    refine ⟨(hc1.append hcp).append hcw, hiw.trans (hip.trans hi1), fun _ => ?_⟩
                    refine ⟨hw0.comp ((WroteNodes.of_put hn hpp2).comp
                      (WroteNodes.of_pending_eq hpe)), ?_⟩
                    exact hfl _ (WroteNodes.of_pending_eq hpe) (by rw [hpe]; exact hself) rfl
              · simp only [Res.ok.injEq, Prod.mk.injEq] at h
                obtain ⟨h1, h2⟩ := h
                subst h1 h2
                refine ⟨hc1.append hcp, hip.trans hi1, fun _ => ?_⟩
                exact ⟨hw0.comp (WroteNodes.of_put hn hpp2),
                  hfl _ (WroteNodes.same _ _) hself rfl⟩


theorem Reach.congr (db db2 : Database) (h : db2.nodes = db.nodes) {a b : Hash}
    (hr : Reach db a b) : Reach db2 a b := by
  induction hr with
  | refl x => exact Reach.refl x
  | step x c m node hn hc _ ih => exact Reach.step x c m node (h ▸ hn) hc ih

/-- What the preimage loop of `Commit` does: the cache is not touched, and no raw-hash key
is written. -/
theorem commitPreimages_spec (l : List (Hash × Bytes)) :
    ∀ (db : Database) (b : Batch) (r : Option Error) (db1 : Database) (b1 : Batch),
      commitPreimages l db b = (r, db1, b1) →
      (db1 = db ∨ db1 = db.RUnlock) ∧
      Consumed b.disk.faults b1.disk.faults r ∧
      b1.disk.idealBatchSize = b.disk.idealBatchSize ∧
      (r = none → db1 = db ∧ ∀ h, b1.pending.get (Key.raw h) = b.pending.get (Key.raw h)) := by
  induction l with
  | nil =>
    intro db b r db1 b1 h
    simp only [commitPreimages, Prod.mk.injEq] at h
    obtain ⟨h1, h2, h3⟩ := h
    subst h1 h2 h3
    exact ⟨Or.inl rfl, Consumed.zero _, rfl, fun _ => ⟨rfl, fun _ => rfl⟩⟩
  | cons e rest ih =>
    obtain ⟨hash, preimage⟩ := e
    intro db b r db1 b1 h
    simp only [commitPreimages] at h
    have hcp := Batch.Put_consumed b (secureKey hash) preimage
    have hip := Batch.Put_ideal b (secureKey hash) preimage
    have hpp := Batch.Put_pending b (secureKey hash) preimage
    cases hput : b.Put (secureKey hash) preimage with
    | mk e2 b2 =>
      rw [hput] at hcp hip hpp
      simp only at hcp hip hpp
      cases e2 with
      | some e =>
        simp only [hput, Prod.mk.injEq] at h
        obtain ⟨h1, h2, h3⟩ := h
        subst h1 h2 h3
        exact ⟨Or.inr rfl, hcp, hip, fun hne => by cases hne⟩
      | none =>
        have hraw : ∀ h, b2.pending.get (Key.raw h) = b.pending.get (Key.raw h) := by
          intro h
          rw [hpp rfl]
          exact GoMap.get_set_of_ne _ _ (by simp [secureKey])
        simp only [hput] at h
        split at h
        · have hcw := Batch.Write_consumed b2
          have hiw := Batch.Write_ideal b2
          have hdw := Batch.Write_data b2
          cases hwr : b2.Write with
          | mk e3 b3 =>
            rw [hwr] at hcw hiw hdw
            simp only at hcw hiw hdw
            cases e3 with
            | some e =>
              simp only [hwr, Prod.mk.injEq] at h
              obtain ⟨h1, h2, h3⟩ := h
              subst h1 h2 h3
              exact ⟨Or.inl rfl, hcp.append hcw, hiw.trans hip, fun hne => by cases hne⟩
            | none =>
              simp only [hwr] at h
              obtain ⟨hd, hc, hi, hn⟩ := ih db b3.Reset r db1 b1 h
              refine ⟨hd, (hcp.append hcw).append hc, hi.trans (hiw.trans hip), fun hr => ?_⟩
              obtain ⟨hd1, hk⟩ := hn hr
              refine ⟨hd1, fun x => ?_⟩
              rw [hk x, (hdw rfl).2]
              exact hraw x
        · obtain ⟨hd, hc, hi, hn⟩ := ih db b2 r db1 b1 h
          refine ⟨hd, hcp.append hc, hi.trans hip, fun hr => ?_⟩
          obtain ⟨hd1, hk⟩ := hn hr
          exact ⟨hd1, fun x => by rw [hk x]; exact hraw x⟩

/-- What the first phase of `Commit` does: whatever it returns, the cache is as before;
the error it returns is the first failure the store gave; on success the lock is free
again and every cached node reachable from the root is in the store under its raw hash,
with its blob. -/
theorem CommitPhaseA_spec (fuel : Nat) (db : Database) (node : Hash) (r : Option Error)
    (dbA : Database) (h : CommitPhaseA fuel db node = .ok (r, dbA)) :
    (dbA.nodes = db.nodes ∧ dbA.preimages = db.preimages ∧
      dbA.nodesSize = db.nodesSize ∧ dbA.preimagesSize = db.preimagesSize ∧
      dbA.gcnodes = db.gcnodes ∧ dbA.gcsize = db.gcsize ∧ dbA.gctime = db.gctime) ∧
    Consumed db.diskdb.faults dbA.diskdb.faults r ∧
    dbA.diskdb.idealBatchSize = db.diskdb.idealBatchSize ∧
    (r = none → dbA.lock = db.lock ∧
      ∀ x xnode, Reach db node x → db.nodes.get x = some xnode →
        dbA.diskdb.data.get (Key.raw x) = some xnode.blob) := by
  unfold CommitPhaseA at h
  simp only at h
  cases hpre : commitPreimages db.RLock.preimages db.RLock (NewBatch db.RLock.diskdb) with
  | mk r1 p =>
    obtain ⟨db1, b1⟩ := p
    obtain ⟨hd, hc1, hi1, hn1⟩ := commitPreimages_spec _ _ _ _ _ _ hpre
    have hcache : ∀ d : Database, (d = db.RLock ∨ d = db.RLock.RUnlock) →
        ∀ disk, (({ d with diskdb := disk } : Database).nodes = db.nodes ∧
          ({ d with diskdb := disk } : Database).preimages = db.preimages ∧
          ({ d with diskdb := disk } : Database).nodesSize = db.nodesSize ∧
          ({ d with diskdb := disk } : Database).preimagesSize = db.preimagesSize ∧
          ({ d with diskdb := disk } : Database).gcnodes = db.gcnodes ∧
          ({ d with diskdb := disk } : Database).gcsize = db.gcsize ∧
          ({ d with diskdb := disk } : Database).gctime = db.gctime) := by
      intro d hd disk
      rcases hd with hd | hd <;> subst hd <;> exact ⟨rfl, rfl, rfl, rfl, rfl, rfl, rfl⟩
    cases r1 with
    | some e =>
      simp only [hpre, Res.ok.injEq, Prod.mk.injEq] at h
      obtain ⟨h1, h2⟩ := h
      subst h1 h2
      exact ⟨hcache db1 hd _, hc1, hi1, fun hne => by cases hne⟩
    | none =>
      obtain ⟨hd1, hraw⟩ := hn1 rfl
      subst hd1
      simp only [hpre] at h
      cases hcm : commit fuel db.RLock node b1 with
      | panic => simp [hcm] at h
      | outOfFuel => simp [hcm] at h
      | ok p2 =>
        obtain ⟨r2, b2⟩ := p2
        obtain ⟨hc2, hi2, hw2⟩ := commit_spec _ _ _ _ _ _ hcm
        cases r2 with
        | some e =>
          simp only [hcm, Res.ok.injEq, Prod.mk.injEq] at h
          obtain ⟨h1, h2⟩ := h
          subst h1 h2
          exact ⟨hcache _ (Or.inr rfl) _, hc1.append hc2, hi2.trans hi1, fun hne => by cases hne⟩
        | none =>
          simp only [hcm] at h
          have hcw := Batch.Write_consumed b2
          have hiw := Batch.Write_ideal b2
          have hdw := Batch.Write_data b2
          cases hwr : b2.Write with
          | mk e3 b3 =>
            rw [hwr] at hcw hiw hdw
            simp only at hcw hiw hdw
            cases e3 with
            | some e =>
              simp only [hwr, Res.ok.injEq, Prod.mk.injEq] at h
              obtain ⟨h1, h2⟩ := h
              subst h1 h2
              exact ⟨hcache _ (Or.inr rfl) _, (hc1.append hc2).append hcw,
                hiw.trans (hi2.trans hi1), fun hne => by cases hne⟩
            | none =>
              simp only [hwr, Res.ok.injEq, Prod.mk.injEq] at h
              obtain ⟨h1, h2⟩ := h
              subst h1 h2
              refine ⟨hcache _ (Or.inr rfl) _, (hc1.append hc2).append hcw,
                hiw.trans (hi2.trans hi1), fun _ => ⟨?_, ?_⟩⟩
              · show (Database.RUnlock (Database.RLock db)).lock = db.lock
                rw [RLock_RUnlock]
              · intro x xnode hr hx
                show b3.disk.data.get (Key.raw x) = some xnode.blob
                rw [(hdw rfl).1]
                exact (hw2 rfl).2 x xnode (@Reach.congr db db.RLock rfl _ _ hr) hx


/-! ## Commit, second phase -/

theorem Reach.mono {d d1 : Database}
    (hsub : ∀ k, d1.nodes.get k = none ∨ d1.nodes.get k = d.nodes.get k) {a b : Hash}
    (hr : Reach d1 a b) : Reach d a b := by
  induction hr with
  | refl x => exact Reach.refl x
  | step x c m node hn hc _ ih =>
    rcases hsub x with h | h
    · rw [hn] at h
      cases h
    · exact Reach.step x c m node (h ▸ hn) hc ih

theorem Uncached.nil (d : Database) : Uncached d [] d where
  frame := ⟨rfl, rfl, rfl, rfl, rfl, rfl, rfl⟩
  sub := fun _ => Or.inr rfl
  below := fun _ h => absurd rfl h
  closed := fun x node h1 h2 => by rw [h1] at h2; cases h2
  gone := fun _ h => by cases h

theorem Uncached.of_unknown (d : Database) (hash : Hash) (h : d.nodes.get hash = none) :
    Uncached d [hash] d where
  frame := ⟨rfl, rfl, rfl, rfl, rfl, rfl, rfl⟩
  sub := fun _ => Or.inr rfl
  below := fun _ h => absurd rfl h
  closed := fun x node h1 h2 => by rw [h1] at h2; cases h2
  gone := fun c hc => by
    rw [List.mem_singleton] at hc
    subst hc
    exact h

theorem Uncached.cons {d d1 d2 : Database} {c : Hash} {rest : List Hash}
    (h1 : Uncached d [c] d1) (h2 : Uncached d1 rest d2) : Uncached d (c :: rest) d2 where
  frame := by
    obtain ⟨a1, a2, a3, a4, a5, a6, a7⟩ := h1.frame
    obtain ⟨b1, b2, b3, b4, b5, b6, b7⟩ := h2.frame
    exact ⟨b1.trans a1, b2.trans a2, b3.trans a3, b4.trans a4, b5.trans a5, b6.trans a6,
      b7.trans a7⟩
  sub := by
    intro k
    rcases h2.sub k with h | h
    · exact Or.inl h
    · rcases h1.sub k with h3 | h3
      · exact Or.inl (h.trans h3)
      · exact Or.inr (h.trans h3)
  below := by
    intro k hk
    by_cases h : d1.nodes.get k = d.nodes.get k
    · have h3 : d2.nodes.get k ≠ d1.nodes.get k := fun h4 => hk (h4.trans h)
      obtain ⟨c2, hc2, hr⟩ := h2.below k h3
      exact ⟨c2, List.mem_cons_of_mem _ hc2, hr.mono h1.sub⟩
    · obtain ⟨c2, hc2, hr⟩ := h1.below k h
      rw [List.mem_singleton] at hc2
      subst hc2
      exact ⟨c2, List.mem_cons_self _ _, hr⟩
  closed := by
    intro x node hx hx2 y hy
    rcases h1.sub x with h | h
    · rcases h2.sub y with h3 | h3
      · exact h3
      · rw [h3]
        exact h1.closed x node hx h y hy
    · exact h2.closed x node (h.trans hx) hx2 y hy
  gone := by
    intro c2 hc2
    rcases List.mem_cons.mp hc2 with h | h
    · subst h
      rcases h2.sub c2 with h3 | h3
      · exact h3
      · rw [h3]
        exact h1.gone c2 (List.mem_singleton.mpr rfl)
    · exact h2.gone c2 h

theorem Uncached.of_children {d d1 : Database} {hash : Hash} {node : cachedNode} (size : Int)
    (hn : d.nodes.get hash = some node) (h1 : Uncached d node.children.keys d1) :
    Uncached d [hash] { d1 with nodes := d1.nodes.del hash, nodesSize := size } where
  frame := h1.frame
  sub := by
    intro k
    show GoMap.get (GoMap.del d1.nodes hash) k = none ∨ GoMap.get (GoMap.del d1.nodes hash) k = _
    rw [GoMap.get_del]
    by_cases hk : k = hash
    · exact Or.inl (by simp [hk])
    · simp only [hk, if_false]
      exact h1.sub k
  below := by
    intro k hk
    refine ⟨hash, List.mem_singleton.mpr rfl, ?_⟩
    by_cases hkh : k = hash
    · subst hkh
      exact Reach.refl k
    · have h2 : d1.nodes.get k ≠ d.nodes.get k := by
        intro h3
        apply hk
        show GoMap.get (GoMap.del d1.nodes hash) k = _
        rw [GoMap.get_del_of_ne _ hkh]
        exact h3
      obtain ⟨c, hc, hr⟩ := h1.below k h2
      exact Reach.step hash c k node hn hc hr
  closed := by
    intro x xnode hx hx2 y hy
    show GoMap.get (GoMap.del d1.nodes hash) y = none
    rw [GoMap.get_del]
    by_cases hyh : y = hash
    · simp [hyh]
    · simp only [hyh, if_false]
      by_cases hxh : x = hash
      · subst hxh
        rw [hn] at hx
        cases hx
        exact h1.gone y hy
      · have h3 : d1.nodes.get x = none := by
          have h4 : GoMap.get (GoMap.del d1.nodes hash) x = none := hx2
          rw [GoMap.get_del_of_ne _ hxh] at h4
          exact h4
        exact h1.closed x xnode hx h3 y hy
  gone := by
    intro c hc
    rw [List.mem_singleton] at hc
    subst hc
    exact GoMap.get_del_self _ _

theorem Uncached.removed {d d2 : Database} {roots : List Hash} (h : Uncached d roots d2)
    {x k : Hash} (hx : d2.nodes.get x = none) (hr : Reach d x k) : d2.nodes.get k = none := by
  induction hr with
  | refl x => exact hx
  | step x c m node hn hc _ ih => exact ih (h.closed x node hn hx c hc)

theorem Uncached.kept {d d2 : Database} {c : Hash} (h : Uncached d [c] d2)
    {k : Hash} (hr : ¬ Reach d c k) : d2.nodes.get k = d.nodes.get k := by
  by_contra hne
  obtain ⟨c2, hc2, hr2⟩ := h.below k hne
  rw [List.mem_singleton] at hc2
  subst hc2
  exact hr hr2

theorem rangeLoop_uncached (f : Database → Hash → Res Database)
    (hf : ∀ d c d2, f d c = .ok d2 → Uncached d [c] d2) (roots : List Hash) :
    ∀ (d d2 : Database), rangeLoop f roots d = .ok d2 → Uncached d roots d2 := by
  induction roots with
  | nil =>
    intro d d2 h
    simp only [rangeLoop, Res.ok.injEq] at h
    subst h
    exact Uncached.nil d
  | cons c rest ih =>
    intro d d2 h
    simp only [rangeLoop] at h
    cases hfc : f d c with
    | panic => simp [hfc] at h
    | outOfFuel => simp [hfc] at h
    | ok d1 =>
      simp only [hfc] at h
      exact (hf d c d1 hfc).cons (ih d1 d2 h)

theorem uncache_spec (fuel : Nat) :
    ∀ (d : Database) (hash : Hash) (d2 : Database),
      uncache fuel d hash = .ok d2 → Uncached d [hash] d2 := by
  induction fuel with
  | zero =>
    intro d hash d2 h
    simp [uncache] at h
  | succ fuel ih =>
    intro d hash d2 h
    simp only [uncache] at h
    cases hn : d.nodes.get hash with
    | none =>
      simp only [hn, Res.ok.injEq] at h
      subst h
      exact Uncached.of_unknown d hash hn
    | some node =>
      simp only [hn] at h
      cases hl : rangeLoop (fun d child => uncache fuel d child) node.children.keys d with
      | panic => simp [hl] at h
      | outOfFuel => simp [hl] at h
      | ok d1 =>
        simp only [hl, Res.ok.injEq] at h
        subst h
        exact Uncached.of_children _ hn (rangeLoop_uncached _ ih _ d d1 hl)


/-! ## Commit -/

theorem Commit_ok_none (fuel : Nat) (db : Database) (node : Hash) (report : Bool)
    (dbB : Database) (h : Commit fuel db node report = .ok (none, dbB)) :
    ∃ dbA, CommitPhaseA fuel db node = .ok (none, dbA) ∧
      CommitPhaseB fuel dbA node = .ok dbB := by
  unfold Commit at h
  cases hA : CommitPhaseA fuel db node with
  | panic => simp [hA] at h
  | outOfFuel => simp [hA] at h
  | ok p =>
    obtain ⟨r, dbA⟩ := p
    cases r with
    | some e => simp [hA] at h
    | none =>
      simp only [hA] at h
      cases hB : CommitPhaseB fuel dbA node with
      | panic => simp [hB, Res.bind] at h
      | outOfFuel => simp [hB, Res.bind] at h
      | ok d =>
        simp only [hB, Res.bind, Res.ok.injEq, Prod.mk.injEq, true_and] at h
        subst h
        exact ⟨dbA, rfl, hB⟩

theorem Commit_ok_some (fuel : Nat) (db : Database) (node : Hash) (report : Bool)
    (e : Error) (db2 : Database) (h : Commit fuel db node report = .ok (some e, db2)) :
    CommitPhaseA fuel db node = .ok (some e, db2) := by
  unfold Commit at h
  cases hA : CommitPhaseA fuel db node with
  | panic => simp [hA] at h
  | outOfFuel => simp [hA] at h
  | ok p =>
    obtain ⟨r, dbA⟩ := p
    cases r with
    | some e2 =>
      simp only [hA, Res.ok.injEq, Prod.mk.injEq, Option.some.injEq] at h
      obtain ⟨h1, h2⟩ := h
      subst h1 h2
      rfl
    | none =>
      simp only [hA] at h
      cases hB : CommitPhaseB fuel dbA node with
      | panic => simp [hB, Res.bind] at h
      | outOfFuel => simp [hB, Res.bind] at h
      | ok d => simp [hB, Res.bind] at h

/-- What the second phase of `Commit` does. -/
theorem CommitPhaseB_spec (fuel : Nat) (dbA : Database) (node : Hash) (dbB : Database)
    (h : CommitPhaseB fuel dbA node = .ok dbB) :
    dbB.preimages = [] ∧ dbB.preimagesSize = 0 ∧
    dbB.gcnodes = 0 ∧ dbB.gcsize = 0 ∧ dbB.gctime = 0 ∧
    dbB.diskdb = dbA.diskdb ∧
    (∀ x, Reach dbA node x → dbB.nodes.get x = none) ∧
    (∀ x, ¬ Reach dbA node x → dbB.nodes.get x = dbA.nodes.get x) ∧
    (∀ x, dbB.nodes.get x = none ∨ dbB.nodes.get x = dbA.nodes.get x) := by
  unfold CommitPhaseB at h
  simp only at h
  cases hu : uncache fuel { dbA.Lock with preimages := [], preimagesSize := 0 } node with
  | panic => simp [hu, Res.bind] at h
  | outOfFuel => simp [hu, Res.bind] at h
  | ok d =>
    simp only [hu, Res.bind, Res.ok.injEq] at h
    subst h
    have hs := uncache_spec fuel _ node d hu
    obtain ⟨f1, f2, f3, _, _, _, _⟩ := hs.frame
    refine ⟨f2, f3, rfl, rfl, rfl, f1, ?_, ?_, hs.sub⟩
    · intro x hr
      exact hs.removed (hs.gone node (List.mem_singleton.mpr rfl))
        (Reach.congr dbA { dbA.Lock with preimages := [], preimagesSize := 0 } rfl hr)
    · intro x hr
      exact hs.kept (fun hr2 => hr (Reach.congr { dbA.Lock with preimages := [], preimagesSize := 0 } dbA rfl hr2))

/-- C2: when `Commit(root)` returns nil, every node that was cached and reachable from
`root` through children edges is in the store under its raw hash, with its blob. -/
theorem Commit_durable (fuel : Nat) (db : Database) (root : Hash) (report : Bool)
    (db2 : Database) (h : Commit fuel db root report = .ok (none, db2)) :
    ∀ x xnode, Reach db root x → db.nodes.get x = some xnode →
      db2.diskdb.Get (Key.raw x) = .ok xnode.blob ∧ db2.diskdb.Has (Key.raw x) = true := by
  intro x xnode hr hx
  obtain ⟨dbA, hA, hB⟩ := Commit_ok_none fuel db root report db2 h
  have h1 := ((CommitPhaseA_spec fuel db root none dbA hA).2.2.2 rfl).2 x xnode hr hx
  have h2 := (CommitPhaseB_spec fuel dbA root db2 hB).2.2.2.2.2.1
  rw [h2]
  simp [DiskDB.Get, DiskDB.Has, h1]

/-- Witness of `Commit_durable`: committing node 1 of the sample cache puts node 3, two
edges below it, into the store. -/
theorem Commit_durable_witness :
    ∃ db2, Commit 3 sampleDb 1 true = .ok (none, db2) ∧
      db2.diskdb.Get (Key.raw 3) = .ok [] ∧ db2.diskdb.Get (Key.raw 2) = .ok [3] := by
  obtain ⟨db2, hc⟩ : ∃ db2, Commit 3 sampleDb 1 true = .ok (none, db2) := ⟨_, rfl⟩
  refine ⟨db2, hc, ?_, ?_⟩
  · exact (Commit_durable 3 sampleDb 1 true _ hc 3 ⟨[], 2, []⟩
      (Reach.step 1 3 3 ⟨[1, 2], 1, [(3, 1), (2, 1)]⟩ (by decide) (by decide) (Reach.refl 3))
      (by decide)).1
  · exact (Commit_durable 3 sampleDb 1 true _ hc 2 ⟨[3], 1, [(3, 1)]⟩
      (Reach.step 1 2 2 ⟨[1, 2], 1, [(3, 1), (2, 1)]⟩ (by decide) (by decide) (Reach.refl 2))
      (by decide)).1


/-- C3: the error `Commit(root)` returns is the failure the store gave to a batch `Put` or
`Write` (every outcome consumed before it was a success, and a `Commit` that returns nil
met no failure); when it returns an error the result is that of the first phase alone,
and the node map, the preimage map, `nodesSize`, `preimagesSize` and the GC counters are
as before the call. -/
theorem Commit_failed (fuel : Nat) (db : Database) (root : Hash) (report : Bool)
    (r : Option Error) (db2 : Database) (h : Commit fuel db root report = .ok (r, db2)) :
    Consumed db.diskdb.faults db2.diskdb.faults r ∧
    ∀ e, r = some e →
      CommitPhaseA fuel db root = .ok (some e, db2) ∧
      db2.nodes = db.nodes ∧ db2.preimages = db.preimages ∧
      db2.nodesSize = db.nodesSize ∧ db2.preimagesSize = db.preimagesSize ∧
      db2.gcnodes = db.gcnodes ∧ db2.gcsize = db.gcsize ∧ db2.gctime = db.gctime := by
  cases r with
  | none =>
    obtain ⟨dbA, hA, hB⟩ := Commit_ok_none fuel db root report db2 h
    refine ⟨?_, fun e he => by cases he⟩
    rw [(CommitPhaseB_spec fuel dbA root db2 hB).2.2.2.2.2.1]
    exact (CommitPhaseA_spec fuel db root none dbA hA).2.1
  | some e =>
    have hA := Commit_ok_some fuel db root report e db2 h
    have hs := CommitPhaseA_spec fuel db root (some e) db2 hA
    refine ⟨hs.2.1, fun e2 he => ?_⟩
    cases he
    exact ⟨hA, hs.1⟩

/-- Witness of `Commit_failed`: the store fails the second batch call with error 3; the
sample cache is as before. -/
theorem Commit_failed_witness :
    ∃ db2, Commit 3 { sampleDb with diskdb := ⟨[], [none, some ⟨3⟩], 100⟩ } 1 true
        = .ok (some ⟨3⟩, db2) ∧
      db2.nodes = sampleDb.nodes ∧ db2.preimages = sampleDb.preimages := by
  obtain ⟨db2, hc⟩ : ∃ db2,
      Commit 3 { sampleDb with diskdb := ⟨[], [none, some ⟨3⟩], 100⟩ } 1 true
        = .ok (some ⟨3⟩, db2) := ⟨_, rfl⟩
  have h := (Commit_failed 3 _ 1 true _ db2 hc).2 ⟨3⟩ rfl
  exact ⟨db2, hc, h.2.1, h.2.2.1⟩

/-- C9: after a successful `Commit(root)` the preimage map is empty, `preimagesSize` and
the GC counters are 0, no hash that was reachable from `root` is in the node map, and
every node that was cached and not reachable from `root` is still cached, unaltered. -/
theorem Commit_uncaches (fuel : Nat) (db : Database) (root : Hash) (report : Bool)
    (db2 : Database) (h : Commit fuel db root report = .ok (none, db2)) :
    db2.preimages = [] ∧ db2.preimagesSize = 0 ∧
    db2.gcnodes = 0 ∧ db2.gcsize = 0 ∧ db2.gctime = 0 ∧
    (∀ x, Reach db root x → db2.nodes.get x = none) ∧
    (∀ x xnode, db.nodes.get x = some xnode → ¬ Reach db root x →
      db2.nodes.get x = some xnode ∧ Node db2 x = .ok xnode.blob) := by
  obtain ⟨dbA, hA, hB⟩ := Commit_ok_none fuel db root report db2 h
  obtain ⟨⟨hn, _⟩, _⟩ := CommitPhaseA_spec fuel db root none dbA hA
  obtain ⟨h1, h2, h3, h4, h5, _, h7, h8, _⟩ := CommitPhaseB_spec fuel dbA root db2 hB
  refine ⟨h1, h2, h3, h4, h5, ?_, ?_⟩
  · intro x hr
    exact h7 x (Reach.congr db dbA hn hr)
  · intro x xnode hx hr
    have h9 : db2.nodes.get x = some xnode := by
      rw [h8 x (fun hr2 => hr (Reach.congr dbA db hn.symm hr2)), hn]
      exact hx
    exact ⟨h9, by simp [Node, h9]⟩

/-- Witness of `Commit_uncaches`: committing node 1 of the sample cache removes node 3
and keeps node 4. -/
theorem Commit_uncaches_witness :
    ∃ db2, Commit 3 sampleDb 1 true = .ok (none, db2) ∧
      db2.preimages = [] ∧ db2.nodes.get 3 = none ∧ Node db2 4 = .ok [4, 4] := by
  obtain ⟨db2, hc⟩ : ∃ db2, Commit 3 sampleDb 1 true = .ok (none, db2) := ⟨_, rfl⟩
  have h := Commit_uncaches 3 sampleDb 1 true db2 hc
  refine ⟨db2, hc, h.1, ?_, ?_⟩
  · exact h.2.2.2.2.2.1 3
      (Reach.step 1 3 3 ⟨[1, 2], 1, [(3, 1), (2, 1)]⟩ (by decide) (by decide) (Reach.refl 3))
  · refine (h.2.2.2.2.2.2 4 ⟨[4, 4], 0, []⟩ (by decide) ?_).2
    intro hr
    rcases hr.cases_head with h1 | ⟨node, c, hn, hc1, hr1⟩
    · exact absurd h1 (by decide)
    · have hn1 : node = ⟨[1, 2], 1, [(3, 1), (2, 1)]⟩ := by
        have : sampleDb.nodes.get 1 = some ⟨[1, 2], 1, [(3, 1), (2, 1)]⟩ := by decide
        rw [this] at hn
        exact (Option.some.inj hn).symm
      subst hn1
      have hc2 : c = 3 ∨ c = 2 := by simpa [GoMap.keys] using hc1
      have h3 : ¬ Reach sampleDb 3 4 := by
        intro hr3
        rcases hr3.cases_head with h1 | ⟨node, c, hn, hc1, _⟩
        · exact absurd h1 (by decide)
        · have : sampleDb.nodes.get 3 = some ⟨[], 2, []⟩ := by decide
          rw [this] at hn
          cases hn
          simp [GoMap.keys] at hc1
      rcases hc2 with h2 | h2
      · subst h2
        exact h3 hr1
      · subst h2
        rcases hr1.cases_head with h1 | ⟨node, c, hn, hc1, hr2⟩
        · exact absurd h1 (by decide)
        · have : sampleDb.nodes.get 2 = some ⟨[3], 1, [(3, 1)]⟩ := by decide
          rw [this] at hn
          cases hn
          have hc3 : c = 3 := by simpa [GoMap.keys] using hc1
          subst hc3
          exact h3 hr2

/-- C4: a successful `Commit(root)` is the first phase followed by the second, and for
every cached node reachable from `root`, `Node` returns its blob before the call, at every
point of the first phase (the cache is intact, whatever the store holds), after the first
phase, at every point of the second phase (the store holds the blob, whether or not the
node has left the cache yet) and after the call; at each of these points the hash is in
the cache or in the store. -/
theorem Commit_consistent (fuel : Nat) (db : Database) (root : Hash) (report : Bool)
    (dbB : Database) (h : Commit fuel db root report = .ok (none, dbB)) :
    ∃ dbA, CommitPhaseA fuel db root = .ok (none, dbA) ∧
      CommitPhaseB fuel dbA root = .ok dbB ∧
      ∀ x xnode, Reach db root x → db.nodes.get x = some xnode →
        Node db x = .ok xnode.blob ∧
        (∀ d : Database, d.nodes = db.nodes → Node d x = .ok xnode.blob) ∧
        Node dbA x = .ok xnode.blob ∧
        (dbA.nodes.get x = some xnode ∧ dbA.diskdb.Has (Key.raw x) = true) ∧
        (∀ d : Database, d.diskdb = dbA.diskdb →
          (d.nodes.get x = none ∨ d.nodes.get x = some xnode) → Node d x = .ok xnode.blob) ∧
        Node dbB x = .ok xnode.blob ∧
        (dbB.nodes.get x = none ∧ dbB.diskdb.Has (Key.raw x) = true) := by
  obtain ⟨dbA, hA, hB⟩ := Commit_ok_none fuel db root report dbB h
  refine ⟨dbA, hA, hB, ?_⟩
  intro x xnode hr hx
  obtain ⟨⟨hn, _⟩, _, _, hdisk⟩ := CommitPhaseA_spec fuel db root none dbA hA
  have hd := (hdisk rfl).2 x xnode hr hx
  obtain ⟨_, _, _, _, _, h6, h7, _, _⟩ := CommitPhaseB_spec fuel dbA root dbB hB
  have hgone := h7 x (Reach.congr db dbA hn hr)
  have hcache : ∀ d : Database, d.nodes = db.nodes → Node d x = .ok xnode.blob := by
    intro d hd
    simp [Node, hd, hx]
  have hstore : ∀ d : Database, d.diskdb = dbA.diskdb →
      (d.nodes.get x = none ∨ d.nodes.get x = some xnode) → Node d x = .ok xnode.blob := by
    intro d hdd hc
    rcases hc with hc | hc
    · simp [Node, hc, hdd, DiskDB.Get, hd]
    · simp [Node, hc]
  refine ⟨hcache db rfl, hcache, hcache dbA hn, ⟨?_, ?_⟩, hstore, hstore dbB h6 (Or.inl hgone),
    hgone, ?_⟩
  · rw [hn]
    exact hx
  · simp [DiskDB.Has, hd]
  · rw [h6]
    simp [DiskDB.Has, hd]

/-- Witness of `Commit_consistent`: node 2 of the sample cache through the commit of
node 1. -/
theorem Commit_consistent_witness :
    ∃ dbB, Commit 3 sampleDb 1 true = .ok (none, dbB) ∧
      Node sampleDb 2 = .ok [3] ∧ Node dbB 2 = .ok [3] ∧ dbB.nodes.get 2 = none := by
  obtain ⟨dbB, hc⟩ : ∃ db2, Commit 3 sampleDb 1 true = .ok (none, db2) := ⟨_, rfl⟩
  obtain ⟨dbA, _, _, h⟩ := Commit_consistent 3 sampleDb 1 true dbB hc
  have h2 := h 2 ⟨[3], 1, [(3, 1)]⟩
    (Reach.step 1 2 2 ⟨[1, 2], 1, [(3, 1), (2, 1)]⟩ (by decide) (by decide) (Reach.refl 2))
    (by decide)
  exact ⟨dbB, hc, h2.1, h2.2.2.2.2.2.1, h2.2.2.2.2.2.2.1⟩


/-! ## Dereference: the cascade on arbitrary states -/

theorem GoMap.sum_del {α : Type} (f : α → Int) (m : GoMap Hash α) (k : Hash) (old : α)
    (hnd : (GoMap.keys m).Nodup) (hget : GoMap.get m k = some old) :
    ((GoMap.del m k).map (fun e => f e.2)).sum = (m.map (fun e => f e.2)).sum - f old := by
  induction m with
  | nil => simp [GoMap.get] at hget
  | cons e m ih =>
    obtain ⟨k1, v⟩ := e
    have hnd2 : (GoMap.keys m).Nodup := (List.nodup_cons.mp hnd).2
    have hk1 : k1 ∉ GoMap.keys m := (List.nodup_cons.mp hnd).1
    by_cases h : k1 = k
    · subst h
      simp only [GoMap.get, if_true, Option.some.injEq] at hget
      subst hget
      have hnone : GoMap.get m k1 = none := (GoMap.get_eq_none_iff m k1).mpr hk1
      simp [GoMap.del, GoMap.del_eq_self_of_get_none m k1 hnone]
    · simp only [GoMap.get, h, if_false] at hget
      simp only [GoMap.del, h, if_false, List.map_cons, List.sum_cons, ih hnd2 hget]
      ring

theorem GoMap.sum_set {α : Type} (f : α → Int) (m : GoMap Hash α) (k : Hash) (old v : α)
    (hnd : (GoMap.keys m).Nodup) (hget : GoMap.get m k = some old) :
    ((GoMap.set m k v).map (fun e => f e.2)).sum
      = (m.map (fun e => f e.2)).sum - f old + f v := by
  simp only [GoMap.set, List.map_cons, List.sum_cons, GoMap.sum_del f m k old hnd hget]
  ring

theorem liveCount_del_le (m : GoMap Hash cachedNode) (k : Hash) :
    liveCount (GoMap.del m k) ≤ liveCount m := by
  induction m with
  | nil => simp [GoMap.del]
  | cons e m ih =>
    obtain ⟨k1, v⟩ := e
    by_cases h : k1 = k
    · simp only [GoMap.del, h, if_true]
      refine le_trans ih ?_
      simp only [liveCount, List.filter_cons]
      split
      · simp
      · exact le_refl _
    · simp only [GoMap.del, h, if_false]
      simp only [liveCount, List.filter_cons] at ih ⊢
      split
      · simp only [List.length_cons]
        omega
      · exact ih

theorem liveCount_del_lt (m : GoMap Hash cachedNode) (k : Hash) (old : cachedNode)
    (hget : GoMap.get m k = some old) (hpos : 0 < old.parents) :
    liveCount (GoMap.del m k) + 1 ≤ liveCount m := by
  induction m with
  | nil => simp [GoMap.get] at hget
  | cons e m ih =>
    obtain ⟨k1, v⟩ := e
    by_cases h : k1 = k
    · simp only [GoMap.get, h, if_true, Option.some.injEq] at hget
      subst hget
      simp only [GoMap.del, h, if_true]
      have h1 := liveCount_del_le m k
      simp only [liveCount, List.filter_cons, hpos, decide_True, if_true, List.length_cons] at h1 ⊢
      omega
    · simp only [GoMap.get, h, if_false] at hget
      have h1 := ih hget
      simp only [GoMap.del, h, if_false]
      simp only [liveCount, List.filter_cons] at h1 ⊢
      split
      · simp only [List.length_cons]
        omega
      · exact h1

theorem liveCount_set_le (m : GoMap Hash cachedNode) (k : Hash) (old v : cachedNode)
    (hget : GoMap.get m k = some old) (hle : v.parents ≤ old.parents) :
    liveCount (GoMap.set m k v) ≤ liveCount m := by
  by_cases hpos : 0 < v.parents
  · have h1 := liveCount_del_lt m k old hget (lt_of_lt_of_le hpos hle)
    simp only [GoMap.set, liveCount, List.filter_cons, hpos, decide_True, if_true,
      List.length_cons] at h1 ⊢
    exact h1
  · have h1 := liveCount_del_le m k
    simp only [GoMap.set, liveCount, List.filter_cons, hpos, decide_False] at h1 ⊢
    exact h1

theorem liveCount_set_lt (m : GoMap Hash cachedNode) (k : Hash) (old v : cachedNode)
    (hget : GoMap.get m k = some old) (hpos : 0 < old.parents) (hv : v.parents ≤ 0) :
    liveCount (GoMap.set m k v) + 1 ≤ liveCount m := by
  have h1 := liveCount_del_lt m k old hget hpos
  have hv2 : ¬ 0 < v.parents := not_lt.mpr hv
  simp only [GoMap.set, liveCount, List.filter_cons, hv2, decide_False] at h1 ⊢
  exact h1

theorem liveCount_le_length (m : GoMap Hash cachedNode) : liveCount m ≤ m.length :=
  List.length_filter_le _ _

theorem Derefd.rfl (d : Database) : Derefd d d where
  frame := ⟨Eq.refl _, Eq.refl _, Eq.refl _, Eq.refl _, Eq.refl _, Eq.refl _, Eq.refl _⟩
  survive := fun _ node h hp => ⟨node, h, hp⟩
  sub := fun _ node h => ⟨node, h, Eq.refl _, le_refl _⟩
  live := le_refl _
  size := fun h => ⟨h, Eq.refl _⟩

theorem Derefd.seq {d d1 d2 : Database} (h1 : Derefd d d1) (h2 : Derefd d1 d2) :
    Derefd d d2 where
  frame := by
    obtain ⟨a1, a2, a3, a4, a5, a6, a7⟩ := h1.frame
    obtain ⟨b1, b2, b3, b4, b5, b6, b7⟩ := h2.frame
    exact ⟨b1.trans a1, b2.trans a2, b3.trans a3, b4.trans a4, b5.trans a5, b6.trans a6,
      b7.trans a7⟩
  survive := by
    intro k node hk hp
    obtain ⟨n1, hk1, hp1⟩ := h1.survive k node hk hp
    exact h2.survive k n1 hk1 hp1
  sub := by
    intro k n2 hk
    obtain ⟨n1, hk1, hb1, hp1⟩ := h2.sub k n2 hk
    obtain ⟨n0, hk0, hb0, hp0⟩ := h1.sub k n1 hk1
    exact ⟨n0, hk0, hb0.trans hb1, le_trans hp1 hp0⟩
  live := le_trans h2.live h1.live
  size := by
    intro hnd
    obtain ⟨hnd1, hs1⟩ := h1.size hnd
    obtain ⟨hnd2, hs2⟩ := h2.size hnd1
    exact ⟨hnd2, hs2.trans hs1⟩

/-- Writing back a node with the same blob and no more parents. -/
theorem Derefd.of_set (d : Database) (k : Hash) (old v : cachedNode)
    (hget : d.nodes.get k = some old) (hb : v.blob = old.blob)
    (hp : v.parents ≤ old.parents) :
    Derefd d { d with nodes := d.nodes.set k v } where
  frame := ⟨Eq.refl _, Eq.refl _, Eq.refl _, Eq.refl _, Eq.refl _, Eq.refl _, Eq.refl _⟩
  survive := by
    intro k2 node hk2 hp2
    show ∃ node2, GoMap.get (GoMap.set d.nodes k v) k2 = some node2 ∧ node2.parents ≤ 0
    rw [GoMap.get_set]
    by_cases h : k2 = k
    · subst h
      rw [hget] at hk2
      cases hk2
      exact ⟨v, by simp, le_trans hp hp2⟩
    · exact ⟨node, by simp [h, hk2], hp2⟩
  sub := by
    intro k2 node2 hk2
    have hk3 : GoMap.get (GoMap.set d.nodes k v) k2 = some node2 := hk2
    rw [GoMap.get_set] at hk3
    by_cases h : k2 = k
    · subst h
      simp only [if_true, Option.some.injEq] at hk3
      subst hk3
      exact ⟨old, hget, hb.symm, hp⟩
    · simp only [h, if_false] at hk3
      exact ⟨node2, hk3, Eq.refl _, le_refl _⟩
  live := liveCount_set_le d.nodes k old v hget hp
  size := by
    intro hnd
    refine ⟨GoMap.nodup_keys_set _ _ _ hnd, ?_⟩
    show d.nodesSize - footprint (GoMap.set d.nodes k v) = _
    have h1 := GoMap.sum_set nodeSize d.nodes k old v hnd hget
    unfold footprint
    rw [h1]
    simp only [nodeSize, hb]
    ring

/-- Removing a node that had a positive `parents` count at the start, with the matching
decrease of `nodesSize`. -/
theorem Derefd.of_del {d d3 : Database} (child : Hash) (node n3 : cachedNode)
    (h : Derefd d d3) (hpos : ∀ n, d.nodes.get child = some n → 0 < n.parents)
    (h3 : d3.nodes.get child = some n3) (hb : n3.blob = node.blob) :
    Derefd d { d3 with
               nodes := d3.nodes.del child
               nodesSize := d3.nodesSize - ((HashLength + node.blob.length : Nat) : Int) } where
  frame := h.frame
  survive := by
    intro k n hk hp
    obtain ⟨n2, hk2, hp2⟩ := h.survive k n hk hp
    have hne : k ≠ child := by
      intro hkc
      subst hkc
      exact absurd (hpos n hk) (not_lt.mpr hp)
    exact ⟨n2, by show GoMap.get (GoMap.del d3.nodes child) k = _
                  rw [GoMap.get_del_of_ne _ hne]; exact hk2, hp2⟩
  sub := by
    intro k n2 hk
    have hk2 : GoMap.get (GoMap.del d3.nodes child) k = some n2 := hk
    rw [GoMap.get_del] at hk2
    by_cases hkc : k = child
    · simp [hkc] at hk2
    · simp only [hkc, if_false] at hk2
      exact h.sub k n2 hk2
  live := le_trans (liveCount_del_le _ _) h.live
  size := by
    intro hnd
    obtain ⟨hnd3, hs3⟩ := h.size hnd
    refine ⟨GoMap.nodup_keys_del _ _ hnd3, ?_⟩
    show d3.nodesSize - ((HashLength + node.blob.length : Nat) : Int)
      - footprint (GoMap.del d3.nodes child) = _
    have h1 := GoMap.sum_del nodeSize d3.nodes child n3 hnd3 h3
    rw [← hs3]
    unfold footprint
    rw [h1]
    simp only [nodeSize, hb]
    ring


theorem dereference_succ (fuel : Nat) (db : Database) (child parent : Hash) :
    dereference (fuel + 1) db child parent =
      match db.nodes.get parent with
      | none => .panic
      | some pnode =>
        match (GoMap.set db.nodes parent (decrEdge pnode child)).get child with
        | none => .ok { db with nodes := db.nodes.set parent (decrEdge pnode child) }
        | some node =>
          if node.parents - 1 = 0 then
            match rangeLoop (fun d hash => dereference fuel d hash child) node.children.keys
                { db with
                  nodes := (db.nodes.set parent (decrEdge pnode child)).set child
                    { node with parents := node.parents - 1 } } with
            | .ok db3 =>
              .ok { db3 with
                    nodes := db3.nodes.del child
                    nodesSize := db3.nodesSize - ((HashLength + node.blob.length : Nat) : Int) }
            | .panic => .panic
            | .outOfFuel => .outOfFuel
          else
            .ok { db with
                  nodes := (db.nodes.set parent (decrEdge pnode child)).set child
                    { node with parents := node.parents - 1 } } := by
  rfl

theorem GoMap.mem_keys_del {α : Type} (m : GoMap Hash α) (k y : Hash)
    (h : y ∈ GoMap.keys (GoMap.del m k)) : y ∈ GoMap.keys m ∧ y ≠ k := by
  rw [GoMap.keys_del, List.mem_filter] at h
  exact ⟨h.1, by simpa using h.2⟩

theorem mem_keys_decrEdge (pnode : cachedNode) (child y : Hash)
    (h : y ∈ (decrEdge pnode child).children.keys) : y ∈ pnode.children.keys ∨ y = child := by
  unfold decrEdge at h
  simp only at h
  split at h
  · obtain ⟨h1, h2⟩ := GoMap.mem_keys_del _ _ _ h
    have h3 : y ∈ child :: GoMap.keys (GoMap.del pnode.children child) := h1
    rcases List.mem_cons.mp h3 with h4 | h4
    · exact absurd h4 h2
    · exact Or.inl (GoMap.mem_keys_del _ _ _ h4).1
  · have h1 : y ∈ child :: GoMap.keys (GoMap.del pnode.children child) := h
    rcases List.mem_cons.mp h1 with h2 | h2
    · exact Or.inr h2
    · exact Or.inl (GoMap.mem_keys_del _ _ _ h2).1

theorem ChildKeysIn.in_set {A : Hash → Prop} {d : Database} (k : Hash) (v : cachedNode)
    (h : ChildKeysIn A d) (hv : ∀ y ∈ v.children.keys, A y) :
    ChildKeysIn A { d with nodes := d.nodes.set k v } := by
  intro k2 n hk2 y hy
  have hk3 : GoMap.get (GoMap.set d.nodes k v) k2 = some n := hk2
  rw [GoMap.get_set] at hk3
  by_cases hk : k2 = k
  · simp only [hk, if_true, Option.some.injEq] at hk3
    subst hk3
    exact hv y hy
  · simp only [hk, if_false] at hk3
    exact h k2 n hk3 y hy

theorem ChildKeysIn.in_del {A : Hash → Prop} {d : Database} (k : Hash) (size : Int)
    (h : ChildKeysIn A d) :
    ChildKeysIn A { d with nodes := d.nodes.del k, nodesSize := size } := by
  intro k2 n hk2 y hy
  have hk3 : GoMap.get (GoMap.del d.nodes k) k2 = some n := hk2
  rw [GoMap.get_del] at hk3
  by_cases hk : k2 = k
  · simp [hk] at hk3
  · simp only [hk, if_false] at hk3
    exact h k2 n hk3 y hy

theorem rangeLoop_total (fuel : Nat) (child : Hash)
    (ih : ∀ (db : Database) (c : Hash), db.nodes.get child ≠ none → liveCount db.nodes < fuel →
      ∃ db2, dereference fuel db c child = .ok db2 ∧ Derefd db db2 ∧
        ∀ A : Hash → Prop, A c → ChildKeysIn A db → ChildKeysIn A db2)
    (keys : List Hash) :
    ∀ d : Database, (∃ n, d.nodes.get child = some n ∧ n.parents ≤ 0) →
      liveCount d.nodes < fuel →
      ∃ d2, rangeLoop (fun d hash => dereference fuel d hash child) keys d = .ok d2 ∧
        Derefd d d2 ∧
        ∀ A : Hash → Prop, (∀ y ∈ keys, A y) → ChildKeysIn A d → ChildKeysIn A d2 := by
  induction keys with
  | nil =>
    intro d _ _
    exact ⟨d, rfl, Derefd.rfl d, fun _ _ h => h⟩
  | cons hash rest ihl =>
    intro d hc hl
    obtain ⟨n, hn, hp⟩ := hc
    obtain ⟨d1, h1, hd1, hk1⟩ := ih d hash (by rw [hn]; simp) hl
    obtain ⟨d2, h2, hd2, hk2⟩ :=
      ihl d1 (hd1.survive child n hn hp) (lt_of_le_of_lt hd1.live hl)
    refine ⟨d2, ?_, hd1.seq hd2, ?_⟩
    · simp only [rangeLoop, h1]
      exact h2
    · intro A hA hin
      exact hk2 A (fun y hy => hA y (List.mem_cons_of_mem _ hy))
        (hk1 A (hA hash (List.mem_cons_self _ _)) hin)

/-- The cascade of `dereference` returns whenever the parent is cached and the depth
allowed exceeds the number of nodes with a positive `parents` count. -/
theorem dereference_total (fuel : Nat) :
    ∀ (db : Database) (child parent : Hash), db.nodes.get parent ≠ none →
      liveCount db.nodes < fuel →
      ∃ db2, dereference fuel db child parent = .ok db2 ∧ Derefd db db2 ∧
        ∀ A : Hash → Prop, A child → ChildKeysIn A db → ChildKeysIn A db2 := by
  induction fuel with
  | zero =>
    intro db child parent _ hl
    omega
  | succ fuel ih =>
    intro db child parent hp hl
    rw [dereference_succ]
    cases hpn : db.nodes.get parent with
    | none => exact absurd hpn hp
    | some pnode =>
      simp only
      have hd1 : Derefd db { db with nodes := db.nodes.set parent (decrEdge pnode child) } :=
        Derefd.of_set db parent pnode _ hpn rfl (le_refl _)
      have hk1 : ∀ A : Hash → Prop, A child → ChildKeysIn A db →
          ChildKeysIn A { db with nodes := db.nodes.set parent (decrEdge pnode child) } := by
        intro A hA hin
        refine hin.in_set parent _ ?_
        intro y hy
        rcases mem_keys_decrEdge pnode child y hy with h | h
        · exact hin parent pnode hpn y h
        · exact h ▸ hA
      cases hcn : (GoMap.set db.nodes parent (decrEdge pnode child)).get child with
      | none => exact ⟨_, rfl, hd1, hk1⟩
      | some node =>
        simp only
        have hd2 : Derefd { db with nodes := db.nodes.set parent (decrEdge pnode child) }
            { db with
              nodes := (db.nodes.set parent (decrEdge pnode child)).set child
                { node with parents := node.parents - 1 } } :=
          Derefd.of_set _ child node _ hcn rfl (by simp)
        by_cases hz : node.parents - 1 = 0
        · rw [if_pos hz]
          have hpos : 0 < node.parents := by omega
          have hlive := liveCount_set_lt (GoMap.set db.nodes parent (decrEdge pnode child))
            child node { node with parents := node.parents - 1 } hcn hpos (by simp [hz])
          have hl1 := hd1.live
          simp only at hl1
          obtain ⟨d3, h3, hd3, hk3⟩ := rangeLoop_total fuel child
            (fun d c hc hl => ih d c child hc hl) node.children.keys
            { db with
              nodes := (db.nodes.set parent (decrEdge pnode child)).set child
                { node with parents := node.parents - 1 } }
            ⟨_, GoMap.get_set_self _ _ _, by simp [hz]⟩ (by simp only; omega)
          rw [h3]
          simp only
          obtain ⟨n3, hn3, _⟩ := hd3.survive child { node with parents := node.parents - 1 }
            (GoMap.get_set_self _ _ _) (by simp [hz])
          obtain ⟨n2, hn2, hb2, _⟩ := hd3.sub child n3 hn3
          have hn2' : n2 = { node with parents := node.parents - 1 } := by
            have h4 : GoMap.get (GoMap.set (GoMap.set db.nodes parent (decrEdge pnode child))
                child { node with parents := node.parents - 1 }) child = some n2 := hn2
            rw [GoMap.get_set_self] at h4
            exact (Option.some.inj h4).symm
          subst hn2'
          refine ⟨_, rfl, Derefd.of_del child node n3 ((hd1.seq hd2).seq hd3) ?_ hn3 hb2.symm,
            ?_⟩
          · intro n hn
            obtain ⟨n0, hn0, _, hp0⟩ := hd1.sub child node hcn
            rw [hn] at hn0
            cases hn0
            omega
          · intro A hA hin
            have hin1 := hk1 A hA hin
            refine ChildKeysIn.in_del child _ (hk3 A (fun y hy => hin1 child node hcn y hy) ?_)
            exact hin1.in_set child _ (fun y hy => hin1 child node hcn y hy)
        · rw [if_neg hz]
          refine ⟨_, rfl, hd1.seq hd2, ?_⟩
          intro A hA hin
          have hin1 := hk1 A hA hin
          exact hin1.in_set child _ (fun y hy => hin1 child node hcn y hy)


/-! ## Dereference -/

theorem Dereference_ok (db : Database) (child parent : Hash) (elapsed : Int)
    (hp : db.nodes.get parent ≠ none) :
    ∃ d, dereference (derefFuel db.Lock) db.Lock child parent = .ok d ∧ Derefd db.Lock d ∧
      (∀ A : Hash → Prop, A child → ChildKeysIn A db → ChildKeysIn A d) ∧
      Dereference db child parent elapsed =
        .ok { d with
              gcnodes := (d.gcnodes + (db.nodes.length - d.nodes.length)) % 2 ^ 64
              gcsize := d.gcsize + (db.nodesSize - d.nodesSize)
              gctime := d.gctime + elapsed }.Unlock := by
  have hl : liveCount db.Lock.nodes < derefFuel db.Lock :=
    Nat.lt_succ_of_le (liveCount_le_length _)
  obtain ⟨d, hd, hrel, hkeys⟩ := dereference_total _ db.Lock child parent hp hl
  refine ⟨d, hd, hrel, hkeys, ?_⟩
  unfold Dereference
  simp only [hd, Res.bind]
  rfl

/-- C10: when the parent is cached, `Dereference(child, parent)` returns, in every cache
state: neither the call nor any recursive call of its cascade indexes a missing node, and
the private `dereference` returns at every depth bound above the number of nodes with a
positive `parents` count. -/
theorem Dereference_no_panic (db : Database) (child parent : Hash) (elapsed : Int)
    (hp : db.nodes.get parent ≠ none) :
    (∃ db2, Dereference db child parent elapsed = .ok db2) ∧
    (∀ fuel, liveCount db.nodes < fuel → ∃ db2, dereference fuel db child parent = .ok db2) := by
  refine ⟨?_, ?_⟩
  · obtain ⟨d, _, _, _, h⟩ := Dereference_ok db child parent elapsed hp
    exact ⟨_, h⟩
  · intro fuel hl
    obtain ⟨d, hd, _⟩ := dereference_total fuel db child parent hp hl
    exact ⟨d, hd⟩

/-- Witness of `Dereference_no_panic`: in the sample cache the sentinel is a cached parent
and dereferencing its child 1 cascades through nodes 2 and 3; with a parent that is not
cached the call faults. -/
theorem Dereference_no_panic_witness :
    (∃ db2, Dereference sampleDb 1 zeroHash 0 = .ok db2) ∧
    (Dereference sampleDb 1 zeroHash 0).bind (fun d => .ok (Nodes d)) = .ok [4] ∧
    Dereference sampleDb 1 9 0 = .panic :=
  ⟨(Dereference_no_panic sampleDb 1 zeroHash 0 (by decide)).1, by decide, by decide⟩


/-! ## Size conservation -/

theorem GoMap.del_eq_filter {α : Type} (m : GoMap Hash α) (k : Hash) :
    GoMap.del m k = m.filter (fun e => decide (e.1 ≠ k)) := by
  induction m with
  | nil => rfl
  | cons e m ih =>
    obtain ⟨k1, v⟩ := e
    by_cases h : k1 = k
    · simp [GoMap.del, h, ih]
    · simp [GoMap.del, h, ih]

theorem nodesFootprint_eq (db : Database) :
    nodesFootprint db = footprint (GoMap.del db.nodes zeroHash) := by
  rw [GoMap.del_eq_filter]
  rfl

theorem footprint_set_new (m : GoMap Hash cachedNode) (k : Hash) (v : cachedNode)
    (h : GoMap.get m k = none) : footprint (GoMap.set m k v) = footprint m + nodeSize v := by
  simp only [footprint, GoMap.set, GoMap.del_eq_self_of_get_none m k h, List.map_cons,
    List.sum_cons]
  ring

theorem footprint_set_same (m : GoMap Hash cachedNode) (k : Hash) (old v : cachedNode)
    (hnd : (GoMap.keys m).Nodup) (h : GoMap.get m k = some old) (hb : v.blob = old.blob) :
    footprint (GoMap.set m k v) = footprint m := by
  unfold footprint
  rw [GoMap.sum_set nodeSize m k old v hnd h]
  simp only [nodeSize, hb]
  ring

theorem SizeInv.of_eq {d d2 : Database} (h : SizeInv d) (h1 : d2.nodes = d.nodes)
    (h2 : d2.nodesSize = d.nodesSize) (h3 : d2.preimages = d.preimages)
    (h4 : d2.preimagesSize = d.preimagesSize) : SizeInv d2 := by
  unfold SizeInv preimagesFootprint at *
  rw [h1, h2, h3, h4]
  exact h

theorem SizeInv.size {db : Database} (h : SizeInv db) :
    Size db = nodesFootprint db + preimagesFootprint db := by
  obtain ⟨hnd, ⟨s, hs, _, hb⟩, hn, hp⟩ := h
  have h1 := GoMap.sum_del nodeSize db.nodes zeroHash s hnd hs
  rw [Size, hn, hp, nodesFootprint_eq]
  unfold footprint
  rw [h1]
  simp [nodeSize, hb, HashLength]

theorem SizeInv.size_new (diskdb : DiskDB) : SizeInv (NewDatabase diskdb) := by
  refine ⟨?_, ⟨_, rfl, le_refl _, rfl⟩, ?_, ?_⟩
  · simp [NewDatabase, GoMap.keys]
  · simp [NewDatabase, footprint, nodeSize, HashLength]
  · simp [NewDatabase, preimagesFootprint]

theorem SizeInv.size_Insert {db : Database} (h : SizeInv db) (hash : Hash) (blob : Bytes) :
    SizeInv (Insert db hash blob) := by
  cases hget : db.nodes.get hash with
  | some node =>
    have h2 : db.Lock.nodes.get hash = some node := hget
    rw [Insert, insert_of_cached _ _ _ _ h2]
    exact h.of_eq rfl rfl rfl rfl
  | none =>
    rw [Insert_of_unknown db hash blob hget]
    obtain ⟨hnd, ⟨s, hs, hsp, hsb⟩, hn, hp⟩ := h
    have hne : zeroHash ≠ hash := by
      intro h0
      rw [h0, hget] at hs
      cases hs
    refine ⟨GoMap.nodup_keys_set _ _ _ hnd, ⟨s, ?_, hsp, hsb⟩, ?_, hp⟩
    · show GoMap.get (GoMap.set db.nodes hash _) zeroHash = some s
      rw [GoMap.get_set_of_ne _ _ hne]
      exact hs
    · show db.nodesSize + _ = footprint (GoMap.set db.nodes hash _) - 32
      rw [footprint_set_new _ _ _ hget, hn]
      simp only [nodeSize]
      ring

theorem SizeInv.size_insertPreimage {db : Database} (h : SizeInv db) (hash : Hash)
    (preimage : Bytes) : SizeInv (insertPreimage db hash preimage) := by
  unfold insertPreimage
  cases hget : db.preimages.get hash with
  | some _ => exact h
  | none =>
    obtain ⟨hnd, hs, hn, hp⟩ := h
    refine ⟨hnd, hs, hn, ?_⟩
    simp only [preimagesFootprint, GoMap.set, GoMap.del_eq_self_of_get_none _ _ hget,
      List.map_cons, List.sum_cons]
    rw [hp]
    simp only [preimagesFootprint]
    ring

theorem Reference_cases (db : Database) (child parent : Hash) (db2 : Database)
    (h : Reference db child parent = .ok db2) :
    db2 = db ∨ ∃ node pnode, db.nodes.get child = some node ∧
      db.nodes.get parent = some pnode ∧
      ¬ ((pnode.children.get child).isSome ∧ parent ≠ zeroHash) ∧
      db2 = { db with
              nodes := (db.nodes.set child { node with parents := node.parents + 1 }).set parent
                { blob := pnode.blob
                  parents := if parent = child then node.parents + 1 else pnode.parents
                  children := pnode.children.set child
                    ((pnode.children.get child).getD 0 + 1) } } := by
  unfold Reference at h
  cases hc : db.nodes.get child with
  | none =>
    have hc1 : db.RLock.nodes.get child = none := hc
    rw [reference_of_uncached _ _ _ hc1, Res.bind_ok, RLock_RUnlock] at h
    cases h
    exact Or.inl rfl
  | some node =>
    have hc1 : db.RLock.nodes.get child = some node := hc
    cases hp : db.nodes.get parent with
    | none =>
      have hp1 : db.RLock.nodes.get parent = none := hp
      simp [reference, hc1, hp1, Res.bind] at h
    | some pnode =>
      have hp1 : db.RLock.nodes.get parent = some pnode := hp
      by_cases hedge : (pnode.children.get child).isSome ∧ parent ≠ zeroHash
      · rw [reference_of_known_edge _ _ _ node pnode hc1 hp1 hedge.1 hedge.2, Res.bind_ok,
          RLock_RUnlock] at h
        cases h
        exact Or.inl rfl
      · rw [reference_of_new_edge _ _ _ node pnode hc1 hp1 hedge, Res.bind_ok] at h
        cases h
        refine Or.inr ⟨node, pnode, rfl, rfl, hedge, ?_⟩
        obtain ⟨d, n, p, t, g, s, ns, ps, ⟨r, w⟩⟩ := db
        simp [Database.RLock, Database.RUnlock]

theorem SizeInv.size_Reference {db : Database} (h : SizeInv db) (child parent : Hash)
    (hc : child ≠ zeroHash) (db2 : Database) (hr : Reference db child parent = .ok db2) :
    SizeInv db2 := by
  rcases Reference_cases db child parent db2 hr with h1 | ⟨node, pnode, hcn, hpn, _, h1⟩
  · rw [h1]
    exact h
  · subst h1
    obtain ⟨hnd, ⟨s, hs, hsp, hsb⟩, hn, hp⟩ := h
    have hnd1 := GoMap.nodup_keys_set db.nodes child { node with parents := node.parents + 1 } hnd
    have hz1 : GoMap.get (GoMap.set db.nodes child { node with parents := node.parents + 1 })
        zeroHash = some s := by
      rw [GoMap.get_set_of_ne _ _ (Ne.symm hc)]
      exact hs
    refine ⟨GoMap.nodup_keys_set _ _ _ hnd1, ?_, ?_, hp⟩
    · by_cases hpz : parent = zeroHash
      · subst hpz
        rw [hs] at hpn
        cases hpn
        refine ⟨_, GoMap.get_set_self _ _ _, ?_, hsb⟩
        simp only [Ne.symm hc, if_false]
        exact hsp
      · refine ⟨s, ?_, hsp, hsb⟩
        show GoMap.get (GoMap.set _ parent _) zeroHash = some s
        rw [GoMap.get_set_of_ne _ _ (Ne.symm hpz)]
        exact hz1
    · show db.nodesSize = footprint (GoMap.set (GoMap.set db.nodes child _) parent _) - 32
      have hf1 : footprint (GoMap.set db.nodes child { node with parents := node.parents + 1 })
          = footprint db.nodes := footprint_set_same _ _ node _ hnd hcn rfl
      have key : footprint (GoMap.set
          (GoMap.set db.nodes child { node with parents := node.parents + 1 }) parent
            { blob := pnode.blob
              parents := if parent = child then node.parents + 1 else pnode.parents
              children := pnode.children.set child ((pnode.children.get child).getD 0 + 1) })
          = footprint db.nodes := by
        by_cases hpc : parent = child
        · subst hpc
          rw [hcn] at hpn
          cases hpn
          exact (footprint_set_same _ _ _ _ hnd1 (GoMap.get_set_self _ _ _) rfl).trans hf1
        · have hp1 : GoMap.get
              (GoMap.set db.nodes child { node with parents := node.parents + 1 })
              parent = some pnode := by
            rw [GoMap.get_set_of_ne _ _ hpc]
            exact hpn
          exact (footprint_set_same _ _ pnode _ hnd1 hp1 rfl).trans hf1
      rw [key]
      exact hn

theorem SizeInv.size_Dereference {db : Database} (h : SizeInv db) (child parent : Hash)
    (elapsed : Int) (db2 : Database) (hr : Dereference db child parent elapsed = .ok db2) :
    SizeInv db2 := by
  have hp : db.nodes.get parent ≠ none := by
    intro hp
    have hp1 : db.Lock.nodes.get parent = none := hp
    simp [Dereference, derefFuel, dereference, hp1, Res.bind] at hr
  obtain ⟨d, _, hrel, _, hD⟩ := Dereference_ok db child parent elapsed hp
  rw [hD] at hr
  cases hr
  obtain ⟨hnd, ⟨s, hs, hsp, hsb⟩, hn, hpre⟩ := h
  obtain ⟨hnd2, hsz⟩ := hrel.size hnd
  obtain ⟨s2, hs2, hsp2⟩ := hrel.survive zeroHash s hs hsp
  obtain ⟨s0, hs0, hsb0, _⟩ := hrel.sub zeroHash s2 hs2
  have hs0' : db.nodes.get zeroHash = some s0 := hs0
  rw [hs] at hs0'
  cases hs0'
  obtain ⟨_, f2, f3, _⟩ := hrel.frame
  refine ⟨hnd2, ⟨s2, hs2, hsp2, hsb0.symm.trans hsb⟩, ?_, ?_⟩
  · show d.nodesSize = footprint d.nodes - 32
    have h1 : d.nodesSize - footprint d.nodes = db.nodesSize - footprint db.nodes := hsz
    rw [hn] at h1
    linarith
  · show d.preimagesSize = preimagesFootprint _
    unfold preimagesFootprint
    show d.preimagesSize = (List.map _ d.preimages).sum
    rw [f2, f3]
    exact hpre

theorem SizeInv.size_step {db : Database} (h : SizeInv db) (op : Op) (h1 : op.noCommit = true)
    (h2 : op.refChildNonzero = true) (db2 : Database) (hs : step db op = .ok db2) :
    SizeInv db2 := by
  cases op with
  | Insert hash blob =>
    simp only [step, Res.ok.injEq] at hs
    subst hs
    exact h.size_Insert hash blob
  | insertPreimage hash preimage =>
    simp only [step, Res.ok.injEq] at hs
    subst hs
    exact h.size_insertPreimage hash preimage
  | Reference child parent =>
    exact h.size_Reference child parent (by simpa [Op.refChildNonzero] using h2) db2 hs
  | Dereference child parent elapsed => exact h.size_Dereference child parent elapsed db2 hs
  | Commit fuel node report => simp [Op.noCommit] at h1

theorem SizeInv.size_run (ops : List Op) :
    ∀ db : Database, SizeInv db →
      (∀ op ∈ ops, op.noCommit = true ∧ op.refChildNonzero = true) →
      ∀ db2, run db ops = .ok db2 → SizeInv db2 := by
  induction ops with
  | nil =>
    intro db h _ db2 hr
    simp only [run, Res.ok.injEq] at hr
    subst hr
    exact h
  | cons op ops ih =>
    intro db h hops db2 hr
    simp only [run] at hr
    cases hs : step db op with
    | panic => simp [hs, Res.bind] at hr
    | outOfFuel => simp [hs, Res.bind] at hr
    | ok d1 =>
      simp only [hs, Res.bind] at hr
      have hop := hops op (List.mem_cons_self _ _)
      exact ih d1 (h.size_step op hop.1 hop.2 d1 hs)
        (fun o ho => hops o (List.mem_cons_of_mem _ ho)) db2 hr

/-- C1, as the code has it: after every sequence of `Insert`, `insertPreimage`,
`Reference` and `Dereference` calls on a new database that does not fault and in which no
`Reference` names the zero hash as its child, `Size()` is the sum of `32 + len(blob)`
over the nodes listed by `Nodes()` plus the sum of `32 + len(preimage)` over the cached
preimages. -/
theorem Size_conservation (diskdb : DiskDB) (ops : List Op) (db : Database)
    (hops : ∀ op ∈ ops, op.noCommit = true ∧ op.refChildNonzero = true)
    (hrun : run (NewDatabase diskdb) ops = .ok db) :
    Size db = nodesFootprint db + preimagesFootprint db :=
  (SizeInv.size_run ops (NewDatabase diskdb) (SizeInv.size_new diskdb) hops db hrun).size

/-- Witness of `Size_conservation`: a run with a cascade. -/
theorem Size_conservation_witness :
    ∃ db, run (NewDatabase ⟨[], [], 0⟩)
        [.Insert 1 [1, 2], .Insert 2 [3], .insertPreimage 7 [9], .Reference 1 0,
          .Reference 2 1, .Insert 3 [5], .Dereference 1 0 0] = .ok db ∧
      Size db = nodesFootprint db + preimagesFootprint db ∧ Size db = 66 := by
  obtain ⟨db, hr⟩ : ∃ db, run (NewDatabase ⟨[], [], 0⟩)
        [.Insert 1 [1, 2], .Insert 2 [3], .insertPreimage 7 [9], .Reference 1 0,
          .Reference 2 1, .Insert 3 [5], .Dereference 1 0 0] = .ok db := ⟨_, rfl⟩
  refine ⟨db, hr, Size_conservation ⟨[], [], 0⟩ _ db (by decide) hr, ?_⟩
  have h : (run (NewDatabase ⟨[], [], 0⟩)
        [.Insert 1 [1, 2], .Insert 2 [3], .insertPreimage 7 [9], .Reference 1 0,
          .Reference 2 1, .Insert 3 [5], .Dereference 1 0 0]).bind (fun d => .ok (Size d))
      = .ok 66 := by decide
  rw [hr] at h
  exact Res.ok.inj h

/-- C1 as stated fails: referencing the sentinel from itself and dereferencing it again
evicts the sentinel and takes 32 bytes off `nodesSize` that were never added; `Size()` is
then -32 while no node and no preimage is cached. -/
theorem Size_conservation_fails :
    ∃ db, run (NewDatabase ⟨[], [], 0⟩) [.Reference 0 0, .Dereference 0 0 0] = .ok db ∧
      Nodes db = [] ∧ db.preimages = [] ∧ Size db = -32 ∧
      Size db ≠ nodesFootprint db + preimagesFootprint db := by
  refine ⟨_, rfl, ?_, ?_, ?_, ?_⟩ <;> decide


/-! ## The root sentinel -/

theorem ChildKeysIn.of_sub {A : Hash → Prop} {d d2 : Database} (h : ChildKeysIn A d)
    (hsub : ∀ k, d2.nodes.get k = none ∨ d2.nodes.get k = d.nodes.get k) :
    ChildKeysIn A d2 := by
  intro k n hk y hy
  rcases hsub k with h1 | h1
  · rw [hk] at h1
    cases h1
  · exact h k n (h1 ▸ hk) y hy

theorem Reach.ne_zero {db : Database} (h : ChildKeysIn (fun y => y ≠ zeroHash) db)
    {root x : Hash} (hroot : root ≠ zeroHash) (hr : Reach db root x) : x ≠ zeroHash := by
  induction hr with
  | refl _ => exact hroot
  | step a c m node hn hc _ ih => exact ih (h a node hn c hc)

theorem SentinelInv.kept_new (diskdb : DiskDB) : SentinelInv (NewDatabase diskdb) := by
  refine ⟨⟨_, rfl, le_refl _⟩, ?_⟩
  intro k n hk y hy
  simp only [NewDatabase, GoMap.get] at hk
  split at hk
  · cases hk
    simp [GoMap.keys] at hy
  · cases hk

theorem SentinelInv.kept_Insert {db : Database} (h : SentinelInv db) (hash : Hash)
    (blob : Bytes) : SentinelInv (Insert db hash blob) := by
  cases hget : db.nodes.get hash with
  | some node =>
    have h2 : db.Lock.nodes.get hash = some node := hget
    rw [Insert, insert_of_cached _ _ _ _ h2]
    exact h
  | none =>
    rw [Insert_of_unknown db hash blob hget]
    obtain ⟨⟨s, hs, hsp⟩, hk⟩ := h
    have hne : zeroHash ≠ hash := by
      intro h0
      rw [h0, hget] at hs
      cases hs
    refine ⟨⟨s, ?_, hsp⟩, ?_⟩
    · show GoMap.get (GoMap.set db.nodes hash _) zeroHash = some s
      rw [GoMap.get_set_of_ne _ _ hne]
      exact hs
    · exact ChildKeysIn.in_set (d := db) hash _ hk (fun y hy => by simp [GoMap.keys] at hy)

theorem SentinelInv.kept_Reference {db : Database} (h : SentinelInv db) (child parent : Hash)
    (hc : child ≠ zeroHash) (db2 : Database) (hr : Reference db child parent = .ok db2) :
    SentinelInv db2 := by
  rcases Reference_cases db child parent db2 hr with h1 | ⟨node, pnode, hcn, hpn, _, h1⟩
  · rw [h1]
    exact h
  · subst h1
    obtain ⟨⟨s, hs, hsp⟩, hk⟩ := h
    have hz1 : GoMap.get (GoMap.set db.nodes child { node with parents := node.parents + 1 })
        zeroHash = some s := by
      rw [GoMap.get_set_of_ne _ _ (Ne.symm hc)]
      exact hs
    refine ⟨?_, ?_⟩
    · by_cases hpz : parent = zeroHash
      · subst hpz
        rw [hs] at hpn
        cases hpn
        refine ⟨_, GoMap.get_set_self _ _ _, ?_⟩
        simp only [Ne.symm hc, if_false]
        exact hsp
      · refine ⟨s, ?_, hsp⟩
        show GoMap.get (GoMap.set _ parent _) zeroHash = some s
        rw [GoMap.get_set_of_ne _ _ (Ne.symm hpz)]
        exact hz1
    · have hk1 : ChildKeysIn (fun y => y ≠ zeroHash)
          { db with nodes := db.nodes.set child { node with parents := node.parents + 1 } } :=
        ChildKeysIn.in_set child _ hk (fun y hy => hk child node hcn y hy)
      refine ChildKeysIn.in_set (d := { db with nodes := db.nodes.set child _ }) parent _ hk1 ?_
      intro y hy
      have hy1 : y ∈ child :: GoMap.keys (GoMap.del pnode.children child) := hy
      rcases List.mem_cons.mp hy1 with h2 | h2
      · rw [h2]
        exact hc
      · exact hk parent pnode hpn y (GoMap.mem_keys_del _ _ _ h2).1

theorem SentinelInv.kept_Dereference {db : Database} (h : SentinelInv db)
    (child parent : Hash) (hc : child ≠ zeroHash) (elapsed : Int) (db2 : Database)
    (hr : Dereference db child parent elapsed = .ok db2) : SentinelInv db2 := by
  have hp : db.nodes.get parent ≠ none := by
    intro hp
    have hp1 : db.Lock.nodes.get parent = none := hp
    simp [Dereference, derefFuel, dereference, hp1, Res.bind] at hr
  obtain ⟨d, _, hrel, hkeys, hD⟩ := Dereference_ok db child parent elapsed hp
  rw [hD] at hr
  cases hr
  obtain ⟨⟨s, hs, hsp⟩, hk⟩ := h
  obtain ⟨s2, hs2, hsp2⟩ := hrel.survive zeroHash s hs hsp
  exact ⟨⟨s2, hs2, hsp2⟩, hkeys (fun y => y ≠ zeroHash) hc hk⟩

theorem SentinelInv.kept_Commit {db : Database} (h : SentinelInv db) (fuel : Nat)
    (root : Hash) (hroot : root ≠ zeroHash) (report : Bool) (r : Option Error)
    (db2 : Database) (hr : Commit fuel db root report = .ok (r, db2)) : SentinelInv db2 := by
  obtain ⟨⟨s, hs, hsp⟩, hk⟩ := h
  cases r with
  | some e =>
    have hA := Commit_ok_some fuel db root report e db2 hr
    have hn := (CommitPhaseA_spec fuel db root (some e) db2 hA).1.1
    refine ⟨⟨s, by rw [hn]; exact hs, hsp⟩, ?_⟩
    exact hk.of_sub (fun k => Or.inr (by rw [hn]))
  | none =>
    obtain ⟨dbA, hA, hB⟩ := Commit_ok_none fuel db root report db2 hr
    have hn := (CommitPhaseA_spec fuel db root none dbA hA).1.1
    obtain ⟨_, _, _, _, _, _, _, hkept, hsub⟩ := CommitPhaseB_spec fuel dbA root db2 hB
    have hkA : ChildKeysIn (fun y => y ≠ zeroHash) dbA := hk.of_sub (fun k => Or.inr (by rw [hn]))
    have hzero : db2.nodes.get zeroHash = some s := by
      rw [hkept zeroHash (fun hr0 => Reach.ne_zero hkA hroot hr0 rfl), hn]
      exact hs
    exact ⟨⟨s, hzero, hsp⟩, hkA.of_sub hsub⟩

theorem SentinelInv.kept_step {db : Database} (h : SentinelInv db) (op : Op)
    (h1 : op.childNonzero = true) (db2 : Database) (hs : step db op = .ok db2) :
    SentinelInv db2 := by
  cases op with
  | Insert hash blob =>
    simp only [step, Res.ok.injEq] at hs
    subst hs
    exact h.kept_Insert hash blob
  | insertPreimage hash preimage =>
    simp only [step, Res.ok.injEq] at hs
    subst hs
    unfold insertPreimage
    split
    · exact h
    · exact h
  | Reference child parent =>
    exact h.kept_Reference child parent (by simpa [Op.childNonzero] using h1) db2 hs
  | Dereference child parent elapsed =>
    exact h.kept_Dereference child parent (by simpa [Op.childNonzero] using h1) elapsed db2 hs
  | Commit fuel node report =>
    simp only [step] at hs
    cases hc : Commit fuel db node report with
    | panic => simp [hc, Res.bind] at hs
    | outOfFuel => simp [hc, Res.bind] at hs
    | ok p =>
      obtain ⟨r, d⟩ := p
      simp only [hc, Res.bind, Res.ok.injEq] at hs
      subst hs
      exact h.kept_Commit fuel node (by simpa [Op.childNonzero] using h1) report r d hc

theorem SentinelInv.kept_run (ops : List Op) :
    ∀ db : Database, SentinelInv db → (∀ op ∈ ops, op.childNonzero = true) →
      ∀ db2, run db ops = .ok db2 → SentinelInv db2 := by
  induction ops with
  | nil =>
    intro db h _ db2 hr
    simp only [run, Res.ok.injEq] at hr
    subst hr
    exact h
  | cons op ops ih =>
    intro db h hops db2 hr
    simp only [run] at hr
    cases hs : step db op with
    | panic => simp [hs, Res.bind] at hr
    | outOfFuel => simp [hs, Res.bind] at hr
    | ok d1 =>
      simp only [hs, Res.bind] at hr
      exact ih d1 (h.kept_step op (hops op (List.mem_cons_self _ _)) d1 hs)
        (fun o ho => hops o (List.mem_cons_of_mem _ ho)) db2 hr

/-- C6, as the code has it: after every non-faulting sequence of `Insert`,
`insertPreimage`, `Reference`, `Dereference` and `Commit` calls on a new database in which
the zero hash is never the child of a `Reference` or `Dereference` nor the root of a
`Commit` (it may be the parent), the zero-hash entry is in the node map. -/
theorem sentinel_kept (diskdb : DiskDB) (ops : List Op) (db : Database)
    (hops : ∀ op ∈ ops, op.childNonzero = true)
    (hrun : run (NewDatabase diskdb) ops = .ok db) :
    ∃ s, db.nodes.get zeroHash = some s := by
  obtain ⟨⟨s, hs, _⟩, _⟩ :=
    SentinelInv.kept_run ops (NewDatabase diskdb) (SentinelInv.kept_new diskdb) hops db hrun
  exact ⟨s, hs⟩

/-- Witness of `sentinel_kept`: a run with the sentinel as parent, a cascade and a
commit. -/
theorem sentinel_kept_witness :
    ∃ db, run (NewDatabase ⟨[], [], 0⟩)
        [.Insert 1 [1, 2], .Insert 2 [3], .Reference 1 0, .Reference 2 1, .Reference 2 0,
          .Dereference 1 0 0, .Commit 2 2 true] = .ok db ∧
      ∃ s, db.nodes.get zeroHash = some s := by
  obtain ⟨db, hr⟩ : ∃ db, run (NewDatabase ⟨[], [], 0⟩)
        [.Insert 1 [1, 2], .Insert 2 [3], .Reference 1 0, .Reference 2 1, .Reference 2 0,
          .Dereference 1 0 0, .Commit 2 2 true] = .ok db := ⟨_, rfl⟩
  exact ⟨db, hr, sentinel_kept ⟨[], [], 0⟩ _ db (by decide) hr⟩

/-- C6 as stated fails: with the zero hash as child, a `Reference` followed by a
`Dereference` evicts the sentinel, and so does a `Commit` whose root is the zero hash. -/
theorem sentinel_evicted :
    (∃ db, run (NewDatabase ⟨[], [], 0⟩) [.Reference 0 0, .Dereference 0 0 0] = .ok db ∧
      db.nodes.get zeroHash = none) ∧
    (∃ db, run (NewDatabase ⟨[], [], 0⟩) [.Commit 1 0 true] = .ok db ∧
      db.nodes.get zeroHash = none) :=
  ⟨⟨_, rfl, rfl⟩, ⟨_, rfl, rfl⟩⟩


/-! ## Reference counts -/

theorem GoMap.mem_of_get {κ α : Type} [DecidableEq κ] (m : GoMap κ α) (k : κ) (v : α)
    (h : GoMap.get m k = some v) : (k, v) ∈ m := by
  induction m with
  | nil => simp [GoMap.get] at h
  | cons e m ih =>
    obtain ⟨k1, v1⟩ := e
    by_cases hk : k1 = k
    · simp only [GoMap.get, hk, if_true, Option.some.injEq] at h
      subst h hk
      exact List.mem_cons_self _ _
    · simp only [GoMap.get, hk, if_false] at h
      exact List.mem_cons_of_mem _ (ih h)

theorem GoMap.get_of_mem {κ α : Type} [DecidableEq κ] (m : GoMap κ α) (k : κ) (v : α)
    (hnd : (GoMap.keys m).Nodup) (h : (k, v) ∈ m) : GoMap.get m k = some v := by
  induction m with
  | nil => cases h
  | cons e m ih =>
    obtain ⟨k1, v1⟩ := e
    have hnd2 : (GoMap.keys m).Nodup := (List.nodup_cons.mp hnd).2
    have hk1 : k1 ∉ GoMap.keys m := (List.nodup_cons.mp hnd).1
    rcases List.mem_cons.mp h with h1 | h1
    · cases h1
      simp [GoMap.get]
    · have hne : k1 ≠ k := by
        intro hk
        subst hk
        exact hk1 (List.mem_map.mpr ⟨(k1, v), h1, rfl⟩)
      simp only [GoMap.get, hne, if_false]
      exact ih hnd2 h1

theorem get_decrEdge (pn : cachedNode) (c y : Hash) :
    (decrEdge pn c).children.get y =
      if y = c then
        (if (pn.children.get c).getD 0 - 1 = 0 then none
          else some ((pn.children.get c).getD 0 - 1))
      else pn.children.get y := by
  unfold decrEdge
  simp only
  by_cases hy : y = c
  · subst hy
    by_cases hz : (pn.children.get y).getD 0 - 1 = 0
    · simp only [hz, if_true, GoMap.get_del_self]
    · simp only [hz, if_false, if_true, GoMap.get_set_self]
  · by_cases hz : (pn.children.get c).getD 0 - 1 = 0
    · simp only [hz, if_true, hy, if_false, GoMap.get_del_of_ne _ hy, GoMap.get_set_of_ne _ _ hy]
    · simp only [hz, if_false, hy, GoMap.get_set_of_ne _ _ hy]

theorem getD_decrEdge (pn : cachedNode) (c y : Hash) :
    ((decrEdge pn c).children.get y).getD 0 =
      if y = c then (pn.children.get c).getD 0 - 1 else (pn.children.get y).getD 0 := by
  rw [get_decrEdge]
  by_cases hy : y = c
  · simp only [hy, if_true]
    by_cases hz : (pn.children.get c).getD 0 - 1 = 0
    · simp [hz]
    · simp [hz]
  · simp only [hy, if_false]

theorem nodup_keys_decrEdge (pn : cachedNode) (c : Hash) (h : pn.children.keys.Nodup) :
    (decrEdge pn c).children.keys.Nodup := by
  unfold decrEdge
  simp only
  split
  · exact GoMap.nodup_keys_del _ _ (GoMap.nodup_keys_set _ _ _ h)
  · exact GoMap.nodup_keys_set _ _ _ h

theorem keys_decrEdge_head (pn : cachedNode) (c : Hash) (rest : List Hash)
    (hk : pn.children.keys = c :: rest) (hnd : pn.children.keys.Nodup)
    (hone : pn.children.get c = some 1) : (decrEdge pn c).children.keys = rest := by
  have hz : (pn.children.get c).getD 0 - 1 = 0 := by simp [hone]
  unfold decrEdge
  simp only [hz, if_true]
  have h1 : GoMap.del (GoMap.set pn.children c 0) c = GoMap.del pn.children c := by
    have h2 : GoMap.del (GoMap.set pn.children c 0) c
        = GoMap.del (GoMap.del pn.children c) c := by
      simp [GoMap.set, GoMap.del]
    rw [h2]
    exact GoMap.del_eq_self_of_get_none _ _ (GoMap.get_del_self _ _)
  rw [h1, GoMap.keys_del, hk]
  rw [hk] at hnd
  have hc : c ∉ rest := (List.nodup_cons.mp hnd).1
  rw [List.filter_cons_of_neg (by simp)]
  rw [List.filter_eq_self]
  intro a ha
  have : a ≠ c := fun h => hc (h ▸ ha)
  simpa using this

theorem inRefs_set (m : GoMap Hash cachedNode) (k : Hash) (old v : cachedNode) (y : Hash)
    (hnd : (GoMap.keys m).Nodup) (hget : GoMap.get m k = some old) :
    inRefs (GoMap.set m k v) y
      = inRefs m y - (old.children.get y).getD 0 + (v.children.get y).getD 0 := by
  unfold inRefs
  exact GoMap.sum_set (fun node : cachedNode => (node.children.get y).getD 0) m k old v hnd hget

theorem inRefs_del (m : GoMap Hash cachedNode) (k : Hash) (old : cachedNode) (y : Hash)
    (hnd : (GoMap.keys m).Nodup) (hget : GoMap.get m k = some old) :
    inRefs (GoMap.del m k) y = inRefs m y - (old.children.get y).getD 0 := by
  unfold inRefs
  exact GoMap.sum_del (fun node : cachedNode => (node.children.get y).getD 0) m k old hnd hget

theorem inRefs_set_new (m : GoMap Hash cachedNode) (k : Hash) (v : cachedNode) (y : Hash)
    (hget : GoMap.get m k = none) :
    inRefs (GoMap.set m k v) y = inRefs m y + (v.children.get y).getD 0 := by
  simp only [inRefs, GoMap.set, GoMap.del_eq_self_of_get_none m k hget, List.map_cons,
    List.sum_cons]
  ring

theorem RefInv.count_nonneg {m : GoMap Hash cachedNode} (h : RefInv m) (y : Hash) :
    ∀ e ∈ m, 0 ≤ (e.2.children.get y).getD 0 := by
  intro e he
  obtain ⟨k, node⟩ := e
  have hg := GoMap.get_of_mem m k node h.nodup he
  cases hc : node.children.get y with
  | none => simp
  | some c =>
    have := (h.counts k node y c hg hc).1
    simp only [Option.getD_some]
    omega

theorem RefInv.le_inRefs {m : GoMap Hash cachedNode} (h : RefInv m) (x y : Hash)
    (n : cachedNode) (c : Int) (hx : GoMap.get m x = some n)
    (hc : n.children.get y = some c) : c ≤ inRefs m y := by
  have h1 := inRefs_del m x n y h.nodup hx
  have h2 : 0 ≤ inRefs (GoMap.del m x) y := by
    apply List.sum_nonneg
    intro a ha
    obtain ⟨e, he, rfl⟩ := List.mem_map.mp ha
    have he2 : e ∈ m := by
      rw [GoMap.del_eq_filter] at he
      exact (List.mem_filter.mp he).1
    exact h.count_nonneg y e he2
  rw [hc] at h1
  simp only [Option.getD_some] at h1
  omega

theorem RefInv.exists_referrer {m : GoMap Hash cachedNode} (h : RefInv m) (y : Hash)
    (hpos : 1 ≤ inRefs m y) :
    ∃ x n, GoMap.get m x = some n ∧ y ∈ n.children.keys := by
  by_contra hno
  have hall : ∀ a ∈ m.map (fun e => (e.2.children.get y).getD 0), a ≤ 0 := by
    intro a ha
    obtain ⟨e, he, rfl⟩ := List.mem_map.mp ha
    obtain ⟨k, node⟩ := e
    have hg := GoMap.get_of_mem m k node h.nodup he
    cases hc : node.children.get y with
    | none => simp
    | some c =>
      exfalso
      apply hno
      refine ⟨k, node, hg, ?_⟩
      rw [GoMap.mem_keys_iff, hc]
      simp
  have hsum : inRefs m y ≤ 0 := by
    unfold inRefs
    have : ∀ l : List Int, (∀ a ∈ l, a ≤ 0) → l.sum ≤ 0 := by
      intro l
      induction l with
      | nil => intro _; simp
      | cons a l ih =>
        intro hl
        have h1 := hl a (List.mem_cons_self _ _)
        have h2 := ih (fun b hb => hl b (List.mem_cons_of_mem _ hb))
        simp only [List.sum_cons]
        omega
    exact this _ hall
  omega

theorem RefInv.parents_pos {m : GoMap Hash cachedNode} (h : RefInv m) (x y : Hash)
    (n yn : cachedNode) (hx : GoMap.get m x = some n) (hy : y ∈ n.children.keys)
    (hyn : GoMap.get m y = some yn) : 1 ≤ yn.parents := by
  rw [GoMap.mem_keys_iff] at hy
  cases hc : n.children.get y with
  | none => exact absurd hc hy
  | some c =>
    have h1 := (h.counts x n y c hx hc).1
    have h2 := h.le_inRefs x y n c hx hc
    rw [h.refs y yn hyn]
    omega


theorem inRefs_nonneg {m : GoMap Hash cachedNode} (h : RefInv m) (y : Hash) :
    0 ≤ inRefs m y := by
  apply List.sum_nonneg
  intro a ha
  obtain ⟨e, he, rfl⟩ := List.mem_map.mp ha
  exact h.count_nonneg y e he

/-- The node map after the two first statements of `dereference(child, parent)`, read
entry by entry. -/
theorem get_dropEdge (m : GoMap Hash cachedNode) (child parent : Hash) (pn node : cachedNode)
    (hp : GoMap.get m parent = some pn)
    (hn : GoMap.get (GoMap.set m parent (decrEdge pn child)) child = some node) (x : Hash) :
    (∀ n2, GoMap.get (GoMap.set (GoMap.set m parent (decrEdge pn child)) child
        { node with parents := node.parents - 1 }) x = some n2 →
      ∃ n, GoMap.get m x = some n ∧ n2.blob = n.blob ∧
        n2.children = (if x = parent then (decrEdge n child).children else n.children) ∧
        n2.parents = n.parents - (if x = child then 1 else 0)) ∧
    (∀ n, GoMap.get m x = some n →
      GoMap.get (GoMap.set (GoMap.set m parent (decrEdge pn child)) child
        { node with parents := node.parents - 1 }) x ≠ none) := by
  rw [GoMap.get_set] at hn
  constructor
  · intro n2 h2
    rw [GoMap.get_set, GoMap.get_set] at h2
    by_cases hxc : x = child
    · subst hxc
      simp only [if_true, Option.some.injEq] at h2
      subst h2
      by_cases hxp : x = parent
      · subst hxp
        simp only [if_true, Option.some.injEq] at hn
        subst hn
        exact ⟨pn, hp, rfl, by simp, by simp [decrEdge]⟩
      · simp only [hxp, if_false] at hn
        exact ⟨node, hn, rfl, by simp [hxp], by simp⟩
    · simp only [hxc, if_false] at h2
      by_cases hxp : x = parent
      · subst hxp
        simp only [if_true, Option.some.injEq] at h2
        subst h2
        exact ⟨pn, hp, rfl, by simp, by simp [decrEdge, hxc]⟩
      · simp only [hxp, if_false] at h2
        exact ⟨n2, h2, rfl, by simp [hxp], by simp [hxc]⟩
  · intro n hx
    rw [GoMap.get_set, GoMap.get_set]
    by_cases hxc : x = child
    · simp [hxc]
    · by_cases hxp : x = parent
      · subst hxp
        simp [hxc]
      · simp [hxc, hxp, hx]

/-- The reference-count invariant holds again after the two first statements of
`dereference(child, parent)`, when the edge exists. -/
theorem RefInv.dropEdge {m : GoMap Hash cachedNode} (h : RefInv m) (child parent : Hash)
    (pn node : cachedNode) (c : Int) (hp : GoMap.get m parent = some pn)
    (hc : pn.children.get child = some c)
    (hn : GoMap.get (GoMap.set m parent (decrEdge pn child)) child = some node) :
    RefInv (GoMap.set (GoMap.set m parent (decrEdge pn child)) child
      { node with parents := node.parents - 1 }) := by
  have hnd1 := GoMap.nodup_keys_set m parent (decrEdge pn child) h.nodup
  have hchild : child ∈ pn.children.keys := by
    rw [GoMap.mem_keys_iff, hc]
    simp
  have hsub : ∀ x n, GoMap.get m x = some n → ∀ y,
      y ∈ (if x = parent then (decrEdge n child).children else n.children).keys →
      y ∈ n.children.keys := by
    intro x n hx y hy
    by_cases hxp : x = parent
    · subst hxp
      rw [hp] at hx
      cases hx
      simp only [if_true] at hy
      rcases mem_keys_decrEdge _ _ _ hy with h1 | h1
      · exact h1
      · exact h1 ▸ hchild
    · simpa [hxp] using hy
  have hrefs : ∀ y, inRefs (GoMap.set (GoMap.set m parent (decrEdge pn child)) child
      { node with parents := node.parents - 1 }) y
      = inRefs m y - (if y = child then 1 else 0) := by
    intro y
    rw [inRefs_set _ child node _ y hnd1 hn, inRefs_set m parent pn _ y h.nodup hp,
      getD_decrEdge]
    by_cases hy : y = child
    · subst hy
      simp only [if_true]
      ring
    · simp only [hy, if_false]
      ring
  refine ⟨GoMap.nodup_keys_set _ _ _ hnd1, ?_, ?_, ?_, ?_⟩
  · intro x n2 h2
    obtain ⟨n, hx, _, hch, _⟩ := (get_dropEdge m child parent pn node hp hn x).1 n2 h2
    rw [hch]
    by_cases hxp : x = parent
    · simp only [hxp, if_true]
      exact nodup_keys_decrEdge _ _ (h.cnodup x n hx)
    · simp only [hxp, if_false]
      exact h.cnodup x n hx
  · intro x n2 h2 y hy
    obtain ⟨n, hx, _, hch, _⟩ := (get_dropEdge m child parent pn node hp hn x).1 n2 h2
    rw [hch] at hy
    obtain ⟨hy0, hyc⟩ := h.closed x n hx y (hsub x n hx y hy)
    refine ⟨hy0, ?_⟩
    cases hyn : GoMap.get m y with
    | none => exact absurd hyn hyc
    | some yn => exact (get_dropEdge m child parent pn node hp hn y).2 yn hyn
  · intro x n2 y c2 h2 hc2
    obtain ⟨n, hx, _, hch, _⟩ := (get_dropEdge m child parent pn node hp hn x).1 n2 h2
    rw [hch] at hc2
    by_cases hxp : x = parent
    · subst hxp
      rw [hp] at hx
      cases hx
      simp only [if_true] at hc2
      rw [get_decrEdge] at hc2
      by_cases hy : y = child
      · subst hy
        simp only [if_true, hc, Option.getD_some] at hc2
        obtain ⟨h1, h2⟩ := h.counts x pn y c hp hc
        by_cases hz : c - 1 = 0
        · simp [hz] at hc2
        · simp only [hz, if_false, Option.some.injEq] at hc2
          subst hc2
          refine ⟨by omega, fun hx0 => ?_⟩
          have := h2 hx0
          omega
      · simp only [hy, if_false] at hc2
        exact h.counts x pn y c2 hp hc2
    · simp only [hxp, if_false] at hc2
      exact h.counts x n y c2 hx hc2
  · intro x n2 h2
    obtain ⟨n, hx, _, _, hpar⟩ := (get_dropEdge m child parent pn node hp hn x).1 n2 h2
    rw [hpar, hrefs, h.refs x n hx]

/-- The reference-count invariant holds again after the removal of a node without
references and without children. -/
theorem RefInv.delete {m : GoMap Hash cachedNode} (h : RefInv m) (child : Hash)
    (cn : cachedNode) (hc : GoMap.get m child = some cn) (hpar : cn.parents = 0)
    (hch : cn.children = []) : RefInv (GoMap.del m child) := by
  have hget : ∀ x n, GoMap.get (GoMap.del m child) x = some n →
      x ≠ child ∧ GoMap.get m x = some n := by
    intro x n hx
    rw [GoMap.get_del] at hx
    by_cases hxc : x = child
    · simp [hxc] at hx
    · simp only [hxc, if_false] at hx
      exact ⟨hxc, hx⟩
  refine ⟨GoMap.nodup_keys_del _ _ h.nodup, ?_, ?_, ?_, ?_⟩
  · intro x n hx
    exact h.cnodup x n (hget x n hx).2
  · intro x n hx y hy
    obtain ⟨hy0, hyc⟩ := h.closed x n (hget x n hx).2 y hy
    refine ⟨hy0, ?_⟩
    have hne : y ≠ child := by
      intro hyc2
      subst hyc2
      have := h.parents_pos x y n cn (hget x n hx).2 hy hc
      omega
    rw [GoMap.get_del_of_ne _ hne]
    exact hyc
  · intro x n y c hx hc2
    exact h.counts x n y c (hget x n hx).2 hc2
  · intro x n hx
    rw [inRefs_del m child cn x h.nodup hc, hch]
    simp only [GoMap.get, Option.getD_none, sub_zero]
    exact h.refs x n (hget x n hx).2

theorem RefInv.refs_new : RefInv [(zeroHash, { blob := [], parents := 0, children := [] })] := by
  refine ⟨by simp [GoMap.keys], ?_, ?_, ?_, ?_⟩
  · intro k node hk
    simp only [GoMap.get] at hk
    split at hk
    · cases hk
      simp [GoMap.keys]
    · cases hk
  · intro k node hk y hy
    simp only [GoMap.get] at hk
    split at hk
    · cases hk
      simp [GoMap.keys] at hy
    · cases hk
  · intro k node y c hk hc
    simp only [GoMap.get] at hk
    split at hk
    · cases hk
      simp [GoMap.get] at hc
    · cases hk
  · intro k node hk
    simp only [GoMap.get] at hk
    split at hk
    · cases hk
      simp [inRefs, GoMap.get]
    · cases hk

/-- The reference-count invariant holds again after the `insert` of an unknown hash. -/
theorem RefInv.insertNew {m : GoMap Hash cachedNode} (h : RefInv m) (hash : Hash)
    (blob : Bytes) (hnew : GoMap.get m hash = none) :
    RefInv (GoMap.set m hash { blob := blob, parents := 0, children := [] }) := by
  have hget : ∀ x n, GoMap.get (GoMap.set m hash
      { blob := blob, parents := 0, children := [] }) x = some n →
      (x = hash ∧ n = { blob := blob, parents := 0, children := [] }) ∨
      (x ≠ hash ∧ GoMap.get m x = some n) := by
    intro x n hx
    rw [GoMap.get_set] at hx
    by_cases hxh : x = hash
    · simp only [hxh, if_true, Option.some.injEq] at hx
      exact Or.inl ⟨hxh, hx.symm⟩
    · simp only [hxh, if_false] at hx
      exact Or.inr ⟨hxh, hx⟩
  have hrefs : ∀ y, inRefs (GoMap.set m hash { blob := blob, parents := 0, children := [] }) y
      = inRefs m y := by
    intro y
    rw [inRefs_set_new _ _ _ _ hnew]
    simp [GoMap.get]
  refine ⟨GoMap.nodup_keys_set _ _ _ h.nodup, ?_, ?_, ?_, ?_⟩
  · intro x n hx
    rcases hget x n hx with ⟨_, h1⟩ | ⟨_, h1⟩
    · subst h1
      simp [GoMap.keys]
    · exact h.cnodup x n h1
  · intro x n hx y hy
    rcases hget x n hx with ⟨_, h1⟩ | ⟨_, h1⟩
    · subst h1
      simp [GoMap.keys] at hy
    · obtain ⟨hy0, hyc⟩ := h.closed x n h1 y hy
      refine ⟨hy0, ?_⟩
      rw [GoMap.get_set]
      by_cases hyh : y = hash
      · simp [hyh]
      · simpa [hyh] using hyc
  · intro x n y c hx hc
    rcases hget x n hx with ⟨_, h1⟩ | ⟨_, h1⟩
    · subst h1
      simp [GoMap.get] at hc
    · exact h.counts x n y c h1 hc
  · intro x n hx
    rw [hrefs]
    rcases hget x n hx with ⟨h0, h1⟩ | ⟨_, h1⟩
    · subst h1 h0
      simp only
      have h2 := inRefs_nonneg h x
      by_contra hne
      have h3 : 1 ≤ inRefs m x := by omega
      obtain ⟨p, pn, hp, hxp⟩ := h.exists_referrer x h3
      exact (h.closed p pn hp x hxp).2 hnew
    · exact h.refs x n h1


/-- The node map after a `reference` that adds or counts an edge, read entry by entry. -/
theorem get_addEdge (m : GoMap Hash cachedNode) (child parent : Hash) (node pnode : cachedNode)
    (hc : GoMap.get m child = some node) (hp : GoMap.get m parent = some pnode) (x : Hash) :
    (∀ n2, GoMap.get ((GoMap.set m child { node with parents := node.parents + 1 }).set parent
        { blob := pnode.blob
          parents := if parent = child then node.parents + 1 else pnode.parents
          children := pnode.children.set child ((pnode.children.get child).getD 0 + 1) })
        x = some n2 →
      ∃ n, GoMap.get m x = some n ∧ n2.blob = n.blob ∧
        n2.children = (if x = parent then
          n.children.set child ((n.children.get child).getD 0 + 1) else n.children) ∧
        n2.parents = n.parents + (if x = child then 1 else 0)) ∧
    (∀ n, GoMap.get m x = some n →
      GoMap.get ((GoMap.set m child { node with parents := node.parents + 1 }).set parent
        { blob := pnode.blob
          parents := if parent = child then node.parents + 1 else pnode.parents
          children := pnode.children.set child ((pnode.children.get child).getD 0 + 1) })
        x ≠ none) := by
  constructor
  · intro n2 h2
    rw [GoMap.get_set, GoMap.get_set] at h2
    by_cases hxp : x = parent
    · subst hxp
      simp only [if_true, Option.some.injEq] at h2
      subst h2
      by_cases hxc : x = child
      · subst hxc
        rw [hc] at hp
        cases hp
        exact ⟨node, hc, rfl, by simp, by simp⟩
      · exact ⟨pnode, hp, rfl, by simp, by simp [hxc]⟩
    · simp only [hxp, if_false] at h2
      by_cases hxc : x = child
      · subst hxc
        simp only [if_true, Option.some.injEq] at h2
        subst h2
        exact ⟨node, hc, rfl, by simp [hxp], by simp⟩
      · simp only [hxc, if_false] at h2
        exact ⟨n2, h2, rfl, by simp [hxp], by simp [hxc]⟩
  · intro n hx
    rw [GoMap.get_set, GoMap.get_set]
    by_cases hxp : x = parent
    · simp [hxp]
    · by_cases hxc : x = child
      · subst hxc
        simp [hxp]
      · simp [hxp, hxc, hx]

/-- The reference-count invariant holds again after a `reference` that adds or counts an
edge to a child other than the zero hash. -/
theorem RefInv.addEdge {m : GoMap Hash cachedNode} (h : RefInv m) (child parent : Hash)
    (node pnode : cachedNode) (hc : GoMap.get m child = some node)
    (hp : GoMap.get m parent = some pnode)
    (hnew : ¬ ((pnode.children.get child).isSome ∧ parent ≠ zeroHash))
    (hz : child ≠ zeroHash) :
    RefInv ((GoMap.set m child { node with parents := node.parents + 1 }).set parent
      { blob := pnode.blob
        parents := if parent = child then node.parents + 1 else pnode.parents
        children := pnode.children.set child ((pnode.children.get child).getD 0 + 1) }) := by
  have hnd1 := GoMap.nodup_keys_set m child { node with parents := node.parents + 1 } h.nodup
  have hold : ∃ old, GoMap.get (GoMap.set m child { node with parents := node.parents + 1 })
      parent = some old ∧ old.children = pnode.children := by
    rw [GoMap.get_set]
    by_cases hpc : parent = child
    · subst hpc
      rw [hc] at hp
      cases hp
      exact ⟨{ node with parents := node.parents + 1 }, by simp, rfl⟩
    · exact ⟨pnode, by simp [hpc, hp], rfl⟩
  obtain ⟨old, hold1, hold2⟩ := hold
  have hrefs : ∀ y, inRefs ((GoMap.set m child { node with parents := node.parents + 1 }).set
      parent
      { blob := pnode.blob
        parents := if parent = child then node.parents + 1 else pnode.parents
        children := pnode.children.set child ((pnode.children.get child).getD 0 + 1) }) y
      = inRefs m y + (if y = child then 1 else 0) := by
    intro y
    rw [inRefs_set _ parent old _ y hnd1 hold1, inRefs_set m child node _ y h.nodup hc, hold2]
    simp only [GoMap.get_set]
    by_cases hy : y = child
    · subst hy
      simp only [if_true, Option.getD_some]
      ring
    · simp only [hy, if_false]
      ring
  refine ⟨GoMap.nodup_keys_set _ _ _ hnd1, ?_, ?_, ?_, ?_⟩
  · intro x n2 h2
    obtain ⟨n, hx, _, hch, _⟩ := (get_addEdge m child parent node pnode hc hp x).1 n2 h2
    rw [hch]
    by_cases hxp : x = parent
    · simp only [hxp, if_true]
      exact GoMap.nodup_keys_set _ _ _ (h.cnodup x n hx)
    · simp only [hxp, if_false]
      exact h.cnodup x n hx
  · intro x n2 h2 y hy
    obtain ⟨n, hx, _, hch, _⟩ := (get_addEdge m child parent node pnode hc hp x).1 n2 h2
    rw [hch] at hy
    have hy2 : y = child ∨ y ∈ n.children.keys := by
      by_cases hxp : x = parent
      · simp only [hxp, if_true] at hy
        have hy1 : y ∈ child :: GoMap.keys (GoMap.del n.children child) := hy
        rcases List.mem_cons.mp hy1 with h1 | h1
        · exact Or.inl h1
        · exact Or.inr (GoMap.mem_keys_del _ _ _ h1).1
      · simp only [hxp, if_false] at hy
        exact Or.inr hy
    have hy3 : y ≠ zeroHash ∧ GoMap.get m y ≠ none := by
      rcases hy2 with h1 | h1
      · subst h1
        exact ⟨hz, by rw [hc]; simp⟩
      · exact h.closed x n hx y h1
    refine ⟨hy3.1, ?_⟩
    cases hyn : GoMap.get m y with
    | none => exact absurd hyn hy3.2
    | some yn => exact (get_addEdge m child parent node pnode hc hp y).2 yn hyn
  · intro x n2 y c2 h2 hc2
    obtain ⟨n, hx, _, hch, _⟩ := (get_addEdge m child parent node pnode hc hp x).1 n2 h2
    rw [hch] at hc2
    by_cases hxp : x = parent
    · subst hxp
      rw [hp] at hx
      cases hx
      simp only [if_true, GoMap.get_set] at hc2
      by_cases hy : y = child
      · subst hy
        simp only [if_true, Option.some.injEq] at hc2
        subst hc2
        cases hcount : pnode.children.get y with
        | none => simp
        | some c =>
          obtain ⟨h1, _⟩ := h.counts x pnode y c hp hcount
          simp only [Option.getD_some]
          refine ⟨by omega, fun hx0 => ?_⟩
          exact absurd ⟨by simp [hcount], hx0⟩ hnew
      · simp only [hy, if_false] at hc2
        exact h.counts x pnode y c2 hp hc2
    · simp only [hxp, if_false] at hc2
      exact h.counts x n y c2 hx hc2
  · intro x n2 h2
    obtain ⟨n, hx, _, _, hpar⟩ := (get_addEdge m child parent node pnode hc hp x).1 n2 h2
    rw [hpar, hrefs, h.refs x n hx]

/-- The reference-count invariant holds after every run of `Insert` calls and of
`Reference` calls whose child is not the zero hash, from a state where it holds. -/
theorem RefInv.refs_run (ops : List Op) :
    ∀ db : Database, RefInv db.nodes → (∀ op ∈ ops, op.buildsCache = true) →
      ∀ db2, run db ops = .ok db2 → RefInv db2.nodes := by
  induction ops with
  | nil =>
    intro db h _ db2 hr
    simp only [run, Res.ok.injEq] at hr
    subst hr
    exact h
  | cons op ops ih =>
    intro db h hops db2 hr
    simp only [run] at hr
    cases hs : step db op with
    | panic => simp [hs, Res.bind] at hr
    | outOfFuel => simp [hs, Res.bind] at hr
    | ok d1 =>
      simp only [hs, Res.bind] at hr
      refine ih d1 ?_ (fun o ho => hops o (List.mem_cons_of_mem _ ho)) db2 hr
      have hop := hops op (List.mem_cons_self _ _)
      cases op with
      | Insert hash blob =>
        simp only [step, Res.ok.injEq] at hs
        subst hs
        cases hget : db.nodes.get hash with
        | some node =>
          have h2 : db.Lock.nodes.get hash = some node := hget
          rw [Insert, insert_of_cached _ _ _ _ h2]
          exact h
        | none =>
          rw [Insert_of_unknown db hash blob hget]
          exact h.insertNew hash blob hget
      | Reference child parent =>
        have hz : child ≠ zeroHash := by simpa [Op.buildsCache] using hop
        rcases Reference_cases db child parent d1 hs with h1 | ⟨node, pnode, hcn, hpn, hnew, h1⟩
        · rw [h1]
          exact h
        · subst h1
          exact h.addEdge child parent node pnode hcn hpn hnew hz
      | insertPreimage hash preimage => simp [Op.buildsCache] at hop
      | Dereference child parent elapsed => simp [Op.buildsCache] at hop
      | Commit fuel node report => simp [Op.buildsCache] at hop


/-! ## Dereference: the cascade under the reference-count invariant -/

theorem GoMap.eq_nil_of_keys {α : Type} (m : GoMap Hash α) (h : GoMap.keys m = []) : m = [] := by
  cases m with
  | nil => rfl
  | cons e m => simp [GoMap.keys] at h

theorem rangeLoop_refs (fuel : Nat) (child : Hash) (hz : child ≠ zeroHash)
    (ih : ∀ (db : Database) (c : Hash) (pn : cachedNode) (cnt : Int) (db2 : Database),
      RefInv db.nodes → db.nodes.get child = some pn → pn.children.get c = some cnt →
      liveCount db.nodes < fuel → dereference fuel db c child = .ok db2 →
      RefInv db2.nodes ∧ Cascaded db.nodes c child db2.nodes)
    (keys : List Hash) :
    ∀ (d d2 : Database) (cn : cachedNode), RefInv d.nodes → d.nodes.get child = some cn →
      cn.parents = 0 → cn.children.keys = keys → liveCount d.nodes < fuel →
      rangeLoop (fun d hash => dereference fuel d hash child) keys d = .ok d2 →
      RefInv d2.nodes ∧ Looped d.nodes child d2.nodes := by
  induction keys with
  | nil =>
    intro d d2 cn hinv hcn hpar hkeys _ hloop
    simp only [rangeLoop, Res.ok.injEq] at hloop
    subst hloop
    refine ⟨hinv, ⟨?_, ⟨cn, hcn, hpar, GoMap.eq_nil_of_keys _ hkeys⟩⟩⟩
    intro x n2 hx
    exact ⟨n2, hx, rfl, Or.inl rfl, fun _ => rfl⟩
  | cons hash rest ihl =>
    intro d d2 cn hinv hcn hpar hkeys hlive hloop
    simp only [rangeLoop] at hloop
    cases hd : dereference fuel d hash child with
    | panic => simp [hd] at hloop
    | outOfFuel => simp [hd] at hloop
    | ok d1 =>
      simp only [hd] at hloop
      have hmem : hash ∈ cn.children.keys := by
        rw [hkeys]
        exact List.mem_cons_self _ _
      have hedge : ∃ cnt, cn.children.get hash = some cnt := by
        rw [GoMap.mem_keys_iff] at hmem
        cases hg : cn.children.get hash with
        | none => exact absurd hg hmem
        | some cnt => exact ⟨cnt, rfl⟩
      obtain ⟨cnt, hcnt⟩ := hedge
      have hone : cnt = 1 := (hinv.counts child cn hash cnt hcn hcnt).2 hz
      subst hone
      obtain ⟨hinv1, hcasc⟩ := ih d hash cn 1 d1 hinv hcn hcnt hlive hd
      obtain ⟨d1', hd', hrel, _⟩ :=
        dereference_total fuel d hash child (by rw [hcn]; simp) hlive
      rw [hd] at hd'
      cases hd'
      obtain ⟨cn1, hcn1, hpar1⟩ := hrel.survive child cn hcn (by omega)
      obtain ⟨n, hn, _, hp1, hch1⟩ := hcasc.sub child cn1 hcn1
      rw [hcn] at hn
      cases hn
      simp only [if_true] at hch1
      have hpar1' : cn1.parents = 0 := by omega
      have hkeys1 : cn1.children.keys = rest := by
        rw [hch1]
        exact keys_decrEdge_head cn hash rest hkeys (hinv.cnodup child cn hcn) hcnt
      obtain ⟨hinv2, hloop2⟩ := ihl d1 d2 cn1 hinv1 hcn1 hpar1' hkeys1
        (lt_of_le_of_lt hrel.live hlive) hloop
      refine ⟨hinv2, ⟨?_, hloop2.self⟩⟩
      intro x n2 hx
      obtain ⟨n1, hx1, hb1, hp2, hc2⟩ := hloop2.sub x n2 hx
      obtain ⟨n0, hx0, hb0, hp0, hc0⟩ := hcasc.sub x n1 hx1
      refine ⟨n0, hx0, hb1.trans hb0, ?_, ?_⟩
      · rcases hp2 with h1 | h1
        · rcases hp0 with h2 | h2
          · exact Or.inl (h1.trans h2)
          · exact Or.inr (by omega)
        · exact Or.inr h1
      · intro hxc
        rw [hc2 hxc, hc0]
        simp [hxc]

/-- Under the reference-count invariant, a call `dereference(child, parent)` along an
existing edge keeps the invariant and relates the node maps as `Cascaded` says. -/
theorem dereference_refs (fuel : Nat) :
    ∀ (db : Database) (child parent : Hash) (pn : cachedNode) (c : Int) (db2 : Database),
      RefInv db.nodes → db.nodes.get parent = some pn → pn.children.get child = some c →
      liveCount db.nodes < fuel → dereference fuel db child parent = .ok db2 →
      RefInv db2.nodes ∧ Cascaded db.nodes child parent db2.nodes := by
  induction fuel with
  | zero =>
    intro db child parent pn c db2 _ _ _ hl _
    omega
  | succ fuel ih =>
    intro db child parent pn c db2 hinv hp hc hl hd
    rw [dereference_succ] at hd
    simp only [hp] at hd
    have hchild : child ∈ pn.children.keys := by
      rw [GoMap.mem_keys_iff, hc]
      simp
    obtain ⟨hcz, hccached⟩ := hinv.closed parent pn hp child hchild
    cases hn : (GoMap.set db.nodes parent (decrEdge pn child)).get child with
    | none =>
      exfalso
      rw [GoMap.get_set] at hn
      by_cases hcp : child = parent
      · simp [hcp] at hn
      · simp only [hcp, if_false] at hn
        exact hccached hn
    | some node =>
      simp only [hn] at hd
      have hinv2 := hinv.dropEdge child parent pn node c hp hc hn
      have hdrop := get_dropEdge db.nodes child parent pn node hp hn
      -- the child as it was before the call
      obtain ⟨cn0, hcn0, _, _, hpar0⟩ := (hdrop child).1 _ (GoMap.get_set_self _ _ _)
      simp only [if_true] at hpar0
      have hpos0 : 1 ≤ cn0.parents := hinv.parents_pos parent child pn cn0 hp hchild hcn0
      by_cases hz : node.parents - 1 = 0
      · rw [if_pos hz] at hd
        cases hloop : rangeLoop (fun d hash => dereference fuel d hash child)
            node.children.keys
            { db with
              nodes := (db.nodes.set parent (decrEdge pn child)).set child
                { node with parents := node.parents - 1 } } with
        | panic => simp [hloop] at hd
        | outOfFuel => simp [hloop] at hd
        | ok d3 =>
          simp only [hloop, Res.ok.injEq] at hd
          subst hd
          have hlive1 : liveCount (GoMap.set db.nodes parent (decrEdge pn child))
              ≤ liveCount db.nodes :=
            liveCount_set_le db.nodes parent pn _ hp (le_refl _)
          have hlive2 := liveCount_set_lt (GoMap.set db.nodes parent (decrEdge pn child))
            child node { node with parents := node.parents - 1 } hn (by omega) (by simp [hz])
          obtain ⟨hinv3, hlooped⟩ := rangeLoop_refs fuel child hcz
            (fun d c pn cnt d2 h1 h2 h3 h4 h5 => ih d c child pn cnt d2 h1 h2 h3 h4 h5)
            node.children.keys
            { db with
              nodes := (db.nodes.set parent (decrEdge pn child)).set child
                { node with parents := node.parents - 1 } }
            d3 { node with parents := node.parents - 1 } hinv2 (GoMap.get_set_self _ _ _)
            (by simp [hz]) rfl (by simp only; omega) hloop
          obtain ⟨cn3, hcn3, hpar3, hch3⟩ := hlooped.self
          refine ⟨hinv3.delete child cn3 hcn3 hpar3 hch3, ⟨?_, ?_⟩⟩
          · intro x n4 hx
            have hx4 : GoMap.get (GoMap.del d3.nodes child) x = some n4 := hx
            rw [GoMap.get_del] at hx4
            by_cases hxc : x = child
            · simp [hxc] at hx4
            · simp only [hxc, if_false] at hx4
              obtain ⟨n2, hx2, hb2, hp2, hc2⟩ := hlooped.sub x n4 hx4
              obtain ⟨n, hx0, hb0, hc0, hp0⟩ := (hdrop x).1 n2 hx2
              simp only [hxc, if_false, sub_zero] at hp0
              refine ⟨n, hx0, hb2.trans hb0, ?_, ?_⟩
              · rcases hp2 with h1 | h1
                · exact Or.inl (h1.trans hp0)
                · exact Or.inr h1
              · rw [hc2 hxc, hc0]
          · intro _ _ _
            exact GoMap.get_del_self _ _
      · rw [if_neg hz] at hd
        simp only [Res.ok.injEq] at hd
        subst hd
        refine ⟨hinv2, ⟨?_, ?_⟩⟩
        · intro x n2 hx
          obtain ⟨n, hx0, hb0, hc0, hp0⟩ := (hdrop x).1 n2 hx
          refine ⟨n, hx0, hb0, ?_, hc0⟩
          by_cases hxc : x = child
          · subst hxc
            rw [hcn0] at hx0
            cases hx0
            have hx2 : GoMap.get (GoMap.set (GoMap.set db.nodes parent (decrEdge pn x)) x
                { node with parents := node.parents - 1 }) x = some n2 := hx
            rw [GoMap.get_set_self] at hx2
            cases hx2
            simp only [if_true] at hp0
            simp only at hp0 hpar0 ⊢
            right
            omega
          · simp only [hxc, if_false, sub_zero] at hp0
            exact Or.inl hp0
        · intro n hn0 hone
          exfalso
          rw [hcn0] at hn0
          cases hn0
          omega


/-! ## The Dereference cascade -/

theorem Reach.snoc {db : Database} {a p b : Hash} {pn : cachedNode} (h : Reach db a p)
    (hp : db.nodes.get p = some pn) (hb : b ∈ pn.children.keys) : Reach db a b := by
  induction h with
  | refl x => exact Reach.step x b b pn hp hb (Reach.refl b)
  | step x c m node hn hc _ ih => exact Reach.step x c b node hn hc (ih hp)

theorem Reach.cases_tail {db : Database} {a b : Hash} (h : Reach db a b) :
    a = b ∨ ∃ p pn, Reach db a p ∧ db.nodes.get p = some pn ∧ b ∈ pn.children.keys := by
  induction h with
  | refl x => exact Or.inl rfl
  | step x c m node hn hc _ ih =>
    right
    rcases ih with h1 | ⟨p, pn, hcp, hp, hm⟩
    · subst h1
      exact ⟨x, node, Reach.refl x, hn, hc⟩
    · exact ⟨p, pn, Reach.step x c p node hn hc hcp, hp, hm⟩

theorem ReachAvoiding.avoid_snoc {db : Database} {n q p m : Hash} {pn : cachedNode}
    (h : ReachAvoiding db n q p) (hp : db.nodes.get p = some pn) (hm : m ∈ pn.children.keys)
    (hmn : m ≠ n) : ReachAvoiding db n q m := by
  induction h with
  | refl x hx => exact ReachAvoiding.step x m m pn hx hp hm (ReachAvoiding.refl m hmn)
  | step x c y node hx hn hc _ ih => exact ReachAvoiding.step x c m node hx hn hc (ih hp)

theorem ReachAvoiding.avoid_head {db : Database} {n q m : Hash}
    (h : ReachAvoiding db n q m) :
    q ≠ n ∧ (q = m ∨ ∃ node c, db.nodes.get q = some node ∧ c ∈ node.children.keys ∧
      ReachAvoiding db n c m) := by
  cases h with
  | refl _ hq => exact ⟨hq, Or.inl rfl⟩
  | step _ c _ node hq hn hc hcm => exact ⟨hq, Or.inr ⟨node, c, hn, hc, hcm⟩⟩

/-- In an acyclic cache, a hash reachable only through `n` is one the cascade from `n`
takes away. -/
theorem ReachableOnlyThrough.doomed {db : Database} {n : Hash} (hacyc : Acyclic db) :
    ∀ m, ReachableOnlyThrough db n m → Doomed db n m := by
  obtain ⟨depth, hdepth⟩ := hacyc
  have key : ∀ k, ∀ m, depth m = k → ReachableOnlyThrough db n m → Doomed db n m := by
    intro k
    induction k using Nat.strong_induction_on with
    | _ k ih =>
      intro m hk hm
      by_cases hmn : m = n
      · rw [hmn]
        exact Doomed.self
      · obtain ⟨hreach, hall⟩ := hm
        refine Doomed.via m ?_ ?_
        · rcases hreach.cases_tail with h1 | ⟨p, pn, _, hp, hmp⟩
          · exact absurd h1.symm hmn
          · exact ⟨p, pn, hp, hmp⟩
        · intro p pn hp hmp
          by_cases hpn : p = n
          · rw [hpn]
            exact Doomed.self
          · have hpm : ReachAvoiding db n p m :=
              ReachAvoiding.step p m m pn hpn hp hmp (ReachAvoiding.refl m hmn)
            refine ih (depth p) (by rw [← hk]; exact hdepth p pn m hp hmp) p rfl ⟨?_, ?_⟩
            · exact hall p (by rw [hp]; simp) hpm
            · intro q hq hqp
              exact hall q hq (hqp.avoid_snoc hp hmp hmn)
  exact fun m hm => key (depth m) m rfl hm

/-- After the cascade, no hash it had to take away is cached. -/
theorem Doomed.gone {db : Database} {n parent : Hash} {m2 : GoMap Hash cachedNode}
    (hinv : RefInv db.nodes) (hinv2 : RefInv m2) (hcasc : Cascaded db.nodes n parent m2)
    (hn : GoMap.get m2 n = none) :
    ∀ x, Doomed db n x → GoMap.get m2 x = none := by
  intro x hx
  induction hx with
  | self => exact hn
  | via m hex _ ih =>
    by_contra hne
    cases hm2 : GoMap.get m2 m with
    | none => exact hne hm2
    | some mn2 =>
      obtain ⟨mn, hm, _, hpar, _⟩ := hcasc.sub m mn2 hm2
      obtain ⟨p, pn, hp, hmp⟩ := hex
      have hpos : 1 ≤ mn.parents := hinv.parents_pos p m pn mn hp hmp hm
      have hpos2 : 1 ≤ mn2.parents := by omega
      rw [hinv2.refs m mn2 hm2] at hpos2
      obtain ⟨x, xn2, hx2, hmx⟩ := hinv2.exists_referrer m hpos2
      obtain ⟨xn, hx0, _, _, hch⟩ := hcasc.sub x xn2 hx2
      have hmx0 : m ∈ xn.children.keys := by
        rw [hch] at hmx
        by_cases hxp : x = parent
        · simp only [hxp, if_true] at hmx
          rcases mem_keys_decrEdge _ _ _ hmx with h1 | h1
          · exact h1
          · rw [h1, hn] at hm2
            cases hm2
        · simpa [hxp] using hmx
      have := ih x xn hx0 hmx0
      rw [hx2] at this
      cases this

theorem not_mem_Nodes {db : Database} {x : Hash} (h : db.nodes.get x = none) :
    x ∉ Nodes db := by
  intro hx
  have h1 : x ∈ db.nodes.keys := (List.mem_filter.mp hx).1
  rw [GoMap.mem_keys_iff] at h1
  exact h1 h

/-- C5, as the code has it: in a cache built by `Insert` calls and by `Reference` calls
whose child is not the zero hash, and whose children edges are acyclic, if `n` has the one
live reference `(n, parent)`, then `Dereference(n, parent)` returns and afterwards
`Nodes()` contains neither `n` nor any node that was reachable only through `n`, while
every node that a cached node (the sentinel included) still refers to is cached with its
blob unchanged. -/
theorem Dereference_cascade (diskdb : DiskDB) (ops : List Op) (db : Database)
    (n parent : Hash) (elapsed : Int) (pn nn : cachedNode)
    (hops : ∀ op ∈ ops, op.buildsCache = true)
    (hrun : run (NewDatabase diskdb) ops = .ok db) (hacyc : Acyclic db)
    (hp : db.nodes.get parent = some pn) (hedge : pn.children.get n = some 1)
    (hn : db.nodes.get n = some nn) (hone : nn.parents = 1) :
    ∃ db2, Dereference db n parent elapsed = .ok db2 ∧
      n ∉ Nodes db2 ∧
      (∀ m, ReachableOnlyThrough db n m → m ∉ Nodes db2) ∧
      (∀ p pn2 m, db2.nodes.get p = some pn2 → m ∈ pn2.children.keys →
        ∃ mn mn2, db.nodes.get m = some mn ∧ db2.nodes.get m = some mn2 ∧
          mn2.blob = mn.blob) := by
  have hinv : RefInv db.nodes :=
    RefInv.refs_run ops (NewDatabase diskdb) RefInv.refs_new hops db hrun
  obtain ⟨d, hd, _, _, hD⟩ := Dereference_ok db n parent elapsed (by rw [hp]; simp)
  have hl : liveCount db.Lock.nodes < derefFuel db.Lock :=
    Nat.lt_succ_of_le (liveCount_le_length _)
  obtain ⟨hinv2, hcasc⟩ := dereference_refs _ db.Lock n parent pn 1 d hinv hp hedge hl hd
  have hgone : GoMap.get d.nodes n = none := hcasc.gone nn hn hone
  refine ⟨_, hD, not_mem_Nodes hgone, ?_, ?_⟩
  · intro m hm
    exact not_mem_Nodes (Doomed.gone hinv hinv2 hcasc hgone m (hm.doomed hacyc))
  · intro p pn2 m hp2 hm
    have hm2 := (hinv2.closed p pn2 hp2 m hm).2
    cases hmn2 : GoMap.get d.nodes m with
    | none => exact absurd hmn2 hm2
    | some mn2 =>
      obtain ⟨mn, hmn, hb, _⟩ := hcasc.sub m mn2 hmn2
      exact ⟨mn, mn2, hmn, hmn2, hb⟩


theorem dagDb_edges (q c : Hash) (node : cachedNode) (hq : dagDb.nodes.get q = some node)
    (hc : c ∈ node.children.keys) :
    (q = 4 ∧ c = 3) ∨ (q = 0 ∧ c = 4) ∨ (q = 0 ∧ c = 1) ∨ (q = 1 ∧ c = 3) ∨ (q = 1 ∧ c = 2) ∨
      (q = 2 ∧ c = 3) := by
  have h := GoMap.mem_of_get _ _ _ hq
  simp only [dagDb, List.mem_cons, Prod.mk.injEq, List.mem_singleton, List.not_mem_nil,
    or_false] at h
  rcases h with ⟨h1, h2⟩ | ⟨h1, h2⟩ | ⟨h1, h2⟩ | ⟨h1, h2⟩ | ⟨h1, h2⟩ <;> subst h1 h2 <;>
    simp [GoMap.keys] at hc ⊢ <;> tauto

theorem dagDb_acyclic : Acyclic dagDb := by
  refine ⟨fun h => if h = 4 then 1 else h, ?_⟩
  intro p pn c hp hc
  rcases dagDb_edges p c pn hp hc with ⟨h1, h2⟩ | ⟨h1, h2⟩ | ⟨h1, h2⟩ | ⟨h1, h2⟩ | ⟨h1, h2⟩ |
    ⟨h1, h2⟩ <;> subst h1 h2 <;> decide

theorem dagDb_only_through : ReachableOnlyThrough dagDb 1 2 := by
  have hreach : Reach dagDb 1 2 :=
    Reach.step 1 2 2 ⟨[1], 1, [(3, 1), (2, 1)]⟩ (by decide) (by decide) (Reach.refl 2)
  have h3 : ¬ ReachAvoiding dagDb 1 3 2 := by
    intro h
    rcases h.avoid_head with ⟨_, h1 | ⟨node, c, hn, hc, _⟩⟩
    · exact absurd h1 (by decide)
    · rcases dagDb_edges 3 c node hn hc with ⟨h1, _⟩ | ⟨h1, _⟩ | ⟨h1, _⟩ | ⟨h1, _⟩ | ⟨h1, _⟩ |
        ⟨h1, _⟩ <;> exact absurd h1 (by decide)
  refine ⟨hreach, ?_⟩
  intro q _ hq
  rcases hq.avoid_head with ⟨hq1, h1 | ⟨node, c, hn, hc, hcm⟩⟩
  · rw [h1]
    exact hreach
  · exfalso
    have h4 : ∀ c, ReachAvoiding dagDb 1 c 2 → c = 4 → False := by
      intro c hc h4
      subst h4
      rcases hc.avoid_head with ⟨_, h1 | ⟨node, c, hn, hc, hcm⟩⟩
      · exact absurd h1 (by decide)
      · rcases dagDb_edges 4 c node hn hc with ⟨_, h2⟩ | ⟨h1, _⟩ | ⟨h1, _⟩ | ⟨h1, _⟩ |
          ⟨h1, _⟩ | ⟨h1, _⟩
        · subst h2
          exact h3 hcm
        all_goals exact absurd h1 (by decide)
    rcases dagDb_edges q c node hn hc with ⟨_, h2⟩ | ⟨_, h2⟩ | ⟨_, h2⟩ | ⟨h1, _⟩ | ⟨h1, _⟩ |
      ⟨_, h2⟩
    · subst h2
      exact h3 hcm
    · exact h4 c hcm h2
    · subst h2
      exact hcm.avoid_head.1 rfl
    · exact hq1 h1
    · exact hq1 h1
    · subst h2
      exact h3 hcm


/-- Witness of `Dereference_cascade`: in the acyclic sample built by `Insert` and
`Reference`, dereferencing node 1 from the sentinel takes nodes 1 and 2 away and keeps
node 3, to which node 4 still refers. -/
theorem Dereference_cascade_witness :
    run (NewDatabase ⟨[], [], 0⟩)
      [.Insert 1 [1], .Insert 2 [2], .Insert 3 [3], .Insert 4 [4], .Reference 1 0,
        .Reference 2 1, .Reference 3 2, .Reference 3 1, .Reference 4 0, .Reference 3 4]
      = .ok dagDb ∧
    ∃ db2, Dereference dagDb 1 0 0 = .ok db2 ∧ 1 ∉ Nodes db2 ∧ 2 ∉ Nodes db2 ∧
      Nodes db2 = [3, 4] := by
  have hrun : run (NewDatabase ⟨[], [], 0⟩)
      [.Insert 1 [1], .Insert 2 [2], .Insert 3 [3], .Insert 4 [4], .Reference 1 0,
        .Reference 2 1, .Reference 3 2, .Reference 3 1, .Reference 4 0, .Reference 3 4]
      = .ok dagDb := by decide
  obtain ⟨db2, h, h1, h2, _⟩ := Dereference_cascade ⟨[], [], 0⟩ _ dagDb 1 0 0
    ⟨[], 0, [(4, 1), (1, 1)]⟩ ⟨[1], 1, [(3, 1), (2, 1)]⟩ (by decide) hrun dagDb_acyclic
    (by decide) (by decide) (by decide) (by decide)
  refine ⟨hrun, db2, h, h1, h2 2 dagDb_only_through, ?_⟩
  have h3 : (Dereference dagDb 1 0 0).bind (fun d => .ok (Nodes d)) = .ok [3, 4] := by decide
  rw [h] at h3
  exact Res.ok.inj h3

theorem cycleDb_edges (q c : Hash) (node : cachedNode)
    (hq : cycleDb.nodes.get q = some node) (hc : c ∈ node.children.keys) :
    (q = 3 ∧ c = 2) ∨ (q = 2 ∧ c = 3) ∨ (q = 1 ∧ c = 2) ∨ (q = 0 ∧ c = 1) := by
  have h := GoMap.mem_of_get _ _ _ hq
  simp only [cycleDb, List.mem_cons, Prod.mk.injEq, List.mem_singleton, List.not_mem_nil,
    or_false] at h
  rcases h with ⟨h1, h2⟩ | ⟨h1, h2⟩ | ⟨h1, h2⟩ | ⟨h1, h2⟩ <;> subst h1 h2 <;>
    simp [GoMap.keys] at hc ⊢ <;> tauto

theorem cycleDb_only_through : ReachableOnlyThrough cycleDb 1 2 := by
  have hreach : Reach cycleDb 1 2 :=
    Reach.step 1 2 2 ⟨[1], 1, [(2, 1)]⟩ (by decide) (by decide) (Reach.refl 2)
  have hreach3 : Reach cycleDb 1 3 :=
    hreach.snoc (by decide : cycleDb.nodes.get 2 = some ⟨[2], 2, [(3, 1)]⟩) (by decide)
  refine ⟨hreach, ?_⟩
  intro q _ hq
  rcases hq.avoid_head with ⟨hq1, h1 | ⟨node, c, hn, hc, hcm⟩⟩
  · rw [h1]
    exact hreach
  · rcases cycleDb_edges q c node hn hc with ⟨h1, _⟩ | ⟨h1, _⟩ | ⟨h1, _⟩ | ⟨_, h2⟩
    · rw [h1]
      exact hreach3
    · rw [h1]
      exact hreach
    · exact absurd h1 hq1
    · subst h2
      exact absurd rfl hcm.avoid_head.1

theorem pinDb_edges (q c : Hash) (node : cachedNode)
    (hq : pinDb.nodes.get q = some node) (hc : c ∈ node.children.keys) :
    (q = 0 ∧ c = 3) ∨ (q = 1 ∧ c = 0) ∨ (q = 2 ∧ c = 1) := by
  have h := GoMap.mem_of_get _ _ _ hq
  simp only [pinDb, List.mem_cons, Prod.mk.injEq, List.mem_singleton, List.not_mem_nil,
    or_false] at h
  rcases h with ⟨h1, h2⟩ | ⟨h1, h2⟩ | ⟨h1, h2⟩ | ⟨h1, h2⟩ <;> subst h1 h2 <;>
    simp [GoMap.keys] at hc ⊢ <;> tauto

theorem pinDb_acyclic : Acyclic pinDb := by
  refine ⟨fun h => if h = 2 then 0 else if h = 0 then 2 else h, ?_⟩
  intro p pn c hp hc
  rcases pinDb_edges p c pn hp hc with ⟨h1, h2⟩ | ⟨h1, h2⟩ | ⟨h1, h2⟩ <;> subst h1 h2 <;> decide

theorem pinDb_only_through : ReachableOnlyThrough pinDb 1 3 := by
  have hreach0 : Reach pinDb 1 0 :=
    Reach.step 1 0 0 ⟨[1], 1, [(0, 1)]⟩ (by decide) (by decide) (Reach.refl 0)
  have hreach : Reach pinDb 1 3 :=
    hreach0.snoc (by decide : pinDb.nodes.get 0 = some ⟨[], 1, [(3, 2)]⟩) (by decide)
  refine ⟨hreach, ?_⟩
  intro q _ hq
  rcases hq.avoid_head with ⟨hq1, h1 | ⟨node, c, hn, hc, hcm⟩⟩
  · rw [h1]
    exact hreach
  · rcases pinDb_edges q c node hn hc with ⟨h1, _⟩ | ⟨h1, _⟩ | ⟨_, h2⟩
    · rw [h1]
      exact hreach0
    · exact absurd h1 hq1
    · subst h2
      exact absurd rfl hcm.avoid_head.1

/-- C5 as stated fails, in two ways. With a cycle below `n` (nodes 2 and 3 refer to each
other under node 1, whose one reference is from the sentinel), `Dereference(1, 0)` leaves
node 2 in `Nodes()` although it was reachable only through node 1. With the zero hash as
a child (node 2 refers to node 1, node 1 to the sentinel, the sentinel twice to node 3;
no cycle), `Dereference(1, 2)` evicts the sentinel and leaves node 3 in `Nodes()` although
it was reachable only through node 1. -/
theorem Dereference_cascade_fails :
    (run (NewDatabase ⟨[], [], 0⟩)
        [.Insert 1 [1], .Insert 2 [2], .Insert 3 [3], .Reference 1 0, .Reference 2 1,
          .Reference 3 2, .Reference 2 3] = .ok cycleDb ∧
      cycleDb.nodes.get 0 = some ⟨[], 0, [(1, 1)]⟩ ∧
      cycleDb.nodes.get 1 = some ⟨[1], 1, [(2, 1)]⟩ ∧ inRefs cycleDb.nodes 1 = 1 ∧
      ReachableOnlyThrough cycleDb 1 2 ∧
      ∃ db2, Dereference cycleDb 1 0 0 = .ok db2 ∧ 2 ∈ Nodes db2) ∧
    (run (NewDatabase ⟨[], [], 0⟩)
        [.Insert 1 [1], .Insert 2 [2], .Insert 3 [3], .Reference 1 2, .Reference 0 1,
          .Reference 3 0, .Reference 3 0] = .ok pinDb ∧
      Acyclic pinDb ∧
      pinDb.nodes.get 2 = some ⟨[2], 0, [(1, 1)]⟩ ∧
      pinDb.nodes.get 1 = some ⟨[1], 1, [(0, 1)]⟩ ∧ inRefs pinDb.nodes 1 = 1 ∧
      ReachableOnlyThrough pinDb 1 3 ∧
      ∃ db2, Dereference pinDb 1 2 0 = .ok db2 ∧ 3 ∈ Nodes db2 ∧
        db2.nodes.get zeroHash = none) := by
  refine ⟨⟨by decide, by decide, by decide, by decide, cycleDb_only_through, _, rfl,
    by decide⟩, ⟨by decide, pinDb_acyclic, by decide, by decide, by decide,
    pinDb_only_through, _, rfl, by decide, by decide⟩⟩


/-! ## Commit returns on acyclic caches -/

theorem commitLoop_returns (f : Batch → Hash → Res (Option Error × Batch)) (keys : List Hash)
    (hf : ∀ c ∈ keys, ∀ b, ∃ r b2, f b c = .ok (r, b2)) :
    ∀ b, ∃ r b2, commitLoop f keys b = .ok (r, b2) := by
  induction keys with
  | nil => exact fun b => ⟨none, b, rfl⟩
  | cons c rest ih =>
    intro b
    obtain ⟨r, b1, h1⟩ := hf c (List.mem_cons_self _ _) b
    cases r with
    | some e => exact ⟨some e, b1, by simp [commitLoop, h1]⟩
    | none =>
      obtain ⟨r2, b2, h2⟩ := ih (fun c hc => hf c (List.mem_cons_of_mem _ hc)) b1
      exact ⟨r2, b2, by simp [commitLoop, h1, h2]⟩

theorem commit_returns (db : Database) (height : Hash → Nat)
    (hh : HeightBound db.nodes height) (fuel : Nat) :
    ∀ (hash : Hash) (b : Batch), height hash < fuel →
      ∃ r b2, commit fuel db hash b = .ok (r, b2) := by
  induction fuel with
  | zero =>
    intro hash b hf
    omega
  | succ fuel ih =>
    intro hash b hf
    simp only [commit]
    cases hn : db.nodes.get hash with
    | none => exact ⟨none, b, rfl⟩
    | some node =>
      simp only
      obtain ⟨r1, b1, h1⟩ := commitLoop_returns (fun b child => commit fuel db child b)
        node.children.keys
        (fun c hc b => ih c b (by have := hh hash node c hn hc; omega)) b
      rw [h1]
      cases r1 with
      | some e => exact ⟨some e, b1, rfl⟩
      | none =>
        simp only
        cases hput : b1.Put (Key.raw hash) node.blob with
        | mk e2 b2 =>
          cases e2 with
          | some e => exact ⟨some e, b2, rfl⟩
          | none =>
            simp only
            split
            · cases hwr : b2.Write with
              | mk e3 b3 =>
                cases e3 with
                | some e => exact ⟨some e, b3, rfl⟩
                | none => exact ⟨none, b3.Reset, rfl⟩
            · exact ⟨none, b2, rfl⟩

theorem HeightBound.bound_sub {m m2 : GoMap Hash cachedNode} {height : Hash → Nat}
    (h : HeightBound m height)
    (hsub : ∀ k, GoMap.get m2 k = none ∨ GoMap.get m2 k = GoMap.get m k) :
    HeightBound m2 height := by
  intro p pn c hp hc
  rcases hsub p with h1 | h1
  · rw [hp] at h1
    cases h1
  · exact h p pn c (h1 ▸ hp) hc

theorem rangeLoop_uncache_returns (fuel : Nat) (height : Hash → Nat)
    (ih : ∀ (d : Database) (c : Hash), HeightBound d.nodes height → height c < fuel →
      ∃ d2, uncache fuel d c = .ok d2)
    (keys : List Hash) (hk : ∀ c ∈ keys, height c < fuel) :
    ∀ d : Database, HeightBound d.nodes height →
      ∃ d2, rangeLoop (fun d child => uncache fuel d child) keys d = .ok d2 := by
  induction keys with
  | nil => exact fun d _ => ⟨d, rfl⟩
  | cons c rest ihl =>
    intro d hd
    obtain ⟨d1, h1⟩ := ih d c hd (hk c (List.mem_cons_self _ _))
    have hd1 : HeightBound d1.nodes height := hd.bound_sub (uncache_spec fuel d c d1 h1).sub
    obtain ⟨d2, h2⟩ := ihl (fun c hc => hk c (List.mem_cons_of_mem _ hc)) d1 hd1
    exact ⟨d2, by simp [rangeLoop, h1, h2]⟩

theorem uncache_returns (height : Hash → Nat) (fuel : Nat) :
    ∀ (d : Database) (hash : Hash), HeightBound d.nodes height → height hash < fuel →
      ∃ d2, uncache fuel d hash = .ok d2 := by
  induction fuel with
  | zero =>
    intro d hash _ hf
    omega
  | succ fuel ih =>
    intro d hash hd hf
    simp only [uncache]
    cases hn : d.nodes.get hash with
    | none => exact ⟨d, rfl⟩
    | some node =>
      simp only
      obtain ⟨d1, h1⟩ := rangeLoop_uncache_returns fuel height ih node.children.keys
        (fun c hc => by have := hd hash node c hn hc; omega) d hd
      rw [h1]
      exact ⟨_, rfl⟩

/-- On a cache whose children edges lead to hashes of smaller height, `Commit(root)`
returns at every depth bound above the height of the root, whatever the store does. -/
theorem Commit_returns (db : Database) (height : Hash → Nat)
    (hh : HeightBound db.nodes height) (fuel : Nat) (root : Hash) (report : Bool)
    (hf : height root < fuel) :
    ∃ r db2, Commit fuel db root report = .ok (r, db2) := by
  have hA : ∃ r dbA, CommitPhaseA fuel db root = .ok (r, dbA) := by
    unfold CommitPhaseA
    simp only
    cases hpre : commitPreimages db.RLock.preimages db.RLock (NewBatch db.RLock.diskdb) with
    | mk r1 p =>
      obtain ⟨db1, b1⟩ := p
      cases r1 with
      | some e => exact ⟨some e, _, rfl⟩
      | none =>
        simp only
        have hd1 : db1 = db.RLock := ((commitPreimages_spec _ _ _ _ _ _ hpre).2.2.2 rfl).1
        subst hd1
        obtain ⟨r2, b2, h2⟩ := commit_returns db.RLock height hh fuel root b1 hf
        rw [h2]
        cases r2 with
        | some e => exact ⟨some e, _, rfl⟩
        | none =>
          simp only
          cases hwr : b2.Write with
          | mk e3 b3 =>
            cases e3 with
            | some e => exact ⟨some e, _, rfl⟩
            | none => exact ⟨none, _, rfl⟩
  obtain ⟨r, dbA, hA⟩ := hA
  unfold Commit
  rw [hA]
  cases r with
  | some e => exact ⟨some e, dbA, rfl⟩
  | none =>
    simp only
    have hn : dbA.nodes = db.nodes := (CommitPhaseA_spec fuel db root none dbA hA).1.1
    obtain ⟨d2, h2⟩ := uncache_returns height fuel
      { dbA.Lock with preimages := [], preimagesSize := 0 } root
      (by show HeightBound dbA.nodes height; rw [hn]; exact hh) hf
    refine ⟨none, { d2 with gcnodes := 0, gcsize := 0, gctime := 0 }.Unlock, ?_⟩
    unfold CommitPhaseB
    simp only [h2, Res.bind]


/-! ## Counted references from the sentinel -/

theorem Dereference_keep (db : Database) (child parent : Hash) (elapsed : Int)
    (s node : cachedNode) (c : Int) (hs : db.nodes.get parent = some s)
    (hc : s.children.get child = some c) (hn : db.nodes.get child = some node)
    (hcp : child ≠ parent) (hpar : node.parents - 1 ≠ 0) (hcnt : c - 1 ≠ 0) :
    ∃ db2 s2 node2, Dereference db child parent elapsed = .ok db2 ∧
      db2.nodes.get parent = some s2 ∧ s2.children.get child = some (c - 1) ∧
      db2.nodes.get child = some node2 ∧ node2.parents = node.parents - 1 := by
  obtain ⟨d, hd, _, _, hD⟩ := Dereference_ok db child parent elapsed (by rw [hs]; simp)
  have hs1 : db.Lock.nodes.get parent = some s := hs
  have hn1 : (GoMap.set db.Lock.nodes parent (decrEdge s child)).get child = some node := by
    rw [GoMap.get_set_of_ne _ _ hcp]
    exact hn
  rw [derefFuel, dereference_succ] at hd
  simp only [hs1, hn1, if_neg hpar, Res.ok.injEq] at hd
  subst hd
  refine ⟨_, decrEdge s child, { node with parents := node.parents - 1 }, hD, ?_, ?_, ?_, rfl⟩
  · show GoMap.get (GoMap.set (GoMap.set db.nodes parent _) child _) parent = _
    rw [GoMap.get_set_of_ne _ _ (Ne.symm hcp), GoMap.get_set_self]
  · rw [get_decrEdge]
    simp [hc, hcnt]
  · show GoMap.get (GoMap.set (GoMap.set db.nodes parent _) child _) child = _
    rw [GoMap.get_set_self]

theorem Dereference_evict (db : Database) (child parent : Hash) (elapsed : Int)
    (s node : cachedNode) (hs : db.nodes.get parent = some s)
    (hn : db.nodes.get child = some node) (hcp : child ≠ parent) (hpar : node.parents = 1) :
    ∃ db2, Dereference db child parent elapsed = .ok db2 ∧ db2.nodes.get child = none := by
  obtain ⟨d, hd, _, _, hD⟩ := Dereference_ok db child parent elapsed (by rw [hs]; simp)
  have hs1 : db.Lock.nodes.get parent = some s := hs
  have hn1 : (GoMap.set db.Lock.nodes parent (decrEdge s child)).get child = some node := by
    rw [GoMap.get_set_of_ne _ _ hcp]
    exact hn
  have hz : node.parents - 1 = 0 := by omega
  rw [derefFuel, dereference_succ] at hd
  simp only [hs1, hn1, if_pos hz] at hd
  refine ⟨_, hD, ?_⟩
  split at hd
  · simp only [Res.ok.injEq] at hd
    subst hd
    exact GoMap.get_del_self _ _
  · cases hd
  · cases hd

theorem run_append (ops1 ops2 : List Op) :
    ∀ db : Database, run db (ops1 ++ ops2) = (run db ops1).bind (fun d => run d ops2) := by
  induction ops1 with
  | nil => exact fun db => rfl
  | cons op ops ih =>
    intro db
    show (step db op).bind (fun d => run d (ops ++ ops2)) = _
    simp only [run]
    cases step db op with
    | ok d =>
      simp only [Res.bind]
      exact ih d
    | panic => rfl
    | outOfFuel => rfl

/-- The counts after `k + 1` references of a child from the sentinel. -/
theorem run_references (child : Hash) (k : Nat) :
    ∀ (db : Database) (s node : cachedNode), db.nodes.get zeroHash = some s →
      db.nodes.get child = some node → child ≠ zeroHash →
      ∃ db2 s2 node2, run db (List.replicate (k + 1) (.Reference child zeroHash)) = .ok db2 ∧
        db2.nodes.get zeroHash = some s2 ∧
        s2.children.get child = some ((s.children.get child).getD 0 + (k + 1 : Nat)) ∧
        db2.nodes.get child = some node2 ∧ node2.parents = node.parents + (k + 1 : Nat) := by
  induction k with
  | zero =>
    intro db s node hs hn hz
    obtain ⟨db1, h1, ⟨node1, hn1, hp1, _⟩, ⟨s1, hs1, hc1, _⟩, _⟩ :=
      (Reference_effect db child zeroHash s hs).2.2 node hn (fun h => h.2 rfl)
    refine ⟨db1, s1, node1, ?_, hs1, ?_, hn1, ?_⟩
    · simp only [List.replicate, run, step, h1, Res.bind]
    · rw [hc1]
      simp
    · rw [hp1]
      simp
  | succ k ih =>
    intro db s node hs hn hz
    obtain ⟨db1, h1, ⟨node1, hn1, hp1, _⟩, ⟨s1, hs1, hc1, _⟩, _⟩ :=
      (Reference_effect db child zeroHash s hs).2.2 node hn (fun h => h.2 rfl)
    obtain ⟨db2, s2, node2, h2, hs2, hc2, hn2, hp2⟩ := ih db1 s1 node1 hs1 hn1 hz
    refine ⟨db2, s2, node2, ?_, hs2, ?_, hn2, ?_⟩
    · rw [List.replicate_succ]
      simp only [run, step, h1, Res.bind]
      exact h2
    · rw [hc2, hc1]
      simp only [Option.getD_some, Option.some.injEq]
      push_cast
      ring
    · rw [hp2, hp1]
      push_cast
      ring

/-- The counts after `j` dereferences of a child from the sentinel, fewer than the
references it holds. -/
theorem run_dereferences (child : Hash) (elapsed : Int) (j : Nat) :
    ∀ (db : Database) (s node : cachedNode) (c : Int), db.nodes.get zeroHash = some s →
      s.children.get child = some c → db.nodes.get child = some node → node.parents = c →
      child ≠ zeroHash → (j : Int) < c →
      ∃ db2 s2 node2, run db (List.replicate j (.Dereference child zeroHash elapsed)) = .ok db2 ∧
        db2.nodes.get zeroHash = some s2 ∧ s2.children.get child = some (c - j) ∧
        db2.nodes.get child = some node2 ∧ node2.parents = c - j := by
  induction j with
  | zero =>
    intro db s node c hs hc hn hp _ _
    exact ⟨db, s, node, rfl, hs, by simpa using hc, hn, by simpa using hp⟩
  | succ j ih =>
    intro db s node c hs hc hn hp hz hj
    push_cast at hj
    obtain ⟨db1, s1, node1, h1, hs1, hc1, hn1, hp1⟩ :=
      Dereference_keep db child zeroHash elapsed s node c hs hc hn hz (by omega) (by omega)
    obtain ⟨db2, s2, node2, h2, hs2, hc2, hn2, hp2⟩ :=
      ih db1 s1 node1 (c - 1) hs1 hc1 hn1 (by omega) hz (by omega)
    refine ⟨db2, s2, node2, ?_, hs2, ?_, hn2, ?_⟩
    · rw [List.replicate_succ]
      simp only [run, step, h1, Res.bind]
      exact h2
    · rw [hc2]
      push_cast
      congr 1
      ring
    · rw [hp2]
      push_cast
      ring

/-- A freshly inserted node (no `parents`, no edge from the sentinel) that is referenced
`k` times from the sentinel is still cached after fewer than `k` dereferences from the
sentinel, and is evicted by the `k`-th. -/
theorem references_counted (db : Database) (child : Hash) (elapsed : Int)
    (s node : cachedNode) (hs : db.nodes.get zeroHash = some s)
    (hn : db.nodes.get child = some node) (hz : child ≠ zeroHash)
    (hfresh : node.parents = 0) (hnone : s.children.get child = none) (k j : Nat)
    (hk : 0 < k) (hj : j ≤ k) :
    ∃ db2, run db (List.replicate k (.Reference child zeroHash) ++
        List.replicate j (.Dereference child zeroHash elapsed)) = .ok db2 ∧
      (j < k → db2.nodes.get child ≠ none) ∧ (j = k → db2.nodes.get child = none) := by
  obtain ⟨k0, rfl⟩ : ∃ k0, k = k0 + 1 := ⟨k - 1, by omega⟩
  obtain ⟨db1, s1, node1, h1, hs1, hc1, hn1, hp1⟩ := run_references child k0 db s node hs hn hz
  rw [hnone] at hc1
  rw [hfresh] at hp1
  simp only [Option.getD_none, zero_add] at hc1 hp1
  rw [run_append, h1]
  simp only [Res.bind]
  by_cases hjk : j < k0 + 1
  · obtain ⟨db2, s2, node2, h2, _, _, hn2, _⟩ :=
      run_dereferences child elapsed j db1 s1 node1 _ hs1 hc1 hn1 hp1 hz
        (by exact_mod_cast hjk)
    exact ⟨db2, h2, fun _ => by rw [hn2]; simp, fun h => absurd h (by omega)⟩
  · have hjeq : j = k0 + 1 := by omega
    subst hjeq
    obtain ⟨db2, s2, node2, h2, hs2, _, hn2, hp2⟩ :=
      run_dereferences child elapsed k0 db1 s1 node1 _ hs1 hc1 hn1 hp1 hz
        (by push_cast; omega)
    obtain ⟨db3, h3, hgone⟩ := Dereference_evict db2 child zeroHash elapsed s2 node2 hs2 hn2 hz
      (by rw [hp2]; push_cast; ring)
    refine ⟨db3, ?_, fun h => absurd h (by omega), fun _ => hgone⟩
    have happ : List.replicate (k0 + 1) (Op.Dereference child zeroHash elapsed)
        = List.replicate k0 (Op.Dereference child zeroHash elapsed) ++
          [Op.Dereference child zeroHash elapsed] := by
      rw [List.replicate_succ']
    rw [happ, run_append, h2]
    simp only [Res.bind, run, step, h3]


/-- C7: for every cached parent, `Reference(child, parent)` does exactly one of three
things: when the child is not cached the state is unchanged; when the edge exists already
and the parent is not the zero-hash sentinel the state is unchanged; otherwise
`child.parents` and `parent.children[child]` both go up by exactly one and nothing else
changes. Hence a freshly inserted node referenced `k` times from the sentinel is still
cached after fewer than `k` dereferences from the sentinel and is evicted by the
`k`-th. -/
theorem Reference_spec (db : Database) (child parent : Hash) (pnode : cachedNode)
    (hp : db.nodes.get parent = some pnode) :
    (db.nodes.get child = none → Reference db child parent = .ok db) ∧
    (∀ node, db.nodes.get child = some node →
        (pnode.children.get child).isSome → parent ≠ zeroHash →
        Reference db child parent = .ok db) ∧
    (∀ node, db.nodes.get child = some node →
        ¬ ((pnode.children.get child).isSome ∧ parent ≠ zeroHash) →
        ∃ db2, Reference db child parent = .ok db2 ∧
          (∃ node2, db2.nodes.get child = some node2 ∧
            node2.parents = node.parents + 1 ∧ node2.blob = node.blob ∧
            (parent ≠ child → node2.children = node.children)) ∧
          (∃ pnode2, db2.nodes.get parent = some pnode2 ∧
            pnode2.children.get child = some ((pnode.children.get child).getD 0 + 1) ∧
            (∀ k, k ≠ child → pnode2.children.get k = pnode.children.get k) ∧
            pnode2.blob = pnode.blob ∧
            (parent ≠ child → pnode2.parents = pnode.parents)) ∧
          (∀ k, k ≠ child → k ≠ parent → db2.nodes.get k = db.nodes.get k) ∧
          db2.diskdb = db.diskdb ∧ db2.preimages = db.preimages ∧
          db2.nodesSize = db.nodesSize ∧ db2.preimagesSize = db.preimagesSize ∧
          db2.gcnodes = db.gcnodes ∧ db2.gcsize = db.gcsize ∧ db2.gctime = db.gctime ∧
          db2.lock = db.lock) ∧
    (∀ node, parent = zeroHash → child ≠ zeroHash → db.nodes.get child = some node →
        node.parents = 0 → pnode.children.get child = none →
        ∀ (k j : Nat) (elapsed : Int), 0 < k → j ≤ k →
        ∃ db2, run db (List.replicate k (.Reference child zeroHash) ++
            List.replicate j (.Dereference child zeroHash elapsed)) = .ok db2 ∧
          (j < k → db2.nodes.get child ≠ none) ∧ (j = k → db2.nodes.get child = none)) := by
  obtain ⟨h1, h2, h3⟩ := Reference_effect db child parent pnode hp
  refine ⟨h1, h2, h3, ?_⟩
  intro node hpz hz hn hfresh hnone k j elapsed hk hj
  subst hpz
  exact references_counted db child elapsed pnode node hp hn hz hfresh hnone k j hk hj

/-- Witness of `Reference_spec`: the sentinel as parent of a freshly inserted node. Two
references from the sentinel give the counts 2, and it takes two `Dereference` calls to
evict the node. -/
theorem Reference_spec_witness :
    (∃ db2, Reference (Insert (NewDatabase ⟨[], [], 0⟩) 1 [7]) 1 zeroHash = .ok db2 ∧
      ∃ node2, db2.nodes.get 1 = some node2 ∧ node2.parents = 0 + 1) ∧
    (run (NewDatabase ⟨[], [], 0⟩)
        [.Insert 1 [7], .Reference 1 0, .Reference 1 0, .Dereference 1 0 0]).bind
      (fun d => .ok (Nodes d)) = .ok [1] ∧
    (run (NewDatabase ⟨[], [], 0⟩)
        [.Insert 1 [7], .Reference 1 0, .Reference 1 0, .Dereference 1 0 0,
          .Dereference 1 0 0]).bind
      (fun d => .ok (Nodes d)) = .ok [] := by
  refine ⟨?_, by decide, by decide⟩
  obtain ⟨db2, h1, ⟨node2, h2, h3, _⟩, _⟩ :=
    (Reference_spec (Insert (NewDatabase ⟨[], [], 0⟩) 1 [7]) 1 zeroHash
      { blob := [], parents := 0, children := [] } (by decide)).2.2.1
      { blob := [7], parents := 0, children := [] } (by decide) (by decide)
  exact ⟨db2, h1, node2, h2, h3⟩


/-! ## The store is written by Commit only -/

theorem rangeLoop_diskdb (f : Database → Hash → Res Database)
    (hf : ∀ d h d2, f d h = .ok d2 → d2.diskdb = d.diskdb) :
    ∀ (l : List Hash) (d d2 : Database), rangeLoop f l d = .ok d2 → d2.diskdb = d.diskdb := by
  intro l
  induction l with
  | nil =>
    intro d d2 h
    simp only [rangeLoop, Res.ok.injEq] at h
    rw [← h]
  | cons x rest ih =>
    intro d d2 h
    simp only [rangeLoop] at h
    cases hx : f d x with
    | ok d1 =>
      rw [hx] at h
      exact (ih d1 d2 h).trans (hf d x d1 hx)
    | panic => rw [hx] at h; cases h
    | outOfFuel => rw [hx] at h; cases h

theorem dereference_diskdb (fuel : Nat) :
    ∀ (d : Database) (child parent : Hash) (d2 : Database),
      dereference fuel d child parent = .ok d2 → d2.diskdb = d.diskdb := by
  induction fuel with
  | zero => intro d child parent d2 h; simp [dereference] at h
  | succ fuel ih =>
    intro d child parent d2 h
    simp only [dereference] at h
    split at h
    · cases h
    · split at h
      · simp only [Res.ok.injEq] at h
        rw [← h]
      · split at h
        · split at h
          · rename_i db3 hloop
            simp only [Res.ok.injEq] at h
            have h3 := rangeLoop_diskdb _ (fun a b c hc => ih a b child c hc) _ _ _ hloop
            rw [← h]
            exact h3
          · cases h
          · cases h
        · simp only [Res.ok.injEq] at h
          rw [← h]

theorem Dereference_diskdb (db : Database) (child parent : Hash) (elapsed : Int)
    (db2 : Database) (h : Dereference db child parent elapsed = .ok db2) :
    db2.diskdb = db.diskdb := by
  unfold Dereference at h
  cases hd : dereference (derefFuel db.Lock) db.Lock child parent with
  | ok d =>
    simp only [hd, Res.bind, Res.ok.injEq] at h
    rw [← h]
    exact dereference_diskdb _ db.Lock child parent d hd
  | panic => simp [hd, Res.bind] at h
  | outOfFuel => simp [hd, Res.bind] at h

theorem Reference_diskdb (db : Database) (child parent : Hash) (db2 : Database)
    (h : Reference db child parent = .ok db2) : db2.diskdb = db.diskdb := by
  rcases Reference_cases db child parent db2 h with h1 | ⟨_, _, _, _, _, h1⟩
  · rw [h1]
  · rw [h1]

theorem Insert_diskdb (db : Database) (hash : Hash) (blob : Bytes) :
    (Insert db hash blob).diskdb = db.diskdb := by
  unfold Insert insert
  cases hg : db.Lock.nodes.get hash <;> rfl

theorem insertPreimage_diskdb (db : Database) (hash : Hash) (preimage : Bytes) :
    (insertPreimage db hash preimage).diskdb = db.diskdb := by
  unfold insertPreimage
  cases hg : db.preimages.get hash <;> rfl

theorem step_diskdb (db : Database) (op : Op) (hop : op.noCommit = true) (db2 : Database)
    (h : step db op = .ok db2) : db2.diskdb = db.diskdb := by
  cases op with
  | Insert hash blob =>
    simp only [step, Res.ok.injEq] at h
    rw [← h]; exact Insert_diskdb db hash blob
  | insertPreimage hash preimage =>
    simp only [step, Res.ok.injEq] at h
    rw [← h]; exact insertPreimage_diskdb db hash preimage
  | Reference child parent => exact Reference_diskdb db child parent db2 h
  | Dereference child parent elapsed => exact Dereference_diskdb db child parent elapsed db2 h
  | Commit fuel node report => simp [Op.noCommit] at hop

theorem run_diskdb (ops : List Op) :
    ∀ (db db2 : Database), (∀ op ∈ ops, op.noCommit = true) → run db ops = .ok db2 →
      db2.diskdb = db.diskdb := by
  induction ops with
  | nil =>
    intro db db2 _ h
    simp only [run, Res.ok.injEq] at h
    rw [← h]
  | cons op ops ih =>
    intro db db2 hops h
    simp only [run] at h
    cases hs : step db op with
    | ok d1 =>
      rw [hs] at h
      simp only [Res.bind] at h
      exact (ih d1 db2 (fun o ho => hops o (List.mem_cons_of_mem _ ho)) h).trans
        (step_diskdb db op (hops op (List.mem_cons_self _ _)) d1 hs)
    | panic => rw [hs] at h; cases h
    | outOfFuel => rw [hs] at h; cases h

/-- C11: `Insert`, `insertPreimage`, `Reference` and `Dereference` never write to the
key-value store: after every sequence of these calls that returns, from every state of the
cache, the store (its keys, its values, and the schedule of its coming faults) is exactly
as before. `Commit` does write: on the sample cache `Commit(1)` returns without error and
the store, empty before, holds node 1 afterwards. -/
theorem store_untouched :
    (∀ (ops : List Op) (db db2 : Database), (∀ op ∈ ops, op.noCommit = true) →
      run db ops = .ok db2 → db2.diskdb = db.diskdb) ∧
    (∃ db2, Commit 5 sampleDb 1 false = .ok (none, db2) ∧
      sampleDb.diskdb.Has (Key.raw 1) = false ∧ db2.diskdb.Has (Key.raw 1) = true) :=
  ⟨fun ops db db2 hops h => run_diskdb ops db db2 hops h, ⟨_, rfl, by decide, by decide⟩⟩

/-- C11 at a concrete run on the sample cache: an insertion, a preimage, a reference and
a dereference leave the store as it was. -/
theorem store_untouched_witness :
    ∃ db2, run sampleDb [.Insert 9 [1], .insertPreimage 8 [2], .Reference 4 1,
        .Dereference 1 0 3] = .ok db2 ∧ db2.diskdb = sampleDb.diskdb :=
  ⟨_, rfl, store_untouched.1 [.Insert 9 [1], .insertPreimage 8 [2], .Reference 4 1,
        .Dereference 1 0 3] sampleDb _ (by decide) rfl⟩

/-! ## The lock across Commit -/

theorem commitPreimages_lock (l : List (Hash × Bytes)) :
    ∀ (db : Database) (b : Batch),
      (commitPreimages l db b).2.1.lock.writer = db.lock.writer ∧
      (commitPreimages l db b).2.1.lock.readers =
        (if (commitPreimages l db b).1 = none ∨ flushFails l b = true then db.lock.readers
          else db.lock.readers - 1) ∧
      (flushFails l b = true → (commitPreimages l db b).1 ≠ none) := by
  induction l with
  | nil => intro db b; simp [commitPreimages, flushFails]
  | cons e rest ih =>
    obtain ⟨hash, preimage⟩ := e
    intro db b
    rcases hput : b.Put (secureKey hash) preimage with ⟨r, b1⟩
    rcases hw : b1.Write with ⟨r2, b2⟩
    cases r with
    | some err => simp [commitPreimages, flushFails, hput, Database.RUnlock]
    | none =>
      by_cases hsz : b1.ValueSize > b1.disk.idealBatchSize
      · cases r2 with
        | some err => simp [commitPreimages, flushFails, hput, hsz, hw]
        | none =>
          simp only [commitPreimages, flushFails, hput, hsz, hw, if_true]
          exact ih db b2.Reset
      · simp only [commitPreimages, flushFails, hput, hsz, if_false]
        exact ih db b1

/-- The read lock after `Commit`: every return path has released it, except the return at
a failed intermediate `batch.Write()` in the preimage loop, which leaves one reader more
than at entry; the write lock is as at entry, and free after a nil return. -/
theorem Commit_readers (fuel : Nat) (db : Database) (node : Hash) (report : Bool)
    (r : Option Error) (d : Database) (h : Commit fuel db node report = .ok (r, d)) :
    d.lock.readers = db.lock.readers +
        (if flushFails db.preimages (NewBatch db.diskdb) = true then 1 else 0) ∧
      (flushFails db.preimages (NewBatch db.diskdb) = true → r ≠ none) ∧
      (r = none → d.lock.writer = false) ∧ (r ≠ none → d.lock.writer = db.lock.writer) := by
  obtain ⟨hw, hr, hf⟩ := commitPreimages_lock db.RLock.preimages db.RLock (NewBatch db.RLock.diskdb)
  have hA : ∀ r1 dA, CommitPhaseA fuel db node = .ok (r1, dA) →
      dA.lock.readers = db.lock.readers +
        (if flushFails db.preimages (NewBatch db.diskdb) = true then 1 else 0) ∧
      (flushFails db.preimages (NewBatch db.diskdb) = true → r1 ≠ none) ∧
      dA.lock.writer = db.lock.writer := by
    intro r1 dA hA
    unfold CommitPhaseA at hA
    cases hcp : commitPreimages db.RLock.preimages db.RLock (NewBatch db.RLock.diskdb) with
    | mk r0 rest =>
      obtain ⟨db1, b1⟩ := rest
      rw [hcp] at hw hr hf
      simp only at hw hr hf
      simp only [hcp] at hA
      cases r0 with
      | some err =>
        simp only [Res.ok.injEq, Prod.mk.injEq] at hA
        obtain ⟨h1, h2⟩ := hA
        subst h1 h2
        refine ⟨?_, fun _ => by simp, hw⟩
        show db1.lock.readers = _
        rw [hr]
        by_cases hfl : flushFails db.RLock.preimages (NewBatch db.RLock.diskdb) = true
        · have hfl' : flushFails db.preimages (NewBatch db.diskdb) = true := hfl
          simp [hfl, hfl', Database.RLock]
        · have hfl' : ¬ flushFails db.preimages (NewBatch db.diskdb) = true := hfl
          simp [hfl, hfl', Database.RLock]
      | none =>
        have hnf : ¬ flushFails db.preimages (NewBatch db.diskdb) = true :=
          fun hx => hf hx rfl
        have hr1 : db1.lock.readers = db.lock.readers + 1 := by
          rw [hr]; simp [Database.RLock]
        simp only at hA
        cases hc : commit fuel db1 node b1 with
        | ok res =>
          obtain ⟨rc, b2⟩ := res
          rw [hc] at hA
          cases rc with
          | some err =>
            simp only [Res.ok.injEq, Prod.mk.injEq] at hA
            obtain ⟨h1, h2⟩ := hA
            subst h1 h2
            refine ⟨?_, fun hx => absurd hx hnf, hw⟩
            show db1.lock.readers - 1 = _
            rw [hr1, if_neg hnf]; rfl
          | none =>
            simp only at hA
            cases hwr : b2.Write with
            | mk rw b3 =>
              rw [hwr] at hA
              cases rw with
              | some err =>
                simp only [Res.ok.injEq, Prod.mk.injEq] at hA
                obtain ⟨h1, h2⟩ := hA
                subst h1 h2
                refine ⟨?_, fun hx => absurd hx hnf, hw⟩
                show db1.lock.readers - 1 = _
                rw [hr1, if_neg hnf]; rfl
              | none =>
                simp only [Res.ok.injEq, Prod.mk.injEq] at hA
                obtain ⟨h1, h2⟩ := hA
                subst h1 h2
                refine ⟨?_, fun hx => absurd hx hnf, hw⟩
                show db1.lock.readers - 1 = _
                rw [hr1, if_neg hnf]; rfl
        | panic => rw [hc] at hA; cases hA
        | outOfFuel => rw [hc] at hA; cases hA
  cases r with
  | some e =>
    have h1 := Commit_ok_some fuel db node report e d h
    obtain ⟨a, b, c⟩ := hA _ _ h1
    exact ⟨a, b, fun hx => absurd hx (by simp), fun _ => c⟩
  | none =>
    obtain ⟨dA, h1, h2⟩ := Commit_ok_none fuel db node report d h
    obtain ⟨a, b, _⟩ := hA _ _ h1
    have hnf : ¬ flushFails db.preimages (NewBatch db.diskdb) = true := fun hx => b hx rfl
    have h2 : (uncache fuel { dA.Lock with preimages := [], preimagesSize := 0 } node).bind
        (fun d1 => .ok { d1 with gcnodes := 0, gcsize := 0, gctime := 0 }.Unlock) = .ok d := h2
    cases hu : uncache fuel { dA.Lock with preimages := [], preimagesSize := 0 } node with
    | ok d1 =>
      rw [hu] at h2
      simp only [Res.bind, Res.ok.injEq] at h2
      have hfr := (uncache_spec fuel _ _ _ hu).frame.2.2.2.2.2.2
      subst h2
      refine ⟨?_, fun hx => absurd hx hnf, fun _ => rfl, fun hx => absurd rfl hx⟩
      show d1.lock.readers = _
      rw [hfr]
      exact a
    | panic => rw [hu] at h2; cases h2
    | outOfFuel => rw [hu] at h2; cases h2

/-- C30, at the path that breaks it: on `leakDb` the `Write` that flushes the first
preimage fails, `Commit` returns that error, and the read lock taken at entry is still
held (one reader, none before the call). -/
theorem Commit_leaves_rlock :
    leakDb.lock = ⟨0, false⟩ ∧
      (Commit 5 leakDb zeroHash false).bind (fun r => .ok (r.1, r.2.lock)) =
        .ok (some ⟨5⟩, ⟨1, false⟩) := by
  decide

/-! ## Reference counts under Insert, Reference and Dereference -/

theorem RefInv.refs_step (db : Database) (op : Op) (db2 : Database) (h : RefInv db.nodes)
    (hc : op.counted db = true) (hs : step db op = .ok db2) : RefInv db2.nodes := by
  cases op with
  | Insert hash blob =>
    refine RefInv.refs_run [.Insert hash blob] db h (by simp [Op.buildsCache]) db2 ?_
    simp only [run, hs, Res.bind]
  | Reference child parent =>
    refine RefInv.refs_run [.Reference child parent] db h ?_ db2 ?_
    · intro op hop
      simp only [List.mem_singleton] at hop
      subst hop
      exact hc
    · simp only [run, hs, Res.bind]
  | Dereference child parent elapsed =>
    simp only [Op.counted] at hc
    cases hp : db.nodes.get parent with
    | none => simp [hp] at hc
    | some pn =>
      cases hcc : pn.children.get child with
      | none => simp [hp, hcc] at hc
      | some c =>
        obtain ⟨d, hd, _, _, hD⟩ := Dereference_ok db child parent elapsed (by simp [hp])
        have hD2 : Dereference db child parent elapsed = .ok db2 := hs
        rw [hD] at hD2
        simp only [Res.ok.injEq] at hD2
        have hl : liveCount db.Lock.nodes < derefFuel db.Lock :=
          Nat.lt_succ_of_le (liveCount_le_length _)
        have := (dereference_refs (derefFuel db.Lock) db.Lock child parent pn c d h hp hcc hl hd).1
        rw [← hD2]
        exact this
  | insertPreimage hash preimage => simp [Op.counted] at hc
  | Commit fuel node report => simp [Op.counted] at hc

theorem RefInv.refs_counted (ops : List Op) :
    ∀ db : Database, RefInv db.nodes → countedRun db ops = true →
      ∀ db2, run db ops = .ok db2 → RefInv db2.nodes := by
  induction ops with
  | nil =>
    intro db h _ db2 hr
    simp only [run, Res.ok.injEq] at hr
    rw [← hr]; exact h
  | cons op ops ih =>
    intro db h hc db2 hr
    simp only [countedRun, Bool.and_eq_true] at hc
    simp only [run] at hr
    cases hs : step db op with
    | ok db1 =>
      rw [hs] at hr
      simp only [hs] at hc
      exact ih db1 (RefInv.refs_step db op db1 h hc.1 hs) hc.2 db2 hr
    | panic => rw [hs] at hr; cases hr
    | outOfFuel => rw [hs] at hr; cases hr

/-- C27: after every sequence of `Insert`, `Reference` and `Dereference` calls on a new
`Database`, in which no `Reference` names the zero hash as its child and each
`Dereference` names an edge that the children map of a cached parent holds at that point,
the cached hashes are distinct, every cached node `n` has `n.parents` equal to the sum of
`p.children[n]` over the cached nodes `p`, every children count is at least 1, and every
count held by a parent other than the sentinel is exactly 1. -/
theorem refcounts_consistent (diskdb : DiskDB) (ops : List Op) (db2 : Database)
    (hc : countedRun (NewDatabase diskdb) ops = true)
    (h : run (NewDatabase diskdb) ops = .ok db2) :
    db2.nodes.keys.Nodup ∧
    ∀ n node, db2.nodes.get n = some node →
      node.parents = inRefs db2.nodes n ∧
      ∀ y c, node.children.get y = some c → 1 ≤ c ∧ (n ≠ zeroHash → c = 1) := by
  have hinv := RefInv.refs_counted ops (NewDatabase diskdb) RefInv.refs_new hc db2 h
  exact ⟨hinv.nodup, fun n node hn =>
    ⟨hinv.refs n node hn, fun y c hy => hinv.counts n node y c hn hy⟩⟩

/-- C27 at a run that pins node 1 twice, hangs node 2 below it and lets go again: after
`Dereference(1, 0)` node 1 is held once by the sentinel, node 2 once by node 1. -/
theorem refcounts_consistent_witness :
    (run (NewDatabase ⟨[], [], 100⟩)
        [.Insert 1 [1], .Insert 2 [2], .Reference 1 0, .Reference 1 0, .Reference 2 1,
          .Reference 2 1, .Dereference 1 0 0]).bind (fun d => .ok d.nodes) =
      .ok [(1, { blob := [1], parents := 1, children := [(2, 1)] }),
           (0, { blob := [], parents := 0, children := [(1, 1)] }),
           (2, { blob := [2], parents := 1, children := [] })] ∧
    ∃ db2, run (NewDatabase ⟨[], [], 100⟩)
        [.Insert 1 [1], .Insert 2 [2], .Reference 1 0, .Reference 1 0, .Reference 2 1,
          .Reference 2 1, .Dereference 1 0 0] = .ok db2 ∧
      db2.nodes.keys.Nodup ∧
      ∀ n node, db2.nodes.get n = some node →
        node.parents = inRefs db2.nodes n ∧
        ∀ y c, node.children.get y = some c → 1 ≤ c ∧ (n ≠ zeroHash → c = 1) :=
  ⟨by decide, _, rfl, refcounts_consistent ⟨[], [], 100⟩
    [.Insert 1 [1], .Insert 2 [2], .Reference 1 0, .Reference 1 0, .Reference 2 1,
      .Reference 2 1, .Dereference 1 0 0] _ (by decide) rfl⟩

/-! ## The number of calls of a cascade -/

theorem callsLoop_fst (f : Database → Hash → Res Database)
    (g : Database → Hash → Res (Database × Nat))
    (hfg : ∀ d h, (g d h).bind (fun r => .ok r.1) = f d h) (l : List Hash) :
    ∀ d, (callsLoop g l d).bind (fun r => .ok r.1) = rangeLoop f l d := by
  induction l with
  | nil => exact fun d => rfl
  | cons x rest ih =>
    intro d
    have h1 := hfg d x
    simp only [callsLoop, rangeLoop]
    cases hg : g d x with
    | ok r =>
      obtain ⟨d1, n⟩ := r
      rw [hg] at h1
      simp only [Res.bind] at h1
      rw [← h1]
      simp only
      have h2 := ih d1
      cases hc : callsLoop g rest d1 with
      | ok r2 =>
        obtain ⟨d2, m⟩ := r2
        rw [hc] at h2
        simp only [Res.bind] at h2 ⊢
        exact h2
      | panic => rw [hc] at h2; simp only [Res.bind] at h2 ⊢; exact h2
      | outOfFuel => rw [hc] at h2; simp only [Res.bind] at h2 ⊢; exact h2
    | panic => rw [hg] at h1; simp only [Res.bind] at h1 ⊢; rw [← h1]
    | outOfFuel => rw [hg] at h1; simp only [Res.bind] at h1 ⊢; rw [← h1]

theorem dereferenceCalls_succ (fuel : Nat) (db : Database) (child parent : Hash) :
    dereferenceCalls (fuel + 1) db child parent =
      match db.nodes.get parent with
      | none => .panic
      | some pnode =>
        match (GoMap.set db.nodes parent (decrEdge pnode child)).get child with
        | none => .ok ({ db with nodes := db.nodes.set parent (decrEdge pnode child) }, 1)
        | some node =>
          if node.parents - 1 = 0 then
            match callsLoop (fun d hash => dereferenceCalls fuel d hash child)
                node.children.keys
                { db with
                  nodes := (db.nodes.set parent (decrEdge pnode child)).set child
                    { node with parents := node.parents - 1 } } with
            | .ok (db3, n) =>
              .ok ({ db3 with
                     nodes := db3.nodes.del child
                     nodesSize :=
                       db3.nodesSize - ((HashLength + node.blob.length : Nat) : Int) }, n + 1)
            | .panic => .panic
            | .outOfFuel => .outOfFuel
          else
            .ok ({ db with
                   nodes := (db.nodes.set parent (decrEdge pnode child)).set child
                     { node with parents := node.parents - 1 } }, 1) := by
  rfl

theorem dereferenceCalls_fst (fuel : Nat) :
    ∀ (db : Database) (child parent : Hash),
      (dereferenceCalls fuel db child parent).bind (fun r => .ok r.1) =
        dereference fuel db child parent := by
  induction fuel with
  | zero => exact fun _ _ _ => rfl
  | succ fuel ih =>
    intro db child parent
    rw [dereferenceCalls_succ, dereference_succ]
    cases hp : db.nodes.get parent with
    | none => rfl
    | some pnode =>
      simp only
      cases hc : (GoMap.set db.nodes parent (decrEdge pnode child)).get child with
      | none => rfl
      | some node =>
        simp only
        by_cases hz : node.parents - 1 = 0
        · simp only [hz, if_true]
          have hl := callsLoop_fst (fun d hash => dereference fuel d hash child)
            (fun d hash => dereferenceCalls fuel d hash child) (fun d h => ih d h child)
            node.children.keys
            { db with
              nodes := (db.nodes.set parent (decrEdge pnode child)).set child
                { node with parents := 0 } }
          cases hcl : callsLoop (fun d hash => dereferenceCalls fuel d hash child)
              node.children.keys
              { db with
                nodes := (db.nodes.set parent (decrEdge pnode child)).set child
                  { node with parents := 0 } } with
          | ok r =>
            obtain ⟨d3, n⟩ := r
            rw [hcl] at hl
            simp only [Res.bind] at hl
            rw [← hl]
            rfl
          | panic =>
            rw [hcl] at hl
            simp only [Res.bind] at hl
            rw [← hl]
            rfl
          | outOfFuel =>
            rw [hcl] at hl
            simp only [Res.bind] at hl
            rw [← hl]
            rfl
        · simp only [hz, if_false]
          rfl

theorem liveEdges_del_le (m : GoMap Hash cachedNode) (k : Hash) :
    liveEdges (GoMap.del m k) ≤ liveEdges m := by
  induction m with
  | nil => exact le_refl _
  | cons e m ih =>
    obtain ⟨k1, v⟩ := e
    by_cases h : k1 = k
    · simp only [GoMap.del, h, if_true]
      have : liveEdges ((k, v) :: m) = liveEdgesOf v + liveEdges m := rfl
      omega
    · simp only [GoMap.del, h, if_false]
      have h1 : liveEdges ((k1, v) :: GoMap.del m k) = liveEdgesOf v + liveEdges (GoMap.del m k) :=
        rfl
      have h2 : liveEdges ((k1, v) :: m) = liveEdgesOf v + liveEdges m := rfl
      omega

theorem liveEdges_set (m : GoMap Hash cachedNode) (k : Hash) (v : cachedNode) :
    liveEdges (GoMap.set m k v) = liveEdgesOf v + liveEdges (GoMap.del m k) := rfl

theorem liveEdges_get (m : GoMap Hash cachedNode) (k : Hash) (node : cachedNode)
    (h : GoMap.get m k = some node) :
    liveEdgesOf node + liveEdges (GoMap.del m k) ≤ liveEdges m := by
  induction m with
  | nil => simp [GoMap.get] at h
  | cons e m ih =>
    obtain ⟨k1, v⟩ := e
    have h2 : liveEdges ((k1, v) :: m) = liveEdgesOf v + liveEdges m := rfl
    by_cases hk : k1 = k
    · simp only [GoMap.get, hk, if_true, Option.some.injEq] at h
      subst h
      simp only [GoMap.del, hk, if_true]
      have := liveEdges_del_le m k
      rw [hk] at h2
      omega
    · simp only [GoMap.get, hk, if_false] at h
      simp only [GoMap.del, hk, if_false]
      have h1 : liveEdges ((k1, v) :: GoMap.del m k) = liveEdgesOf v + liveEdges (GoMap.del m k) :=
        rfl
      have := ih h
      omega

theorem liveEdges_le_edgeCount (m : GoMap Hash cachedNode) : liveEdges m ≤ edgeCount m := by
  induction m with
  | nil => exact le_refl _
  | cons e m ih =>
    have h1 : liveEdges (e :: m) = liveEdgesOf e.2 + liveEdges m := rfl
    have h2 : edgeCount (e :: m) = e.2.children.length + edgeCount m := rfl
    have h3 : liveEdgesOf e.2 ≤ e.2.children.length := by
      unfold liveEdgesOf
      split <;> omega
    omega

theorem GoMap.length_del_lt {α : Type} (m : GoMap Hash α) (k : Hash)
    (h : GoMap.get m k ≠ none) : (GoMap.del m k).length < m.length := by
  induction m with
  | nil => simp [GoMap.get] at h
  | cons e m ih =>
    obtain ⟨k1, v⟩ := e
    by_cases hk : k1 = k
    · simp only [GoMap.del, hk, if_true, List.length_cons]
      exact Nat.lt_succ_of_le (GoMap.length_del_le m k)
    · simp only [GoMap.get, hk, if_false] at h
      simp only [GoMap.del, hk, if_false, List.length_cons]
      exact Nat.succ_lt_succ (ih h)

theorem GoMap.del_set_self {α : Type} (m : GoMap Hash α) (k : Hash) (v : α) :
    GoMap.del (GoMap.set m k v) k = GoMap.del m k := by
  have hidem : ∀ l : GoMap Hash α, GoMap.del (GoMap.del l k) k = GoMap.del l k := by
    intro l
    induction l with
    | nil => rfl
    | cons e l ih =>
      obtain ⟨k1, w⟩ := e
      by_cases hk : k1 = k
      · simp only [GoMap.del, hk, if_true, ih]
      · simp only [GoMap.del, hk, if_false, ih]
  simp only [GoMap.set, GoMap.del, if_true, hidem]

theorem liveEdgesOf_decrEdge (pnode : cachedNode) (child : Hash) :
    liveEdgesOf (decrEdge pnode child) ≤
      liveEdgesOf pnode +
        (if 0 < pnode.parents ∧ pnode.children.get child = none then 1 else 0) := by
  unfold liveEdgesOf
  have hp : (decrEdge pnode child).parents = pnode.parents := rfl
  rw [hp]
  by_cases hpos : 0 < pnode.parents
  · simp only [hpos, if_true, true_and]
    have hdel := GoMap.length_del_le pnode.children child
    unfold decrEdge
    simp only
    split
    · rw [GoMap.del_set_self]
      split <;> omega
    · have hlen : (GoMap.set pnode.children child
          ((pnode.children.get child).getD 0 - 1)).length =
          (GoMap.del pnode.children child).length + 1 := rfl
      rw [hlen]
      by_cases hg : pnode.children.get child = none
      · simp only [hg, if_true]
        omega
      · simp only [hg, if_false]
        have := GoMap.length_del_lt pnode.children child hg
        omega
  · simp only [hpos, if_false, false_and]
    exact le_refl _

theorem addsEdge_of_idle (db : Database) (child parent : Hash) (node : cachedNode)
    (h : db.nodes.get parent = some node) (hle : node.parents ≤ 0) :
    addsEdge db child parent = 0 := by
  have : ¬ 0 < node.parents := not_lt.mpr hle
  simp [addsEdge, h, this]

theorem dereferenceCalls_derefd (fuel : Nat) (db : Database) (child parent : Hash)
    (d : Database) (n : Nat) (hp : db.nodes.get parent ≠ none)
    (hl : liveCount db.nodes < fuel)
    (h : dereferenceCalls fuel db child parent = .ok (d, n)) :
    dereference fuel db child parent = .ok d ∧ Derefd db d := by
  obtain ⟨db2, h2, hd, _⟩ := dereference_total fuel db child parent hp hl
  have h3 := dereferenceCalls_fst fuel db child parent
  rw [h, h2] at h3
  simp only [Res.bind, Res.ok.injEq] at h3
  subst h3
  exact ⟨h2, hd⟩

theorem callsLoop_bound (fuel : Nat) (child : Hash)
    (ih : ∀ (db : Database) (c : Hash) (d : Database) (n : Nat), liveCount db.nodes < fuel →
      dereferenceCalls fuel db c child = .ok (d, n) →
      n + liveEdges d.nodes ≤ 1 + liveEdges db.nodes + addsEdge db c child)
    (keys : List Hash) :
    ∀ (d d2 : Database) (n : Nat), (∃ node, d.nodes.get child = some node ∧ node.parents ≤ 0) →
      liveCount d.nodes < fuel →
      callsLoop (fun d hash => dereferenceCalls fuel d hash child) keys d = .ok (d2, n) →
      n + liveEdges d2.nodes ≤ keys.length + liveEdges d.nodes := by
  induction keys with
  | nil =>
    intro d d2 n _ _ h
    simp only [callsLoop, Res.ok.injEq, Prod.mk.injEq] at h
    obtain ⟨h1, h2⟩ := h
    subst h1 h2
    simp
  | cons x rest ihk =>
    intro d d2 n hc hl h
    obtain ⟨node, hnode, hle⟩ := hc
    simp only [callsLoop] at h
    cases hg : dereferenceCalls fuel d x child with
    | ok r =>
      obtain ⟨d1, n1⟩ := r
      rw [hg] at h
      simp only at h
      cases hr : callsLoop (fun d hash => dereferenceCalls fuel d hash child) rest d1 with
      | ok r2 =>
        obtain ⟨d3, m⟩ := r2
        rw [hr] at h
        simp only [Res.ok.injEq, Prod.mk.injEq] at h
        obtain ⟨h1, h2⟩ := h
        subst h1 h2
        obtain ⟨_, hder⟩ := dereferenceCalls_derefd fuel d x child d1 n1 (by simp [hnode]) hl hg
        have hb := ih d x d1 n1 hl hg
        rw [addsEdge_of_idle d x child node hnode hle] at hb
        have hrest := ihk d1 d3 m (hder.survive child node hnode hle)
          (lt_of_le_of_lt hder.live hl) hr
        simp only [List.length_cons]
        omega
      | panic => rw [hr] at h; cases h
      | outOfFuel => rw [hr] at h; cases h
    | panic => rw [hg] at h; cases h
    | outOfFuel => rw [hg] at h; cases h

theorem dereferenceCalls_bound (fuel : Nat) :
    ∀ (db : Database) (child parent : Hash) (d : Database) (n : Nat),
      liveCount db.nodes < fuel → dereferenceCalls fuel db child parent = .ok (d, n) →
      n + liveEdges d.nodes ≤ 1 + liveEdges db.nodes + addsEdge db child parent := by
  induction fuel with
  | zero => intro db child parent d n hl _; exact absurd hl (Nat.not_lt_zero _)
  | succ fuel ih =>
    intro db child parent d n hl h
    rw [dereferenceCalls_succ] at h
    cases hp : db.nodes.get parent with
    | none => rw [hp] at h; cases h
    | some pnode =>
      rw [hp] at h
      simp only at h
      have hadd : addsEdge db child parent =
          (if 0 < pnode.parents ∧ pnode.children.get child = none then 1 else 0) := by
        simp only [addsEdge, hp]
      have h1 : liveEdges (GoMap.set db.nodes parent (decrEdge pnode child)) ≤
          liveEdges db.nodes + addsEdge db child parent := by
        rw [liveEdges_set, hadd]
        have := liveEdgesOf_decrEdge pnode child
        have := liveEdges_get db.nodes parent pnode hp
        omega
      have hl1 : liveCount (GoMap.set db.nodes parent (decrEdge pnode child)) ≤
          liveCount db.nodes :=
        liveCount_set_le db.nodes parent pnode _ hp (le_refl _)
      cases hc : (GoMap.set db.nodes parent (decrEdge pnode child)).get child with
      | none =>
        rw [hc] at h
        simp only [Res.ok.injEq, Prod.mk.injEq] at h
        obtain ⟨h2, h3⟩ := h
        subst h2 h3
        show 1 + liveEdges (GoMap.set db.nodes parent (decrEdge pnode child)) ≤ _
        omega
      | some node =>
        rw [hc] at h
        simp only at h
        have hget := liveEdges_get _ child node hc
        by_cases hz : node.parents - 1 = 0
        · simp only [hz, if_true] at h
          have hone : node.parents = 1 := by omega
          have hnodeE : liveEdgesOf node = node.children.length := by
            simp [liveEdgesOf, hone]
          cases hloop : callsLoop (fun d hash => dereferenceCalls fuel d hash child)
              node.children.keys
              { db with
                nodes := (db.nodes.set parent (decrEdge pnode child)).set child
                  { node with parents := 0 } } with
          | ok r =>
            obtain ⟨d3, m⟩ := r
            rw [hloop] at h
            simp only [Res.ok.injEq, Prod.mk.injEq] at h
            obtain ⟨h2, h3⟩ := h
            subst h2 h3
            have hl2 : liveCount ((db.nodes.set parent (decrEdge pnode child)).set child
                { node with parents := 0 }) < liveCount (db.nodes.set parent
                  (decrEdge pnode child)) :=
              liveCount_set_lt _ child node _ hc (by omega) (by simp)
            have hb := callsLoop_bound fuel child (fun db c d n => ih db c child d n)
              node.children.keys _ d3 m
              ⟨{ node with parents := 0 }, GoMap.get_set_self _ _ _, le_refl _⟩
              (by
                show liveCount ((db.nodes.set parent (decrEdge pnode child)).set child
                  { node with parents := 0 }) < fuel
                omega) hloop
            have hset : liveEdges ((db.nodes.set parent (decrEdge pnode child)).set child
                { node with parents := 0 }) =
                liveEdges ((db.nodes.set parent (decrEdge pnode child)).del child) := by
              rw [liveEdges_set]
              simp [liveEdgesOf]
            have hdel := liveEdges_del_le d3.nodes child
            have hkeys : node.children.keys.length = node.children.length := by
              simp [GoMap.keys]
            show m + 1 + liveEdges (GoMap.del d3.nodes child) ≤ _
            have hb' : m + liveEdges d3.nodes ≤ node.children.keys.length +
                liveEdges ((db.nodes.set parent (decrEdge pnode child)).set child
                  { node with parents := 0 }) := hb
            omega
          | panic => rw [hloop] at h; cases h
          | outOfFuel => rw [hloop] at h; cases h
        · simp only [hz, if_false, Res.ok.injEq, Prod.mk.injEq] at h
          obtain ⟨h2, h3⟩ := h
          subst h2 h3
          show 1 + liveEdges ((db.nodes.set parent (decrEdge pnode child)).set child
            { node with parents := node.parents - 1 }) ≤ _
          rw [liveEdges_set]
          have hw : liveEdgesOf { node with parents := node.parents - 1 } ≤ liveEdgesOf node := by
            unfold liveEdgesOf
            simp only
            split
            · rename_i hpos
              have : 0 < node.parents := by omega
              simp [this]
            · exact Nat.zero_le _
          omega

theorem dereferenceCalls_total (fuel : Nat) (db : Database) (child parent : Hash)
    (hp : db.nodes.get parent ≠ none) (hl : liveCount db.nodes < fuel) :
    ∃ d n, dereferenceCalls fuel db child parent = .ok (d, n) ∧
      dereference fuel db child parent = .ok d := by
  obtain ⟨db2, h2, _, _⟩ := dereference_total fuel db child parent hp hl
  have h3 := dereferenceCalls_fst fuel db child parent
  rw [h2] at h3
  cases hc : dereferenceCalls fuel db child parent with
  | ok r =>
    obtain ⟨d, n⟩ := r
    rw [hc] at h3
    simp only [Res.bind, Res.ok.injEq] at h3
    subst h3
    exact ⟨d, n, rfl, h2⟩
  | panic => rw [hc] at h3; cases h3
  | outOfFuel => rw [hc] at h3; cases h3

/-- C28: the cascade of `dereference` ends in every state of the cache, cyclic or not.
With the depth `Dereference` allows, a call `dereference(child, parent)` panics when
`parent` is not cached, and otherwise returns after `n` calls of `dereference`, this first
one included, where `n - 1`, the number of calls made by the recursion, is at most the
number of edges of the cache plus one; when the children map of `parent` holds the edge to
`child`, the first call is within the bound too: `n` is at most the number of edges plus
one. (Without that edge the first call adds an entry to the children map of `parent`,
which a cascade that reaches `parent` follows.) -/
theorem cascade_calls_bounded (db : Database) (child parent : Hash) :
    (db.nodes.get parent = none → dereference (derefFuel db) db child parent = .panic) ∧
    (db.nodes.get parent ≠ none →
      ∃ d n, dereferenceCalls (derefFuel db) db child parent = .ok (d, n) ∧
        dereference (derefFuel db) db child parent = .ok d ∧
        n - 1 ≤ edgeCount db.nodes + 1 ∧
        ((∃ pnode c, db.nodes.get parent = some pnode ∧ pnode.children.get child = some c) →
          n ≤ edgeCount db.nodes + 1)) := by
  have hl : liveCount db.nodes < derefFuel db := Nat.lt_succ_of_le (liveCount_le_length _)
  refine ⟨fun hp => ?_, fun hp => ?_⟩
  · show dereference (db.nodes.length + 1) db child parent = _
    rw [dereference_succ, hp]
  · obtain ⟨d, n, h1, h2⟩ := dereferenceCalls_total (derefFuel db) db child parent hp hl
    have hb := dereferenceCalls_bound (derefFuel db) db child parent d n hl h1
    have he := liveEdges_le_edgeCount db.nodes
    have hadd : addsEdge db child parent ≤ 1 := by
      unfold addsEdge
      split
      · split <;> omega
      · omega
    refine ⟨d, n, h1, h2, by omega, ?_⟩
    rintro ⟨pnode, c, hpn, hc⟩
    have : addsEdge db child parent = 0 := by
      simp [addsEdge, hpn, hc]
    omega

/-- C28 on the cyclic cache `cycleDb`, whose nodes 2 and 3 refer to each other:
`dereference(1, 0)` returns after 2 calls, the cache having 4 edges. -/
theorem cascade_calls_bounded_witness :
    edgeCount cycleDb.nodes = 4 ∧
      (dereferenceCalls (derefFuel cycleDb) cycleDb 1 0).bind (fun r => .ok r.2) = .ok 2 ∧
      ∃ d n, dereferenceCalls (derefFuel cycleDb) cycleDb 1 0 = .ok (d, n) ∧
        dereference (derefFuel cycleDb) cycleDb 1 0 = .ok d ∧
        n - 1 ≤ edgeCount cycleDb.nodes + 1 ∧
        ((∃ pnode c, cycleDb.nodes.get 0 = some pnode ∧ pnode.children.get 1 = some c) →
          n ≤ edgeCount cycleDb.nodes + 1) :=
  ⟨by decide, by decide, (cascade_calls_bounded cycleDb 1 0).2 (by decide)⟩

/-- The bound on `n - 1` is reached: on `knotDb`, a cache of 3 edges, `dereference(1, 3)`
names an edge that node 3 does not hold, and returns after 5 calls. -/
theorem cascade_calls_tight :
    edgeCount knotDb.nodes = 3 ∧
      (dereferenceCalls (derefFuel knotDb) knotDb 1 3).bind (fun r => .ok (r.2, r.1.nodes)) =
        .ok (5, [(0, { blob := [], parents := 0, children := [] })]) := by
  decide

end mtp

namespace miner

open mtp (Res)

/-! ## The gas limit -/

theorem contrib_exact (gasUsed : Nat) (h : gasUsed * 3 / 2 < 2 ^ 64) :
    add64 gasUsed (gasUsed / 2) / GasLimitBoundDivisor = gasUsed * 3 / 2 / 1024 := by
  have h1 : gasUsed + gasUsed / 2 = gasUsed * 3 / 2 := by omega
  unfold add64 uint64Size GasLimitBoundDivisor
  rw [h1, Nat.mod_eq_of_lt h]

theorem firstSum_exact (gasLimit contrib : Nat) (hl : gasLimit < 2 ^ 64)
    (h : gasLimit - gasLimit / 1024 + 1 + contrib < 2 ^ 64) :
    add64 (sub64 gasLimit (sub64 (gasLimit / GasLimitBoundDivisor) 1)) contrib =
      gasLimit - gasLimit / 1024 + 1 + contrib := by
  unfold add64 sub64 uint64Size GasLimitBoundDivisor
  omega

theorem calcGasLimit_eq (params : Params) (gasLimit gasUsed : Nat) :
    calcGasLimit params gasLimit gasUsed =
      if firstStage params gasLimit gasUsed < params.GenesisGasLimit then
        (if add64 gasLimit (sub64 (gasLimit / GasLimitBoundDivisor) 1) > params.GenesisGasLimit
          then params.GenesisGasLimit
          else add64 gasLimit (sub64 (gasLimit / GasLimitBoundDivisor) 1))
      else firstStage params gasLimit gasUsed := rfl

theorem firstStage_ge (params : Params) (gasLimit gasUsed : Nat) :
    params.MinGasLimit ≤ firstStage params gasLimit gasUsed := by
  unfold firstStage
  simp only
  split <;> omega

theorem firstStage_exact (params : Params) (gasLimit gasUsed : Nat) (hl : gasLimit < 2 ^ 64)
    (hu : gasUsed * 3 / 2 < 2 ^ 64)
    (hv : specGasLimit params gasLimit gasUsed < 2 ^ 64) :
    (firstStage params gasLimit gasUsed : Int) = specGasLimit params gasLimit gasUsed := by
  have hdiv : gasLimit / 1024 ≤ gasLimit := Nat.div_le_self _ _
  have hx : gasLimit - gasLimit / 1024 + 1 + gasUsed * 3 / 2 / 1024 < 2 ^ 64 := by
    unfold specGasLimit at hv
    have := le_max_right (params.MinGasLimit : Int)
      ((gasLimit : Int) - (gasLimit / 1024 : Nat) + 1 + ((gasUsed * 3 / 2 / 1024 : Nat) : Int))
    omega
  unfold firstStage
  simp only
  rw [contrib_exact gasUsed hu, firstSum_exact gasLimit _ hl hx]
  unfold specGasLimit
  split
  · rename_i hlt
    rw [max_eq_left]
    omega
  · rename_i hge
    rw [max_eq_right]
    · omega
    · omega

/-- C14, as the code has it: for every parent whose gas limit and gas used are `uint64`
values such that neither `gasUsed * 3 / 2` nor the value
`V = max(MinGasLimit, gasLimit - gasLimit/1024 + 1 + floor((gasUsed * 3/2) / 1024))`,
computed over the integers, exceeds the `uint64` range, and for which `V` is at least
`GenesisGasLimit`, `calcGasLimit` returns exactly `V`. -/
theorem calcGasLimit_spec (params : Params) (gasLimit gasUsed : Nat)
    (hl : gasLimit < 2 ^ 64) (hu : gasUsed * 3 / 2 < 2 ^ 64)
    (hv : specGasLimit params gasLimit gasUsed < 2 ^ 64)
    (hg : (params.GenesisGasLimit : Int) ≤ specGasLimit params gasLimit gasUsed) :
    (calcGasLimit params gasLimit gasUsed : Int) = specGasLimit params gasLimit gasUsed := by
  have h1 := firstStage_exact params gasLimit gasUsed hl hu hv
  rw [calcGasLimit_eq]
  have h2 : ¬ firstStage params gasLimit gasUsed < params.GenesisGasLimit := by
    intro hlt
    have : (firstStage params gasLimit gasUsed : Int) < params.GenesisGasLimit := by
      exact_mod_cast hlt
    omega
  rw [if_neg h2]
  exact h1

/-- C14 at a parent with a gas limit of 8000000 of which 6000000 were used: the next
limit is 8000978. -/
theorem calcGasLimit_spec_witness :
    specGasLimit sampleParams 8000000 6000000 = 8000978 ∧
      (calcGasLimit sampleParams 8000000 6000000 : Int) =
        specGasLimit sampleParams 8000000 6000000 :=
  ⟨by decide, calcGasLimit_spec sampleParams 8000000 6000000 (by decide) (by decide)
    (by decide) (by decide)⟩

/-- C14 as stated fails: for the `uint64` pair `gasLimit = gasUsed = 2 ^ 64 - 1` the
value `V` is at least `GenesisGasLimit`, and `calcGasLimit` does not return it (the sum
`gasUsed + gasUsed/2` wraps around, and `V` is not a `uint64`). -/
theorem calcGasLimit_wraps :
    (sampleParams.GenesisGasLimit : Int) ≤
        specGasLimit sampleParams (2 ^ 64 - 1) (2 ^ 64 - 1) ∧
      specGasLimit sampleParams (2 ^ 64 - 1) (2 ^ 64 - 1) = 18455751272964292608 ∧
      calcGasLimit sampleParams (2 ^ 64 - 1) (2 ^ 64 - 1) = 18437736874454810624 := by
  decide

theorem secondSum_exact (gasLimit : Nat) (hk : 1024 ≤ gasLimit)
    (hs : gasLimit + gasLimit / 1024 - 1 < 2 ^ 64) :
    add64 gasLimit (sub64 (gasLimit / GasLimitBoundDivisor) 1) =
      gasLimit + gasLimit / 1024 - 1 := by
  unfold add64 sub64 uint64Size GasLimitBoundDivisor
  omega

/-- C15, as the code has it: with `MinGasLimit ≤ GenesisGasLimit`, for a parent whose gas
limit is at least 1024 and at least `MinGasLimit`, and small enough for
`gasLimit + gasLimit/1024 - 1` to be a `uint64`, `calcGasLimit` is never below
`MinGasLimit`; and when the first-stage limit is below `GenesisGasLimit` the result is
`min(GenesisGasLimit, gasLimit + gasLimit/1024 - 1)`: at most `GenesisGasLimit`, and at
least the smaller of the parent's gas limit and `GenesisGasLimit`. -/
theorem calcGasLimit_bounds (params : Params) (gasLimit gasUsed : Nat)
    (hmg : params.MinGasLimit ≤ params.GenesisGasLimit)
    (hk : 1024 ≤ gasLimit) (hm : params.MinGasLimit ≤ gasLimit)
    (hs : gasLimit + gasLimit / 1024 - 1 < 2 ^ 64) :
    params.MinGasLimit ≤ calcGasLimit params gasLimit gasUsed ∧
      (firstStage params gasLimit gasUsed < params.GenesisGasLimit →
        calcGasLimit params gasLimit gasUsed =
            min params.GenesisGasLimit (gasLimit + gasLimit / 1024 - 1) ∧
          calcGasLimit params gasLimit gasUsed ≤ params.GenesisGasLimit ∧
          min gasLimit params.GenesisGasLimit ≤ calcGasLimit params gasLimit gasUsed) := by
  have h1 := firstStage_ge params gasLimit gasUsed
  have h2 := secondSum_exact gasLimit hk hs
  have hdiv : 1 ≤ gasLimit / 1024 := (Nat.one_le_div_iff (by decide)).2 hk
  rw [calcGasLimit_eq, h2]
  by_cases hf : firstStage params gasLimit gasUsed < params.GenesisGasLimit
  · rw [if_pos hf]
    by_cases hgt : gasLimit + gasLimit / 1024 - 1 > params.GenesisGasLimit
    · rw [if_pos hgt]
      refine ⟨hmg, fun _ => ⟨?_, le_refl _, Nat.min_le_right _ _⟩⟩
      rw [Nat.min_eq_left (Nat.le_of_lt hgt)]
    · rw [if_neg hgt]
      refine ⟨by omega, fun _ => ⟨?_, by omega, ?_⟩⟩
      · rw [Nat.min_eq_right (by omega)]
      · exact le_trans (Nat.min_le_left _ _) (by omega)
  · rw [if_neg hf]
    exact ⟨h1, fun h => absurd h hf⟩

/-- C15 at a parent with a gas limit of 4000000 and no gas used: the first-stage limit
3996095 is below the genesis limit, and the result 4003905 lies between the parent's limit
and the genesis limit. -/
theorem calcGasLimit_bounds_witness :
    firstStage sampleParams 4000000 0 = 3996095 ∧
      calcGasLimit sampleParams 4000000 0 = 4003905 ∧
      (sampleParams.MinGasLimit ≤ calcGasLimit sampleParams 4000000 0 ∧
        (firstStage sampleParams 4000000 0 < sampleParams.GenesisGasLimit →
          calcGasLimit sampleParams 4000000 0 =
              min sampleParams.GenesisGasLimit (4000000 + 4000000 / 1024 - 1) ∧
            calcGasLimit sampleParams 4000000 0 ≤ sampleParams.GenesisGasLimit ∧
            min 4000000 sampleParams.GenesisGasLimit ≤ calcGasLimit sampleParams 4000000 0)) :=
  ⟨by decide, by decide, calcGasLimit_bounds sampleParams 4000000 0 (by decide) (by decide)
    (by decide) (by decide)⟩

/-- C15 as stated fails, with `MinGasLimit = 5000 ≤ GenesisGasLimit = 4712388`: a parent
with a gas limit of 2048 gets the limit 2049, below `MinGasLimit`; a parent with a gas
limit of 4712488, above the genesis limit, and no gas used has a first-stage limit below
`GenesisGasLimit` and gets the limit 4712388, below its own; a parent with a gas limit of
1 gets the limit 0, where `decay` has wrapped around. -/
theorem calcGasLimit_below :
    sampleParams.MinGasLimit ≤ sampleParams.GenesisGasLimit ∧
      calcGasLimit sampleParams 2048 0 = 2049 ∧
      calcGasLimit sampleParams 2048 0 < sampleParams.MinGasLimit ∧
      firstStage sampleParams 4712488 0 < sampleParams.GenesisGasLimit ∧
      calcGasLimit sampleParams 4712488 0 = 4712388 ∧
      calcGasLimit sampleParams 4712488 0 < 4712488 ∧
      firstStage sampleParams 1 0 < sampleParams.GenesisGasLimit ∧
      calcGasLimit sampleParams 1 0 = 0 := by
  decide

/-! ## Start -/

theorem Start_syncing (m : UMiner) (h : m.canStart = 0) :
    Start m = (some (Errorf "node is syncing now"), m) := by
  simp only [Start, h, if_true]

theorem Start_busy (m : UMiner) (h0 : m.canStart ≠ 0) (h : m.mining = 1) :
    Start m = (some (Errorf "miner is running"), m) := by
  simp only [Start, h0, h, if_false, if_true]

theorem Start_idle (m : UMiner) (h0 : m.canStart ≠ 0) (h : m.mining = 0) :
    Start m =
      (none, { m with
               stopCh := some m.chans.length, chans := m.chans ++ [false], mining := 1
               posted := m.posted ++ [feedEvent.NewMiner], wg := m.wg + 2 }) := by
  simp [Start, h0, h, makeChan, CompareAndSwapInt32]

theorem Start_other (m : UMiner) (h0 : m.canStart ≠ 0) (h1 : m.mining ≠ 1)
    (h2 : m.mining ≠ 0) :
    Start m = (none, { m with stopCh := some m.chans.length, chans := m.chans ++ [false] }) := by
  simp [Start, h0, h1, h2, makeChan, CompareAndSwapInt32]

/-- C16, as the code has it: `Start` returns an error exactly when `mining = 1` or
`canStart = 0`, and then changes nothing (no flag, no channel, no task, no event). The
error is 'node is syncing now' whenever `canStart = 0`, also while mining, because
`canStart` is tested first; it is 'miner is running' when `mining = 1` and
`canStart ≠ 0`. Otherwise `Start` returns nil, and from `mining = 0` it sets `mining` to 1,
keeps `canStart`, makes a new stop channel, posts `NewMiner` and starts two tasks. -/
theorem Start_spec (m : UMiner) :
    ((Start m).1 ≠ none ↔ (m.mining = 1 ∨ m.canStart = 0)) ∧
    ((Start m).1 ≠ none → (Start m).2 = m) ∧
    (m.canStart = 0 → (Start m).1 = some (Errorf "node is syncing now")) ∧
    (m.canStart ≠ 0 → m.mining = 1 → (Start m).1 = some (Errorf "miner is running")) ∧
    (m.canStart ≠ 0 → m.mining = 0 →
      (Start m).1 = none ∧ (Start m).2.mining = 1 ∧ (Start m).2.canStart = m.canStart ∧
      (Start m).2.stopCh = some m.chans.length ∧ (Start m).2.chans = m.chans ++ [false] ∧
      (Start m).2.wg = m.wg + 2 ∧ (Start m).2.posted = m.posted ++ [feedEvent.NewMiner]) := by
  by_cases h0 : m.canStart = 0
  · rw [Start_syncing m h0]
    simp [h0]
  · by_cases h1 : m.mining = 1
    · rw [Start_busy m h0 h1]
      simp [h0, h1]
    · by_cases h2 : m.mining = 0
      · rw [Start_idle m h0 h2]
        simp [h0, h1, h2]
      · rw [Start_other m h0 h1 h2]
        simp [h0, h1, h2]

/-- C16 at the new miner: `Start` returns nil and sets `mining`; a second `Start` returns
'miner is running' and changes nothing. -/
theorem Start_spec_witness :
    (Start NewUranusMiner).1 = none ∧ (Start NewUranusMiner).2.mining = 1 ∧
      (Start (Start NewUranusMiner).2).1 = some (Errorf "miner is running") :=
  ⟨((Start_spec NewUranusMiner).2.2.2.2 (by decide) (by decide)).1,
    ((Start_spec NewUranusMiner).2.2.2.2 (by decide) (by decide)).2.1,
    (Start_spec (Start NewUranusMiner).2).2.2.2.1 (by decide) (by decide)⟩

/-- C16 as stated fails: a call made while already mining reports 'node is syncing now',
not 'miner is running', when `canStart = 0`. The state is the one of a started miner
whose loop has run `atomic.StoreInt32(&m.canStart, 0)` at a sync start and has not yet
called `Stop`. -/
theorem Start_syncing_while_mining :
    (StoreCanStart (Start NewUranusMiner).2 0).mining = 1 ∧
      Start (StoreCanStart (Start NewUranusMiner).2 0) =
        (some (Errorf "node is syncing now"), StoreCanStart (Start NewUranusMiner).2 0) := by
  decide

/-! ## Stop -/

theorem Stop_idle (m : UMiner) (h : m.mining ≠ 1) : Stop m = .ok m := by
  simp [Stop, CompareAndSwapInt32, h]

theorem Stop_mining (m : UMiner) (c : Nat) (h : m.mining = 1) (hc : m.stopCh = some c)
    (ho : m.chans[c]? = some false) :
    Stop m = .ok { m with mining := 0, chans := m.chans.set c true, wg := 0 } := by
  simp [Stop, CompareAndSwapInt32, h, hc, closeChan, ho]

theorem Stop_closes (m m2 : UMiner) (h : Stop m = .ok m2) (hne : m2.chans ≠ m.chans) :
    m.mining = 1 ∧ m2.mining = 0 ∧
      ∃ c, m.stopCh = some c ∧ m.chans[c]? = some false ∧ m2.chans = m.chans.set c true := by
  by_cases h1 : m.mining = 1
  · cases hc : m.stopCh with
    | none =>
      simp only [Stop, CompareAndSwapInt32, h1, hc] at h
      by_cases hw : m.wg = 0
      · simp [hw] at h
        rw [← h] at hne
        exact absurd rfl hne
      · simp [hw] at h
    | some c =>
      cases ho : m.chans[c]? with
      | none => simp [Stop, CompareAndSwapInt32, h1, hc, closeChan, ho] at h
      | some b =>
        cases b with
        | true => simp [Stop, CompareAndSwapInt32, h1, hc, closeChan, ho] at h
        | false =>
          rw [Stop_mining m c h1 hc ho] at h
          simp only [Res.ok.injEq] at h
          rw [← h]
          exact ⟨h1, rfl, c, rfl, ho, rfl⟩
  · rw [Stop_idle m h1] at h
    simp only [Res.ok.injEq] at h
    rw [← h] at hne
    exact absurd rfl hne

theorem Sound.keep_Start (m : UMiner) (h : Sound m) : Sound (Start m).2 := by
  by_cases h0 : m.canStart = 0
  · rw [Start_syncing m h0]; exact h
  · by_cases h1 : m.mining = 1
    · rw [Start_busy m h0 h1]; exact h
    · have h2 : m.mining = 0 := h.1.resolve_right h1
      rw [Start_idle m h0 h2]
      refine ⟨Or.inr rfl, fun _ => ⟨m.chans.length, rfl, ?_⟩⟩
      simp

theorem Sound.keep_Stop (m : UMiner) (h : Sound m) :
    ∃ m2, Stop m = .ok m2 ∧ Sound m2 ∧ m2.mining = 0 ∧ m2.canStart = m.canStart := by
  by_cases h1 : m.mining = 1
  · obtain ⟨c, hc, ho⟩ := h.2 h1
    rw [Stop_mining m c h1 hc ho]
    exact ⟨_, rfl, ⟨Or.inl rfl, fun hx => absurd (show (0 : Int) = 1 from hx) (by decide)⟩, rfl, rfl⟩
  · rw [Stop_idle m h1]
    exact ⟨m, rfl, h, h.1.resolve_right h1, rfl⟩

theorem Sound.keep_store (m : UMiner) (v : Int) (h : Sound m) : Sound (StoreCanStart m v) := h

theorem loopBody_start (m : UMiner) (minning : Int) (h : Sound m) :
    ∃ m1, loopBody m minning .StartEvent = .ok (m1, m.mining, true) ∧ Sound m1 ∧
      m1.mining = 0 ∧ m1.canStart = 0 := by
  obtain ⟨m2, h2, hs, hm, hcs⟩ := Sound.keep_Stop (StoreCanStart m 0) (h.keep_store m 0)
  by_cases h1 : m.mining = 1
  · refine ⟨m2, ?_, hs, hm, hcs⟩
    have h1' : (StoreCanStart m 0).mining = 1 := h1
    simp only [loopBody, h1', if_true, h2, Res.bind]
    rw [h1]
  · refine ⟨StoreCanStart m 0, ?_, h.keep_store m 0, h.1.resolve_right h1, rfl⟩
    have h1' : ¬ (StoreCanStart m 0).mining = 1 := h1
    simp only [loopBody, h1', if_false]
    rfl

theorem loopBody_done (m : UMiner) (minning : Int) (ev : SyncEvent)
    (hev : ev ≠ .StartEvent) :
    loopBody m minning ev =
      .ok (if minning = 1 then (Start (StoreCanStart m 1)).2 else StoreCanStart m 1,
        minning, false) := by
  cases ev with
  | StartEvent => exact absurd rfl hev
  | DoneEvent => rfl
  | FailedEvent => rfl

theorem loopBody_sound (m : UMiner) (minning : Int) (ev : SyncEvent) (h : Sound m) :
    ∃ r, loopBody m minning ev = .ok r ∧ Sound r.1 := by
  by_cases hev : ev = .StartEvent
  · obtain ⟨m1, h1, hs, _, _⟩ := loopBody_start m minning h
    exact ⟨_, hev ▸ h1, hs⟩
  · refine ⟨_, loopBody_done m minning ev hev, ?_⟩
    show Sound (if minning = 1 then (Start (StoreCanStart m 1)).2 else StoreCanStart m 1)
    split
    · exact Sound.keep_Start _ (h.keep_store m 1)
    · exact h.keep_store m 1

theorem act_sound (s : Running) (a : Action) (h : Sound s.m) :
    ∃ s2, act s a = .ok s2 ∧ Sound s2.m := by
  cases a with
  | Start => exact ⟨_, rfl, Sound.keep_Start s.m h⟩
  | Stop =>
    obtain ⟨m2, h2, hs, _, _⟩ := Sound.keep_Stop s.m h
    exact ⟨{ s with m := m2 }, by simp only [act, h2, Res.bind], hs⟩
  | post ev =>
    by_cases hsub : s.subscribed = true
    · obtain ⟨r, hr, hs⟩ := loopBody_sound s.m s.minning ev h
      exact ⟨⟨r.1, r.2.1, r.2.2⟩, by simp only [act, hsub, if_true, hr, Res.bind], hs⟩
    · exact ⟨s, by simp only [act, hsub]; rfl, h⟩

theorem acts_sound (l : List Action) :
    ∀ s : Running, Sound s.m → ∃ s2, acts s l = .ok s2 ∧ Sound s2.m := by
  induction l with
  | nil => exact fun s h => ⟨s, rfl, h⟩
  | cons a rest ih =>
    intro s h
    obtain ⟨s1, h1, hs1⟩ := act_sound s a h
    obtain ⟨s2, h2, hs2⟩ := ih s1 hs1
    exact ⟨s2, by simp only [acts, h1, Res.bind, h2], hs2⟩

theorem boot_sound : Sound boot.m :=
  ⟨Or.inl rfl, fun h => absurd h (by decide)⟩

/-- C17: in every sequence of calls of `Start` and `Stop` (and of sync events handled by
the loop), from a state in which the flags hold 0 or 1 and the stop channel of a mining
miner is open, as after `NewUranusMiner`, no call closes a closed channel: every call
returns without the panic of a second `close`, and leaves such a state. A `Stop` while
`mining` is not 1 changes nothing; a `Stop` that changes the channels has found `mining`
at 1, leaves it at 0, and has closed the current stop channel, open until then. -/
theorem stopCh_closed_once (s : Running) (h : Sound s.m) (l : List Action) :
    (∃ s2, acts s l = .ok s2 ∧ Sound s2.m) ∧
    (∀ m : UMiner, m.mining ≠ 1 → Stop m = .ok m) ∧
    (∀ m m2 : UMiner, Stop m = .ok m2 → m2.chans ≠ m.chans →
      m.mining = 1 ∧ m2.mining = 0 ∧
        ∃ c, m.stopCh = some c ∧ m.chans[c]? = some false ∧ m2.chans = m.chans.set c true) :=
  ⟨acts_sound l s h, Stop_idle, Stop_closes⟩

/-- C17 at the new miner: after `Start, Stop, Stop, Start, Stop` the channels the two
calls of `Start` made are closed, each by one `Stop`, the channel `NewUranusMiner` made is
still open, and the miner is idle. -/
theorem stopCh_closed_once_witness :
    Sound boot.m ∧
      (∃ s2, acts boot [.Start, .Stop, .Stop, .Start, .Stop] = .ok s2 ∧ Sound s2.m) ∧
      (acts boot [.Start, .Stop, .Stop, .Start, .Stop]).bind
          (fun s2 => .ok (s2.m.chans, s2.m.mining)) = .ok ([false, true, true], 0) :=
  ⟨boot_sound, (stopCh_closed_once boot boot_sound [.Start, .Stop, .Stop, .Start, .Stop]).1,
    by decide⟩

/-! ## The loop of the sync events -/

theorem loopFrom_starts (n : Nat) :
    ∀ (m : UMiner) (minning : Int), Sound m →
      ∃ m1, loopFrom (List.replicate (n + 1) SyncEvent.StartEvent) m minning = .ok m1 ∧
        Sound m1 ∧ m1.mining = 0 ∧ m1.canStart = 0 := by
  induction n with
  | zero =>
    intro m minning h
    obtain ⟨m1, h1, hs, hm, hc⟩ := loopBody_start m minning h
    exact ⟨m1, by simp only [List.replicate, loopFrom, h1, Res.bind, if_true], hs, hm, hc⟩
  | succ n ih =>
    intro m minning h
    obtain ⟨m1, h1, hs, _, _⟩ := loopBody_start m minning h
    obtain ⟨m2, h2, hs2, hm2, hc2⟩ := ih m1 m.mining hs
    refine ⟨m2, ?_, hs2, hm2, hc2⟩
    rw [List.replicate_succ]
    simp only [loopFrom, h1, Res.bind, if_true]
    exact h2

theorem loopFrom_done (n : Nat) :
    ∀ (m : UMiner) (minning : Int) (d : SyncEvent) (rest : List SyncEvent),
      Sound m → d ≠ .StartEvent →
      ∃ m2, loopFrom (List.replicate n SyncEvent.StartEvent ++ d :: rest) m minning = .ok m2 ∧
        Sound m2 ∧ m2.canStart = 1 ∧
        (m2.mining = 1 ↔
          (n = 0 ∧ (minning = 1 ∨ m.mining = 1)) ∨ (n = 1 ∧ m.mining = 1)) := by
  induction n with
  | zero =>
    intro m minning d rest h hd
    simp only [List.replicate, List.nil_append, loopFrom, loopBody_done m minning d hd,
      Res.bind]
    have hcs : (StoreCanStart m 1).canStart ≠ 0 := by simp [StoreCanStart]
    by_cases hmin : minning = 1
    · simp only [hmin, if_true]
      refine ⟨_, rfl, Sound.keep_Start _ (h.keep_store m 1), ?_, ?_⟩
      · by_cases h1 : m.mining = 1
        · rw [Start_busy (StoreCanStart m 1) hcs h1]; rfl
        · rw [Start_idle (StoreCanStart m 1) hcs (h.1.resolve_right h1)]
          rfl
      · by_cases h1 : m.mining = 1
        · rw [Start_busy (StoreCanStart m 1) hcs h1]
          simp [h1, StoreCanStart]
        · rw [Start_idle (StoreCanStart m 1) hcs (h.1.resolve_right h1)]
          simp
    · simp only [hmin, if_false]
      refine ⟨_, rfl, h.keep_store m 1, rfl, ?_⟩
      simp [StoreCanStart]
  | succ n ih =>
    intro m minning d rest h hd
    obtain ⟨m1, h1, hs, hm1, _⟩ := loopBody_start m minning h
    obtain ⟨m2, h2, hs2, hc2, hiff⟩ := ih m1 m.mining d rest hs hd
    refine ⟨m2, ?_, hs2, hc2, ?_⟩
    · rw [List.replicate_succ, List.cons_append]
      simp only [loopFrom, h1, Res.bind, if_true]
      exact h2
    · rw [hiff, hm1]
      constructor
      · rintro (⟨hn, hx | hx⟩ | ⟨_, hx⟩)
        · exact Or.inr ⟨by omega, hx⟩
        · exact absurd hx (by decide)
        · exact absurd hx (by decide)
      · rintro (⟨hn, _⟩ | ⟨hn, hx⟩)
        · omega
        · exact Or.inl ⟨by omega, Or.inl hx⟩

theorem loopFrom_ignores (pre : List SyncEvent) :
    ∀ (m : UMiner) (minning : Int) (d : SyncEvent) (rest : List SyncEvent),
      d ≠ .StartEvent →
      loopFrom (pre ++ d :: rest) m minning = loopFrom (pre ++ [d]) m minning := by
  induction pre with
  | nil =>
    intro m minning d rest hd
    simp only [List.nil_append, loopFrom, loopBody_done m minning d hd, Res.bind]
    rfl
  | cons e pre ih =>
    intro m minning d rest hd
    simp only [List.cons_append, loopFrom]
    cases hb : loopBody m minning e with
    | ok r =>
      simp only [Res.bind]
      split
      · exact ih r.1 r.2.1 d rest hd
      · rfl
    | panic => rfl
    | outOfFuel => rfl

/-- C18, as the code has it: the loop handles the sync events up to the first done or
failed event only. On a miner whose flags hold 0 or 1 and whose stop channel is open while
mining: after one or more sync-start events `canStart` is 0, the miner is stopped, and
`Start` fails with 'node is syncing now'; the first done or failed event sets `canStart`
to 1, and leaves `mining` at 1 exactly when the miner was mining before and at most one
sync-start event came first (a second sync-start event reads `mining` again, after the
stop, so that the miner is not started again); whatever events follow are ignored, the
loop having left. -/
theorem loop_spec (m : UMiner) (h : Sound m) (n : Nat) (d : SyncEvent)
    (hd : d ≠ .StartEvent) (rest : List SyncEvent) :
    (∃ m1, loop m (List.replicate (n + 1) SyncEvent.StartEvent) = .ok m1 ∧
      m1.canStart = 0 ∧ m1.mining = 0 ∧
      Start m1 = (some (Errorf "node is syncing now"), m1)) ∧
    (∃ m2, loop m (List.replicate n SyncEvent.StartEvent ++ d :: rest) = .ok m2 ∧
      m2.canStart = 1 ∧ (m2.mining = 1 ↔ n ≤ 1 ∧ m.mining = 1)) ∧
    (∀ pre : List SyncEvent, loop m (pre ++ d :: rest) = loop m (pre ++ [d])) := by
  refine ⟨?_, ?_, fun pre => loopFrom_ignores pre m 0 d rest hd⟩
  · obtain ⟨m1, h1, _, hm, hc⟩ := loopFrom_starts n m 0 h
    exact ⟨m1, h1, hc, hm, Start_syncing m1 hc⟩
  · obtain ⟨m2, h2, _, hc, hiff⟩ := loopFrom_done n m 0 d rest h hd
    refine ⟨m2, h2, hc, ?_⟩
    rw [hiff]
    constructor
    · rintro (⟨hn, hx | hx⟩ | ⟨hn, hx⟩)
      · exact absurd hx (by decide)
      · exact ⟨by omega, hx⟩
      · exact ⟨by omega, hx⟩
    · rintro ⟨hn, hx⟩
      by_cases h0 : n = 0
      · exact Or.inl ⟨h0, Or.inr hx⟩
      · exact Or.inr ⟨by omega, hx⟩

/-- C18 at a started miner: a sync start stops it and makes `Start` fail; the done event
that follows starts it again; the sync start after that is not handled. -/
theorem loop_spec_witness :
    Sound (Start NewUranusMiner).2 ∧
      (loop (Start NewUranusMiner).2 [.StartEvent]).bind
          (fun m1 => .ok (m1.canStart, m1.mining, (Start m1).1)) =
        .ok (0, 0, some (Errorf "node is syncing now")) ∧
      (loop (Start NewUranusMiner).2 [.StartEvent, .DoneEvent, .StartEvent]).bind
          (fun m2 => .ok (m2.canStart, m2.mining)) = .ok (1, 1) ∧
      (∃ m2, loop (Start NewUranusMiner).2
          (List.replicate 1 SyncEvent.StartEvent ++ .DoneEvent :: [.StartEvent]) = .ok m2 ∧
        m2.canStart = 1 ∧ (m2.mining = 1 ↔ 1 ≤ 1 ∧ (Start NewUranusMiner).2.mining = 1)) :=
  ⟨Sound.keep_Start _ boot_sound, by decide, by decide,
    (loop_spec (Start NewUranusMiner).2 (Sound.keep_Start _ boot_sound) 1 .DoneEvent
      (by decide) [.StartEvent]).2.1⟩

/-- C18 as stated fails for the second sync round: after a sync start and a done event,
the next sync start leaves `canStart` at 1 and the miner mining, and a `Start` called on
an idle miner during that second sync succeeds. -/
theorem loop_second_round :
    (loop (Start NewUranusMiner).2 [.StartEvent, .DoneEvent, .StartEvent]).bind
        (fun m2 => .ok (m2.canStart, m2.mining)) = .ok (1, 1) ∧
      (loop NewUranusMiner [.StartEvent, .DoneEvent, .StartEvent]).bind
        (fun m2 => .ok (m2.canStart, (Start m2).1, (Start m2).2.mining)) =
          .ok (1, none, 1) := by
  decide

/-! ## mintBlock -/

theorem mintBlock_failed (m : UMiner) (t : Turn) (turns : List Turn) (err : error)
    (hq : t.quit = false) (hr : (generateBlock m t.env).2 = .ok (some err)) :
    mintBlock m (t :: turns) =
      ⟨generateBlock m t.env :: (mintBlock m turns).attempts,
        (if err.isMissingNodeError then [] else [err]) ++ (mintBlock m turns).logged,
        (mintBlock m turns).exit⟩ := by
  simp only [mintBlock, hq, hr]
  rfl

theorem mintBlock_fails (m : UMiner) (pre : List Turn) :
    (∀ x ∈ pre, x.quit = false ∧ ∃ err, (generateBlock m x.env).2 = .ok (some err)) →
    ∀ turns : List Turn,
      (mintBlock m (pre ++ turns)).attempts =
          pre.map (fun x => generateBlock m x.env) ++ (mintBlock m turns).attempts ∧
        (mintBlock m (pre ++ turns)).exit = (mintBlock m turns).exit := by
  induction pre with
  | nil => exact fun _ turns => ⟨rfl, rfl⟩
  | cons x pre ih =>
    intro h turns
    obtain ⟨hq, err, hr⟩ := h x (List.mem_cons_self _ _)
    obtain ⟨h1, h2⟩ := ih (fun y hy => h y (List.mem_cons_of_mem _ hy)) turns
    rw [List.cons_append, mintBlock_failed m x (pre ++ turns) err hq hr]
    exact ⟨by rw [List.map_cons, List.cons_append, ← h1], h2⟩

/-- C19, as the code has it: `mintBlock` calls `generateBlock` again after every failure,
whatever the error (a `MissingNodeError` is only kept out of the error log). While every
turn meets an open `quitCurrentOp` and a failing `generateBlock`, each turn makes one more
call and the loop goes on; the attempt ends at the first turn that finds `quitCurrentOp`
closed, without a further call, or at the first call that returns nil. -/
theorem mintBlock_spec (m : UMiner) (pre : List Turn) (t : Turn) (rest : List Turn)
    (hpre : ∀ x ∈ pre, x.quit = false ∧ ∃ err, (generateBlock m x.env).2 = .ok (some err)) :
    ((mintBlock m pre).attempts = pre.map (fun x => generateBlock m x.env) ∧
      (mintBlock m pre).exit = .running) ∧
    (t.quit = true →
      (mintBlock m (pre ++ t :: rest)).attempts = pre.map (fun x => generateBlock m x.env) ∧
      (mintBlock m (pre ++ t :: rest)).exit = .cancelled) ∧
    (t.quit = false → (generateBlock m t.env).2 = .ok none →
      (mintBlock m (pre ++ t :: rest)).attempts =
        pre.map (fun x => generateBlock m x.env) ++ [generateBlock m t.env] ∧
      (mintBlock m (pre ++ t :: rest)).exit = .success) := by
  refine ⟨?_, ?_, ?_⟩
  · have := mintBlock_fails m pre hpre []
    rw [List.append_nil] at this
    exact ⟨by rw [this.1]; simp [mintBlock], by rw [this.2]; rfl⟩
  · intro hq
    obtain ⟨h1, h2⟩ := mintBlock_fails m pre hpre (t :: rest)
    have h3 : mintBlock m (t :: rest) = ⟨[], [], .cancelled⟩ := by
      simp only [mintBlock, hq, if_true]
    rw [h1, h2, h3]
    exact ⟨List.append_nil _, rfl⟩
  · intro hq hr
    obtain ⟨h1, h2⟩ := mintBlock_fails m pre hpre (t :: rest)
    have h3 : mintBlock m (t :: rest) = ⟨[generateBlock m t.env], [], .success⟩ := by
      simp only [mintBlock, hq, hr]
      rfl
    rw [h1, h2, h3]
    exact ⟨rfl, rfl⟩

/-- C19 on a mining miner: after a failure of `GetCurrentInfo` and a `MissingNodeError`
of `Seal`, the third call of `generateBlock` succeeds and ends the attempt. -/
theorem mintBlock_spec_witness :
    (mintBlock (Start NewUranusMiner).2
        ([Turn.mk false failingEnv, Turn.mk false missingEnv] ++
          Turn.mk false sealingEnv :: [])).attempts =
      [Turn.mk false failingEnv, Turn.mk false missingEnv].map
          (fun x => generateBlock (Start NewUranusMiner).2 x.env) ++
        [generateBlock (Start NewUranusMiner).2 sealingEnv] ∧
    (mintBlock (Start NewUranusMiner).2
        ([Turn.mk false failingEnv, Turn.mk false missingEnv] ++
          Turn.mk false sealingEnv :: [])).exit = .success :=
  (mintBlock_spec (Start NewUranusMiner).2 [Turn.mk false failingEnv, Turn.mk false missingEnv]
    (Turn.mk false sealingEnv) []
    (by
      intro x hx
      simp only [List.mem_cons, List.mem_singleton, List.not_mem_nil, or_false] at hx
      rcases hx with rfl | rfl
      · exact ⟨rfl, _, rfl⟩
      · exact ⟨rfl, _, rfl⟩)).2.2 rfl (by decide)

/-- C19 as stated fails: `generateBlock` fails with an error that is not a
`MissingNodeError` (it is logged), and `mintBlock` calls `generateBlock` again. -/
theorem mintBlock_retries_any_error :
    (generateBlock (Start NewUranusMiner).2 failingEnv).2 =
        .ok (some (Errorf "failed to get current info, no current block")) ∧
      (mintBlock (Start NewUranusMiner).2
          [⟨false, failingEnv⟩, ⟨false, sealingEnv⟩]).attempts.length = 2 ∧
      (mintBlock (Start NewUranusMiner).2 [⟨false, failingEnv⟩, ⟨false, sealingEnv⟩]).logged =
        [Errorf "failed to get current info, no current block"] ∧
      (mintBlock (Start NewUranusMiner).2 [⟨false, failingEnv⟩, ⟨false, sealingEnv⟩]).exit =
        .success := by
  decide

/-! ## generateBlock -/

/-- The calls of the tail, what they have to do with the result. -/
theorem finalizeAndSeal_spec (env : Env) :
    ((finalizeAndSeal env).1.map Call.stage <+: [1, 2, 3, 4, 5]) ∧
    (∀ err, env.Finalize.2 = some err →
      finalizeAndSeal env = ([.Finalize], .ok (some err))) ∧
    (∀ block err, Call.Seal block ∈ (finalizeAndSeal env).1 → env.Seal.2 = some err →
      finalizeAndSeal env = ([.Finalize, .Seal block], .ok (some err))) ∧
    (∀ block err, Call.WriteBlockWithState block ∈ (finalizeAndSeal env).1 →
      env.WriteBlockWithState = some err →
      ∃ sealed, finalizeAndSeal env =
        ([.Finalize, .Seal sealed, .WriteBlockWithState block], .ok (some err))) ∧
    ((finalizeAndSeal env).2 = .ok none →
      ∃ block result, env.Seal.1 = some result ∧
        (finalizeAndSeal env).1 =
          [.Finalize, .Seal (some block), .WriteBlockWithState (some result),
            .PostEvent (.BlockAndLogsEvent (some result)),
            .Post (.NewMinedBlockEvent (some result))]) := by
  obtain ⟨gci, dpos, ndc, pend, atx, ⟨fb, fe⟩, ⟨sb, se⟩, wr⟩ := env
  cases fe <;> cases fb <;> cases se <;> cases sb <;> cases wr <;>
    simp [finalizeAndSeal, Call.stage]

/-- A run of `generateBlock` makes calls before the tail only, or these calls and then
the calls of the tail, whose result it returns. -/
theorem generateBlock_split (m : UMiner) (env : Env) :
    ∃ pre : List Call, (∀ c ∈ pre, c.stage = 0) ∧
      (((generateBlock m env).1 = pre ∧
          (m.mining = 1 → ∃ err, (generateBlock m env).2 = .ok (some err))) ∨
        generateBlock m env = (pre ++ (finalizeAndSeal env).1, (finalizeAndSeal env).2)) := by
  by_cases hm : m.mining = 1
  · cases h1 : env.GetCurrentInfo with
    | some e =>
      exact ⟨[.GetCurrentInfo], by simp [Call.stage],
        Or.inl (by simp [generateBlock, h1])⟩
    | none =>
      cases h2 : env.isDpos with
      | true =>
        cases h3 : env.NewDposContextFromProto with
        | some e =>
          exact ⟨[.GetCurrentInfo, .Config, .CalcDifficulty, .NewDposContextFromProto],
            by simp [Call.stage], Or.inl (by simp [generateBlock, h1, h2, h3])⟩
        | none =>
          cases h4 : env.Pending with
          | some e =>
            exact ⟨[.GetCurrentInfo, .Config, .CalcDifficulty, .NewDposContextFromProto, .Actions,
              .applyActions, .Pending], by simp [Call.stage],
              Or.inl (by simp [generateBlock, h1, h2, h3, h4])⟩
          | none =>
            cases h5 : env.applyTransactions with
            | some e =>
              exact ⟨[.GetCurrentInfo, .Config, .CalcDifficulty, .NewDposContextFromProto, .Actions,
                .applyActions, .Pending, .applyTransactions], by simp [Call.stage],
                Or.inl (by simp [generateBlock, h1, h2, h3, h4, h5])⟩
            | none =>
              exact ⟨[.GetCurrentInfo, .Config, .CalcDifficulty, .NewDposContextFromProto, .Actions,
                .applyActions, .Pending, .applyTransactions], by simp [Call.stage],
                Or.inr (by simp [generateBlock, h1, h2, h3, h4, h5, hm])⟩
      | false =>
        cases h4 : env.Pending with
        | some e =>
          exact ⟨[.GetCurrentInfo, .Config, .CalcDifficulty, .Actions,
            .applyActions, .Pending], by simp [Call.stage],
            Or.inl (by simp [generateBlock, h1, h2, h4])⟩
        | none =>
          cases h5 : env.applyTransactions with
          | some e =>
            exact ⟨[.GetCurrentInfo, .Config, .CalcDifficulty, .Actions,
              .applyActions, .Pending, .applyTransactions], by simp [Call.stage],
              Or.inl (by simp [generateBlock, h1, h2, h4, h5])⟩
          | none =>
            exact ⟨[.GetCurrentInfo, .Config, .CalcDifficulty, .Actions,
              .applyActions, .Pending, .applyTransactions], by simp [Call.stage],
              Or.inr (by simp [generateBlock, h1, h2, h4, h5, hm])⟩
  · refine ⟨(generateBlock m env).1, ?_, Or.inl ⟨rfl, fun h => absurd h hm⟩⟩
    cases h1 : env.GetCurrentInfo <;> cases h2 : env.isDpos <;>
      cases h3 : env.NewDposContextFromProto <;> cases h4 : env.Pending <;>
      cases h5 : env.applyTransactions <;>
      simp [generateBlock, h1, h2, h3, h4, h5, hm, Call.stage]


theorem stage_filter_pre (pre l : List Call) (h : ∀ c ∈ pre, c.stage = 0) :
    ((pre ++ l).map Call.stage).filter (fun n => decide (n ≠ 0)) =
      (l.map Call.stage).filter (fun n => decide (n ≠ 0)) := by
  induction pre with
  | nil => rfl
  | cons c pre ih =>
    have hc : c.stage = 0 := h c (List.mem_cons_self _ _)
    simp only [List.cons_append, List.map_cons, hc]
    rw [List.filter_cons_of_neg (by simp)]
    exact ih (fun x hx => h x (List.mem_cons_of_mem _ hx))

theorem stage_filter_tail (env : Env) :
    ((finalizeAndSeal env).1.map Call.stage).filter (fun n => decide (n ≠ 0)) =
      (finalizeAndSeal env).1.map Call.stage := by
  obtain ⟨gci, dpos, ndc, pend, atx, ⟨fb, fe⟩, ⟨sb, se⟩, wr⟩ := env
  cases fe <;> cases fb <;> cases se <;> cases sb <;> cases wr <;>
    simp [finalizeAndSeal, Call.stage]

theorem mem_tail_of_stage (pre l : List Call) (h : ∀ c ∈ pre, c.stage = 0) (c : Call)
    (hc : c ∈ pre ++ l) (hs : c.stage ≠ 0) : c ∈ l := by
  rcases List.mem_append.1 hc with h1 | h1
  · exact absurd (h c h1) hs
  · exact h1

/-- C20: in every run of `generateBlock` the calls `Finalize`, `Seal`,
`WriteBlockWithState`, `PostEvent(BlockAndLogsEvent)` and `Post(NewMinedBlockEvent)` that
are made are made in this order, each at most once and none without the ones before it;
if `Finalize`, `Seal` or `WriteBlockWithState` is called and returns an error, none of the
later calls is made and `generateBlock` returns that error; and a run of a mining miner
that returns nil has made all five, the two events carrying the block `Seal` returned. -/
theorem generateBlock_order (m : UMiner) (env : Env) :
    (((generateBlock m env).1.map Call.stage).filter (fun n => decide (n ≠ 0)) <+:
        [1, 2, 3, 4, 5]) ∧
    (∀ err, Call.Finalize ∈ (generateBlock m env).1 → env.Finalize.2 = some err →
      (generateBlock m env).2 = .ok (some err) ∧
      ∀ c ∈ (generateBlock m env).1, c.stage ≤ 1) ∧
    (∀ block err, Call.Seal block ∈ (generateBlock m env).1 → env.Seal.2 = some err →
      (generateBlock m env).2 = .ok (some err) ∧
      ∀ c ∈ (generateBlock m env).1, c.stage ≤ 2) ∧
    (∀ block err, Call.WriteBlockWithState block ∈ (generateBlock m env).1 →
      env.WriteBlockWithState = some err →
      (generateBlock m env).2 = .ok (some err) ∧
      ∀ c ∈ (generateBlock m env).1, c.stage ≤ 3) ∧
    (m.mining = 1 → (generateBlock m env).2 = .ok none →
      ∃ block result, env.Seal.1 = some result ∧
        (generateBlock m env).1.filter (fun c => decide (c.stage ≠ 0)) =
          [.Finalize, .Seal (some block), .WriteBlockWithState (some result),
            .PostEvent (.BlockAndLogsEvent (some result)),
            .Post (.NewMinedBlockEvent (some result))]) := by
  obtain ⟨pre, hpre, h | h⟩ := generateBlock_split m env
  · obtain ⟨h1, h2⟩ := h
    have hno : ∀ c ∈ (generateBlock m env).1, c.stage = 0 := by rw [h1]; exact hpre
    have hle : ∀ n, ∀ c ∈ (generateBlock m env).1, c.stage ≤ n :=
      fun n c hc => by rw [hno c hc]; exact Nat.zero_le n
    refine ⟨?_, ?_, ?_, ?_, ?_⟩
    · have := stage_filter_pre pre [] hpre
      rw [List.append_nil] at this
      rw [h1, this]
      exact List.nil_prefix
    · intro err hc
      exact absurd (hno _ hc) (by simp [Call.stage])
    · intro block err hc
      exact absurd (hno _ hc) (by simp [Call.stage])
    · intro block err hc
      exact absurd (hno _ hc) (by simp [Call.stage])
    · intro hm hr
      obtain ⟨err, he⟩ := h2 hm
      rw [he] at hr
      cases hr
  · obtain ⟨t1, t2, t3, t4, t5⟩ := finalizeAndSeal_spec env
    rw [h]
    refine ⟨?_, ?_, ?_, ?_, ?_⟩
    · show ((pre ++ (finalizeAndSeal env).1).map Call.stage).filter _ <+: _
      rw [stage_filter_pre pre _ hpre, stage_filter_tail]
      exact t1
    · intro err _ he
      show (finalizeAndSeal env).2 = _ ∧ ∀ c ∈ pre ++ (finalizeAndSeal env).1, _
      rw [t2 err he]
      refine ⟨rfl, fun c hc => ?_⟩
      rcases List.mem_append.1 hc with h1 | h1
      · rw [hpre c h1]; exact Nat.zero_le _
      · simp only [List.mem_singleton] at h1
        rw [h1]; exact le_refl _
    · intro block err hc he
      have hc2 := mem_tail_of_stage pre _ hpre _ hc (by simp [Call.stage])
      show (finalizeAndSeal env).2 = _ ∧ ∀ c ∈ pre ++ (finalizeAndSeal env).1, _
      rw [t3 block err hc2 he]
      refine ⟨rfl, fun c hc => ?_⟩
      rcases List.mem_append.1 hc with h1 | h1
      · rw [hpre c h1]; exact Nat.zero_le _
      · simp only [List.mem_cons, List.mem_singleton, List.not_mem_nil, or_false] at h1
        rcases h1 with h1 | h1 <;> rw [h1] <;> simp [Call.stage]
    · intro block err hc he
      have hc2 := mem_tail_of_stage pre _ hpre _ hc (by simp [Call.stage])
      obtain ⟨sealed, hs⟩ := t4 block err hc2 he
      show (finalizeAndSeal env).2 = _ ∧ ∀ c ∈ pre ++ (finalizeAndSeal env).1, _
      rw [hs]
      refine ⟨rfl, fun c hc => ?_⟩
      rcases List.mem_append.1 hc with h1 | h1
      · rw [hpre c h1]; exact Nat.zero_le _
      · simp only [List.mem_cons, List.mem_singleton, List.not_mem_nil, or_false] at h1
        rcases h1 with h1 | h1 | h1 <;> rw [h1] <;> simp [Call.stage]
    · intro _ hr
      obtain ⟨block, result, hs, hl⟩ := t5 hr
      refine ⟨block, result, hs, ?_⟩
      show (pre ++ (finalizeAndSeal env).1).filter _ = _
      rw [hl, List.filter_append]
      have : pre.filter (fun c => decide (c.stage ≠ 0)) = [] := by
        rw [List.filter_eq_nil_iff]
        intro c hc
        simp [hpre c hc]
      rw [this]
      simp [Call.stage]

/-- C20 on a mining miner: when every call succeeds the five calls are made in order;
when `Seal` fails with a `MissingNodeError`, `generateBlock` returns it after `Finalize`
and `Seal`, and neither writes nor posts. -/
theorem generateBlock_order_witness :
    (generateBlock (Start NewUranusMiner).2 sealingEnv).1.filter
        (fun c => decide (c.stage ≠ 0)) =
      [.Finalize, .Seal (some 1), .WriteBlockWithState (some 1),
        .PostEvent (.BlockAndLogsEvent (some 1)), .Post (.NewMinedBlockEvent (some 1))] ∧
    ((generateBlock (Start NewUranusMiner).2 missingEnv).2 =
        .ok (some (error.MissingNodeError "missing trie node")) ∧
      ∀ c ∈ (generateBlock (Start NewUranusMiner).2 missingEnv).1, c.stage ≤ 2) :=
  ⟨by decide, (generateBlock_order (Start NewUranusMiner).2 missingEnv).2.2.1 (some 1)
    (error.MissingNodeError "missing trie node") (by decide) rfl⟩

/-! ## A seal that returns no block -/

/-- After a `Seal` that returns no block and no error, the statements of `generateBlock`
go on to `WriteBlockWithState` with the nil block; no event is posted, because the run
then ends in the error of the write or, when the write returns none, at the nil block of
the log line. -/
theorem finalizeAndSeal_unsealed (env : Env) (block : Nat)
    (hf : env.Finalize = (some block, none)) (hs : env.Seal = (none, none)) :
    (finalizeAndSeal env).1 = [.Finalize, .Seal (some block), .WriteBlockWithState none] ∧
      (finalizeAndSeal env).2 =
        (match env.WriteBlockWithState with
          | some err => .ok (some err)
          | none => .panic) := by
  unfold finalizeAndSeal
  rw [hf, hs]
  cases env.WriteBlockWithState <;> exact ⟨rfl, rfl⟩

/-- C29, at the input that breaks it: the miner is mining, every call before `Seal`
succeeds, `Finalize` returns the block `1`, and `Seal` returns no block and no error.
`generateBlock` still calls `WriteBlockWithState`, with the nil block; no event is
posted, since the run ends at the nil block of the log line, or, when the write of the
nil block fails, with the error of the write. -/
theorem generateBlock_writes_unsealed :
    generateBlock (Start NewUranusMiner).2 cancelledEnv =
      ([.GetCurrentInfo, .Config, .CalcDifficulty, .NewDposContextFromProto, .Actions,
        .applyActions, .Pending, .applyTransactions, .Finalize, .Seal (some 1),
        .WriteBlockWithState none], .panic) ∧
    generateBlock (Start NewUranusMiner).2
        { cancelledEnv with WriteBlockWithState := some (error.errorString "nil block") } =
      ([.GetCurrentInfo, .Config, .CalcDifficulty, .NewDposContextFromProto, .Actions,
        .applyActions, .Pending, .applyTransactions, .Finalize, .Seal (some 1),
        .WriteBlockWithState none], .ok (some (error.errorString "nil block"))) := by
  decide

end miner

namespace state

open mtp (Hash Bytes GoMap)


/-! ## The journal undoes the mutations -/

theorem Agree.agree_self (n : Nat) (mem : Memory) (s : StateDB) : Agree n mem s mem s :=
  ⟨fun _ => rfl, fun _ _ => rfl, rfl, rfl⟩

theorem undoAll_append (l1 l2 : List journalEntry) :
    ∀ (mem : Memory) (s : StateDB),
      undoAll (l1 ++ l2) mem s = undoAll l2 (undoAll l1 mem s).1 (undoAll l1 mem s).2 := by
  induction l1 with
  | nil => exact fun _ _ => rfl
  | cons e l1 ih => exact fun mem s => ih _ _

theorem Undone.undone_none (mem : Memory) (s : StateDB) (h : Allocated mem s) :
    Undone mem s mem s [] :=
  ⟨rfl, rfl, rfl, le_refl _, h, fun _ _ hA => hA⟩

theorem Undone.undone_comp {mem0 mem1 mem2 : Memory} {s0 s1 s2 : StateDB}
    {new1 new2 : List journalEntry} (h1 : Undone mem0 s0 mem1 s1 new1)
    (h2 : Undone mem1 s1 mem2 s2 new2) : Undone mem0 s0 mem2 s2 (new2 ++ new1) := by
  obtain ⟨a1, b1, c1, d1, _, f1⟩ := h1
  obtain ⟨a2, b2, c2, d2, e2, f2⟩ := h2
  refine ⟨by rw [a2, a1, List.append_assoc], b2.trans b1, c2.trans c1, le_trans d1 d2, e2, ?_⟩
  intro mem s hA
  rw [undoAll_append]
  exact f1 _ _ (f2 mem s hA)

theorem restore_of_some (mem : Memory) (s : StateDB) (account : Address)
    (f : stateObject → stateObject) (p : Nat) (h : s.stateObjects.get account = some p) :
    restore mem s account f =
      ({ mem with cells := Function.update mem.cells p (f (mem.cells p)) }, s) := by
  simp only [restore, getStateObject, h]

theorem createObject_undone (mem0 : Memory) (s0 : StateDB) (addr : Address)
    (hA : Allocated mem0 s0) :
    ∃ new, Undone mem0 s0 (createObject mem0 s0 addr).1 (createObject mem0 s0 addr).2.1 new ∧
      (createObject mem0 s0 addr).2.2 = mem0.next ∧
      (createObject mem0 s0 addr).1.next = mem0.next + 1 ∧
      (createObject mem0 s0 addr).1.cells mem0.next = newObject ∧
      (createObject mem0 s0 addr).2.1.stateObjects.get addr = some mem0.next := by
  have halloc : Allocated (createObject mem0 s0 addr).1 (createObject mem0 s0 addr).2.1 := by
    intro a p hp
    simp only [createObject, mtp.GoMap.get_set] at hp
    show p < mem0.next + 1
    split at hp
    · simp only [Option.some.injEq] at hp
      omega
    · exact Nat.lt_succ_of_lt (hA a p hp)
  refine ⟨[match getStateObject s0 addr with
      | none => journalEntry.createAccount addr
      | some prev => journalEntry.resetObject addr prev], ⟨rfl, rfl, rfl, Nat.le_succ _, halloc, ?_⟩,
    rfl, rfl, by simp [createObject], by simp [createObject, mtp.GoMap.get_set_self]⟩
  intro mem s hag
  obtain ⟨hmap, hcells, hr, hl⟩ := hag
  have hmap' : ∀ a, s.stateObjects.get a = if a = addr then some mem0.next
      else s0.stateObjects.get a := by
    intro a
    rw [hmap a]
    simp only [createObject, mtp.GoMap.get_set]
  have hcells' : ∀ q, q < mem0.next → mem.cells q = mem0.cells q := by
    intro q hq
    rw [hcells q (Nat.lt_succ_of_lt hq)]
    simp only [createObject]
    exact Function.update_noteq (Nat.ne_of_lt hq) _ _
  cases hg : getStateObject s0 addr with
  | none =>
    refine ⟨?_, hcells', hr, hl⟩
    intro a
    simp only [undoAll, journalEntry.undo, mtp.GoMap.get_del]
    split
    · rename_i h; rw [h]; exact hg.symm
    · rename_i h; rw [hmap' a, if_neg h]
  | some prev =>
    refine ⟨?_, hcells', hr, hl⟩
    intro a
    simp only [undoAll, journalEntry.undo, mtp.GoMap.get_set]
    split
    · rename_i h; rw [h]; exact hg.symm
    · rename_i h; rw [hmap' a, if_neg h]

theorem setField_undone (mem0 : Memory) (s0 : StateDB) (addr : Address)
    (entry : stateObject → journalEntry) (f : stateObject → stateObject)
    (g : stateObject → stateObject → stateObject)
    (hundo : ∀ o mem s, (entry o).undo mem s = restore mem s addr (g o))
    (hg : ∀ o, g o (f o) = o) (hA : Allocated mem0 s0) :
    ∃ new, Undone mem0 s0 (setField mem0 s0 addr entry f).1 (setField mem0 s0 addr entry f).2
      new := by
  cases hget : s0.stateObjects.get addr with
  | some p =>
    have hp : p < mem0.next := hA addr p hget
    have heq : setField mem0 s0 addr entry f =
        ({ mem0 with cells := Function.update mem0.cells p (f (mem0.cells p)) },
          { s0 with journal := entry (mem0.cells p) :: s0.journal }) := by
      simp only [setField, GetOrNewStateObject, getStateObject, hget]
    rw [heq]
    refine ⟨[entry (mem0.cells p)], rfl, rfl, rfl, le_refl _, hA, ?_⟩
    intro mem s hag
    obtain ⟨hmap, hcells, hr, hl⟩ := hag
    have hsp : s.stateObjects.get addr = some p := (hmap addr).trans hget
    simp only [undoAll, hundo, restore_of_some mem s addr _ p hsp]
    refine ⟨hmap, ?_, hr, hl⟩
    intro q hq
    dsimp only at hcells ⊢
    by_cases hqp : q = p
    · subst hqp
      rw [Function.update_same, hcells q hq, Function.update_same, hg]
    · rw [Function.update_noteq hqp, hcells q hq]
      exact Function.update_noteq hqp _ _
  | none =>
    obtain ⟨new, hU, hptr, hnext, hcell, hgetc⟩ := createObject_undone mem0 s0 addr hA
    have heq : setField mem0 s0 addr entry f =
        ({ (createObject mem0 s0 addr).1 with
            cells := Function.update (createObject mem0 s0 addr).1.cells mem0.next
              (f newObject) },
          { (createObject mem0 s0 addr).2.1 with
            journal := entry newObject :: (createObject mem0 s0 addr).2.1.journal }) := by
      simp only [setField, GetOrNewStateObject, getStateObject, hget]
      rw [hptr, hcell]
    rw [heq]
    have hstep : Undone (createObject mem0 s0 addr).1 (createObject mem0 s0 addr).2.1
        { (createObject mem0 s0 addr).1 with
            cells := Function.update (createObject mem0 s0 addr).1.cells mem0.next
              (f newObject) }
        { (createObject mem0 s0 addr).2.1 with
            journal := entry newObject :: (createObject mem0 s0 addr).2.1.journal }
        [entry newObject] := by
      refine ⟨rfl, rfl, rfl, le_refl _, hU.2.2.2.2.1, ?_⟩
      intro mem s hag
      obtain ⟨hmap, hcells, hr, hl⟩ := hag
      have hsp : s.stateObjects.get addr = some mem0.next := (hmap addr).trans hgetc
      simp only [undoAll, hundo, restore_of_some mem s addr _ _ hsp]
      refine ⟨hmap, ?_, hr, hl⟩
      intro q hq
      dsimp only at hcells ⊢
      by_cases hqp : q = mem0.next
      · subst hqp
        rw [Function.update_same, hcells _ hq, Function.update_same, hg, hcell]
      · rw [Function.update_noteq hqp, hcells q hq]
        exact Function.update_noteq hqp _ _
    exact ⟨_, hU.undone_comp hstep⟩

theorem mutate_undone (mem0 : Memory) (s0 : StateDB) (a : Mutation) (hA : Allocated mem0 s0) :
    ∃ new, Undone mem0 s0 (mutate mem0 s0 a).1 (mutate mem0 s0 a).2 new := by
  cases a with
  | SetBalance addr amount =>
    exact setField_undone mem0 s0 addr _ _ (fun o x => { x with balance := o.balance })
      (fun _ _ _ => rfl) (fun _ => rfl) hA
  | AddBalance addr amount =>
    exact setField_undone mem0 s0 addr _ _ (fun o x => { x with balance := o.balance })
      (fun _ _ _ => rfl) (fun _ => rfl) hA
  | SubBalance addr amount =>
    exact setField_undone mem0 s0 addr _ _ (fun o x => { x with balance := o.balance })
      (fun _ _ _ => rfl) (fun _ => rfl) hA
  | SetNonce addr nonce =>
    exact setField_undone mem0 s0 addr _ _ (fun o x => { x with nonce := o.nonce })
      (fun _ _ _ => rfl) (fun _ => rfl) hA
  | SetLockedBalance addr amount =>
    exact setField_undone mem0 s0 addr _ _
      (fun o x => { x with lockedBalance := o.lockedBalance })
      (fun _ _ _ => rfl) (fun _ => rfl) hA
  | SetDelegateAddresses addr addrs =>
    exact setField_undone mem0 s0 addr _ _
      (fun o x => { x with delegateAddresses := o.delegateAddresses })
      (fun _ _ _ => rfl) (fun _ => rfl) hA
  | SetDelegateTimestamp addr t =>
    exact setField_undone mem0 s0 addr _ _
      (fun o x => { x with delegateTimestamp := o.delegateTimestamp })
      (fun _ _ _ => rfl) (fun _ => rfl) hA
  | SetState addr key value =>
    refine setField_undone mem0 s0 addr _ _
      (fun o x => { x with storage := Function.update x.storage key (o.storage key) })
      (fun _ _ _ => rfl) (fun o => ?_) hA
    show { o with
           storage := (Function.update (Function.update o.storage key value) key
             (o.storage key)) } = o
    rw [Function.update_idem, Function.update_eq_self]
  | SetCode addr code =>
    exact setField_undone mem0 s0 addr _ _ (fun o x => { x with code := o.code })
      (fun _ _ _ => rfl) (fun _ => rfl) hA
  | CreateAccount addr =>
    obtain ⟨new, hU, _⟩ := createObject_undone mem0 s0 addr hA
    exact ⟨new, hU⟩
  | Suicide addr =>
    cases hget : getStateObject s0 addr with
    | none =>
      have : mutate mem0 s0 (.Suicide addr) = (mem0, s0) := by
        simp only [mutate, Suicide, hget]
      rw [this]
      exact ⟨[], Undone.undone_none mem0 s0 hA⟩
    | some p =>
      have : mutate mem0 s0 (.Suicide addr) =
          setField mem0 s0 addr (fun o => .suicide addr o.suicided o.balance)
            (fun o => { o with suicided := true, balance := 0 }) := by
        simp only [mutate, Suicide, hget]
      rw [this]
      exact setField_undone mem0 s0 addr _ _
        (fun o x => { x with suicided := o.suicided, balance := o.balance })
        (fun _ _ _ => rfl) (fun _ => rfl) hA
  | AddRefund gas =>
    refine ⟨[.refund s0.refund], rfl, rfl, rfl, le_refl _, hA, ?_⟩
    intro mem s hag
    exact ⟨hag.1, hag.2.1, rfl, hag.2.2.2⟩
  | AddLog log =>
    refine ⟨[.addLog s0.thash], rfl, rfl, rfl, le_refl _, hA, ?_⟩
    intro mem s hag
    refine ⟨hag.1, hag.2.1, hag.2.2.1, ?_⟩
    show Function.update s.logs s0.thash (s.logs s0.thash).dropLast = s0.logs
    rw [hag.2.2.2]
    show Function.update (Function.update s0.logs s0.thash (s0.logs s0.thash ++ [log]))
      s0.thash (Function.update s0.logs s0.thash (s0.logs s0.thash ++ [log]) s0.thash).dropLast
        = s0.logs
    rw [Function.update_same, List.dropLast_concat, Function.update_idem,
      Function.update_eq_self]

theorem applyAll_undone (ops : List Mutation) :
    ∀ (mem0 : Memory) (s0 : StateDB), Allocated mem0 s0 →
      ∃ new, Undone mem0 s0 (applyAll ops mem0 s0).1 (applyAll ops mem0 s0).2 new := by
  induction ops with
  | nil => exact fun mem0 s0 hA => ⟨[], Undone.undone_none mem0 s0 hA⟩
  | cons a rest ih =>
    intro mem0 s0 hA
    obtain ⟨new1, h1⟩ := mutate_undone mem0 s0 a hA
    obtain ⟨new2, h2⟩ := ih _ _ h1.2.2.2.2.1
    exact ⟨new2 ++ new1, h1.undone_comp h2⟩

theorem rollback_new (new : List journalEntry) (old : List journalEntry) :
    ∀ (mem : Memory) (s : StateDB),
      rollback old.length (new ++ old) mem s =
        ((undoAll new mem s).1, (undoAll new mem s).2, old) := by
  induction new with
  | nil =>
    intro mem s
    cases old with
    | nil => rfl
    | cons e old => simp [rollback, undoAll]
  | cons e new ih =>
    intro mem s
    have : old.length < (new ++ old).length + 1 := by
      rw [List.length_append]; omega
    show (if old.length < (new ++ old).length + 1 then
        rollback old.length (new ++ old) (e.undo mem s).1 (e.undo mem s).2
      else (mem, s, e :: (new ++ old))) = _
    rw [if_pos this]
    exact ih _ _

theorem Allocated.fresh : Allocated emptyMemory New := by
  intro addr p h
  simp [New, mtp.GoMap.get] at h

theorem object_of_agree (n : Nat) (mem : Memory) (s : StateDB) (mem0 : Memory) (s0 : StateDB)
    (hA : ∀ addr p, s0.stateObjects.get addr = some p → p < n)
    (h : Agree n mem s mem0 s0) (addr : Address) : object mem s addr = object mem0 s0 addr := by
  unfold object getStateObject
  rw [h.1 addr]
  cases hg : s0.stateObjects.get addr with
  | none => rfl
  | some p =>
    show some (mem.cells p) = some (mem0.cells p)
    rw [h.2.1 p (hA addr p hg)]

/-- The state after a snapshot, any mutations and the revert of the snapshot agrees with
the state at the snapshot. -/
theorem revert_agree (mem1 : Memory) (s1 : StateDB) (hA : Allocated mem1 s1)
    (ops : List Mutation) :
    ∃ r, RevertToSnapshot (applyAll ops mem1 (Snapshot s1).2).1
        (applyAll ops mem1 (Snapshot s1).2).2 (Snapshot s1).1 = some r ∧
      Agree mem1.next r.1 r.2 mem1 s1 ∧ r.2.journal = s1.journal ∧
      r.2.revisions = s1.revisions := by
  have hA' : Allocated mem1 (Snapshot s1).2 := hA
  obtain ⟨new, hj, hrev, _, _, _, hun⟩ := applyAll_undone ops mem1 (Snapshot s1).2 hA'
  have hrev' : (applyAll ops mem1 (Snapshot s1).2).2.revisions =
      (s1.nextRevisionId, s1.journal.length) :: s1.revisions := hrev
  have hj' : (applyAll ops mem1 (Snapshot s1).2).2.journal = new ++ s1.journal := hj
  have hag := hun _ _ (Agree.agree_self _ _ _)
  have hdw : List.dropWhile (fun r : Nat × Nat => decide (r.1 ≠ (Snapshot s1).1))
      ((s1.nextRevisionId, s1.journal.length) :: s1.revisions) =
        (s1.nextRevisionId, s1.journal.length) :: s1.revisions := by
    simp [Snapshot, List.dropWhile]
  refine ⟨((undoAll new (applyAll ops mem1 (Snapshot s1).2).1
      (applyAll ops mem1 (Snapshot s1).2).2).1,
    { (undoAll new (applyAll ops mem1 (Snapshot s1).2).1
        (applyAll ops mem1 (Snapshot s1).2).2).2 with
      journal := s1.journal, revisions := s1.revisions }), ?_,
    ⟨hag.1, hag.2.1, hag.2.2.1, hag.2.2.2⟩, rfl, rfl⟩
  unfold RevertToSnapshot
  rw [hrev', hdw]
  dsimp only
  rw [hj', rollback_new]

theorem checkEqual_of_object (mem : Memory) (state : StateDB) (cmem : Memory)
    (checkstate : StateDB) (hobj : ∀ addr, object mem state addr = object cmem checkstate addr)
    (hr : state.refund = checkstate.refund) (hl : state.logs = checkstate.logs) :
    checkEqual mem state cmem checkstate := by
  refine ⟨fun addr => ?_, hr, fun hash => by unfold GetLogs; rw [hl]⟩
  simp [Exist, HasSuicided, GetBalance, GetNonce, GetLockedBalance, GetDelegateTimestamp,
    GetDelegateAddresses, GetCode, GetState, hobj addr]

theorem applyAll_allocated (ops : List Mutation) :
    Allocated (applyAll ops emptyMemory New).1 (applyAll ops emptyMemory New).2 := by
  obtain ⟨_, h⟩ := applyAll_undone ops emptyMemory New Allocated.fresh
  exact h.2.2.2.2.1

/-- C12: for every sequence of mutations of a fresh database (`SetBalance`, `AddBalance`,
`SubBalance`, `SetNonce`, `SetLockedBalance`, `SetDelegateAddresses`,
`SetDelegateTimestamp`, `SetState`, `SetCode`, `CreateAccount`, `Suicide`, `AddRefund`,
`AddLog`) and every position in it, `RevertToSnapshot` of a snapshot taken at that
position succeeds after the mutations that follow, and gives a state whose accessors
(`Exist`, `HasSuicided`, balance, nonce, locked balance, delegate timestamp and addresses,
code, storage, refund, logs) return what they return on a fresh database with only the
mutations before the position. So `SetState(a, s, 42)`, `Snapshot`, `SetState(a, s, 43)`,
`RevertToSnapshot` gives `GetState(a, s) = 42`. -/
theorem snapshot_revert (before after : List Mutation) :
    (∃ r, snapshotRevert before after = some r ∧
      checkEqual r.1 r.2 (applyAll before emptyMemory New).1
        (applyAll before emptyMemory New).2) ∧
    (snapshotRevert [.SetState 24929 0 42] [.SetState 24929 0 43]).map
      (fun r => GetState r.1 r.2 24929 0) = some 42 := by
  refine ⟨?_, rfl⟩
  have hA := applyAll_allocated before
  obtain ⟨r, hr, hag, _, _⟩ :=
    revert_agree (applyAll before emptyMemory New).1 (applyAll before emptyMemory New).2 hA after
  exact ⟨r, hr, checkEqual_of_object _ _ _ _
    (object_of_agree _ _ _ _ _ hA hag) hag.2.2.1 hag.2.2.2⟩

/-! ## Copies are independent -/

theorem Framed.framed_self (mem : Memory) (s : StateDB) (hA : Allocated mem s) : Framed mem s mem s :=
  ⟨le_refl _, hA, fun _ _ _ => rfl, fun _ h => Or.inl h⟩

theorem Framed.chain {mem0 mem1 mem2 : Memory} {s0 s1 s2 : StateDB}
    (h1 : Framed mem0 s0 mem1 s1) (h2 : Framed mem1 s1 mem2 s2) : Framed mem0 s0 mem2 s2 := by
  obtain ⟨a1, _, c1, d1⟩ := h1
  obtain ⟨a2, b2, c2, d2⟩ := h2
  refine ⟨le_trans a1 a2, b2, ?_, ?_⟩
  · intro q hq hn
    have hn1 : ¬ Mapped s1 q := by
      intro hm
      rcases d1 q hm with h | h
      · exact hn h
      · omega
    rw [c2 q (lt_of_lt_of_le hq a1) hn1, c1 q hq hn]
  · intro q hm
    rcases d2 q hm with h | h
    · rcases d1 q h with h' | h'
      · exact Or.inl h'
      · exact Or.inr h'
    · exact Or.inr (le_trans a1 h)

theorem createObject_framed (mem : Memory) (s : StateDB) (addr : Address)
    (hA : Allocated mem s) :
    Framed mem s (createObject mem s addr).1 (createObject mem s addr).2.1 := by
  obtain ⟨_, hU, _, _, _, _⟩ := createObject_undone mem s addr hA
  refine ⟨hU.2.2.2.1, hU.2.2.2.2.1, ?_, ?_⟩
  · intro q hq _
    simp only [createObject]
    exact Function.update_noteq (Nat.ne_of_lt hq) _ _
  · rintro q ⟨a, ha⟩
    simp only [createObject, mtp.GoMap.get_set] at ha
    split at ha
    · simp only [Option.some.injEq] at ha
      exact Or.inr (le_of_eq ha)
    · exact Or.inl ⟨a, ha⟩

theorem setField_framed (mem : Memory) (s : StateDB) (addr : Address)
    (entry : stateObject → journalEntry) (f : stateObject → stateObject)
    (hA : Allocated mem s) :
    Framed mem s (setField mem s addr entry f).1 (setField mem s addr entry f).2 := by
  cases hget : s.stateObjects.get addr with
  | some p =>
    have heq : setField mem s addr entry f =
        ({ mem with cells := Function.update mem.cells p (f (mem.cells p)) },
          { s with journal := entry (mem.cells p) :: s.journal }) := by
      simp only [setField, GetOrNewStateObject, getStateObject, hget]
    rw [heq]
    refine ⟨le_refl _, hA, ?_, fun _ h => Or.inl h⟩
    intro q _ hn
    have hqp : q ≠ p := fun h => hn ⟨addr, h ▸ hget⟩
    exact Function.update_noteq hqp _ _
  | none =>
    have hc := createObject_framed mem s addr hA
    have heq : setField mem s addr entry f =
        ({ (createObject mem s addr).1 with
            cells := Function.update (createObject mem s addr).1.cells mem.next
              (f ((createObject mem s addr).1.cells mem.next)) },
          { (createObject mem s addr).2.1 with
            journal := entry ((createObject mem s addr).1.cells mem.next) ::
              (createObject mem s addr).2.1.journal }) := by
      simp only [setField, GetOrNewStateObject, getStateObject, hget]
      rfl
    rw [heq]
    refine ⟨hc.1, hc.2.1, ?_, hc.2.2.2⟩
    intro q hq hn
    show Function.update _ mem.next _ q = _
    rw [Function.update_noteq (Nat.ne_of_lt hq)]
    exact hc.2.2.1 q hq hn

theorem mutate_framed (mem : Memory) (s : StateDB) (a : Mutation) (hA : Allocated mem s) :
    Framed mem s (mutate mem s a).1 (mutate mem s a).2 := by
  cases a with
  | SetBalance addr amount => exact setField_framed mem s addr _ _ hA
  | AddBalance addr amount => exact setField_framed mem s addr _ _ hA
  | SubBalance addr amount => exact setField_framed mem s addr _ _ hA
  | SetNonce addr nonce => exact setField_framed mem s addr _ _ hA
  | SetLockedBalance addr amount => exact setField_framed mem s addr _ _ hA
  | SetDelegateAddresses addr addrs => exact setField_framed mem s addr _ _ hA
  | SetDelegateTimestamp addr t => exact setField_framed mem s addr _ _ hA
  | SetState addr key value => exact setField_framed mem s addr _ _ hA
  | SetCode addr code => exact setField_framed mem s addr _ _ hA
  | CreateAccount addr => exact createObject_framed mem s addr hA
  | Suicide addr =>
    cases hget : getStateObject s addr with
    | none =>
      have : mutate mem s (.Suicide addr) = (mem, s) := by simp only [mutate, Suicide, hget]
      rw [this]
      exact Framed.framed_self mem s hA
    | some p =>
      have : mutate mem s (.Suicide addr) =
          setField mem s addr (fun o => .suicide addr o.suicided o.balance)
            (fun o => { o with suicided := true, balance := 0 }) := by
        simp only [mutate, Suicide, hget]
      rw [this]
      exact setField_framed mem s addr _ _ hA
  | AddRefund gas => exact ⟨le_refl _, hA, fun _ _ _ => rfl, fun _ h => Or.inl h⟩
  | AddLog log => exact ⟨le_refl _, hA, fun _ _ _ => rfl, fun _ h => Or.inl h⟩

theorem applyAll_framed (ops : List Mutation) :
    ∀ (mem : Memory) (s : StateDB), Allocated mem s →
      Framed mem s (applyAll ops mem s).1 (applyAll ops mem s).2 := by
  induction ops with
  | nil => exact fun mem s hA => Framed.framed_self mem s hA
  | cons a rest ih =>
    intro mem s hA
    have h1 := mutate_framed mem s a hA
    exact h1.chain (ih _ _ h1.2.1)

/-- The objects of another database, whose pointers are in use and are not pointers of
the database that is mutated, are what they were. -/
theorem applyAll_other (ops : List Mutation) (mem : Memory) (s c : StateDB)
    (hA : Allocated mem s) (hc : Allocated mem c)
    (hsep : ∀ q, Mapped c q → ¬ Mapped s q) (addr : Address) :
    object (applyAll ops mem s).1 c addr = object mem c addr := by
  obtain ⟨_, _, hcells, _⟩ := applyAll_framed ops mem s hA
  unfold object getStateObject
  cases hg : c.stateObjects.get addr with
  | none => rfl
  | some p =>
    show some ((applyAll ops mem s).1.cells p) = some (mem.cells p)
    rw [hcells p (hc addr p hg) (hsep p ⟨addr, hg⟩)]

theorem copyObjects_spec (m : GoMap Address Nat) :
    ∀ mem : Memory,
      mem.next ≤ (copyObjects m mem).1.next ∧
      (∀ q, q < mem.next → (copyObjects m mem).1.cells q = mem.cells q) ∧
      (∀ addr, m.get addr = none → (copyObjects m mem).2.get addr = none) ∧
      (∀ addr p, m.get addr = some p → p < mem.next →
        ∃ p2, (copyObjects m mem).2.get addr = some p2 ∧
          (copyObjects m mem).1.cells p2 = mem.cells p) ∧
      (∀ addr p2, (copyObjects m mem).2.get addr = some p2 →
        mem.next ≤ p2 ∧ p2 < (copyObjects m mem).1.next) := by
  induction m with
  | nil =>
    intro mem
    exact ⟨le_refl _, fun _ _ => rfl, fun _ _ => rfl, fun _ _ h => by simp [mtp.GoMap.get] at h,
      fun _ _ h => by simp [copyObjects, mtp.GoMap.get] at h⟩
  | cons e rest ih =>
    obtain ⟨a, p0⟩ := e
    intro mem
    obtain ⟨h1, h2, h3, h4, h5⟩ := ih
      { cells := Function.update mem.cells mem.next (mem.cells p0), next := mem.next + 1 }
    have hnext : mem.next < (copyObjects ((a, p0) :: rest) mem).1.next :=
      lt_of_lt_of_le (Nat.lt_succ_self _) h1
    have hold : ∀ q, q < mem.next → (copyObjects ((a, p0) :: rest) mem).1.cells q = mem.cells q := by
      intro q hq
      show (copyObjects rest _).1.cells q = _
      rw [h2 q (Nat.lt_succ_of_lt hq)]
      exact Function.update_noteq (Nat.ne_of_lt hq) _ _
    have hnew : (copyObjects ((a, p0) :: rest) mem).1.cells mem.next = mem.cells p0 := by
      show (copyObjects rest _).1.cells mem.next = _
      rw [h2 mem.next (Nat.lt_succ_self _)]
      exact Function.update_same _ _ _
    refine ⟨Nat.le_of_lt hnext, hold, ?_, ?_, ?_⟩
    · intro addr hg
      simp only [mtp.GoMap.get] at hg
      show mtp.GoMap.get ((a, mem.next) :: (copyObjects rest _).2) addr = none
      simp only [mtp.GoMap.get]
      split at hg
      · cases hg
      · rename_i hne
        rw [if_neg hne]
        exact h3 addr hg
    · intro addr p hg hp
      simp only [mtp.GoMap.get] at hg
      show ∃ p2, mtp.GoMap.get ((a, mem.next) :: (copyObjects rest _).2) addr = some p2 ∧ _
      simp only [mtp.GoMap.get]
      split at hg
      · rename_i heq
        simp only [Option.some.injEq] at hg
        rw [if_pos heq]
        exact ⟨mem.next, rfl, by rw [hnew, hg]⟩
      · rename_i hne
        rw [if_neg hne]
        obtain ⟨p2, hp2, hc⟩ := h4 addr p hg (Nat.lt_succ_of_lt hp)
        refine ⟨p2, hp2, ?_⟩
        show (copyObjects rest _).1.cells p2 = _
        rw [hc]
        exact Function.update_noteq (Nat.ne_of_lt hp) _ _
    · intro addr p2 hg
      have hg' : mtp.GoMap.get ((a, mem.next) :: (copyObjects rest
          { cells := Function.update mem.cells mem.next (mem.cells p0),
            next := mem.next + 1 }).2) addr = some p2 := hg
      simp only [mtp.GoMap.get] at hg'
      split at hg'
      · simp only [Option.some.injEq] at hg'
        rw [← hg']
        exact ⟨le_refl _, hnext⟩
      · obtain ⟨ha, hb⟩ := h5 addr p2 hg'
        exact ⟨Nat.le_of_succ_le ha, hb⟩

theorem Copy_object (mem : Memory) (s : StateDB) (hA : Allocated mem s) (addr : Address) :
    object (Copy mem s).1 (Copy mem s).2 addr = object mem s addr ∧
      object (Copy mem s).1 s addr = object mem s addr := by
  obtain ⟨_, h2, h3, h4, _⟩ := copyObjects_spec s.stateObjects mem
  unfold object getStateObject
  cases hg : s.stateObjects.get addr with
  | none =>
    refine ⟨?_, rfl⟩
    show Option.map _ ((copyObjects s.stateObjects mem).2.get addr) = _
    rw [h3 addr hg]
    rfl
  | some p =>
    obtain ⟨p2, hp2, hc⟩ := h4 addr p hg (hA addr p hg)
    refine ⟨?_, ?_⟩
    · show Option.map _ ((copyObjects s.stateObjects mem).2.get addr) = _
      rw [hp2]
      show some ((copyObjects s.stateObjects mem).1.cells p2) = some (mem.cells p)
      rw [hc]
    · show some ((copyObjects s.stateObjects mem).1.cells p) = some (mem.cells p)
      rw [h2 p (hA addr p hg)]

theorem Copy_separate (mem : Memory) (s : StateDB) (hA : Allocated mem s) :
    Allocated (Copy mem s).1 s ∧ Allocated (Copy mem s).1 (Copy mem s).2 ∧
      ∀ q, ¬ (Mapped s q ∧ Mapped (Copy mem s).2 q) := by
  obtain ⟨h1, _, _, _, h5⟩ := copyObjects_spec s.stateObjects mem
  refine ⟨fun a p h => lt_of_lt_of_le (hA a p h) h1, fun a p h => (h5 a p h).2, ?_⟩
  rintro q ⟨⟨a, ha⟩, ⟨b, hb⟩⟩
  have := hA a q ha
  have := (h5 b q hb).1
  omega

theorem Separate.flip {mem : Memory} {s c : StateDB} (h : Separate mem s c) :
    Separate mem c s :=
  ⟨h.2.1, h.1, fun q hq => h.2.2 q ⟨hq.2, hq.1⟩⟩

theorem Separate.keep_left {mem : Memory} {s c : StateDB} (h : Separate mem s c)
    (a : Mutation) : Separate (mutate mem s a).1 (mutate mem s a).2 c := by
  obtain ⟨h1, h2, _, h4⟩ := mutate_framed mem s a h.1
  refine ⟨h2, fun b p hb => lt_of_lt_of_le (h.2.1 b p hb) h1, ?_⟩
  rintro q ⟨hs, ⟨b, hb⟩⟩
  rcases h4 q hs with h' | h'
  · exact h.2.2 q ⟨h', ⟨b, hb⟩⟩
  · have := h.2.1 b q hb
    omega

theorem Separate.object_right {mem : Memory} {s c : StateDB} (h : Separate mem s c)
    (ops : List Mutation) (addr : Address) :
    object (applyAll ops mem s).1 c addr = object mem c addr :=
  applyAll_other ops mem s c h.1 h.2.1 (fun q hc hs => h.2.2 q ⟨hs, hc⟩) addr

theorem applyBoth_separate (steps : List (Bool × Mutation)) :
    ∀ (mem : Memory) (s c : StateDB), Separate mem s c →
      Separate (applyBoth steps mem s c).1 (applyBoth steps mem s c).2.1
        (applyBoth steps mem s c).2.2 := by
  induction steps with
  | nil => exact fun _ _ _ h => h
  | cons x rest ih =>
    obtain ⟨b, a⟩ := x
    intro mem s c h
    cases b with
    | true => exact ih _ _ _ (h.keep_left a)
    | false => exact ih _ _ _ (h.flip.keep_left a).flip

theorem balances_of_object (mem : Memory) (s : StateDB) (mem2 : Memory) (s2 : StateDB)
    (addr : Address) (h : object mem s addr = object mem2 s2 addr) :
    GetBalance mem s addr = GetBalance mem2 s2 addr ∧
      GetLockedBalance mem s addr = GetLockedBalance mem2 s2 addr := by
  unfold GetBalance GetLockedBalance
  rw [h]
  exact ⟨rfl, rfl⟩

/-- C13: for every database `s` whose objects are in the memory, and `c = s.Copy()`:
the copy reports what `s` reports, and `s` still reports its own, in every accessor
(`checkEqual`, the comparison of the tests: `Exist`, `HasSuicided`, balance, nonce, locked
balance, delegate timestamp and addresses, code, storage, refund, logs). Whatever
mutations are applied to `s` afterwards, every object of `c`, and so every accessor of
`c`, the balance and the locked balance among them, is as at the copy; whatever mutations
are applied to `c`, every object and every accessor of `s` is as before; and in every
interleaving of mutations of the two, the next mutation of one leaves every object and
every accessor of the other as they are. -/
theorem Copy_independent (mem : Memory) (s : StateDB) (hA : Allocated mem s) :
    (checkEqual (Copy mem s).1 (Copy mem s).2 mem s ∧ checkEqual (Copy mem s).1 s mem s) ∧
    (∀ ops : List Mutation,
      (∀ addr, object (applyAll ops (Copy mem s).1 s).1 (Copy mem s).2 addr =
        object mem s addr) ∧
      checkEqual (applyAll ops (Copy mem s).1 s).1 (Copy mem s).2 mem s) ∧
    (∀ ops : List Mutation,
      (∀ addr, object (applyAll ops (Copy mem s).1 (Copy mem s).2).1 s addr =
        object mem s addr) ∧
      checkEqual (applyAll ops (Copy mem s).1 (Copy mem s).2).1 s mem s) ∧
    (∀ (steps : List (Bool × Mutation)) (a : Mutation),
      ((∀ addr, object (mutate (applyBoth steps (Copy mem s).1 s (Copy mem s).2).1
              (applyBoth steps (Copy mem s).1 s (Copy mem s).2).2.1 a).1
            (applyBoth steps (Copy mem s).1 s (Copy mem s).2).2.2 addr =
          object (applyBoth steps (Copy mem s).1 s (Copy mem s).2).1
            (applyBoth steps (Copy mem s).1 s (Copy mem s).2).2.2 addr) ∧
        checkEqual (mutate (applyBoth steps (Copy mem s).1 s (Copy mem s).2).1
              (applyBoth steps (Copy mem s).1 s (Copy mem s).2).2.1 a).1
            (applyBoth steps (Copy mem s).1 s (Copy mem s).2).2.2
          (applyBoth steps (Copy mem s).1 s (Copy mem s).2).1
            (applyBoth steps (Copy mem s).1 s (Copy mem s).2).2.2) ∧
      ((∀ addr, object (mutate (applyBoth steps (Copy mem s).1 s (Copy mem s).2).1
              (applyBoth steps (Copy mem s).1 s (Copy mem s).2).2.2 a).1
            (applyBoth steps (Copy mem s).1 s (Copy mem s).2).2.1 addr =
          object (applyBoth steps (Copy mem s).1 s (Copy mem s).2).1
            (applyBoth steps (Copy mem s).1 s (Copy mem s).2).2.1 addr) ∧
        checkEqual (mutate (applyBoth steps (Copy mem s).1 s (Copy mem s).2).1
              (applyBoth steps (Copy mem s).1 s (Copy mem s).2).2.2 a).1
            (applyBoth steps (Copy mem s).1 s (Copy mem s).2).2.1
          (applyBoth steps (Copy mem s).1 s (Copy mem s).2).1
            (applyBoth steps (Copy mem s).1 s (Copy mem s).2).2.1)) := by
  obtain ⟨h1, h2, h3⟩ := Copy_separate mem s hA
  have hsep : Separate (Copy mem s).1 s (Copy mem s).2 := ⟨h1, h2, h3⟩
  have hc : ∀ ops : List Mutation, ∀ addr,
      object (applyAll ops (Copy mem s).1 s).1 (Copy mem s).2 addr = object mem s addr :=
    fun ops addr => (hsep.object_right ops addr).trans (Copy_object mem s hA addr).1
  have hs : ∀ ops : List Mutation, ∀ addr,
      object (applyAll ops (Copy mem s).1 (Copy mem s).2).1 s addr = object mem s addr :=
    fun ops addr => (hsep.flip.object_right ops addr).trans (Copy_object mem s hA addr).2
  refine ⟨⟨?_, ?_⟩, fun ops => ⟨hc ops, ?_⟩, fun ops => ⟨hs ops, ?_⟩, fun steps a => ?_⟩
  · exact checkEqual_of_object _ _ _ _ (fun addr => (Copy_object mem s hA addr).1) rfl rfl
  · exact checkEqual_of_object _ _ _ _ (fun addr => (Copy_object mem s hA addr).2) rfl rfl
  · exact checkEqual_of_object _ _ _ _ (hc ops) rfl rfl
  · exact checkEqual_of_object _ _ _ _ (hs ops) rfl rfl
  · have hb := applyBoth_separate steps _ _ _ hsep
    exact ⟨⟨hb.object_right [a], checkEqual_of_object _ _ _ _ (hb.object_right [a]) rfl rfl⟩,
      ⟨hb.flip.object_right [a],
        checkEqual_of_object _ _ _ _ (hb.flip.object_right [a]) rfl rfl⟩⟩

/-- C13 on the state of `TestCopyOfCopy`: the copy and the copy of the copy report the
balance 42 and the locked balance 41; after `AddBalance(addr, 3)` on the original the
original reports 45 and the copy reads as at the copy in every accessor; after
`SetNonce(addr, 7)`, `SetCode` and `AddLog` on the copy the copy reports the nonce 7 and
the original is unchanged in every object and every accessor. -/
theorem Copy_independent_witness :
    Allocated sampleState.1 sampleState.2 ∧
    GetBalance (Copy sampleState.1 sampleState.2).1 (Copy sampleState.1 sampleState.2).2 43690
      = 42 ∧
    GetLockedBalance (Copy (Copy sampleState.1 sampleState.2).1
        (Copy sampleState.1 sampleState.2).2).1
      (Copy (Copy sampleState.1 sampleState.2).1 (Copy sampleState.1 sampleState.2).2).2 43690
      = 41 ∧
    GetBalance (applyAll [.AddBalance 43690 3] (Copy sampleState.1 sampleState.2).1
      sampleState.2).1 sampleState.2 43690 = 45 ∧
    checkEqual (applyAll [.AddBalance 43690 3] (Copy sampleState.1 sampleState.2).1
        sampleState.2).1 (Copy sampleState.1 sampleState.2).2 sampleState.1 sampleState.2 ∧
    GetNonce (applyAll [.SetNonce 43690 7, .SetCode 43690 [1], .AddLog ⟨43690, [2]⟩]
        (Copy sampleState.1 sampleState.2).1 (Copy sampleState.1 sampleState.2).2).1
      (applyAll [.SetNonce 43690 7, .SetCode 43690 [1], .AddLog ⟨43690, [2]⟩]
        (Copy sampleState.1 sampleState.2).1 (Copy sampleState.1 sampleState.2).2).2 43690
      = 7 ∧
    ((∀ addr, object (applyAll [.SetNonce 43690 7, .SetCode 43690 [1], .AddLog ⟨43690, [2]⟩]
        (Copy sampleState.1 sampleState.2).1 (Copy sampleState.1 sampleState.2).2).1
        sampleState.2 addr = object sampleState.1 sampleState.2 addr) ∧
      checkEqual (applyAll [.SetNonce 43690 7, .SetCode 43690 [1], .AddLog ⟨43690, [2]⟩]
        (Copy sampleState.1 sampleState.2).1 (Copy sampleState.1 sampleState.2).2).1
        sampleState.2 sampleState.1 sampleState.2) :=
  ⟨applyAll_allocated _, rfl, rfl, rfl,
    ((Copy_independent sampleState.1 sampleState.2 (applyAll_allocated _)).2.1
      [.AddBalance 43690 3]).2, rfl,
    (Copy_independent sampleState.1 sampleState.2 (applyAll_allocated _)).2.2.1
      [.SetNonce 43690 7, .SetCode 43690 [1], .AddLog ⟨43690, [2]⟩]⟩

/-! ## The effect of a setter on the accounts -/

theorem GetBalance_account (mem : Memory) (s : StateDB) (addr : Address) :
    GetBalance mem s addr = (account mem s addr).balance := by
  unfold GetBalance account
  cases object mem s addr <;> rfl

theorem GetLockedBalance_account (mem : Memory) (s : StateDB) (addr : Address) :
    GetLockedBalance mem s addr = (account mem s addr).lockedBalance := by
  unfold GetLockedBalance account
  cases object mem s addr <;> rfl

theorem GetDelegateTimestamp_account (mem : Memory) (s : StateDB) (addr : Address) :
    GetDelegateTimestamp mem s addr = (account mem s addr).delegateTimestamp := by
  unfold GetDelegateTimestamp account
  cases object mem s addr <;> rfl

theorem setField_account (mem : Memory) (s : StateDB) (addr : Address)
    (entry : stateObject → journalEntry) (f : stateObject → stateObject)
    (hwf : WellFormed mem s) :
    WellFormed (setField mem s addr entry f).1 (setField mem s addr entry f).2 ∧
      ∀ a, account (setField mem s addr entry f).1 (setField mem s addr entry f).2 a =
        if a = addr then f (account mem s addr) else account mem s a := by
  obtain ⟨hA, hinj⟩ := hwf
  have hfr := setField_framed mem s addr entry f hA
  cases hget : s.stateObjects.get addr with
  | some p =>
    have heq : setField mem s addr entry f =
        ({ mem with cells := Function.update mem.cells p (f (mem.cells p)) },
          { s with journal := entry (mem.cells p) :: s.journal }) := by
      simp only [setField, GetOrNewStateObject, getStateObject, hget]
    rw [heq]
    refine ⟨⟨hA, hinj⟩, fun a => ?_⟩
    by_cases ha : a = addr
    · subst ha
      simp [account, object, getStateObject, hget]
    · rw [if_neg ha]
      unfold account object getStateObject
      cases hga : s.stateObjects.get a with
      | none => rfl
      | some q =>
        have hqp : q ≠ p := fun h => ha (hinj a addr p (h ▸ hga) hget)
        simp [hga, Function.update_noteq hqp]
  | none =>
    have heq : setField mem s addr entry f =
        ({ cells := Function.update (Function.update mem.cells mem.next newObject) mem.next
              (f newObject), next := mem.next + 1 },
          { s with
            journal := entry newObject :: journalEntry.createAccount addr :: s.journal
            stateObjects := s.stateObjects.set addr mem.next }) := by
      simp [setField, GetOrNewStateObject, getStateObject, hget, createObject]
    have hset : ∀ a, (s.stateObjects.set addr mem.next).get a =
        if a = addr then some mem.next else s.stateObjects.get a :=
      fun a => mtp.GoMap.get_set _ _ _ _
    refine ⟨⟨hfr.2.1, ?_⟩, fun a => ?_⟩
    · rw [heq]
      intro a b p ha hb
      have ha' := ha
      have hb' := hb
      simp only at ha' hb'
      rw [hset] at ha' hb'
      by_cases h1 : a = addr <;> by_cases h2 : b = addr
      · rw [h1, h2]
      · rw [if_pos h1] at ha'
        rw [if_neg h2] at hb'
        simp only [Option.some.injEq] at ha'
        have := hA b p hb'
        omega
      · rw [if_neg h1] at ha'
        rw [if_pos h2] at hb'
        simp only [Option.some.injEq] at hb'
        have := hA a p ha'
        omega
      · rw [if_neg h1] at ha'
        rw [if_neg h2] at hb'
        exact hinj a b p ha' hb'
    · rw [heq]
      by_cases ha : a = addr
      · subst ha
        simp [account, object, getStateObject, hget, mtp.GoMap.get_set_self]
      · rw [if_neg ha]
        unfold account object getStateObject
        simp only
        rw [hset, if_neg ha]
        cases hga : s.stateObjects.get a with
        | none => rfl
        | some q =>
          have hq : q ≠ mem.next := Nat.ne_of_lt (hA a q hga)
          simp [Function.update_noteq hq]

theorem setField_account_self (mem : Memory) (s : StateDB) (addr : Address)
    (entry : stateObject → journalEntry) (f : stateObject → stateObject) :
    account (setField mem s addr entry f).1 (setField mem s addr entry f).2 addr =
      f (account mem s addr) := by
  cases hget : s.stateObjects.get addr with
  | some p =>
    simp [setField, GetOrNewStateObject, getStateObject, hget, account, object]
  | none =>
    simp [setField, GetOrNewStateObject, getStateObject, hget, createObject, account, object,
      mtp.GoMap.get_set_self]

end state

namespace executor

open mtp (Hash Bytes)
open state

/-! ## The DPoS messages on the accounts -/

theorem applyDposMessage_Delegate (delay now : Int) (w : World) (tx : Transaction)
    (ht : tx.txType = .Delegate) :
    (applyDposMessage delay now w tx).1 = true ∧
      account (applyDposMessage delay now w tx).2.mem
          (applyDposMessage delay now w tx).2.statedb tx.sender =
        { account w.mem w.statedb tx.sender with
          delegateTimestamp := now
          balance := (account w.mem w.statedb tx.sender).balance - tx.value
          lockedBalance := tx.value } := by
  simp only [applyDposMessage, ht, SetDelegateTimestamp, SubBalance, SetLockedBalance,
    setField_account_self]
  exact ⟨trivial, trivial⟩

theorem applyDposMessage_UnDelegate (delay now : Int) (w : World) (tx : Transaction)
    (ht : tx.txType = .UnDelegate) :
    (applyDposMessage delay now w tx).1 = true ∧
      account (applyDposMessage delay now w tx).2.mem
          (applyDposMessage delay now w tx).2.statedb tx.sender =
        { account w.mem w.statedb tx.sender with delegateTimestamp := 0 } := by
  simp only [applyDposMessage, ht, ResetDelegateTimestamp, addAction, setField_account_self]
  exact ⟨trivial, trivial⟩

theorem applyDposMessage_Redeem_early (delay now : Int) (w : World) (tx : Transaction)
    (ht : tx.txType = .Redeem)
    (h : now - GetDelegateTimestamp w.mem w.statedb tx.sender < delay) :
    applyDposMessage delay now w tx = (false, w) := by
  simp only [applyDposMessage, ht, if_pos h]

theorem applyDposMessage_Redeem_late (delay now : Int) (w : World) (tx : Transaction)
    (ht : tx.txType = .Redeem)
    (h : ¬ now - GetDelegateTimestamp w.mem w.statedb tx.sender < delay) :
    (applyDposMessage delay now w tx).1 = true ∧
      account (applyDposMessage delay now w tx).2.mem
          (applyDposMessage delay now w tx).2.statedb tx.sender =
        { account w.mem w.statedb tx.sender with
          balance := (account w.mem w.statedb tx.sender).balance +
            (account w.mem w.statedb tx.sender).lockedBalance
          lockedBalance := 0 } := by
  simp only [applyDposMessage, ht, if_neg h, AddBalance, UnLockBalance,
    setField_account_self, GetLockedBalance_account]
  exact ⟨trivial, trivial⟩

/-! ## The cases of a DPoS message with a method of the database left open -/

/-- The balances `applyDposMessage` leaves for the sender of a `Delegate`, on every state:
the locked balance is the value of the transaction, whatever was locked before. -/
theorem Delegate_balances (delay now : Int) (w : World) (tx : Transaction)
    (ht : tx.txType = .Delegate) :
    GetBalance (applyDposMessage delay now w tx).2.mem
        (applyDposMessage delay now w tx).2.statedb tx.sender =
      GetBalance w.mem w.statedb tx.sender - tx.value ∧
    GetLockedBalance (applyDposMessage delay now w tx).2.mem
        (applyDposMessage delay now w tx).2.statedb tx.sender = tx.value ∧
    GetDelegateTimestamp (applyDposMessage delay now w tx).2.mem
        (applyDposMessage delay now w tx).2.statedb tx.sender = now := by
  simp only [GetBalance_account, GetLockedBalance_account, GetDelegateTimestamp_account,
    (applyDposMessage_Delegate delay now w tx ht).2]
  exact ⟨trivial, trivial, trivial⟩

/-- C21, at an input that breaks it: the account `1` holds a balance of 100 and a locked
balance of 30; a `Delegate` of 20 at time `1000000` is applied and leaves the balance 80
and the timestamp `1000000`, as claimed, but the locked balance 20, not 50: the sum of
the two went from 130 to 100. -/
theorem Delegate_overwrites_locked :
    GetBalance fundedWorld.mem fundedWorld.statedb 1 = 100 ∧
    GetLockedBalance fundedWorld.mem fundedWorld.statedb 1 = 30 ∧
    (applyDposMessage DelayDuration 1000000 fundedWorld (sampleTx .Delegate 20)).1 = true ∧
    GetBalance (applyDposMessage DelayDuration 1000000 fundedWorld (sampleTx .Delegate 20)).2.mem
      (applyDposMessage DelayDuration 1000000 fundedWorld (sampleTx .Delegate 20)).2.statedb 1
        = 80 ∧
    GetLockedBalance
      (applyDposMessage DelayDuration 1000000 fundedWorld (sampleTx .Delegate 20)).2.mem
      (applyDposMessage DelayDuration 1000000 fundedWorld (sampleTx .Delegate 20)).2.statedb 1
        = 20 ∧
    GetDelegateTimestamp
      (applyDposMessage DelayDuration 1000000 fundedWorld (sampleTx .Delegate 20)).2.mem
      (applyDposMessage DelayDuration 1000000 fundedWorld (sampleTx .Delegate 20)).2.statedb 1
        = 1000000 := by
  decide

/-- C23: for a `Redeem` of an account with balance `b`, locked balance `l` and delegate
timestamp `t` applied at time `now`: if `now - t < DelayDuration` (whatever the configured
delay is), `applyDposMessage` returns `false` and the state it leaves is the state it was
given; otherwise it returns `true`, and the account has balance `b + l` and locked balance
`0`. -/
theorem Redeem_spec (delay now : Int) (w : World) (tx : Transaction)
    (ht : tx.txType = .Redeem) :
    (now - GetDelegateTimestamp w.mem w.statedb tx.sender < delay →
      applyDposMessage delay now w tx = (false, w)) ∧
    (¬ now - GetDelegateTimestamp w.mem w.statedb tx.sender < delay →
      (applyDposMessage delay now w tx).1 = true ∧
      GetBalance (applyDposMessage delay now w tx).2.mem
          (applyDposMessage delay now w tx).2.statedb tx.sender =
        GetBalance w.mem w.statedb tx.sender + GetLockedBalance w.mem w.statedb tx.sender ∧
      GetLockedBalance (applyDposMessage delay now w tx).2.mem
          (applyDposMessage delay now w tx).2.statedb tx.sender = 0) := by
  refine ⟨applyDposMessage_Redeem_early delay now w tx ht, fun h => ?_⟩
  have hl := applyDposMessage_Redeem_late delay now w tx ht h
  refine ⟨hl.1, ?_, ?_⟩
  · rw [GetBalance_account, hl.2, GetBalance_account, GetLockedBalance_account]
  · rw [GetLockedBalance_account, hl.2]

/-- C23 at work: the account `1` (balance 100, locked 30, timestamp 0) redeems at time
`1000000`, later than the delay: the message is applied, the balance is 130 and nothing
is locked. -/
theorem Redeem_spec_witness :
    (sampleTx .Redeem 0).txType = .Redeem ∧
      ¬ (1000000 : Int) - GetDelegateTimestamp fundedWorld.mem fundedWorld.statedb 1
          < DelayDuration ∧
      (applyDposMessage DelayDuration 1000000 fundedWorld (sampleTx .Redeem 0)).1 = true ∧
      GetBalance (applyDposMessage DelayDuration 1000000 fundedWorld (sampleTx .Redeem 0)).2.mem
          (applyDposMessage DelayDuration 1000000 fundedWorld (sampleTx .Redeem 0)).2.statedb 1 =
        GetBalance fundedWorld.mem fundedWorld.statedb 1 +
          GetLockedBalance fundedWorld.mem fundedWorld.statedb 1 ∧
      GetLockedBalance
          (applyDposMessage DelayDuration 1000000 fundedWorld (sampleTx .Redeem 0)).2.mem
          (applyDposMessage DelayDuration 1000000 fundedWorld (sampleTx .Redeem 0)).2.statedb 1 =
        0 :=
  ⟨rfl, by decide,
    (Redeem_spec DelayDuration 1000000 fundedWorld (sampleTx .Redeem 0) rfl).2 (by decide)⟩

/-- The state of the sample account after its `Delegate` of 20 at time `1000000`: balance
80, locked balance 20, delegate timestamp `1000000`. -/
theorem delegatedWorld_eval :
    GetBalance delegatedWorld.mem delegatedWorld.statedb 1 = 80 ∧
    GetLockedBalance delegatedWorld.mem delegatedWorld.statedb 1 = 20 ∧
    GetDelegateTimestamp delegatedWorld.mem delegatedWorld.statedb 1 = 1000000 := by
  decide

/-- With `ResetDelegateTimestamp` clearing the timestamp, on every state: an `UnDelegate`
leaves the balance and the locked balance of its sender and clears the delegate
timestamp, so that the `Redeem` of the same sender that follows it at time `now2` is
measured from time zero, however soon after the `UnDelegate` it comes. It is refused
(`false`, state unchanged) exactly when `now2 < DelayDuration`; from `DelayDuration` on it
returns `true` and moves the locked balance to the balance. -/
theorem UnDelegate_then_Redeem (delay now1 now2 : Int) (w : World) (tx1 tx2 : Transaction)
    (h1 : tx1.txType = .UnDelegate) (h2 : tx2.txType = .Redeem)
    (hs : tx2.sender = tx1.sender) :
    GetBalance (applyDposMessage delay now1 w tx1).2.mem
        (applyDposMessage delay now1 w tx1).2.statedb tx1.sender =
      GetBalance w.mem w.statedb tx1.sender ∧
    GetLockedBalance (applyDposMessage delay now1 w tx1).2.mem
        (applyDposMessage delay now1 w tx1).2.statedb tx1.sender =
      GetLockedBalance w.mem w.statedb tx1.sender ∧
    GetDelegateTimestamp (applyDposMessage delay now1 w tx1).2.mem
        (applyDposMessage delay now1 w tx1).2.statedb tx1.sender = 0 ∧
    (now2 < delay →
      applyDposMessage delay now2 (applyDposMessage delay now1 w tx1).2 tx2 =
        (false, (applyDposMessage delay now1 w tx1).2)) ∧
    (delay ≤ now2 →
      (applyDposMessage delay now2 (applyDposMessage delay now1 w tx1).2 tx2).1 = true ∧
      GetBalance (applyDposMessage delay now2 (applyDposMessage delay now1 w tx1).2 tx2).2.mem
          (applyDposMessage delay now2 (applyDposMessage delay now1 w tx1).2 tx2).2.statedb
          tx1.sender =
        GetBalance w.mem w.statedb tx1.sender + GetLockedBalance w.mem w.statedb tx1.sender ∧
      GetLockedBalance
          (applyDposMessage delay now2 (applyDposMessage delay now1 w tx1).2 tx2).2.mem
          (applyDposMessage delay now2 (applyDposMessage delay now1 w tx1).2 tx2).2.statedb
          tx1.sender = 0) := by
  have hu := (applyDposMessage_UnDelegate delay now1 w tx1 h1).2
  have hb : GetBalance (applyDposMessage delay now1 w tx1).2.mem
      (applyDposMessage delay now1 w tx1).2.statedb tx1.sender =
      GetBalance w.mem w.statedb tx1.sender := by
    rw [GetBalance_account, hu, GetBalance_account]
  have hl : GetLockedBalance (applyDposMessage delay now1 w tx1).2.mem
      (applyDposMessage delay now1 w tx1).2.statedb tx1.sender =
      GetLockedBalance w.mem w.statedb tx1.sender := by
    rw [GetLockedBalance_account, hu, GetLockedBalance_account]
  have ht : GetDelegateTimestamp (applyDposMessage delay now1 w tx1).2.mem
      (applyDposMessage delay now1 w tx1).2.statedb tx1.sender = 0 := by
    rw [GetDelegateTimestamp_account, hu]
  refine ⟨hb, hl, ht, fun hlt => ?_, fun hge => ?_⟩
  · apply applyDposMessage_Redeem_early delay now2 _ tx2 h2
    rw [hs, ht]
    omega
  · have hno : ¬ now2 - GetDelegateTimestamp (applyDposMessage delay now1 w tx1).2.mem
        (applyDposMessage delay now1 w tx1).2.statedb tx2.sender < delay := by
      rw [hs, ht]
      omega
    have hr := applyDposMessage_Redeem_late delay now2 _ tx2 h2 hno
    rw [hs] at hr
    refine ⟨hr.1, ?_, ?_⟩
    · rw [GetBalance_account, hr.2, ← GetBalance_account, ← GetLockedBalance_account, hb, hl]
    · rw [GetLockedBalance_account, hr.2]

/-! ## The gas counter and the receipt -/

/-- C24, an input that breaks it: the counter is at `2 ^ 64 - 1` and a `LoginCandidate`
transaction has the intrinsic gas `21000`. `ExecTransaction` reports no error; the
counter and the cumulative gas of the receipt are `20999`, the sum modulo `2 ^ 64`, while
the receipt keeps `21000` as the gas of the transaction. -/
theorem usedGas_wraps :
    (18446744073709551615 + 21000 ≥ 2 ^ 64) ∧
    (ExecTransaction DelayDuration sampleEnv fundedWorld (sampleTx .LoginCandidate 0)
      18446744073709551615).err = none ∧
    (ExecTransaction DelayDuration sampleEnv fundedWorld (sampleTx .LoginCandidate 0)
      18446744073709551615).usedGas = 20999 ∧
    (ExecTransaction DelayDuration sampleEnv fundedWorld (sampleTx .LoginCandidate 0)
      18446744073709551615).usedGas = (18446744073709551615 + 21000) % 2 ^ 64 ∧
    (ExecTransaction DelayDuration sampleEnv fundedWorld (sampleTx .LoginCandidate 0)
      18446744073709551615).receipt.map (fun r => (r.CumulativeGasUsed, r.GasUsed)) =
        some (20999, 21000) := by
  decide

/-- C24 as the code has it: when `ExecTransaction` returns without error, the counter and
the cumulative gas of the receipt are the sum of the counter and the gas of the
transaction modulo `2 ^ 64`, which is the sum itself when that is below `2 ^ 64`; the
only error it returns is the one of the virtual machine, and then there is no receipt and
the counter is left as it was. -/
theorem usedGas_spec (delay : Int) (env : TxEnv) (w : World) (tx : Transaction)
    (usedGas : Nat) :
    ((ExecTransaction delay env w tx usedGas).err = none →
      (ExecTransaction delay env w tx usedGas).usedGas =
        (usedGas + (ExecTransaction delay env w tx usedGas).gas) % 2 ^ 64 ∧
      (ExecTransaction delay env w tx usedGas).receipt.map (fun r => r.CumulativeGasUsed) =
        some ((usedGas + (ExecTransaction delay env w tx usedGas).gas) % 2 ^ 64) ∧
      (ExecTransaction delay env w tx usedGas).receipt.map (fun r => r.GasUsed) =
        some (ExecTransaction delay env w tx usedGas).gas ∧
      (usedGas + (ExecTransaction delay env w tx usedGas).gas < 2 ^ 64 →
        (ExecTransaction delay env w tx usedGas).usedGas =
          usedGas + (ExecTransaction delay env w tx usedGas).gas)) ∧
    ((ExecTransaction delay env w tx usedGas).err ≠ none →
      tx.txType = .Binary ∧
      (ExecTransaction delay env w tx usedGas).err = (env.ExecStateTransition w).1.2.2 ∧
      (ExecTransaction delay env w tx usedGas).receipt = none ∧
      (ExecTransaction delay env w tx usedGas).usedGas = usedGas) := by
  unfold ExecTransaction
  by_cases hb : tx.txType = .Binary
  · simp only [hb, if_true]
    cases he : (env.ExecStateTransition w).1.2.2 with
    | some err => simp
    | none =>
      simp only [Option.map_some', ne_eq, not_true_eq_false, false_implies, and_true,
        true_implies, true_and]
      exact fun h => Nat.mod_eq_of_lt h
  · simp only [if_neg hb, Option.map_some', ne_eq, not_true_eq_false, false_implies, and_true,
      true_implies, true_and]
    exact fun h => Nat.mod_eq_of_lt h

/-- C24 as the code has it, at work: from the counter `100`, the sample `Delegate` (no
error) brings the counter to `21100`. -/
theorem usedGas_spec_witness :
    (ExecTransaction DelayDuration sampleEnv fundedWorld (sampleTx .Delegate 20) 100).err
        = none ∧
      100 + (ExecTransaction DelayDuration sampleEnv fundedWorld (sampleTx .Delegate 20) 100).gas
        < 2 ^ 64 ∧
      (ExecTransaction DelayDuration sampleEnv fundedWorld (sampleTx .Delegate 20) 100).usedGas =
        100 + (ExecTransaction DelayDuration sampleEnv fundedWorld (sampleTx .Delegate 20)
          100).gas ∧
      (ExecTransaction DelayDuration sampleEnv fundedWorld (sampleTx .Delegate 20) 100).usedGas =
        21100 :=
  ⟨rfl, by decide,
    ((usedGas_spec DelayDuration sampleEnv fundedWorld (sampleTx .Delegate 20) 100).1 rfl).2.2.2
      (by decide), by decide⟩

/-- The receipt of a DPoS transaction carries as `failed` what `applyDposMessage`
returned, which is `true` when the message was applied. -/
theorem ExecTransaction_failed (delay : Int) (env : TxEnv) (w : World) (tx : Transaction)
    (usedGas : Nat) (ht : tx.txType ≠ .Binary) :
    (ExecTransaction delay env w tx usedGas).receipt.map (fun r => r.Failed) =
        some (applyDposMessage delay env.now w tx).1 ∧
      (ExecTransaction delay env w tx usedGas).world = (applyDposMessage delay env.now w tx).2 := by
  unfold ExecTransaction
  simp [if_neg ht]

/-- C26, at inputs that break it. The sample `Delegate` at time `1000000` is applied
(`applyDposMessage` returns `true`, 20 are locked afterwards) and its receipt has
`failed = true`. The `Redeem` of the same account at time `1000`, before the delay has
passed, is not applied (`applyDposMessage` returns `false`, the balances stay 100 and
30) and its receipt has `failed = false`. -/
theorem receipt_failed_inverted :
    (applyDposMessage DelayDuration sampleEnv.now fundedWorld (sampleTx .Delegate 20)).1 = true ∧
    GetLockedBalance
      (ExecTransaction DelayDuration sampleEnv fundedWorld (sampleTx .Delegate 20) 0).world.mem
      (ExecTransaction DelayDuration sampleEnv fundedWorld (sampleTx .Delegate 20)
        0).world.statedb 1 = 20 ∧
    (ExecTransaction DelayDuration sampleEnv fundedWorld (sampleTx .Delegate 20)
      0).receipt.map (fun r => r.Failed) = some true ∧
    (applyDposMessage DelayDuration earlyEnv.now fundedWorld (sampleTx .Redeem 0)).1 = false ∧
    GetBalance
      (ExecTransaction DelayDuration earlyEnv fundedWorld (sampleTx .Redeem 0) 0).world.mem
      (ExecTransaction DelayDuration earlyEnv fundedWorld (sampleTx .Redeem 0)
        0).world.statedb 1 = 100 ∧
    GetLockedBalance
      (ExecTransaction DelayDuration earlyEnv fundedWorld (sampleTx .Redeem 0) 0).world.mem
      (ExecTransaction DelayDuration earlyEnv fundedWorld (sampleTx .Redeem 0)
        0).world.statedb 1 = 30 ∧
    (ExecTransaction DelayDuration earlyEnv fundedWorld (sampleTx .Redeem 0)
      0).receipt.map (fun r => r.Failed) = some false := by
  decide

/-! ## Balances that stay non-negative -/

/-- A setter that gives its account non-negative balances keeps all balances
non-negative, and the database well formed. -/
theorem setField_nonneg (mem : Memory) (s : StateDB) (addr : Address)
    (entry : stateObject → journalEntry) (f : stateObject → stateObject)
    (hwf : WellFormed mem s)
    (hn : ∀ a, 0 ≤ (account mem s a).balance ∧ 0 ≤ (account mem s a).lockedBalance)
    (hf : 0 ≤ (f (account mem s addr)).balance ∧ 0 ≤ (f (account mem s addr)).lockedBalance) :
    WellFormed (setField mem s addr entry f).1 (setField mem s addr entry f).2 ∧
      ∀ a, 0 ≤ (account (setField mem s addr entry f).1 (setField mem s addr entry f).2 a).balance ∧
        0 ≤ (account (setField mem s addr entry f).1
          (setField mem s addr entry f).2 a).lockedBalance := by
  obtain ⟨h1, h2⟩ := setField_account mem s addr entry f hwf
  refine ⟨h1, fun a => ?_⟩
  rw [h2 a]
  by_cases ha : a = addr
  · rw [if_pos ha]
    exact hf
  · rw [if_neg ha]
    exact hn a

theorem NonNeg_iff (w : World) :
    NonNeg w ↔ ∀ a, 0 ≤ (account w.mem w.statedb a).balance ∧
      0 ≤ (account w.mem w.statedb a).lockedBalance := by
  unfold NonNeg
  simp only [GetBalance_account, GetLockedBalance_account]

/-- A DPoS message keeps the database well formed and, unless it is a `Delegate` of a
negative value or of more than the balance of its sender, the balances non-negative. -/
theorem applyDposMessage_nonneg (delay now : Int) (w : World) (tx : Transaction)
    (hwf : WellFormed w.mem w.statedb) (hn : NonNeg w)
    (hd : tx.txType = .Delegate →
      0 ≤ tx.value ∧ tx.value ≤ GetBalance w.mem w.statedb tx.sender) :
    WellFormed (applyDposMessage delay now w tx).2.mem (applyDposMessage delay now w tx).2.statedb ∧
      NonNeg (applyDposMessage delay now w tx).2 := by
  rw [NonNeg_iff] at hn ⊢
  cases ht : tx.txType with
  | Binary => simp only [applyDposMessage, ht]; exact ⟨hwf, hn⟩
  | LoginCandidate => simp only [applyDposMessage, ht]; exact ⟨hwf, hn⟩
  | LogoutCandidate => simp only [applyDposMessage, ht]; exact ⟨hwf, hn⟩
  | Delegate =>
    obtain ⟨hv0, hvb⟩ := hd ht
    rw [GetBalance_account] at hvb
    simp only [applyDposMessage, ht, SetDelegateTimestamp, SubBalance, SetLockedBalance]
    have h1 := setField_nonneg w.mem w.statedb tx.sender
      (fun o => .delegateTimestamp tx.sender o.delegateTimestamp)
      (fun o => { o with delegateTimestamp := now }) hwf hn (hn tx.sender)
    have h2 := setField_nonneg _ _ tx.sender (fun o => .balance tx.sender o.balance)
      (fun o => { o with balance := o.balance - tx.value }) h1.1 h1.2
      ⟨by rw [setField_account_self]; show 0 ≤ (account w.mem w.statedb tx.sender).balance - tx.value
          omega, (h1.2 tx.sender).2⟩
    exact setField_nonneg _ _ tx.sender (fun o => .lockedBalance tx.sender o.lockedBalance)
      (fun o => { o with lockedBalance := tx.value }) h2.1 h2.2 ⟨(h2.2 tx.sender).1, hv0⟩
  | UnDelegate =>
    simp only [applyDposMessage, ht, ResetDelegateTimestamp, addAction]
    exact setField_nonneg w.mem w.statedb tx.sender
      (fun o => .delegateTimestamp tx.sender o.delegateTimestamp)
      (fun o => { o with delegateTimestamp := 0 }) hwf hn (hn tx.sender)
  | Redeem =>
    simp only [applyDposMessage, ht]
    split
    · exact ⟨hwf, hn⟩
    · simp only [AddBalance, UnLockBalance]
      have hl : 0 ≤ GetLockedBalance w.mem w.statedb tx.sender := by
        rw [GetLockedBalance_account]
        exact (hn tx.sender).2
      have h1 := setField_nonneg w.mem w.statedb tx.sender
        (fun o => .balance tx.sender o.balance)
        (fun o => { o with balance := o.balance + GetLockedBalance w.mem w.statedb tx.sender })
        hwf hn ⟨Int.add_nonneg (hn tx.sender).1 hl, (hn tx.sender).2⟩
      exact setField_nonneg _ _ tx.sender (fun o => .lockedBalance tx.sender o.lockedBalance)
        (fun o => { o with lockedBalance := 0 }) h1.1 h1.2 ⟨(h1.2 tx.sender).1, le_refl _⟩

/-- The actions keep the database well formed and the balances non-negative. -/
theorem ExecActions_nonneg (actions : List Action) :
    ∀ w : World, WellFormed w.mem w.statedb → NonNeg w →
      WellFormed (ExecActions w actions).mem (ExecActions w actions).statedb ∧
        NonNeg (ExecActions w actions) := by
  induction actions with
  | nil => exact fun w hwf hn => ⟨hwf, hn⟩
  | cons a actions ih =>
    intro w hwf hn
    rw [NonNeg_iff] at hn
    have hl : 0 ≤ GetLockedBalance w.mem w.statedb a.Sender := by
      rw [GetLockedBalance_account]
      exact (hn a.Sender).2
    have h1 := setField_nonneg w.mem w.statedb a.Sender
      (fun o => .balance a.Sender o.balance)
      (fun o => { o with balance := o.balance + GetLockedBalance w.mem w.statedb a.Sender })
      hwf hn ⟨Int.add_nonneg (hn a.Sender).1 hl, (hn a.Sender).2⟩
    have h2 := setField_nonneg _ _ a.Sender (fun o => .lockedBalance a.Sender o.lockedBalance)
      (fun o => { o with lockedBalance := 0 }) h1.1 h1.2 ⟨(h1.2 a.Sender).1, le_refl _⟩
    have h3 := ih { w with
      mem := (SetLockedBalance (AddBalance w.mem w.statedb a.Sender
        (GetLockedBalance w.mem w.statedb a.Sender)).1 (AddBalance w.mem w.statedb a.Sender
        (GetLockedBalance w.mem w.statedb a.Sender)).2 a.Sender 0).1
      statedb := (SetLockedBalance (AddBalance w.mem w.statedb a.Sender
        (GetLockedBalance w.mem w.statedb a.Sender)).1 (AddBalance w.mem w.statedb a.Sender
        (GetLockedBalance w.mem w.statedb a.Sender)).2 a.Sender 0).2 }
      h2.1 ((NonNeg_iff _).2 h2.2)
    exact h3

/-- Apart from the overdraft: from a well-formed database (no two addresses share an
object, as in every database built by its methods) in which no balance and no locked
balance is negative, every list of actions, and every DPoS transaction other than a
`Delegate` of a negative value or of more than the balance of its sender, leaves a
well-formed database in which no balance and no locked balance is negative. -/
theorem balances_nonneg (w : World) (hwf : WellFormed w.mem w.statedb) (hn : NonNeg w) :
    (∀ (delay now : Int) (tx : Transaction),
      (tx.txType = .Delegate →
        0 ≤ tx.value ∧ tx.value ≤ GetBalance w.mem w.statedb tx.sender) →
      WellFormed (applyDposMessage delay now w tx).2.mem
          (applyDposMessage delay now w tx).2.statedb ∧
        NonNeg (applyDposMessage delay now w tx).2) ∧
    (∀ actions : List Action,
      WellFormed (ExecActions w actions).mem (ExecActions w actions).statedb ∧
        NonNeg (ExecActions w actions)) :=
  ⟨fun delay now tx hd => applyDposMessage_nonneg delay now w tx hwf hn hd,
    fun actions => ExecActions_nonneg actions w hwf hn⟩

end executor
